import Mathlib

/-!
# PokerGame: hand evaluation

A shallow embedding of the hand-evaluation engine of the PokerGame repository
(`Card`, `Hand`, `PokerHand`) together with the properties established about it.

Conventions of the embedding

* A `std::vector<std::shared_ptr<Card>>` is a `List Card`.
* `long long` quantities that are built with shifts and bitwise-or are carried as
  their 64-bit two's-complement bit pattern (a `Nat` reduced modulo `2^64`) and
  read back as a signed number by `toInt64`.
* A `std::string` is a `List Char`, one element per `char`.
* A constructor that can throw (`std::string::at`) returns an `Option`.
-/

namespace PokerGame

/-! ## Card (`src/game/resources/Card.h`, `Card.cpp`) -/

/-- Face orientation of a card, `Card::ORIENTATION`. -/
inductive Orientation
  | FACE_DOWN
  | FACE_UP
  deriving DecidableEq, Repr

/-- A playing card: the private fields `rank`, `suit` and the protected field
`orientation` of class `Card`. -/
structure Card where
  rank : Char
  suit : Char
  orientation : Orientation
  deriving DecidableEq, Repr

namespace Card

/-- The static table `Card::ranks`. -/
def ranks : List Char :=
  ['2', '3', '4', '5', '6', '7', '8', '9', 'T', 'J', 'Q', 'K', 'A']

/-- The static table `Card::suits`. -/
def suits : List Char := ['C', 'D', 'H', 'S']

/-- The constructor `Card::Card(string token)`: `rank = token.at(0)`,
`suit = token.at(1)`. `std::string::at` throws `std::out_of_range` on a token
shorter than two characters, which is the `none` result. Characters after the
second are ignored. The constructor leaves `orientation` unset; this
embedding, used where the orientation plays no part, takes `FACE_DOWN`. The
value that the member really holds is kept by `StoredCard.ofToken`. -/
def ofToken : List Char → Option Card
  | r :: s :: _ => some ⟨r, s, Orientation.FACE_DOWN⟩
  | _ => none

/-- The method `Card::isValid`: both characters are found in their tables. -/
def isValid (c : Card) : Bool :=
  decide (c.rank ∈ ranks) && decide (c.suit ∈ suits)

/-- The value of a rank character: its position in `ranks` plus two, or `-1`
when it is not in the table (the body of `Card::getValue`). -/
def rankValue (rank : Char) : Int :=
  if ranks.indexOf rank < ranks.length then (ranks.indexOf rank : Int) + 2 else -1

/-- The method `Card::getValue`. -/
def getValue (c : Card) : Int := rankValue c.rank

/-- The (rank, suit) pair that identifies a card face. -/
def face (c : Card) : Char × Char := (c.rank, c.suit)

end Card

/-! ## 64-bit arithmetic helpers -/

/-- The operator `x << n` on a 64-bit pattern: the product modulo `2^64`
(C++20 semantics). A shift count outside `[0, 64)` is undefined behaviour in the
source; the embedding returns `0` there. -/
def shl64 (x : Nat) (n : Int) : Nat :=
  if 0 ≤ n ∧ n < 64 then (x <<< n.toNat) % 2 ^ 64 else 0

/-- Signed reading of a 64-bit pattern (`long long`). -/
def toInt64 (p : Nat) : Int :=
  if p % 2 ^ 64 < 2 ^ 63 then ((p % 2 ^ 64 : Nat) : Int) else ((p % 2 ^ 64 : Nat) : Int) - 2 ^ 64

/-! ## Hand and PokerHand (`Hand.h`, `Hand.cpp`, `PokerHand.h`, `PokerHand.cpp`) -/

/-- The enumeration `Hand::Comparison`. -/
inductive Comparison
  | INVALID_COMPARISON
  | EQUAL_HAND
  | WINNER_SELF
  | WINNER_OTHER
  deriving DecidableEq, Repr

/-- The enumeration `PokerHand::Category`. -/
inductive Category
  | HIGH_CARD
  | ONE_PAIR
  | TWO_PAIR
  | THREE_OF_A_KIND
  | STRAIGHT
  | FLUSH
  | FULL_HOUSE
  | FOUR_OF_A_KIND
  | STRAIGHT_FLUSH
  | INVALID_HAND
  deriving DecidableEq, Repr

/-- Numeric value of a `PokerHand::Category` enumerator. -/
def Category.toNat : Category → Nat
  | Category.HIGH_CARD => 0
  | Category.ONE_PAIR => 1
  | Category.TWO_PAIR => 2
  | Category.THREE_OF_A_KIND => 3
  | Category.STRAIGHT => 4
  | Category.FLUSH => 5
  | Category.FULL_HOUSE => 6
  | Category.FOUR_OF_A_KIND => 7
  | Category.STRAIGHT_FLUSH => 8
  | Category.INVALID_HAND => 9

/-- The constant `PokerHand::HBWIDTH`. -/
def HBWIDTH : Int := 52

/-- The constant `PokerHand::VALID_COUNT`. -/
def VALID_COUNT : Nat := 5

/-- The record `PokerHand::Detail`. -/
structure Detail where
  category : Category
  score : Int
  deriving DecidableEq, Repr

/-- The state of a `PokerHand` object: `CardCollection::cards`, `Hand::valid`
and `PokerHand::detail`. -/
structure PokerHand where
  cards : List Card
  valid : Bool
  detail : Detail
  deriving DecidableEq, Repr

/-- One `m[key]++` on a `std::map<int,int>`, kept as a list of (key, count)
pairs in increasing key order. -/
def bump (v : Int) : List (Int × Nat) → List (Int × Nat)
  | [] => [(v, 1)]
  | (k, n) :: rest =>
    if v < k then (v, 1) :: (k, n) :: rest
    else if v = k then (k, n + 1) :: rest
    else (k, n) :: bump v rest

/-- The loop `for (card : cards) ranks[card->getValue()]++`. -/
def countRanks (vals : List Int) : List (Int × Nat) :=
  vals.foldl (fun m v => bump v m) []

/-- Lookup `m[key]` in the map built by `countRanks` (zero when absent). -/
def rcount (m : List (Int × Nat)) (v : Int) : Nat :=
  match m.find? (fun it => it.1 == v) with
  | some it => it.2
  | none => 0

namespace PokerHand

/-- The method `PokerHand::validate`: exactly `VALID_COUNT` cards, each of them
valid. -/
def validate (cards : List Card) : Bool :=
  if cards.length ≠ VALID_COUNT then false else cards.all Card.isValid

/-- The call `std::sort(cards.begin(), cards.end(), Hand::sort)`, where
`Hand::sort(a, b)` is `a->getValue() < b->getValue()`: the cards in
non-decreasing value order. (The relative order of cards of equal value is
unspecified for `std::sort`; nothing below depends on it.) -/
def sortCards (cards : List Card) : List Card :=
  cards.insertionSort (fun a b => a.getValue ≤ b.getValue)

/-- The method `PokerHand::isFlush`: every suit equals the suit of the first
card. (`cards.front()` on an empty hand is not reached: `compute` asks only for
valid hands.) -/
def isFlush : List Card → Bool
  | [] => true
  | c :: rest => (c :: rest).all (fun x => x.suit == c.suit)

/-- The loop of `PokerHand::isStraight` from index `i`, on the values of
`cards[i-1], cards[i], ...`. -/
def isStraightFrom : Nat → List Int → Bool
  | i, b :: a :: rest =>
    if (a ≠ b + 1) && !(i == 4 && a == 14 && b == 5) then false
    else isStraightFrom (i + 1) (a :: rest)
  | _, _ => true

/-- The method `PokerHand::isStraight`. -/
def isStraight (cards : List Card) : Bool :=
  isStraightFrom 1 (cards.map Card.getValue)

/-- The method `PokerHand::getCardinality(inverse)`: the number of distinct
values, or with `inverse` the largest number of cards of one value. -/
def getCardinality (cards : List Card) (inverse : Bool) : Nat :=
  (countRanks (cards.map Card.getValue)).foldl
    (fun cardinality it =>
      if inverse then max cardinality it.2
      else if it.2 > 0 then cardinality + 1 else cardinality) 0

/-- The method `PokerHand::isThreeOfAKind`. -/
def isThreeOfAKind (cards : List Card) : Bool :=
  getCardinality cards false == 3 && getCardinality cards true == 3

/-- The method `PokerHand::isFourOfAKind`. -/
def isFourOfAKind (cards : List Card) : Bool :=
  getCardinality cards false == 2 && getCardinality cards true == 4

/-- The method `PokerHand::isFullHouse`. -/
def isFullHouse (cards : List Card) : Bool :=
  getCardinality cards false == 2 && getCardinality cards true == 3

/-- The method `PokerHand::isTwoPair`. -/
def isTwoPair (cards : List Card) : Bool :=
  getCardinality cards false == 3 && getCardinality cards true == 2

/-- The method `PokerHand::isOnePair`. -/
def isOnePair (cards : List Card) : Bool :=
  getCardinality cards false == 4 && getCardinality cards true == 2

/-- One iteration of the second loop of `PokerHand::getOrdinality` for a card
of value `rank`; the state is the pair (`ordinality`, `j`). -/
def ordinalityStep (rcnts : List (Int × Nat)) (startIdx : Int)
    (st : Nat × Int) (rank : Int) : Nat × Int :=
  let rank_shift : Int := rank - 2
  let count_shift : Int := ((rcount rcnts rank : Int) - 2) * 13
  let count_base : Int := rank - 2
  let rank_range : Int := 13
  let ordinality :=
    if (VALID_COUNT : Int) - startIdx ≥ st.2 then
      let o := st.1 ||| shl64 1 rank_shift
      if rcount rcnts rank > 1 then
        o ||| shl64 (shl64 (shl64 1 count_base) count_shift) rank_range
      else o
    else st.1
  (ordinality, st.2 - 1)

/-- The method `PokerHand::getOrdinality(startIdx)`, as a 64-bit pattern. -/
def getOrdinality (cards : List Card) (startIdx : Int) : Nat :=
  let vals := cards.map Card.getValue
  (vals.foldl (ordinalityStep (countRanks vals) startIdx) (0, (VALID_COUNT : Int))).1

/-- The classification chain of `PokerHand::compute` (the `if`/`else if`
cascade that sets `detail.category` for a valid hand). -/
def classify (cards : List Card) : Category :=
  if isFlush cards && isStraight cards then Category.STRAIGHT_FLUSH
  else if isFourOfAKind cards then Category.FOUR_OF_A_KIND
  else if isFullHouse cards then Category.FULL_HOUSE
  else if isFlush cards then Category.FLUSH
  else if isStraight cards then Category.STRAIGHT
  else if isThreeOfAKind cards then Category.THREE_OF_A_KIND
  else if isTwoPair cards then Category.TWO_PAIR
  else if isOnePair cards then Category.ONE_PAIR
  else Category.HIGH_CARD

/-- The value of `categoryBase` computed by `PokerHand::compute` for a valid
hand of category `cat`: the category number, plus one from `STRAIGHT` on, plus
one more from `STRAIGHT_FLUSH` on, minus one for a straight or straight flush
whose first card is a 2 and whose fifth card is an ace. -/
def categoryBase (cards : List Card) (cat : Category) : Int :=
  let base0 : Int := (cat.toNat : Int)
  let base1 : Int :=
    if cat.toNat ≥ Category.STRAIGHT.toNat then
      (if cat.toNat ≥ Category.STRAIGHT_FLUSH.toNat then base0 + 1 + 1 else base0 + 1)
    else base0
  if cat = Category.STRAIGHT ∨ cat = Category.STRAIGHT_FLUSH then
    if (cards.map Card.getValue)[0]? = some 2 ∧ (cards.map Card.getValue)[4]? = some 14 then
      base1 - 1
    else base1
  else base1

/-- The method `PokerHand::compute`: category and score of the (already
sorted) cards. The ordinality is evaluated first, as in the source, and is
discarded for an invalid hand. -/
def compute (valid : Bool) (cards : List Card) : Detail :=
  let categoryShift : Int := HBWIDTH
  let ordinality := getOrdinality cards 0
  if valid then
    let category := classify cards
    let base := categoryBase cards category
    { category := category
      score := toInt64 (ordinality ||| shl64 (base.toNat % 2 ^ 64) categoryShift) }
  else
    { category := Category.INVALID_HAND, score := 0 }

/-- The method `PokerHand::process`: validate, sort, compute. -/
def process (h : PokerHand) : PokerHand :=
  let valid := validate h.cards
  let cards := sortCards h.cards
  { cards := cards, valid := valid, detail := compute valid cards }

/-- The default constructor `PokerHand::PokerHand()`. -/
def empty : PokerHand :=
  { cards := [], valid := false, detail := ⟨Category.INVALID_HAND, 0⟩ }

/-- The constructor `PokerHand::PokerHand(vector<CardPtr> &cards)`. -/
def ofCards (cards : List Card) : PokerHand :=
  process { cards := cards, valid := false, detail := ⟨Category.INVALID_HAND, 0⟩ }

/-- The class `\s` of the regular expression in `PokerHand::parse`: the six
ASCII white-space characters. -/
def isSpace (c : Char) : Bool :=
  c == ' ' || c == '\t' || c == '\n' || c == '\x0b' || c == '\x0c' || c == '\r'

/-- The loop `sregex_token_iterator(begin, end, regex("\\s+"), -1)`: the pieces of
the text between maximal runs of white space. `cur` is the piece being read,
`inRun` tells that the previous character was white space and `seen` that some
white space was met. The piece before a run is always produced (it is empty only
when the text starts with white space); the piece after the last run is
produced when it is non-empty; a text without white space is produced whole,
even when empty. -/
def tokensFrom (cur : List Char) (inRun seen : Bool) : List Char → List (List Char)
  | [] => if seen && cur.isEmpty then [] else [cur]
  | c :: rest =>
    if isSpace c then
      if inRun then tokensFrom [] true true rest
      else cur :: tokensFrom [] true true rest
    else tokensFrom (cur ++ [c]) false seen rest

/-- The token sequence of a hand text. -/
def tokenize (text : List Char) : List (List Char) :=
  tokensFrom [] false false text

/-- The loop `for (string token : tokens) cards_.push_back(make_shared<Card>(token))`;
`none` when a `Card` constructor throws. -/
def cardsOfTokens : List (List Char) → Option (List Card)
  | [] => some []
  | t :: ts =>
    match Card.ofToken t, cardsOfTokens ts with
    | some c, some cs => some (c :: cs)
    | _, _ => none

/-- The method `PokerHand::parse`: the tokens are inserted into an
`unordered_set<string>`, which keeps one copy of each distinct token, and one
card is made per element of the set. (The iteration order of the set is
unspecified; the hand is sorted by `process` afterwards.) -/
def parse (text : List Char) : Option (List Card) :=
  cardsOfTokens (tokenize text).dedup

/-- The constructor `PokerHand::PokerHand(string)`; `none` when `parse`
throws. -/
def ofNotation (text : List Char) : Option PokerHand :=
  (parse text).map fun cards =>
    process { cards := cards, valid := false, detail := ⟨Category.INVALID_HAND, 0⟩ }

/-- The method `PokerHand::isValid`. -/
def isValid (h : PokerHand) : Bool := h.valid

/-- The method `PokerHand::getScore`. -/
def getScore (h : PokerHand) : Int := h.detail.score

/-- The method `PokerHand::getCategory`. -/
def getCategory (h : PokerHand) : Category := h.detail.category

/-- The method `PokerHand::compare`. -/
def compare (self other : PokerHand) : Comparison :=
  if self.isValid && other.isValid then
    if self.getScore > other.getScore then Comparison.WINNER_SELF
    else if self.getScore < other.getScore then Comparison.WINNER_OTHER
    else Comparison.EQUAL_HAND
  else Comparison.INVALID_COMPARISON

end PokerHand

/-! ## Value-level view of the evaluation

`compute` reads the cards only through `getValue` and through `isFlush`. The
definitions below restate the cascade on the list of values and the flush flag;
`compute_eq_detailV` shows they are the same function. -/

/-- Cardinality of a list of values (see `PokerHand.getCardinality`). -/
def cardinalityV (vals : List Int) (inverse : Bool) : Nat :=
  (countRanks vals).foldl
    (fun cardinality it =>
      if inverse then max cardinality it.2
      else if it.2 > 0 then cardinality + 1 else cardinality) 0

/-- Ordinality of a list of values (see `PokerHand.getOrdinality`). -/
def ordinalityV (vals : List Int) : Nat :=
  (vals.foldl (PokerHand.ordinalityStep (countRanks vals) 0) (0, (VALID_COUNT : Int))).1

/-- The classification cascade on values and flush flag (see
`PokerHand.classify`). -/
def classifyV (fl : Bool) (vals : List Int) : Category :=
  if fl && PokerHand.isStraightFrom 1 vals then Category.STRAIGHT_FLUSH
  else if cardinalityV vals false == 2 && cardinalityV vals true == 4 then
    Category.FOUR_OF_A_KIND
  else if cardinalityV vals false == 2 && cardinalityV vals true == 3 then
    Category.FULL_HOUSE
  else if fl then Category.FLUSH
  else if PokerHand.isStraightFrom 1 vals then Category.STRAIGHT
  else if cardinalityV vals false == 3 && cardinalityV vals true == 3 then
    Category.THREE_OF_A_KIND
  else if cardinalityV vals false == 3 && cardinalityV vals true == 2 then
    Category.TWO_PAIR
  else if cardinalityV vals false == 4 && cardinalityV vals true == 2 then
    Category.ONE_PAIR
  else Category.HIGH_CARD

/-- The category base on values (see `PokerHand.categoryBase`). -/
def categoryBaseV (vals : List Int) (cat : Category) : Int :=
  let base0 : Int := (cat.toNat : Int)
  let base1 : Int :=
    if cat.toNat ≥ Category.STRAIGHT.toNat then
      (if cat.toNat ≥ Category.STRAIGHT_FLUSH.toNat then base0 + 1 + 1 else base0 + 1)
    else base0
  if cat = Category.STRAIGHT ∨ cat = Category.STRAIGHT_FLUSH then
    if vals[0]? = some 2 ∧ vals[4]? = some 14 then base1 - 1 else base1
  else base1

/-- Category and score of a valid hand from its sorted values and flush flag
(see `PokerHand.compute`). -/
def detailV (fl : Bool) (vals : List Int) : Detail :=
  { category := classifyV fl vals
    score := toInt64 (ordinalityV vals |||
      shl64 ((categoryBaseV vals (classifyV fl vals)).toNat % 2 ^ 64) HBWIDTH) }

/-! ## Sample cards and hands -/

/-- A card from its rank and suit characters. -/
def card (r s : Char) : Card := ⟨r, s, Orientation.FACE_DOWN⟩

/-- The wheel straight `AS 2D 3H 4C 5H`. -/
def wheelCards : List Card :=
  [card 'A' 'S', card '2' 'D', card '3' 'H', card '4' 'C', card '5' 'H']

/-- The six-high straight `2D 3H 4S 5C 6H`. -/
def sixHighCards : List Card :=
  [card '2' 'D', card '3' 'H', card '4' 'S', card '5' 'C', card '6' 'H']

/-- The lowest full house `2D 2H 2S 3C 3H`. -/
def lowFullHouseCards : List Card :=
  [card '2' 'D', card '2' 'H', card '2' 'S', card '3' 'C', card '3' 'H']

/-- The lowest four of a kind `2D 2H 2S 2C 3H`. -/
def lowQuadsCards : List Card :=
  [card '2' 'D', card '2' 'H', card '2' 'S', card '2' 'C', card '3' 'H']

/-- The highest full house `AH AS AC KD KS`. -/
def highFullHouseCards : List Card :=
  [card 'A' 'H', card 'A' 'S', card 'A' 'C', card 'K' 'D', card 'K' 'S']

/-- Five cards with the face `2D` twice: `2D 2D AS 7C KD`. -/
def duplicateCards : List Card :=
  [card '2' 'D', card '2' 'D', card 'A' 'S', card '7' 'C', card 'K' 'D']

/-- The high-card hand `2D 4C 7D 9S JS`. -/
def highCardCardsA : List Card :=
  [card '2' 'D', card '4' 'C', card '7' 'D', card '9' 'S', card 'J' 'S']

/-- The high-card hand `2D 4H 7S 9C JH`, of the same ranks. -/
def highCardCardsB : List Card :=
  [card '2' 'D', card '4' 'H', card '7' 'S', card '9' 'C', card 'J' 'H']

/-- The lowest two pair `2D 2H 3S 3C 4H`, given out of order. -/
def twoPairCards : List Card :=
  [card '3' 'S', card '2' 'D', card '4' 'H', card '3' 'C', card '2' 'H']

/-- The pair of fives with kickers K, 9, 2: `5H 5S KD 9C 2D`. -/
def pairFivesKingCards : List Card :=
  [card '5' 'H', card '5' 'S', card 'K' 'D', card '9' 'C', card '2' 'D']

/-- The pair of fives with kickers Q, J, T: `5D 5C QD JC TD`. -/
def pairFivesQueenCards : List Card :=
  [card '5' 'D', card '5' 'C', card 'Q' 'D', card 'J' 'C', card 'T' 'D']

/-! ## Notions of the specification

The hypotheses and the reference descriptions the theorems compare the code
with: distinct cards, the standard category, the tabulated category base and the
standard tie-break list. -/

/-- The hypothesis shared by the hand theorems: five valid cards with
pairwise distinct faces. -/
def Distinct5 (cs : List Card) : Prop :=
  cs.length = 5 ∧ (∀ c ∈ cs, c.isValid = true) ∧ (cs.map Card.face).Nodup

instance (cs : List Card) : Decidable (Distinct5 cs) := by
  unfold Distinct5; infer_instance

/-- All cards share one suit. -/
def sameSuit (cs : List Card) : Prop := ∀ x ∈ cs, ∀ y ∈ cs, x.suit = y.suit

instance (cs : List Card) : Decidable (sameSuit cs) := by
  unfold sameSuit; infer_instance

/-- Some rank occurs exactly `n` times. -/
def occursTimes (vals : List Int) (n : Nat) : Prop := ∃ r ∈ vals, vals.count r = n

instance (vals : List Int) (n : Nat) : Decidable (occursTimes vals n) := by
  unfold occursTimes; infer_instance

/-- Two different ranks occur twice each. -/
def twoRanksTwice (vals : List Int) : Prop :=
  ∃ r ∈ vals, ∃ s ∈ vals, r ≠ s ∧ vals.count r = 2 ∧ vals.count s = 2

instance (vals : List Int) : Decidable (twoRanksTwice vals) := by
  unfold twoRanksTwice; infer_instance

/-- The five values are consecutive. -/
def consecutive (vals : List Int) : Prop :=
  ∃ lo ∈ vals, vals.Perm [lo, lo + 1, lo + 2, lo + 3, lo + 4]

instance (vals : List Int) : Decidable (consecutive vals) := by
  unfold consecutive; infer_instance

/-- The wheel: the values are exactly A, 2, 3, 4, 5 (the ace counted 14). -/
def isWheel (vals : List Int) : Prop := vals.Perm [14, 2, 3, 4, 5]

instance (vals : List Int) : Decidable (isWheel vals) := by
  unfold isWheel; infer_instance

/-- The category of the standard precedence, read off the cards in any order:
straight flush, four of a kind, full house, flush, straight, three of a kind,
two pair, one pair, high card; the first description that applies wins. -/
def standardCategory (cs : List Card) : Category :=
  if sameSuit cs ∧ (consecutive (cs.map Card.getValue) ∨ isWheel (cs.map Card.getValue)) then
    Category.STRAIGHT_FLUSH
  else if occursTimes (cs.map Card.getValue) 4 then Category.FOUR_OF_A_KIND
  else if occursTimes (cs.map Card.getValue) 3 ∧ occursTimes (cs.map Card.getValue) 2 then
    Category.FULL_HOUSE
  else if sameSuit cs then Category.FLUSH
  else if consecutive (cs.map Card.getValue) ∨ isWheel (cs.map Card.getValue) then
    Category.STRAIGHT
  else if occursTimes (cs.map Card.getValue) 3 then Category.THREE_OF_A_KIND
  else if twoRanksTwice (cs.map Card.getValue) then Category.TWO_PAIR
  else if occursTimes (cs.map Card.getValue) 2 then Category.ONE_PAIR
  else Category.HIGH_CARD

/-- The category base as the specification tabulates it: 0, 1, 2, 3 for high
card, one pair, two pair, three of a kind; 5 for a straight (4 for the wheel);
6 for a flush; 7 for a full house; 8 for four of a kind; 10 for a straight
flush (9 for the wheel straight flush). -/
def specCategoryBase (cat : Category) (wheel : Bool) : Nat :=
  match cat with
  | Category.HIGH_CARD => 0
  | Category.ONE_PAIR => 1
  | Category.TWO_PAIR => 2
  | Category.THREE_OF_A_KIND => 3
  | Category.STRAIGHT => if wheel then 4 else 5
  | Category.FLUSH => 6
  | Category.FULL_HOUSE => 7
  | Category.FOUR_OF_A_KIND => 8
  | Category.STRAIGHT_FLUSH => if wheel then 9 else 10
  | Category.INVALID_HAND => 0

/-- The order of the standard tie-break on the ranks of a hand: `x` comes
before `y` when it occurs more often, or as often and is not lower. -/
def tieOrder (vals : List Int) (x y : Int) : Prop :=
  vals.count y < vals.count x ∨ (vals.count y = vals.count x ∧ y ≤ x)

instance (vals : List Int) : DecidableRel (tieOrder vals) := by
  intro x y; unfold tieOrder; infer_instance

/-- The tie-break list of a hand: its ranks ordered by multiplicity descending
and then by rank descending; the wheel A-2-3-4-5 counts as five-high. -/
def tieBreakList (vals : List Int) : List Int :=
  if isWheel vals then [5, 4, 3, 2, 1] else vals.insertionSort (tieOrder vals)

/-! ## Auxiliary notions of the proofs -/

/-- The sorted values of the cards of a hand, as `process` leaves them. -/
def handValues (cs : List Card) : List Int :=
  (PokerHand.sortCards cs).map Card.getValue

/-- Invariant of the rank map: keys strictly increasing, counts positive. -/
def MapOk (m : List (Int × Nat)) : Prop :=
  (m.map Prod.fst).Sorted (· < ·) ∧ ∀ p ∈ m, 0 < p.2

/-- The value constraints of a hand of five distinct valid cards. -/
def ValsOk (vals : List Int) : Prop :=
  (∀ v ∈ vals, 2 ≤ v ∧ v ≤ 14) ∧ (∀ v ∈ vals, vals.count v ≤ 4)

/-- Bits contributed to the ordinality by one card of value `v` whose value
occurs `c` times. -/
def rankBits (c : Nat) (v : Int) : Nat :=
  shl64 1 (v - 2) |||
    (if c > 1 then shl64 (shl64 (shl64 1 (v - 2)) (((c : Int) - 2) * 13)) 13 else 0)

/-- The numbers of cards per distinct value, in increasing value order. -/
def rankCounts (vals : List Int) : List Nat := (countRanks vals).map Prod.snd

/-- The sixteen ways of writing 5 as an ordered sum of positive numbers. -/
def compositions5 : List (List Nat) :=
  [[5], [1, 4], [2, 3], [3, 2], [4, 1],
   [1, 1, 3], [1, 3, 1], [3, 1, 1], [1, 2, 2], [2, 1, 2], [2, 2, 1],
   [1, 1, 1, 2], [1, 1, 2, 1], [1, 2, 1, 1], [2, 1, 1, 1], [1, 1, 1, 1, 1]]

/-- Bit position that ranks a group of `p.2` cards of value `p.1`: the block
`13 * (count - 1)` plus the rank index `value - 2`. -/
def pos (p : Int × Nat) : Nat := 13 * (p.2 - 1) + (p.1 - 2).toNat

/-- The groups of equal values of a hand, the most significant group first. -/
def sortedGroups (vals : List Int) : List (Int × Nat) :=
  (countRanks vals).insertionSort (fun p q => pos q ≤ pos p)

/-- The bit positions of the groups of a hand, the most significant first. -/
def groupPositions (vals : List Int) : List Nat := (sortedGroups vals).map pos

/-- The values of a list of groups, each value repeated as often as it
occurs. -/
def expandGroups : List (Int × Nat) → List Int
  | [] => []
  | p :: rest => List.replicate p.2 p.1 ++ expandGroups rest

/-- A group that belongs to the hand `vals`. -/
def GroupOf (vals : List Int) (g : Int × Nat) : Prop :=
  g.2 = vals.count g.1 ∧ 1 ≤ g.2 ∧ g.2 ≤ 4 ∧ 2 ≤ g.1 ∧ g.1 ≤ 14

/-- Shape of a group: between one and four cards of a value in `2..14`. -/
def GroupShape (g : Int × Nat) : Prop := 1 ≤ g.2 ∧ g.2 ≤ 4 ∧ 2 ≤ g.1 ∧ g.1 ≤ 14

/-- The multiplicities of the groups of a hand of the given category, the most
significant group first. -/
def patternOf : Category → List Nat
  | Category.FOUR_OF_A_KIND => [4, 1]
  | Category.FULL_HOUSE => [3, 2]
  | Category.THREE_OF_A_KIND => [3, 1, 1]
  | Category.TWO_PAIR => [2, 2, 1]
  | Category.ONE_PAIR => [2, 1, 1, 1]
  | _ => [1, 1, 1, 1, 1]

/-! ## Adding and removing cards (`Hand.cpp`) -/

/-- The method `Hand::add` (`operator+=`): the card is pushed at the back and
the hand is processed again. -/
def PokerHand.add (h : PokerHand) (card : Card) : PokerHand :=
  process { h with cards := h.cards ++ [card] }

/-- The method `Hand::remove` (`operator-=`): `std::remove` erases every
element equal to `card` and the hand is processed again. The elements are
`shared_ptr<Card>` and are compared as pointers; here a card object is
identified with its content, which is exact for a collection of distinct
cards. -/
def PokerHand.remove (h : PokerHand) (card : Card) : PokerHand :=
  process { h with cards := h.cards.filter (fun c => c != card) }

/-- A call of `add` or of `remove` on a hand. -/
inductive HandOp
  | add (card : Card)
  | remove (card : Card)
  deriving DecidableEq, Repr

/-- The effect of one call on a hand. -/
def PokerHand.applyOp (h : PokerHand) : HandOp → PokerHand
  | HandOp.add card => h.add card
  | HandOp.remove card => h.remove card

/-- The effect of a sequence of calls, the first call first. -/
def PokerHand.applyOps (h : PokerHand) (ops : List HandOp) : PokerHand :=
  ops.foldl PokerHand.applyOp h

/-- A sample sequence of calls: seven cards are added and two of them are
removed again, which leaves the five cards of a wheel. -/
def sampleOps : List HandOp :=
  [HandOp.add (card 'K' 'D'), HandOp.add (card '5' 'H'), HandOp.add (card 'A' 'S'),
   HandOp.add (card '2' 'D'), HandOp.add (card '9' 'C'), HandOp.add (card '3' 'H'),
   HandOp.remove (card 'K' 'D'), HandOp.add (card '4' 'C'), HandOp.remove (card '9' 'C')]

/-! ## Positions of the cards of a grouping (`PokerHand.cpp`) -/

/-- The inner loop of `PokerHand::indexByCardinality`,
`for (i = 0; i < cards.size(); ++i) if (cards[i]->getValue() == value) indices.push_back(i)`,
read from the position `i` on. -/
def PokerHand.positionsOf (value : Int) : Nat → List Card → List Nat
  | _, [] => []
  | i, c :: cs =>
    if c.getValue = value then i :: PokerHand.positionsOf value (i + 1) cs
    else PokerHand.positionsOf value (i + 1) cs

/-- The method `PokerHand::indexByCardinality`: the rank map is walked in key
order and, for each value held `cardinality` times, the positions of the cards
of that value are appended. -/
def PokerHand.indexByCardinality (h : PokerHand) (cardinality : Int) : List Nat :=
  (countRanks (h.cards.map Card.getValue)).foldl
    (fun indices it =>
      if (it.2 : Int) = cardinality then indices ++ PokerHand.positionsOf it.1 0 h.cards
      else indices) []

/-- The method `PokerHand::indexByCategory`. -/
def PokerHand.indexByCategory (h : PokerHand) (category : Category) : List Nat :=
  match category with
  | Category.ONE_PAIR => h.indexByCardinality 2
  | Category.TWO_PAIR =>
    let indices := h.indexByCardinality 2
    if indices.length ≠ 4 then [] else indices
  | Category.THREE_OF_A_KIND => h.indexByCardinality 3
  | Category.FOUR_OF_A_KIND => h.indexByCardinality 4
  | Category.STRAIGHT_FLUSH | Category.STRAIGHT | Category.FLUSH | Category.FULL_HOUSE =>
    if h.detail.category = category then List.range h.cards.length else []
  | Category.INVALID_HAND | Category.HIGH_CARD => []

/-- The positions, in increasing order, of the cards whose value is held by
exactly `k` cards of the list. -/
def positionsWithCount (cards : List Card) (k : Int) : List Nat :=
  (List.range cards.length).filter fun i =>
    match cards[i]? with
    | some c => decide ((((cards.map Card.getValue).count c.getValue : Nat) : Int) = k)
    | none => false

/-! ## Deck (`CardCollection.cpp`, `Deck.h`, `Deck.cpp`) -/

/-- The method `Card::flip`. -/
def Card.flip (c : Card) : Card :=
  { c with
    orientation :=
      if c.orientation = Orientation.FACE_UP then Orientation.FACE_DOWN
      else Orientation.FACE_UP }

/-- The method `CardCollection::remove`: `std::remove` erases every element
equal to `card`. The elements are `shared_ptr<Card>` and are compared as
pointers; a card object is identified with its content, which is exact for a
collection of distinct cards. -/
def CardCollection.remove (cards : List Card) (card : Card) : List Card :=
  cards.filter fun c => c != card

/-- The method `Deck::reset`: the former cards are dropped and one card is made
for each suit and each rank, suit by suit. Each token `string(1, rank) + suit`
has two characters, so the `Card` constructor does not throw. The orientation
is the `FACE_DOWN` of `Card.ofToken`; `Deck.resetStored` keeps the value that the
member really holds. -/
def Deck.reset (_cards : List Card) : List Card :=
  Card.suits.flatMap fun suit =>
    Card.ranks.map fun rank => ⟨rank, suit, Orientation.FACE_DOWN⟩

/-- The call `swap(cards[i], cards[j])` for positions inside the vector (other
positions do not occur and leave the list as it is). -/
def Deck.swapAt (cards : List Card) (i j : Nat) : List Card :=
  match cards[i]?, cards[j]? with
  | some a, some b => (cards.set i b).set j a
  | _, _ => cards

/-- The loop `for (size_t i = n; i-- > 0;) swap(cards[i], cards[distribution(engine)])`
of `Deck::shuffle`, entered with `i` positions still to visit; `draws` are the
successive values of `distribution(engine)`. -/
def Deck.shuffleLoop : Nat → List Nat → List Card → List Card
  | i + 1, r :: draws, cards => Deck.shuffleLoop i draws (Deck.swapAt cards i r)
  | _, _, cards => cards

/-- The method `Deck::shuffle`, as a function of the values that the random
distribution over `[0, n - 1]` returns, one per card. -/
def Deck.shuffle (cards : List Card) (draws : List Nat) : List Card :=
  let n := cards.length
  if n = 0 then cards else Deck.shuffleLoop n draws cards

/-- The method `Deck::deal`: the card handed out (none for an empty deck) and
the cards left in the deck. -/
def Deck.deal (cards : List Card) (orientation : Orientation) : Option Card × List Card :=
  match cards.getLast? with
  | none => (none, cards)
  | some card =>
    let dealt := if card.orientation ≠ orientation then card.flip else card
    (some dealt, CardCollection.remove cards card)

/-- All the sequences of `len` values drawn in `[0, n - 1]`. -/
def allDraws (n : Nat) : Nat → List (List Nat)
  | 0 => [[]]
  | len + 1 => (List.range n).flatMap fun r => (allDraws n len).map fun ds => r :: ds

/-- A deck of three cards: `2C 3C 4C`. -/
def threeCards : List Card := [card '2' 'C', card '3' 'C', card '4' 'C']

/-- The number of sequences of draws for which `Deck::shuffle` turns `cards`
into `target`. -/
def shuffleCount (cards target : List Card) : Nat :=
  ((allDraws cards.length cards.length).filter fun ds =>
    decide (Deck.shuffle cards ds = target)).length

/-! ## PokerPlayer (`src/game/player/PokerPlayer.h`, `PokerPlayer.cpp`)
Amounts of money are `double` in the source. In this part and in the phases of
the engine they are taken as exact rational numbers, which is what the `double`
operations compute as long as the operands and the results are whole numbers
of at most `2 ^ 53` in size. The part on double precision further down gives
`PokerPlayer::bet`, `PokerEngine::anteUp` and `AIPokerPlayer::bet` on binary64
values, with rounding, infinities and NaN. -/

/-- The enum `UserType`. -/
inductive UserType
  | HUMAN
  | AI
  deriving DecidableEq, Repr

/-- The enum `PokerPlayer::Status`. -/
inductive Status
  | WAITING
  | ACTIVE
  | ALLIN
  | CALLING
  | RAISING
  | DRAWING
  | FOLDED
  deriving DecidableEq, Repr

/-- The data members of `PokerPlayer` (the pointer back to the engine is left
out). -/
structure PokerPlayer where
  id : Int
  type : UserType
  balance : ℚ
  state : Status
  hand : PokerHand

/-- The constructor `PokerPlayer::PokerPlayer`: the player waits, with an empty
hand. -/
def PokerPlayer.create (id : Int) (type : UserType) (startBal : ℚ) : PokerPlayer :=
  { id := id, type := type, balance := startBal, state := Status.WAITING,
    hand := PokerHand.empty }

/-- The method `PokerPlayer::bet(double amount)` in exact arithmetic: the value
returned and the player afterwards. `Fp.PokerPlayer.bet` is the method on
`double` values. -/
def PokerPlayer.bet (p : PokerPlayer) (amount : ℚ) : Bool × PokerPlayer :=
  if amount > p.balance then (false, p)
  else (true, { p with balance := p.balance - amount })

/-- The method `PokerPlayer::setState`. -/
def PokerPlayer.setState (p : PokerPlayer) (state : Status) : PokerPlayer :=
  { p with state := state }

/-! ## PokerEngine (`src/game/PokerEngine.h`, `PokerEngine.cpp`) -/

/-- The data members of `PokerEngine`. The players are held by pointer in the
source and are changed in place; here the list holds the players themselves. -/
structure PokerEngine where
  currentPlayerIndex : Int
  currentRound : Int
  ante : ℚ
  pot : ℚ
  blind : ℚ
  players : List PokerPlayer
  deck : List Card
  discards : List Card

/-- One turn of the loop of `PokerEngine::anteUp` for `player`; the state is the
list of the players already handled and the pot. -/
def PokerEngine.anteStep (ante : ℚ) (st : List PokerPlayer × ℚ) (player : PokerPlayer) :
    List PokerPlayer × ℚ :=
  let r := player.bet ante
  let player := if !r.1 then r.2.setState Status.FOLDED else r.2
  (st.1 ++ [player], st.2 + ante)

/-- The method `PokerEngine::anteUp`. -/
def PokerEngine.anteUp (e : PokerEngine) : PokerEngine :=
  let st := e.players.foldl (PokerEngine.anteStep e.ante) ([], e.pot)
  { e with players := st.1, pot := st.2 }

/-- An engine with ante 10 and two waiting players, one with a balance of 5 and
one with a balance of 100. -/
def sampleEngine : PokerEngine :=
  { currentPlayerIndex := -1, currentRound := 0, ante := 10, pot := 0, blind := 0,
    players := [PokerPlayer.create 1 UserType.HUMAN 5, PokerPlayer.create 2 UserType.AI 100],
    deck := Deck.reset [], discards := [] }

/-! ## Players and their cards (`PokerPlayer.cpp`) -/

/-- The struct `PokerPlayer::Outcome`. The name of a player is made of its type
and its id, which stand here for the name. -/
structure Outcome where
  playerName : UserType × Int
  playerBalance : ℚ
  playerHand : PokerHand

/-- The method `PokerPlayer::show`. -/
def PokerPlayer.show (p : PokerPlayer) : Outcome :=
  { playerName := (p.type, p.id), playerBalance := p.balance, playerHand := p.hand }

/-- The method `PokerPlayer::receive`: each card is added to the hand. -/
def PokerPlayer.receive (p : PokerPlayer) (cards : List Card) : PokerPlayer :=
  { p with hand := cards.foldl PokerHand.add p.hand }

/-- One turn of the loop of `PokerPlayer::replace` for the index `idx`; the
state is the list of the cards discarded so far and the hand, or `none` once
`hand->get(idx)`, which is `cards.at(idx)`, has thrown. -/
def PokerPlayer.replaceStep (st : Option (List Card × PokerHand)) (idx : Int) :
    Option (List Card × PokerHand) :=
  match st with
  | none => none
  | some (discards, hand) =>
    if idx < 0 then none
    else
      match hand.cards[idx.toNat]? with
      | none => none
      | some card => some (discards ++ [card], hand.remove card)

/-- The method `PokerPlayer::replace`: the indices are sorted in decreasing
order, the cards at these positions leave the hand one after the other, then
the new cards are received. The result is the list of the cards discarded and
the player afterwards, or `none` when an index is outside the hand. -/
def PokerPlayer.replace (p : PokerPlayer) (idxs : List Int) (cards : List Card) :
    Option (List Card × PokerPlayer) :=
  match (idxs.insertionSort (fun a b => a ≥ b)).foldl PokerPlayer.replaceStep
      (some ([], p.hand)) with
  | none => none
  | some (discards, hand) => some (discards, PokerPlayer.receive { p with hand := hand } cards)

/-! ## AIPokerPlayer (`src/game/player/AIPokerPlayer.h`, `AIPokerPlayer.cpp`) -/

/-- The enum `AIPokerPlayer::Strategy`. -/
inductive Strategy
  | AGGRESSIVE
  | BALANCED
  | CONSERVATIVE
  deriving DecidableEq, Repr

/-- The value of an `AIPokerPlayer::Strategy` enumerator. -/
def Strategy.value : Strategy → ℚ
  | Strategy.AGGRESSIVE => 45
  | Strategy.BALANCED => 20
  | Strategy.CONSERVATIVE => 5

/-- The truncation of an amount towards zero: the fractional part is dropped.
This is the value of `static_cast<int>` when it fits the 32 bits of an `int`;
`toInt32` and `Double.toInt` give the conversion with its range. -/
def truncToInt (x : ℚ) : Int := if 0 ≤ x then Int.floor x else Int.ceil x

/-- The bound `variance` of the random distribution of `AIPokerPlayer::bet`, in
exact arithmetic and without the range of `int`; `Fp.AIPokerPlayer.variance` is
the bound on `double` values, undefined when outside that range. -/
def AIPokerPlayer.variance (p : PokerPlayer) (strategy : Strategy) (blind : ℚ) : Int :=
  truncToInt (max blind (p.balance * (strategy.value / 100)) / 4)

/-- The amount `bet` computed by `AIPokerPlayer::bet`, before the state of the
player is set, for a player with the given strategy, when the engine reports
`blind` and the random distribution over `[0, variance]` returns `draw`. -/
def AIPokerPlayer.betAmount (p : PokerPlayer) (strategy : Strategy) (blind : ℚ) (draw : Int) :
    ℚ :=
  let balance := p.balance
  let minBet0 : ℚ := max blind (balance * (strategy.value / 100))
  let minBet1 : ℚ := minBet0 + (draw : ℚ)
  let minBet : ℚ := if minBet1 < blind ∧ balance ≥ blind then blind else minBet1
  let category := p.hand.getCategory
  let bet0 : ℚ :=
    match category with
    | Category.HIGH_CARD =>
      if minBet ≤ balance * (strategy.value / Strategy.AGGRESSIVE.value) then minBet else 0
    | Category.INVALID_HAND => 0
    | _ =>
      if minBet * (category.toNat : ℚ) < balance then minBet * (category.toNat : ℚ)
      else balance
  if bet0 > balance then balance else bet0

/-- The method `AIPokerPlayer::bet` in exact arithmetic: the amount returned
and the player afterwards. The amount decides between `fold`, `allIn`, `call`
and `raise`, which set the state, and is taken from the balance.
`Fp.AIPokerPlayer.bet` is the method on `double` values. -/
def AIPokerPlayer.bet (p : PokerPlayer) (strategy : Strategy) (blind : ℚ) (draw : Int) :
    ℚ × PokerPlayer :=
  let bet := AIPokerPlayer.betAmount p strategy blind draw
  let state :=
    if bet = 0 then Status.FOLDED
    else if bet < blind then Status.ALLIN
    else if bet = blind then Status.CALLING
    else Status.RAISING
  (bet, { p with state := state, balance := p.balance - bet })

/-! ## The phases of a game (`PokerEngine.cpp`) -/

/-- The method `PokerEngine::getPlayersByState`, as the list of the seats of the
players in the given state, in seat order. -/
def PokerEngine.getSeatsByState (e : PokerEngine) (state : Status) : List Nat :=
  (List.range e.players.length).filter fun i =>
    match e.players[i]? with
    | some p => decide (p.state = state)
    | none => false

/-- The orientation in which the engine deals to a player: face down for an AI
player, face up for a human player. -/
def PokerEngine.orientationFor (p : PokerPlayer) : Orientation :=
  if p.type = UserType.AI then Orientation.FACE_DOWN else Orientation.FACE_UP

/-- The statement `player->receive(CardCollection({deck->deal(orientation)}))`
of `PokerEngine::dealCards` for the player at `seat`; `none` when the deck
returns no card, which `receive` then dereferences. -/
def PokerEngine.dealTo (st : Option PokerEngine) (seat : Nat) : Option PokerEngine :=
  match st with
  | none => none
  | some e =>
    match e.players[seat]? with
    | none => none
    | some player =>
      match Deck.deal e.deck (PokerEngine.orientationFor player) with
      | (none, _) => none
      | (some card, deck) =>
        some { e with deck := deck, players := e.players.set seat (player.receive [card]) }

/-- The call `player->setState(state)` for the player at `seat`. -/
def PokerEngine.setStateAt (e : PokerEngine) (seat : Nat) (state : Status) : PokerEngine :=
  match e.players[seat]? with
  | none => e
  | some player => { e with players := e.players.set seat (player.setState state) }

/-- The method `PokerEngine::dealCards`; `draws` are the random values used by
the shuffle. The waiting players are those waiting when the method starts. -/
def PokerEngine.dealCards (e : PokerEngine) (draws : List Nat) : Option PokerEngine :=
  let waiting := e.getSeatsByState Status.WAITING
  let perPlayer := 5
  let e1 := { e with deck := Deck.shuffle e.deck draws }
  match (List.range perPlayer).foldl (fun st _ => waiting.foldl PokerEngine.dealTo st)
      (some e1) with
  | none => none
  | some e2 => some (waiting.foldl (fun e3 seat => e3.setStateAt seat Status.ACTIVE) e2)

/-- The method `PokerEngine::advanceRound`. -/
def PokerEngine.advanceRound (e : PokerEngine) : PokerEngine :=
  let inactivePlayers := e.getSeatsByState Status.FOLDED
  let players :=
    if e.players.length - inactivePlayers.length > 0 then
      e.players.map fun player =>
        if player.state ≠ Status.FOLDED then player.setState Status.ACTIVE else player
    else e.players
  { e with players := players, currentRound := e.currentRound + 1 }

/-- The method `PokerEngine::handleBet` for the player at `seat`. The call
`player->bet()` is a decision of the player: `bet player blind` is the amount
it returns and the player afterwards. -/
def PokerEngine.handleBet (e : PokerEngine) (seat : Nat)
    (bet : PokerPlayer → ℚ → ℚ × PokerPlayer) : PokerEngine :=
  match e.players[seat]? with
  | none => e
  | some player =>
    if player.state = Status.ACTIVE then
      let r := bet player e.blind
      let b := r.1
      let pot := e.pot + b
      let blind := if b > e.blind then max e.blind b else e.blind
      { e with players := e.players.set seat r.2, pot := pot, blind := blind }
    else e

/-- One turn of the loop of `PokerEngine::bettingRound`, for the seat `i`. -/
def PokerEngine.bettingStep (bet : Nat → PokerPlayer → ℚ → ℚ × PokerPlayer)
    (e : PokerEngine) (i : Nat) : PokerEngine :=
  match e.players[i]? with
  | none => e
  | some player =>
    if player.state = Status.ACTIVE then
      { e.handleBet i (bet i) with currentPlayerIndex := (i : Int) }
    else e

/-- The method `PokerEngine::bettingRound`; `bet i` is the decision of the
player at seat `i`. -/
def PokerEngine.bettingRound (e : PokerEngine)
    (bet : Nat → PokerPlayer → ℚ → ℚ × PokerPlayer) : PokerEngine :=
  { (List.range e.players.length).foldl (PokerEngine.bettingStep bet) e with
    currentPlayerIndex := -1 }

/-- The loop `for (auto &idx : discardIdxs) replacements.add(deck->deal(orientation))`
of `PokerEngine::handleDraw`, for `n` indices: the replacement cards and the
deck afterwards, or `none` when the deck returns no card, which `add`
dereferences. -/
def PokerEngine.dealReplacements (deck : List Card) (orientation : Orientation) :
    Nat → Option (List Card × List Card)
  | 0 => some ([], deck)
  | n + 1 =>
    match Deck.deal deck orientation with
    | (none, _) => none
    | (some card, rest) =>
      match PokerEngine.dealReplacements rest orientation n with
      | none => none
      | some (replacements, left) => some (card :: replacements, left)

/-- The loop of `PokerEngine::recycleDiscards`,
`for (i = 0; i < discards->size(); i++) { deck->add(discards->get(i)); discards->remove(discards->get(i)); }`,
from the index `i` on. The first argument bounds the number of turns; the size
of the discard pile is enough, since `i` grows at each turn. -/
def PokerEngine.recycleLoop : Nat → Nat → List Card → List Card → List Card × List Card
  | 0, _, deck, discards => (deck, discards)
  | fuel + 1, i, deck, discards =>
    match discards[i]? with
    | none => (deck, discards)
    | some card =>
      PokerEngine.recycleLoop fuel (i + 1) (deck ++ [card]) (CardCollection.remove discards card)

/-- The method `PokerEngine::recycleDiscards`; `draws` are the random values
used by the shuffle. -/
def PokerEngine.recycleDiscards (e : PokerEngine) (draws : List Nat) : PokerEngine :=
  let r := PokerEngine.recycleLoop e.discards.length 0 e.deck e.discards
  { e with deck := Deck.shuffle r.1 draws, discards := r.2 }

/-- The method `PokerEngine::handleDraw` for the player at `seat`. The call
`player->discard()` is a decision of the player: `discard player` is the list
of indices it returns. `draws` are the random values used when the discards
are recycled. The result is `none` when the deck returns no card or when
`replace` meets an index outside the hand. -/
def PokerEngine.handleDraw (e : PokerEngine) (seat : Nat)
    (discard : PokerPlayer → List Int) (draws : List Nat) : Option PokerEngine :=
  match e.players[seat]? with
  | none => some e
  | some player =>
    if player.state ≠ Status.FOLDED then
      let orientation := PokerEngine.orientationFor player
      let discardIdxs := discard player
      if discardIdxs ≠ [] then
        match PokerEngine.dealReplacements e.deck orientation discardIdxs.length with
        | none => none
        | some (replacements, deck) =>
          match player.replace discardIdxs replacements with
          | none => none
          | some (discarded, player1) =>
            let e1 : PokerEngine :=
              { e with
                deck := deck, discards := e.discards ++ discarded,
                players := e.players.set seat player1 }
            let e2 := if e1.deck.length ≤ 5 then e1.recycleDiscards draws else e1
            some (e2.setStateAt seat Status.DRAWING)
      else some (e.setStateAt seat Status.DRAWING)
    else some e

/-- One turn of the loop of `PokerEngine::drawingRound`, for the seat `i`. -/
def PokerEngine.drawingStep (discard : Nat → PokerPlayer → List Int)
    (draws : Nat → List Nat) (st : Option PokerEngine) (i : Nat) : Option PokerEngine :=
  match st with
  | none => none
  | some e =>
    match e.players[i]? with
    | none => some e
    | some player =>
      if player.state ≠ Status.FOLDED then
        match e.handleDraw i (discard i) (draws i) with
        | none => none
        | some e1 => some { e1 with currentPlayerIndex := (i : Int) }
      else some e

/-- The method `PokerEngine::drawingRound`; `discard i` is the decision of the
player at seat `i` and `draws i` are the random values of the shuffle that may
follow its draw. -/
def PokerEngine.drawingRound (e : PokerEngine) (discard : Nat → PokerPlayer → List Int)
    (draws : Nat → List Nat) : Option PokerEngine :=
  match (List.range e.players.length).foldl (PokerEngine.drawingStep discard draws)
      (some e) with
  | none => none
  | some e1 => some { e1 with currentPlayerIndex := -1 }

/-- What the surroundings of the engine supply during `startGame`: the random
values of the shuffle of `dealCards`, the betting decisions (by round and
seat), the discard decisions (by seat) and the random values of the shuffles
of the drawing round (by seat). -/
structure Env where
  dealDraws : List Nat
  bet : Int → Nat → PokerPlayer → ℚ → ℚ × PokerPlayer
  discard : Nat → PokerPlayer → List Int
  recycleDraws : Nat → List Nat

/-- The phase methods called by `PokerEngine::startGame`. -/
inductive Phase
  | ANTE
  | DEAL
  | ADVANCE
  | BET
  | DRAW
  deriving DecidableEq, Repr

/-- How a run of `startGame` ends: normally, with the engine it leaves; by a
fault (a missing card is dereferenced or an index is out of range); or still
inside the loop when the bound on the number of turns is used up. -/
inductive Exit
  | done (e : PokerEngine)
  | fault
  | unfinished

/-- The loop `while (currentRound < 2)` of `PokerEngine::startGame`, for at most
`fuel` turns; `log` records the phase methods called so far. -/
def PokerEngine.startGameLoop (env : Env) : Nat → PokerEngine → List Phase → List Phase × Exit
  | 0, e, log => if e.currentRound < 2 then (log, Exit.unfinished) else (log, Exit.done e)
  | fuel + 1, e, log =>
    if e.currentRound < 2 then
      let e1 := e.advanceRound
      let e2 := e1.bettingRound (env.bet e1.currentRound)
      let log2 := log ++ [Phase.ADVANCE, Phase.BET]
      if e2.currentRound = 1 then
        match e2.drawingRound env.discard env.recycleDraws with
        | none => (log2 ++ [Phase.DRAW], Exit.fault)
        | some e3 => PokerEngine.startGameLoop env fuel e3 (log2 ++ [Phase.DRAW])
      else PokerEngine.startGameLoop env fuel e2 log2
    else (log, Exit.done e)

/-- The method `PokerEngine::startGame`: the phase methods called, in order,
and the way the run ends. -/
def PokerEngine.startGame (e : PokerEngine) (env : Env) (fuel : Nat) : List Phase × Exit :=
  match (e.anteUp).dealCards env.dealDraws with
  | none => ([Phase.ANTE, Phase.DEAL], Exit.fault)
  | some e2 => PokerEngine.startGameLoop env fuel e2 [Phase.ANTE, Phase.DEAL]

/-- An insertion into a `std::multimap`: the entry goes after the entries whose
key is not greater. -/
def multimapInsert {α : Type} (m : List (Int × α)) (key : Int) (value : α) : List (Int × α) :=
  match m with
  | [] => [(key, value)]
  | (k, v) :: rest =>
    if key < k then (key, value) :: (k, v) :: rest
    else (k, v) :: multimapInsert rest key value

/-- The method `PokerEngine::showDown`: the outcomes of all the players, keyed
by the score of the hand. -/
def PokerEngine.showDown (e : PokerEngine) : List (Int × Outcome) :=
  e.players.foldl (fun outcomes player =>
    multimapInsert outcomes player.show.playerHand.getScore player.show) []

/-- The local variables of `PokerEngine::determineWinners`; `winnerIdx` has no
value before its first assignment. -/
structure WinnerScan where
  maxScore : Int
  winnerIdx : Option Int
  tieWinnerIdx : Int
  outcomes : List Outcome

/-- The loop of `PokerEngine::determineWinners` from the index `i` on; the body
ends with `i++` and the `for` statement adds its own `i++`. The first
argument bounds the number of turns. -/
def PokerEngine.winnersLoop (players : List PokerPlayer) : Nat → Nat → WinnerScan → WinnerScan
  | 0, _, st => st
  | fuel + 1, i, st =>
    match players[i]? with
    | none => st
    | some player =>
      let outcome := player.show
      let handScore := outcome.playerHand.getScore
      let st1 : WinnerScan := { st with outcomes := st.outcomes ++ [outcome] }
      let st2 : WinnerScan :=
        if handScore > st1.maxScore then
          { st1 with maxScore := handScore, winnerIdx := some (i : Int) }
        else if handScore = st1.maxScore then { st1 with tieWinnerIdx := (i : Int) }
        else st1
      PokerEngine.winnersLoop players fuel (i + 1 + 1) st2

/-- The method `PokerEngine::determineWinners`: the winners keyed by seat, or
`none` when `winnerIdx` is read without a value or `outcomes.at` throws. -/
def PokerEngine.determineWinners (e : PokerEngine) : Option (List (Int × Outcome)) :=
  let st := PokerEngine.winnersLoop e.players e.players.length 0
    { maxScore := -(2 ^ 63), winnerIdx := none, tieWinnerIdx := -1, outcomes := [] }
  match st.winnerIdx with
  | none => none
  | some winnerIdx =>
    if winnerIdx < 0 then none
    else
      match st.outcomes[winnerIdx.toNat]? with
      | none => none
      | some winner =>
        let winners := multimapInsert [] winnerIdx winner
        if st.tieWinnerIdx ≥ 0 then
          match st.outcomes[st.tieWinnerIdx.toNat]? with
          | none => none
          | some tieWinner => some (multimapInsert winners st.tieWinnerIdx tieWinner)
        else some winners

/-- The method `PokerEngine::endGame`, without the printing: the outcomes of
`showDown`. -/
def PokerEngine.endGame (e : PokerEngine) : List (Int × Outcome) := e.showDown

/-! ## Samples for the engine -/

/-- An engine whose discard pile holds the two cards `5D 6D` and whose deck
holds `2C 3C 4C`. -/
def recycleSample : PokerEngine :=
  { currentPlayerIndex := -1, currentRound := 1, ante := 10, pot := 0, blind := 0,
    players := [], deck := threeCards, discards := [card '5' 'D', card '6' 'D'] }

/-- An engine at showdown with two players: the first holds the two pair
`3S 2D 4H 3C 2H`, the second the wheel `AS 2D 3H 4C 5H`. -/
def showdownSample : PokerEngine :=
  { currentPlayerIndex := -1, currentRound := 2, ante := 10, pot := 20, blind := 0,
    players :=
      [{ PokerPlayer.create 1 UserType.HUMAN 90 with
          hand := PokerHand.ofCards twoPairCards, state := Status.CALLING },
       { PokerPlayer.create 2 UserType.AI 90 with
          hand := PokerHand.ofCards wheelCards, state := Status.CALLING }],
    deck := [], discards := [] }

/-- An engine at showdown with two players: the first has folded and holds the
six-high straight, the second has called and holds a pair of fives. -/
def foldedSample : PokerEngine :=
  { currentPlayerIndex := -1, currentRound := 2, ante := 10, pot := 20, blind := 0,
    players :=
      [{ PokerPlayer.create 1 UserType.HUMAN 90 with
          hand := PokerHand.ofCards sixHighCards, state := Status.FOLDED },
       { PokerPlayer.create 2 UserType.AI 90 with
          hand := PokerHand.ofCards pairFivesKingCards, state := Status.CALLING }],
    deck := [], discards := [] }

/-- An AI player with a balance of 100 that holds a pair of fives. -/
def pairPlayer : PokerPlayer :=
  { PokerPlayer.create 2 UserType.AI 100 with hand := PokerHand.ofCards pairFivesKingCards }

/-! ## The betting round as the specification describes it -/

/-- The betting round in the words of the specification, on the players from
seat `i` on: a player that is `ACTIVE` is asked for a bet `b`, the pot grows by
`b` and the blind becomes `max blind b`; any other player is passed over. The
result is the list of the players afterwards, the pot and the blind. -/
def bettingSpec (bet : Nat → PokerPlayer → ℚ → ℚ × PokerPlayer) :
    Nat → List PokerPlayer → ℚ → ℚ → List PokerPlayer × ℚ × ℚ
  | _, [], pot, blind => ([], pot, blind)
  | i, p :: ps, pot, blind =>
    if p.state = Status.ACTIVE then
      ((bet i p blind).2 :: (bettingSpec bet (i + 1) ps (pot + (bet i p blind).1)
          (max blind (bet i p blind).1)).1,
        (bettingSpec bet (i + 1) ps (pot + (bet i p blind).1) (max blind (bet i p blind).1)).2)
    else
      (p :: (bettingSpec bet (i + 1) ps pot blind).1, (bettingSpec bet (i + 1) ps pot blind).2)

/-- The surroundings used in the samples: no shuffle changes the order of the
deck, every player bets nothing and stays as it is, and every player discards
the cards at the positions 0 and 2. -/
def sampleEnv : Env :=
  { dealDraws := [],
    bet := fun _ _ p _ => (0, p),
    discard := fun _ _ => [0, 2],
    recycleDraws := fun _ => [] }

/-- Whether a run has ended normally. -/
def Exit.isDone : Exit → Bool
  | Exit.done _ => true
  | _ => false

/-! ## Conservation of the cards -/

/-- All the cards of an engine: the deck, the discard pile and the hands of the
players, in this order. -/
def PokerEngine.allCards (e : PokerEngine) : List Card :=
  e.deck ++ e.discards ++ e.players.flatMap fun p => p.hand.cards

/-- The invariant of the specification: the deck, the discard pile and the
hands hold together the 52 faces of a full deck, each of them once. -/
def Conserved (e : PokerEngine) : Prop :=
  (e.allCards.map Card.face).Perm ((Deck.reset []).map Card.face)

/-- The engine steps that move cards, when they are completed: `dealCards`,
`handleDraw` with the recycling it may trigger, and `recycleDiscards`. -/
inductive CardStep : PokerEngine → PokerEngine → Prop
  | deal (e e' : PokerEngine) (draws : List Nat) (h : e.dealCards draws = some e') :
      CardStep e e'
  | draw (e e' : PokerEngine) (seat : Nat) (discard : PokerPlayer → List Int)
      (draws : List Nat) (h : e.handleDraw seat discard draws = some e') : CardStep e e'
  | recycle (e : PokerEngine) (draws : List Nat) : CardStep e (e.recycleDiscards draws)

/-- A card turned to the given orientation. -/
def Card.oriented (o : Orientation) (c : Card) : Card := { c with orientation := o }

/-- The elements of a list at the positions 0, 2, 4, and so on. -/
def evens {α : Type} : List α → List α
  | [] => []
  | [a] => [a]
  | a :: _ :: t => a :: evens t

/-- The elements of a list at the positions 1, 3, 5, and so on. -/
def odds {α : Type} : List α → List α
  | [] => []
  | [_] => []
  | _ :: b :: t => b :: odds t

/-! ## Dealing as the specification describes it -/

/-- The cards that the `j`-th of `n` waiting players is dealt from the shuffled
deck: for `k = 0, ..., 4` the card number `k * n + j` from the top of the deck
(the top is the back of the vector), turned to the orientation `o`. -/
def dealtCards (shuffled : List Card) (n j : Nat) (o : Orientation) : List Card :=
  (List.range 5).filterMap fun k => (shuffled.reverse[k * n + j]?).map (Card.oriented o)

/-- The cards held by the player at `seat` (none when there is no such seat). -/
def PokerEngine.handAt (e : PokerEngine) (seat : Nat) : List Card :=
  match e.players[seat]? with
  | some p => p.hand.cards
  | none => []

/-- The players after each pair `(seat, card)` of a list has been served in
turn: the player at `seat` receives `card`, turned as the engine turns the
cards of this player. -/
def giveCards (players : List PokerPlayer) : List (Nat × Card) → List PokerPlayer
  | [] => players
  | (seat, card) :: rest =>
    match players[seat]? with
    | some p =>
      giveCards
        (players.set seat (p.receive [Card.oriented (PokerEngine.orientationFor p) card])) rest
    | none => giveCards players rest

/-- The seats of a list, taken `k` times in a row. -/
def repeatSeats : Nat → List Nat → List Nat
  | 0, _ => []
  | k + 1, seats => seats ++ repeatSeats k seats

/-! ## The draw of one player -/

/-- The `k` cards that `k` calls of `deal` take from the top of the deck of an
engine, in the order in which they are taken, turned to the orientation `o`. -/
def PokerEngine.topCards (e : PokerEngine) (k : Nat) (o : Orientation) : List Card :=
  ((e.deck.drop (e.deck.length - k)).reverse).map (Card.oriented o)

/-- The cards of the hand of a player at the positions `idxs`, the highest
position first. -/
def PokerPlayer.cardsAt (p : PokerPlayer) (idxs : List Int) : List Card :=
  (idxs.insertionSort (fun a b => a ≥ b)).filterMap fun i => p.hand.cards[i.toNat]?

/-- An engine in the draw round: one player, who holds the two pair
`3S 2D 4H 3C 2H`, a deck of eight cards and an empty discard pile. -/
def drawSample : PokerEngine :=
  { currentPlayerIndex := 0, currentRound := 1, ante := 10, pot := 10, blind := 0,
    players :=
      [{ PokerPlayer.create 1 UserType.HUMAN 90 with
          hand := PokerHand.ofCards twoPairCards, state := Status.ACTIVE }],
    deck := [card '5' 'C', card '6' 'C', card '7' 'C', card '8' 'C', card '9' 'C',
      card 'T' 'C', card 'J' 'C', card 'Q' 'C'],
    discards := [] }

/-! ## A whole game never deals from an empty deck -/

/-- A player is ready for the draw round: it has folded, or it holds a processed
hand of 5 cards. -/
def HandReady (p : PokerPlayer) : Prop :=
  p.state = Status.FOLDED ∨ (p.hand.cards.length = 5 ∧ PokerHand.ofCards p.hand.cards = p.hand)

/-- The invariant of the draw round: the 52 faces are all there, each player is
ready, the deck and the discard pile hold at least 12 cards together and the
deck holds at least 6 cards. -/
def DrawReady (e : PokerEngine) : Prop :=
  Conserved e ∧ (∀ p ∈ e.players, HandReady p) ∧
    12 ≤ e.deck.length + e.discards.length ∧ 6 ≤ e.deck.length

/-- An engine on a fresh deck with `n` new players (ids 1 to `n`), each with a
balance of 100, and an ante of 10. -/
def tableOf (n : Nat) : PokerEngine :=
  { currentPlayerIndex := -1, currentRound := 0, ante := 10, pot := 0, blind := 0,
    players := (List.range n).map fun i => PokerPlayer.create (i + 1) UserType.AI 100,
    deck := Deck.reset [], discards := [] }

/-- The surroundings of `sampleEnv`, except that every player discards its five
cards. -/
def discardAllEnv : Env :=
  { dealDraws := [],
    bet := fun _ _ p _ => (0, p),
    discard := fun _ _ => [0, 1, 2, 3, 4],
    recycleDraws := fun _ => [] }

/-! ## Order of the cards, long tokens, all-in, score range -/

/-- The comparison of the hands built from two texts; `none` when one of the
constructors throws. -/
def compareNotations (a b : List Char) : Option Comparison :=
  match PokerHand.ofNotation a, PokerHand.ofNotation b with
  | some x, some y => some (x.compare y)
  | _, _ => none

/-- An AI player with a balance of 5 that holds a pair of fives. -/
def shortStackPlayer : PokerPlayer :=
  { PokerPlayer.create 3 UserType.AI 5 with hand := PokerHand.ofCards pairFivesKingCards }

/-! ## The discards of an AI player, the ante and the showdown -/

/-- The method `AIPokerPlayer::discard`: the positions 0 to `size - 1`, emptied
for a straight, a flush, a full house, a straight flush and an invalid hand;
for one pair, two pair, three of a kind and four of a kind the positions
`indexByCategory(ONE_PAIR)` are kept, that is erased from the list, the highest
first, each under the check `idx < discards.size()`. -/
def AIPokerPlayer.discard (p : PokerPlayer) : List Int :=
  let category := p.hand.getCategory
  let all : List Int := (List.range p.hand.cards.length).map fun i => (i : Int)
  let discards : List Int :=
    match category with
    | Category.STRAIGHT | Category.FLUSH | Category.FULL_HOUSE | Category.STRAIGHT_FLUSH
    | Category.INVALID_HAND => []
    | _ => all
  let keep : List Nat :=
    match category with
    | Category.ONE_PAIR | Category.TWO_PAIR | Category.THREE_OF_A_KIND
    | Category.FOUR_OF_A_KIND => p.hand.indexByCategory Category.ONE_PAIR
    | _ => []
  if keep.length > 0 then
    (keep.insertionSort (fun a b => a ≥ b)).foldl
      (fun d idx => if idx < d.length then d.eraseIdx idx else d) discards
  else discards

/-- The three aces `AS AD AH QC JD`. -/
def threeAcesCards : List Card :=
  [card 'A' 'S', card 'A' 'D', card 'A' 'H', card 'Q' 'C', card 'J' 'D']

/-- The nine-high hand `9C 7D 5S 3H 2C`. -/
def nineHighCards : List Card :=
  [card '9' 'C', card '7' 'D', card '5' 'S', card '3' 'H', card '2' 'C']

/-- The pair of kings `KD KH 8S 6C 4D`. -/
def pairKingsCards : List Card :=
  [card 'K' 'D', card 'K' 'H', card '8' 'S', card '6' 'C', card '4' 'D']

/-- The two pair `TC TD 9S 9H 2S`. -/
def tensAndNinesCards : List Card :=
  [card 'T' 'C', card 'T' 'D', card '9' 'S', card '9' 'H', card '2' 'S']

/-- The queen-high hand `QS JS 8C 7H 3D`. -/
def queenHighCards : List Card :=
  [card 'Q' 'S', card 'J' 'S', card '8' 'C', card '7' 'H', card '3' 'D']

/-- An AI player with a balance of 100 that holds the given cards. -/
def aiHolding (id : Int) (cards : List Card) : PokerPlayer :=
  { PokerPlayer.create id UserType.AI 100 with
      hand := PokerHand.ofCards cards, state := Status.CALLING }

/-- An engine at showdown with the first `n` of five AI players, who hold in
seat order: nine high, a pair of kings, three aces, two pair, queen high. The
pot is 50. -/
def seatsSample (n : Nat) : PokerEngine :=
  { currentPlayerIndex := -1, currentRound := 2, ante := 10, pot := 50, blind := 0,
    players := [aiHolding 1 nineHighCards, aiHolding 2 pairKingsCards,
      aiHolding 3 threeAcesCards, aiHolding 4 tensAndNinesCards,
      aiHolding 5 queenHighCards].take n,
    deck := [], discards := [] }

/-- An engine at showdown with two AI players: the first holds three aces, the
second a pair of kings; each has a balance of 100 and the pot is 50. -/
def potSample : PokerEngine :=
  { currentPlayerIndex := -1, currentRound := 2, ante := 10, pot := 50, blind := 0,
    players := [aiHolding 1 threeAcesCards, aiHolding 2 pairKingsCards],
    deck := [], discards := [] }

/-- An engine before the ante with an ante of 10 and two new AI players, one
with a balance of 5 and one with a balance of 100. -/
def shortAnteTable : PokerEngine :=
  { currentPlayerIndex := -1, currentRound := 0, ante := 10, pot := 0, blind := 0,
    players := [PokerPlayer.create 1 UserType.AI 5, PokerPlayer.create 2 UserType.AI 100],
    deck := Deck.reset [], discards := [] }

/-- An engine before the ante with an ante of 150 and two new AI players with a
balance of 100 each, the balance that `PokerGame::setupPlayers` gives. -/
def highAnteTable : PokerEngine :=
  { currentPlayerIndex := -1, currentRound := 0, ante := 150, pot := 0, blind := 0,
    players := [PokerPlayer.create 1 UserType.AI 100, PokerPlayer.create 2 UserType.AI 100],
    deck := Deck.reset [], discards := [] }

/-- The money of an engine: the pot and the balances of the players. -/
def PokerEngine.money (e : PokerEngine) : ℚ :=
  e.pot + (e.players.map fun p => p.balance).sum

/-- The conversion of an amount to `int` (`int balance = ...`): the fractional
part is dropped; the behaviour is undefined (`none`) when the result is outside
the range of a 32-bit `int`. -/
def toInt32 (x : ℚ) : Option Int :=
  if -2147483648 ≤ truncToInt x ∧ truncToInt x ≤ 2147483647 then some (truncToInt x) else none

/-- The balance that the loop of `PokerEngine::printResults` shows for the
player at seat `i`: `int balance = outcome.playerBalance`, to which half the pot
is added for the two winners of a tie, or the pot for a sole winner, the sum
being stored in the `int` again; `none` when a conversion to `int` is
undefined. -/
def PokerEngine.printedBalance (pot : ℚ) (winnerIdx tieIdx : Int) (i : Nat)
    (p : PokerPlayer) : Option Int :=
  match toInt32 p.show.playerBalance with
  | none => none
  | some balance =>
    if tieIdx ≥ 0 then
      if tieIdx = (i : Int) ∨ winnerIdx = (i : Int) then toInt32 ((balance : ℚ) + pot / 2)
      else some balance
    else if winnerIdx = (i : Int) then toInt32 ((balance : ℚ) + pot)
    else some balance

/-- The expression `winners.size() > 1 ? (++winners.begin())->first : -1` of
`PokerEngine::printResults`, on the winners after the first. -/
def PokerEngine.tieIndexOf (rest : List (Int × Outcome)) : Int :=
  match rest with
  | [] => -1
  | (k, _) :: _ => k

/-- The rows of a table, when each of them is defined. -/
def PokerEngine.allRows : List (Option Int) → Option (List Int)
  | [] => some []
  | none :: _ => none
  | some row :: rest =>
    match PokerEngine.allRows rest with
    | none => none
    | some rows => some (row :: rows)

/-- The method `PokerEngine::printResults`, as the column of balances it
prints, in seat order; `none` when `players.at` throws or a conversion to `int`
is undefined. Nothing is written to the players or to the outcomes. -/
def PokerEngine.printResults (e : PokerEngine) (winners : List (Int × Outcome)) :
    Option (List Int) :=
  match winners with
  | [] => some []
  | (winnerIdx, _) :: rest =>
    let tieIdx : Int := PokerEngine.tieIndexOf rest
    if winnerIdx < 0 ∨ e.players.length ≤ winnerIdx.toNat then none
    else if tieIdx ≥ 0 ∧ e.players.length ≤ tieIdx.toNat then none
    else
      PokerEngine.allRows (List.zipWith (PokerEngine.printedBalance e.pot winnerIdx tieIdx)
        (List.range e.players.length) e.players)

/-- The method `PokerEngine::endGame(true)`: the column of balances printed by
`printResults` and the outcomes returned, which are those of `showDown`; `none`
when `determineWinners` or `printResults` has no defined result. -/
def PokerEngine.endGameOutput (e : PokerEngine) : Option (List Int × List (Int × Outcome)) :=
  match e.determineWinners with
  | none => none
  | some winners =>
    match e.printResults winners with
    | none => none
    | some rows => some (rows, e.showDown)

/-! ## Amounts in double precision (`double`)
The amounts of money are of type `double` in the source. This part gives the
values of that type and its operations as IEEE 754 binary64 arithmetic, each
operation rounding its exact result to the nearest value, ties to even. The
sign of a zero is not kept: it plays no part in a comparison or in a sum, and no
amount is divided by zero in these methods. -/

/-- A value of type `double`: not a number, an infinity, or a finite value. -/
inductive Double
  | nan
  | posInf
  | negInf
  | fin (q : ℚ)
  deriving DecidableEq, Repr

/-- The value nearest to `a > 0` among the multiples of `2 ^ e`, where `2 ^ e`
is the spacing of the binary64 values at `a`: 53 significant bits, and the
spacing `2 ^ (-1074)` of the subnormal values at the bottom. A tie goes to the
even multiple. -/
def Double.roundPos (a : ℚ) : ℚ :=
  let e : Int := max (Int.log 2 a - 52) (-1074)
  let m : ℚ := a / (2 : ℚ) ^ e
  let f : Int := Int.floor m
  let n : Int :=
    if m - (f : ℚ) < 1 / 2 then f
    else if 1 / 2 < m - (f : ℚ) then f + 1
    else if f % 2 = 0 then f
    else f + 1
  (n : ℚ) * (2 : ℚ) ^ e

/-- The rounding of an exact result to a `double`: a result that rounds to
`2 ^ 1024` or more in size becomes an infinity. -/
def Double.ofRat (q : ℚ) : Double :=
  if q = 0 then Double.fin 0
  else if 0 < q then
    if (2 : ℚ) ^ (1024 : Nat) ≤ Double.roundPos q then Double.posInf
    else Double.fin (Double.roundPos q)
  else
    if (2 : ℚ) ^ (1024 : Nat) ≤ Double.roundPos (-q) then Double.negInf
    else Double.fin (-Double.roundPos (-q))

/-- The conversion of an `int` to `double`. -/
def Double.ofInt (n : Int) : Double := Double.ofRat (n : ℚ)

/-- The comparison `a < b` of two `double` values; it is false when one of
them is not a number. -/
def Double.lt : Double → Double → Bool
  | Double.fin a, Double.fin b => decide (a < b)
  | Double.fin _, Double.posInf => true
  | Double.negInf, Double.fin _ => true
  | Double.negInf, Double.posInf => true
  | _, _ => false

/-- The comparison `a == b` of two `double` values; it is false when one of
them is not a number. -/
def Double.eq : Double → Double → Bool
  | Double.fin a, Double.fin b => decide (a = b)
  | Double.posInf, Double.posInf => true
  | Double.negInf, Double.negInf => true
  | _, _ => false

/-- The comparison `a > b`. -/
def Double.gt (a b : Double) : Bool := Double.lt b a

/-- The comparison `a <= b`. -/
def Double.le (a b : Double) : Bool := Double.lt a b || Double.eq a b

/-- The comparison `a >= b`. -/
def Double.ge (a b : Double) : Bool := Double.le b a

/-- The sum `a + b`. -/
def Double.add : Double → Double → Double
  | Double.fin a, Double.fin b => Double.ofRat (a + b)
  | Double.nan, _ => Double.nan
  | _, Double.nan => Double.nan
  | Double.posInf, Double.negInf => Double.nan
  | Double.negInf, Double.posInf => Double.nan
  | Double.posInf, _ => Double.posInf
  | _, Double.posInf => Double.posInf
  | Double.negInf, _ => Double.negInf
  | _, Double.negInf => Double.negInf

/-- The opposite `-a`. -/
def Double.neg : Double → Double
  | Double.fin a => Double.fin (-a)
  | Double.nan => Double.nan
  | Double.posInf => Double.negInf
  | Double.negInf => Double.posInf

/-- The difference `a - b`. -/
def Double.sub (a b : Double) : Double := Double.add a (Double.neg b)

/-- The sign of a value that is a number: -1, 0 or 1. -/
def Double.sign : Double → Int
  | Double.fin a => if 0 < a then 1 else if a < 0 then -1 else 0
  | Double.posInf => 1
  | Double.negInf => -1
  | Double.nan => 0

/-- The product `a * b`: an infinity times zero is not a number. -/
def Double.mul : Double → Double → Double
  | Double.fin a, Double.fin b => Double.ofRat (a * b)
  | Double.nan, _ => Double.nan
  | _, Double.nan => Double.nan
  | a, b =>
    if Double.sign a * Double.sign b = 0 then Double.nan
    else if 0 < Double.sign a * Double.sign b then Double.posInf
    else Double.negInf

/-- The quotient `a / b`. A zero divisor is taken as the positive zero; no
division by zero occurs in these methods, whose divisors are the constants 4,
100 and 45. -/
def Double.div : Double → Double → Double
  | Double.fin a, Double.fin b =>
    if b = 0 then
      if 0 < a then Double.posInf else if a < 0 then Double.negInf else Double.nan
    else Double.ofRat (a / b)
  | Double.nan, _ => Double.nan
  | _, Double.nan => Double.nan
  | Double.fin _, _ => Double.fin 0
  | Double.posInf, Double.fin b => if b < 0 then Double.negInf else Double.posInf
  | Double.negInf, Double.fin b => if b < 0 then Double.posInf else Double.negInf
  | _, _ => Double.nan

/-- The function `std::max(a, b)`, which is `(a < b) ? b : a`. -/
def Double.max (a b : Double) : Double := if Double.lt a b then b else a

/-- The conversion `static_cast<int>` of a `double` to a 32-bit `int`: the
fractional part is dropped; the behaviour is undefined (`none`) when the value
is not a number, is infinite, or falls outside the range of `int` once
truncated. -/
def Double.toInt : Double → Option Int
  | Double.fin q =>
    if -2147483648 ≤ truncToInt q ∧ truncToInt q ≤ 2147483647 then some (truncToInt q)
    else none
  | _ => none

/-- The data members of `PokerPlayer`, with the balance as a `double`. -/
structure Fp.PokerPlayer where
  id : Int
  type : UserType
  balance : Double
  state : Status
  hand : PokerHand

/-- The constructor `PokerPlayer::PokerPlayer`. -/
def Fp.PokerPlayer.create (id : Int) (type : UserType) (startBal : Double) : Fp.PokerPlayer :=
  { id := id, type := type, balance := startBal, state := Status.WAITING,
    hand := PokerHand.empty }

/-- The method `PokerPlayer::bet(double amount)` in double precision:
`if (amount > balance) return false; balance -= amount; return true;`. -/
def Fp.PokerPlayer.bet (p : Fp.PokerPlayer) (amount : Double) : Bool × Fp.PokerPlayer :=
  if Double.gt amount p.balance then (false, p)
  else (true, { p with balance := Double.sub p.balance amount })

/-- The method `PokerPlayer::setState`. -/
def Fp.PokerPlayer.setState (p : Fp.PokerPlayer) (state : Status) : Fp.PokerPlayer :=
  { p with state := state }

/-- The data members of `PokerEngine`, with the amounts as `double` values. -/
structure Fp.PokerEngine where
  currentPlayerIndex : Int
  currentRound : Int
  ante : Double
  pot : Double
  blind : Double
  players : List Fp.PokerPlayer
  deck : List Card
  discards : List Card

/-- One turn of the loop of `PokerEngine::anteUp` for `player`, in double
precision; the state is the list of the players already handled and the pot. -/
def Fp.PokerEngine.anteStep (ante : Double) (st : List Fp.PokerPlayer × Double)
    (player : Fp.PokerPlayer) : List Fp.PokerPlayer × Double :=
  let r := player.bet ante
  let player := if !r.1 then r.2.setState Status.FOLDED else r.2
  (st.1 ++ [player], Double.add st.2 ante)

/-- The method `PokerEngine::anteUp` in double precision. -/
def Fp.PokerEngine.anteUp (e : Fp.PokerEngine) : Fp.PokerEngine :=
  let st := e.players.foldl (Fp.PokerEngine.anteStep e.ante) ([], e.pot)
  { e with players := st.1, pot := st.2 }

/-- The value of an `AIPokerPlayer::Strategy` enumerator, as an `int`. -/
def Strategy.toInt : Strategy → Int
  | Strategy.AGGRESSIVE => 45
  | Strategy.BALANCED => 20
  | Strategy.CONSERVATIVE => 5

/-- The first value of `minBet` in `AIPokerPlayer::bet`:
`max(blind, balance * (static_cast<double>(strategy) / 100))`. -/
def Fp.AIPokerPlayer.minBet (p : Fp.PokerPlayer) (strategy : Strategy) (blind : Double) :
    Double :=
  Double.max blind
    (Double.mul p.balance (Double.div (Double.ofInt strategy.toInt) (Double.ofInt 100)))

/-- The bound `variance` of `AIPokerPlayer::bet` in double precision:
`static_cast<int>(minBet / 4)`, which is `none` when the conversion is
undefined. -/
def Fp.AIPokerPlayer.variance (p : Fp.PokerPlayer) (strategy : Strategy) (blind : Double) :
    Option Int :=
  Double.toInt (Double.div (Fp.AIPokerPlayer.minBet p strategy blind) (Double.ofInt 4))

/-- The amount `bet` computed by `AIPokerPlayer::bet` in double precision,
before the state of the player is set, when the distribution over
`[0, variance]` has returned `draw`. -/
def Fp.AIPokerPlayer.betAmount (p : Fp.PokerPlayer) (strategy : Strategy) (blind : Double)
    (draw : Int) : Double :=
  let balance := p.balance
  let minBet1 := Double.add (Fp.AIPokerPlayer.minBet p strategy blind) (Double.ofInt draw)
  let minBet := if Double.lt minBet1 blind && Double.ge balance blind then blind else minBet1
  let category := p.hand.getCategory
  let bet0 : Double :=
    match category with
    | Category.HIGH_CARD =>
      if Double.le minBet
          (Double.mul balance
            (Double.div (Double.ofInt strategy.toInt)
              (Double.ofInt Strategy.AGGRESSIVE.toInt))) then minBet
      else Double.fin 0
    | Category.INVALID_HAND => Double.fin 0
    | _ =>
      if Double.lt (Double.mul minBet (Double.ofInt (category.toNat : Int))) balance then
        Double.mul minBet (Double.ofInt (category.toNat : Int))
      else balance
  if Double.gt bet0 balance then balance else bet0

/-- The state that `AIPokerPlayer::bet` sets for the amount `bet`: `fold` for
`bet == 0`, `allIn` for `bet < blind`, `call` for `bet == blind`, `raise`
otherwise. -/
def Fp.AIPokerPlayer.stateFor (bet blind : Double) : Status :=
  if Double.eq bet (Double.ofInt 0) then Status.FOLDED
  else if Double.lt bet blind then Status.ALLIN
  else if Double.eq bet blind then Status.CALLING
  else Status.RAISING

/-- The method `AIPokerPlayer::bet` in double precision: the amount returned
and the player afterwards, when the distribution over `[0, variance]` returns
`draw`. The result is `none` when the behaviour is undefined: the conversion of
`minBet / 4` to `int` is undefined, or the distribution is built on an empty
range. -/
def Fp.AIPokerPlayer.bet (p : Fp.PokerPlayer) (strategy : Strategy) (blind : Double)
    (draw : Int) : Option (Double × Fp.PokerPlayer) :=
  match Fp.AIPokerPlayer.variance p strategy blind with
  | none => none
  | some variance =>
    if variance < 0 then none
    else
      let bet := Fp.AIPokerPlayer.betAmount p strategy blind draw
      some (bet, { p with state := Fp.AIPokerPlayer.stateFor bet blind,
                          balance := Double.sub p.balance bet })

/-- An AI player with a balance of 100 in double precision and the given
cards. -/
def Fp.aiHolding (cards : List Card) : Fp.PokerPlayer :=
  { Fp.PokerPlayer.create 1 UserType.AI (Double.fin 100) with hand := PokerHand.ofCards cards }

/-- The value of the pot after `ante` has been added to it `n` times, each sum
being rounded (`pot += ante` in the loop of `PokerEngine::anteUp`). -/
def Double.addTimes (pot ante : Double) : Nat → Double
  | 0 => pot
  | n + 1 => Double.addTimes (Double.add pot ante) ante n

/-- An engine in double precision before the ante: one new AI player with a
balance of 100 and an ante of `1e-15`, the `double` that `stod` returns for
that text. -/
def Fp.tinyAnteTable : Fp.PokerEngine :=
  { currentPlayerIndex := -1, currentRound := 0, ante := Double.ofRat (1 / 10 ^ 15),
    pot := Double.fin 0, blind := Double.fin 0,
    players := [Fp.PokerPlayer.create 1 UserType.AI (Double.fin 100)],
    deck := Deck.reset [], discards := [] }

/-- An engine in double precision before the ante: an ante of 10 and two new
players, with a balance of 5 and a balance of 100. -/
def Fp.sampleEngine : Fp.PokerEngine :=
  { currentPlayerIndex := -1, currentRound := 0, ante := Double.fin 10,
    pot := Double.fin 0, blind := Double.fin 0,
    players := [Fp.PokerPlayer.create 1 UserType.HUMAN (Double.fin 5),
      Fp.PokerPlayer.create 2 UserType.AI (Double.fin 100)],
    deck := Deck.reset [], discards := [] }

/-- The value of an enumerator of `Card::ORIENTATION`: `FACE_DOWN = 0`,
`FACE_UP = 1`. -/
def Orientation.toInt : Orientation → Int
  | Orientation.FACE_DOWN => 0
  | Orientation.FACE_UP => 1

/-- A `Card` object with the value that its member `orientation` holds. -/
structure StoredCard where
  rank : Char
  suit : Char
  orientation : Int
  deriving DecidableEq, Repr

/-- The constructor `Card::Card(string token)`: `rank = token.at(0)`,
`suit = token.at(1)`, and nothing is written to `orientation`, which keeps the
value `mem` that the storage of the object held. -/
def StoredCard.ofToken (mem : Int) : List Char → Option StoredCard
  | r :: s :: _ => some ⟨r, s, mem⟩
  | _ => none

/-- The constructor `Card::Card(string token, ORIENTATION orientation)`. -/
def StoredCard.ofTokenOriented (orientation : Orientation) : List Char → Option StoredCard
  | r :: s :: _ => some ⟨r, s, orientation.toInt⟩
  | _ => none

/-- The method `Card::getOrientation`. -/
def StoredCard.getOrientation (c : StoredCard) : Int := c.orientation

/-- The method `Card::flip`:
`orientation = orientation == FACE_UP ? FACE_DOWN : FACE_UP`. -/
def StoredCard.flip (c : StoredCard) : StoredCard :=
  { c with
    orientation :=
      if c.orientation = Orientation.FACE_UP.toInt then Orientation.FACE_DOWN.toInt
      else Orientation.FACE_UP.toInt }

/-- The method `Deck::reset` on stored cards: one card `Card(string(1, rank) + suit)`
for each suit and each rank; `mem rank suit` is the value that the storage of
that card held. -/
def Deck.resetStored (mem : Char → Char → Int) : List StoredCard :=
  Card.suits.flatMap fun suit =>
    Card.ranks.filterMap fun rank => StoredCard.ofToken (mem rank suit) [rank, suit]

/-- The method `Deck::deal` on stored cards:
`if (card->getOrientation() != orientation) card->flip(); remove(card);`. -/
def Deck.dealStored (cards : List StoredCard) (orientation : Orientation) :
    Option StoredCard × List StoredCard :=
  match cards.getLast? with
  | none => (none, cards)
  | some card =>
    let dealt := if card.getOrientation ≠ orientation.toInt then card.flip else card
    (some dealt, cards.filter fun c => c != card)

/-- A card whose orientation has been set, as a stored card. -/
def Card.toStored (c : Card) : StoredCard := ⟨c.rank, c.suit, c.orientation.toInt⟩

end PokerGame

/-! # Theorems -/

namespace PokerGame

open PokerHand

/-! ## Comparison and validity -/

theorem process_valid (h : PokerHand) : (process h).valid = validate h.cards := rfl

theorem process_invalid_detail (h : PokerHand) (hv : validate h.cards = false) :
    (process h).detail = ⟨Category.INVALID_HAND, 0⟩ := by
  simp [process, compute, hv]

theorem compare_invalid_left (a b : PokerHand) (ha : a.valid = false) :
    a.compare b = Comparison.INVALID_COMPARISON := by
  simp [PokerHand.compare, PokerHand.isValid, ha]

theorem compare_invalid_right (a b : PokerHand) (hb : b.valid = false) :
    a.compare b = Comparison.INVALID_COMPARISON := by
  simp [PokerHand.compare, PokerHand.isValid, hb]

/-- C4: `compare` returns `INVALID_COMPARISON` exactly when one of the two hands
is invalid; for two valid hands it returns `WINNER_SELF`, `WINNER_OTHER` or
`EQUAL_HAND` according to whether the score of the first is greater than, less
than or equal to that of the second. Hence a valid hand compared with itself
gives `EQUAL_HAND`, and `a.compare b` is `WINNER_SELF` exactly when
`b.compare a` is `WINNER_OTHER`. -/
theorem compare_spec (a b : PokerHand) :
    (a.compare b = Comparison.INVALID_COMPARISON ↔
        (a.isValid = false ∨ b.isValid = false)) ∧
    (a.isValid = true ∧ b.isValid = true →
        (a.compare b = Comparison.WINNER_SELF ↔ a.getScore > b.getScore) ∧
        (a.compare b = Comparison.WINNER_OTHER ↔ a.getScore < b.getScore) ∧
        (a.compare b = Comparison.EQUAL_HAND ↔ a.getScore = b.getScore)) ∧
    (a.isValid = true → a.compare a = Comparison.EQUAL_HAND) ∧
    (a.compare b = Comparison.WINNER_SELF ↔ b.compare a = Comparison.WINNER_OTHER) := by
  refine ⟨?_, ?_, ?_, ?_⟩
  · unfold PokerHand.compare
    cases ha : a.isValid <;> cases hb : b.isValid <;> simp
    split_ifs <;> simp
  · rintro ⟨ha, hb⟩
    unfold PokerHand.compare
    simp only [ha, hb, Bool.and_self, if_true]
    refine ⟨?_, ?_, ?_⟩
    · split_ifs <;> simp_all
    · split_ifs with h1 h2 <;> simp_all
      omega
    · split_ifs with h1 h2 <;> simp_all <;> omega
  · intro ha
    simp [PokerHand.compare, ha]
  · unfold PokerHand.compare
    cases ha : a.isValid <;> cases hb : b.isValid <;> simp
    split_ifs <;> simp_all
    all_goals omega

/-- Witness of `compare_spec` on the wheel straight and the six-high
straight. -/
theorem compare_spec_witness :
    (ofCards wheelCards).compare (ofCards sixHighCards) = Comparison.WINNER_OTHER ↔
      (ofCards wheelCards).getScore < (ofCards sixHighCards).getScore :=
  ((compare_spec (ofCards wheelCards) (ofCards sixHighCards)).2.1
    ⟨by decide, by decide⟩).2.1

/-- C5 (the code departs from the invariant): `validate` checks the number of
cards and the validity of each card only, so the five cards `2D 2D AS 7C KD`,
which hold the face `2D` twice, make a hand that `isValid` accepts and that is
classified as one pair. -/
theorem duplicate_cards_hand_is_valid :
    (ofCards duplicateCards).isValid = true ∧
    ¬ (duplicateCards.map Card.face).Nodup ∧
    (ofCards duplicateCards).getCategory = Category.ONE_PAIR := by
  decide

/-! ## From cards to values -/

theorem compute_eq_detailV (cards : List Card) :
    compute true cards = detailV (isFlush cards) (cards.map Card.getValue) := rfl

theorem ofCards_detail (cs : List Card) (hv : validate cs = true) :
    (ofCards cs).detail = detailV (isFlush (sortCards cs)) (handValues cs) := by
  unfold ofCards process
  simp only [hv]
  exact compute_eq_detailV _

theorem sortCards_perm (cs : List Card) : (sortCards cs).Perm cs :=
  List.perm_insertionSort _ cs

theorem handValues_perm (cs : List Card) :
    (handValues cs).Perm (cs.map Card.getValue) :=
  (sortCards_perm cs).map _

theorem handValues_sorted (cs : List Card) : (handValues cs).Sorted (· ≤ ·) := by
  haveI : IsTotal Card (fun a b => a.getValue ≤ b.getValue) :=
    ⟨fun a b => le_total a.getValue b.getValue⟩
  haveI : IsTrans Card (fun a b => a.getValue ≤ b.getValue) :=
    ⟨fun a b c hab hbc => le_trans hab hbc⟩
  have h := List.sorted_insertionSort (fun a b : Card => a.getValue ≤ b.getValue) cs
  unfold handValues sortCards
  exact (List.pairwise_map.mpr h)

theorem handValues_length (cs : List Card) : (handValues cs).length = cs.length := by
  rw [(handValues_perm cs).length_eq, List.length_map]

theorem rank_mem_cases (r : Char) (h : r ∈ Card.ranks) :
    r = '2' ∨ r = '3' ∨ r = '4' ∨ r = '5' ∨ r = '6' ∨ r = '7' ∨ r = '8' ∨ r = '9' ∨
    r = 'T' ∨ r = 'J' ∨ r = 'Q' ∨ r = 'K' ∨ r = 'A' := by
  simpa [Card.ranks] using h

theorem getValue_range (c : Card) (h : c.isValid = true) :
    2 ≤ c.getValue ∧ c.getValue ≤ 14 := by
  have hr : c.rank ∈ Card.ranks := by
    simp only [Card.isValid, Bool.and_eq_true, decide_eq_true_eq] at h
    exact h.1
  rcases rank_mem_cases _ hr with h | h | h | h | h | h | h | h | h | h | h | h | h <;>
    (unfold Card.getValue; rw [h]; decide)

theorem getValue_inj (c d : Card) (hc : c.isValid = true) (hd : d.isValid = true)
    (h : c.getValue = d.getValue) : c.rank = d.rank := by
  have hr : c.rank ∈ Card.ranks := by
    simp only [Card.isValid, Bool.and_eq_true, decide_eq_true_eq] at hc
    exact hc.1
  have hs : d.rank ∈ Card.ranks := by
    simp only [Card.isValid, Bool.and_eq_true, decide_eq_true_eq] at hd
    exact hd.1
  unfold Card.getValue at h
  rcases rank_mem_cases _ hr with h1 | h1 | h1 | h1 | h1 | h1 | h1 | h1 | h1 | h1 | h1 | h1 | h1 <;>
  rcases rank_mem_cases _ hs with h2 | h2 | h2 | h2 | h2 | h2 | h2 | h2 | h2 | h2 | h2 | h2 | h2 <;>
    (rw [h1, h2] at h ⊢) <;> first | rfl | (exact absurd h (by decide))

/-! ## The rank map -/

theorem rcount_nil (v : Int) : rcount [] v = 0 := rfl

theorem rcount_cons (k : Int) (n : Nat) (m : List (Int × Nat)) (v : Int) :
    rcount ((k, n) :: m) v = if k = v then n else rcount m v := by
  unfold rcount
  by_cases h : k = v
  · simp [List.find?_cons, h]
  · simp [List.find?_cons, h]

theorem rcount_eq_zero (m : List (Int × Nat)) (v : Int) (h : ∀ p ∈ m, p.1 ≠ v) :
    rcount m v = 0 := by
  induction m with
  | nil => rfl
  | cons p m ih =>
    obtain ⟨k, n⟩ := p
    rw [rcount_cons, if_neg (h (k, n) (List.mem_cons_self _ _))]
    exact ih (fun q hq => h q (List.mem_cons_of_mem _ hq))

theorem mapOk_nil : MapOk [] := ⟨List.sorted_nil, by simp⟩

theorem mem_bump (v : Int) (m : List (Int × Nat)) (p : Int × Nat) (hp : p ∈ bump v m) :
    p.1 = v ∨ p ∈ m := by
  induction m with
  | nil => simp [bump] at hp; left; rw [hp]
  | cons q m ih =>
    obtain ⟨k, n⟩ := q
    unfold bump at hp
    split_ifs at hp with h1 h2
    · rcases List.mem_cons.mp hp with h | h
      · left; rw [h]
      · right; exact h
    · rcases List.mem_cons.mp hp with h | h
      · left; rw [h]; exact h2.symm
      · right; exact List.mem_cons_of_mem _ h
    · rcases List.mem_cons.mp hp with h | h
      · right; rw [h]; exact List.mem_cons_self _ _
      · rcases ih h with h' | h'
        · left; exact h'
        · right; exact List.mem_cons_of_mem _ h'

theorem bump_ok (v : Int) (m : List (Int × Nat)) (hm : MapOk m) : MapOk (bump v m) := by
  induction m with
  | nil => exact ⟨by simp [bump], by simp [bump]⟩
  | cons q m ih =>
    obtain ⟨k, n⟩ := q
    obtain ⟨hs, hpos⟩ := hm
    have hs' := hs
    simp only [List.map_cons, List.sorted_cons] at hs
    have hm' : MapOk m := ⟨hs.2, fun p hp => hpos p (List.mem_cons_of_mem _ hp)⟩
    unfold bump
    split_ifs with h1 h2
    · refine ⟨?_, ?_⟩
      · simp only [List.map_cons, List.sorted_cons]
        refine ⟨?_, hs⟩
        intro b hb
        rcases List.mem_cons.mp hb with h | h
        · rw [h]; exact h1
        · exact lt_trans h1 (hs.1 b h)
      · intro p hp
        rcases List.mem_cons.mp hp with h | h
        · rw [h]; exact Nat.one_pos
        · exact hpos p h
    · refine ⟨?_, ?_⟩
      · simpa using hs
      · intro p hp
        rcases List.mem_cons.mp hp with h | h
        · rw [h]; exact Nat.succ_pos _
        · exact hpos p (List.mem_cons_of_mem _ h)
    · have hkv : k < v := lt_of_le_of_ne (not_lt.mp h1) (fun h => h2 h.symm)
      obtain ⟨ihs, ihp⟩ := ih hm'
      refine ⟨?_, ?_⟩
      · simp only [List.map_cons, List.sorted_cons]
        refine ⟨?_, ihs⟩
        intro b hb
        obtain ⟨p, hp, rfl⟩ := List.mem_map.mp hb
        rcases mem_bump v m p hp with h | h
        · rw [h]; exact hkv
        · exact hs.1 _ (List.mem_map_of_mem _ h)
      · intro p hp
        rcases List.mem_cons.mp hp with h | h
        · rw [h]; exact hpos _ (List.mem_cons_self _ _)
        · exact ihp p h

theorem rcount_bump (v : Int) (m : List (Int × Nat)) (hm : MapOk m) (x : Int) :
    rcount (bump v m) x = rcount m x + (if v = x then 1 else 0) := by
  induction m with
  | nil => simp [bump, rcount_cons, rcount_nil]
  | cons q m ih =>
    obtain ⟨k, n⟩ := q
    obtain ⟨hs, hpos⟩ := hm
    simp only [List.map_cons, List.sorted_cons] at hs
    have hm' : MapOk m := ⟨hs.2, fun p hp => hpos p (List.mem_cons_of_mem _ hp)⟩
    unfold bump
    by_cases h1 : v < k
    · rw [if_pos h1, rcount_cons]
      by_cases h2 : v = x
      · rw [if_pos h2, if_pos h2, rcount_cons, if_neg (by omega), rcount_eq_zero m x, Nat.zero_add]
        intro p hp
        have := hs.1 p.1 (List.mem_map_of_mem _ hp)
        omega
      · rw [if_neg h2, if_neg h2, Nat.add_zero]
    · rw [if_neg h1]
      by_cases h2 : v = k
      · rw [if_pos h2, rcount_cons, rcount_cons]
        subst h2
        by_cases h3 : v = x
        · simp [h3]
        · simp [h3]
      · rw [if_neg h2, rcount_cons, rcount_cons, ih hm']
        by_cases h3 : k = x
        · have h4 : ¬ v = x := fun h => h2 (h.trans h3.symm)
          simp [h3, h4]
        · simp [h3]

theorem countRanks_foldl_ok (vals : List Int) (m : List (Int × Nat)) (hm : MapOk m) :
    MapOk (vals.foldl (fun m v => bump v m) m) := by
  induction vals generalizing m with
  | nil => exact hm
  | cons v vals ih => exact ih _ (bump_ok v m hm)

theorem countRanks_ok (vals : List Int) : MapOk (countRanks vals) :=
  countRanks_foldl_ok vals [] mapOk_nil

theorem rcount_foldl (vals : List Int) (m : List (Int × Nat)) (hm : MapOk m) (x : Int) :
    rcount (vals.foldl (fun m v => bump v m) m) x = rcount m x + vals.count x := by
  induction vals generalizing m with
  | nil => simp
  | cons v vals ih =>
    rw [List.foldl_cons, ih _ (bump_ok v m hm), rcount_bump v m hm, List.count_cons]
    by_cases h : v = x
    · simp [h]; omega
    · simp [h]

theorem rcount_countRanks (vals : List Int) (x : Int) :
    rcount (countRanks vals) x = vals.count x := by
  unfold countRanks
  rw [rcount_foldl vals [] mapOk_nil, rcount_nil, Nat.zero_add]

theorem rcount_of_mem (m : List (Int × Nat)) (hm : MapOk m) (p : Int × Nat) (hp : p ∈ m) :
    rcount m p.1 = p.2 := by
  induction m with
  | nil => cases hp
  | cons q m ih =>
    obtain ⟨k, n⟩ := q
    obtain ⟨hs, hpos⟩ := hm
    simp only [List.map_cons, List.sorted_cons] at hs
    have hm' : MapOk m := ⟨hs.2, fun p hp => hpos p (List.mem_cons_of_mem _ hp)⟩
    rw [rcount_cons]
    rcases List.mem_cons.mp hp with h | h
    · rw [h]; simp
    · have := hs.1 p.1 (List.mem_map_of_mem _ h)
      rw [if_neg (by omega)]
      exact ih hm' h

theorem mem_of_rcount_pos (m : List (Int × Nat)) (x : Int) (h : 0 < rcount m x) :
    (x, rcount m x) ∈ m := by
  induction m with
  | nil => simp [rcount_nil] at h
  | cons q m ih =>
    obtain ⟨k, n⟩ := q
    rw [rcount_cons] at h ⊢
    by_cases hk : k = x
    · rw [if_pos hk, hk]; exact List.mem_cons_self _ _
    · rw [if_neg hk] at h ⊢
      exact List.mem_cons_of_mem _ (ih h)

/-- The entries of the rank map are exactly the pairs (value, number of cards
of that value) for the values present. -/
theorem mem_countRanks (vals : List Int) (k : Int) (n : Nat) :
    (k, n) ∈ countRanks vals ↔ n = vals.count k ∧ 0 < n := by
  constructor
  · intro h
    have h1 := rcount_of_mem _ (countRanks_ok vals) _ h
    rw [rcount_countRanks] at h1
    exact ⟨h1.symm, (countRanks_ok vals).2 _ h⟩
  · rintro ⟨h1, h2⟩
    have h3 : 0 < rcount (countRanks vals) k := by rw [rcount_countRanks, ← h1]; exact h2
    have h4 := mem_of_rcount_pos _ k h3
    rw [rcount_countRanks, ← h1] at h4
    exact h4

/-! ## Hands built from a text -/

theorem cardsOfTokens_total (ts : List (List Char)) (h : ∀ t ∈ ts, 2 ≤ t.length) :
    ∃ cs, cardsOfTokens ts = some cs ∧ cs.length = ts.length := by
  induction ts with
  | nil => exact ⟨[], rfl, rfl⟩
  | cons t ts ih =>
    obtain ⟨cs, hcs, hlen⟩ := ih (fun x hx => h x (List.mem_cons_of_mem _ hx))
    have ht := h t (List.mem_cons_self _ _)
    match t, ht with
    | r :: s :: rest, _ =>
      exact ⟨⟨r, s, Orientation.FACE_DOWN⟩ :: cs, by simp [cardsOfTokens, Card.ofToken, hcs],
        by simp [hlen]⟩

theorem validate_length (cs : List Card) (h : validate cs = true) : cs.length = 5 := by
  unfold validate at h
  split_ifs at h with h1
  simpa [VALID_COUNT] using h1

/-- C7: a text whose tokens all have two characters and whose number of
distinct tokens is not five yields a hand that is not valid, has category
`INVALID_HAND` and score 0, and whose comparison with any hand, in either
direction, is `INVALID_COMPARISON`. -/
theorem notation_wrong_count_invalid (text : List Char)
    (htok : ∀ t ∈ tokenize text, t.length = 2)
    (hcnt : (tokenize text).toFinset.card ≠ 5) :
    ∃ h, ofNotation text = some h ∧ h.isValid = false ∧
      h.getCategory = Category.INVALID_HAND ∧ h.getScore = 0 ∧
      ∀ other : PokerHand,
        h.compare other = Comparison.INVALID_COMPARISON ∧
        other.compare h = Comparison.INVALID_COMPARISON := by
  obtain ⟨cs, hcs, hlen⟩ := cardsOfTokens_total (tokenize text).dedup
    (fun t ht => by rw [htok t (List.mem_dedup.mp ht)])
  have hne : cs.length ≠ 5 := by
    rw [hlen, ← List.card_toFinset]; exact hcnt
  have hval : validate cs = false := by
    cases hv : validate cs
    · rfl
    · exact absurd (validate_length cs hv) hne
  have hv : (ofCards cs).valid = false := by
    rw [ofCards, process_valid]; exact hval
  have hd : (ofCards cs).detail = ⟨Category.INVALID_HAND, 0⟩ :=
    process_invalid_detail _ hval
  refine ⟨ofCards cs, ?_, hv, ?_, ?_, ?_⟩
  · unfold ofNotation parse
    rw [hcs]; rfl
  · rw [PokerHand.getCategory, hd]
  · rw [PokerHand.getScore, hd]
  · intro other
    exact ⟨compare_invalid_left _ _ hv, compare_invalid_right _ _ hv⟩

/-- Witness of `notation_wrong_count_invalid` on the six-token text
`3D 9H 7S 5C TD JH`. -/
theorem notation_wrong_count_invalid_witness :
    ∃ h, ofNotation "3D 9H 7S 5C TD JH".toList = some h ∧ h.isValid = false ∧
      h.getCategory = Category.INVALID_HAND ∧ h.getScore = 0 ∧
      ∀ other : PokerHand,
        h.compare other = Comparison.INVALID_COMPARISON ∧
        other.compare h = Comparison.INVALID_COMPARISON :=
  notation_wrong_count_invalid "3D 9H 7S 5C TD JH".toList (by decide) (by decide)

/-- C10 (the code departs from the claim): in the text `2D 2D AS 7C KD 3H` the
token `2D` appears twice, yet the set of tokens has five elements, so the
constructed hand is valid (a high-card hand) and its score is not 0. -/
theorem repeated_token_hand_is_valid :
    (tokenize "2D 2D AS 7C KD 3H".toList).count "2D".toList = 2 ∧
    (ofNotation "2D 2D AS 7C KD 3H".toList).map
        (fun h => (h.isValid, h.getCategory, h.getScore)) =
      some (true, Category.HIGH_CARD, 6179) := by
  decide

/-! ## The ordinality -/

theorem ordinalityStep_fold (rcnts : List (Int × Nat)) (vs : List Int) (o : Nat) (j : Int)
    (hj : j ≤ 5) :
    (vs.foldl (ordinalityStep rcnts 0) (o, j)).1 =
      vs.foldl (fun o v => o ||| rankBits (rcount rcnts v) v) o := by
  induction vs generalizing o j with
  | nil => rfl
  | cons v vs ih =>
    rw [List.foldl_cons, List.foldl_cons]
    have hstep : ordinalityStep rcnts 0 (o, j) v =
        (o ||| rankBits (rcount rcnts v) v, j - 1) := by
      unfold ordinalityStep rankBits
      have : (VALID_COUNT : Int) - 0 ≥ j := by simp [VALID_COUNT]; omega
      simp only [this, if_true]
      split_ifs
      · rw [Nat.lor_assoc]
      · simp
    rw [hstep]
    exact ih _ _ (by omega)

theorem ordinalityV_eq (vals : List Int) :
    ordinalityV vals = vals.foldl (fun o v => o ||| rankBits (vals.count v) v) 0 := by
  unfold ordinalityV
  rw [ordinalityStep_fold _ _ _ _ (by simp [VALID_COUNT])]
  congr 1
  funext o v
  rw [rcount_countRanks]

theorem testBit_foldl_or {α : Type} (f : α → Nat) (l : List α) (o : Nat) (k : Nat) :
    (l.foldl (fun o v => o ||| f v) o).testBit k =
      (o.testBit k || l.any (fun v => (f v).testBit k)) := by
  induction l generalizing o with
  | nil => simp
  | cons a l ih =>
    rw [List.foldl_cons, ih, Nat.testBit_or, List.any_cons, Bool.or_assoc]

theorem shl64_pow (a : Nat) (n : Int) (h0 : 0 ≤ n) (h : a + n.toNat < 64) :
    shl64 (2 ^ a) n = 2 ^ (a + n.toNat) := by
  unfold shl64
  have h1 : n < 64 := by omega
  rw [if_pos ⟨h0, h1⟩, Nat.shiftLeft_eq, ← Nat.pow_add]
  exact Nat.mod_eq_of_lt (Nat.pow_lt_pow_right (by norm_num) h)

theorem shl64_one (n : Int) (h0 : 0 ≤ n) (h : n.toNat < 64) :
    shl64 1 n = 2 ^ n.toNat := by
  have := shl64_pow 0 n h0 (by omega)
  simpa using this

theorem rankBits_eq (c : Nat) (v : Int) (hv : 2 ≤ v ∧ v ≤ 14) (hc : c ≤ 4) :
    rankBits c v =
      2 ^ (v - 2).toNat ||| (if c > 1 then 2 ^ ((v - 2).toNat + 13 * (c - 1)) else 0) := by
  unfold rankBits
  have hi : (v - 2).toNat < 13 := by omega
  rw [shl64_one (v - 2) (by omega) (by omega)]
  by_cases h : c > 1
  · rw [if_pos h, if_pos h]
    have e1 : ((((c : Int) - 2) * 13)).toNat = 13 * (c - 2) := by omega
    rw [shl64_pow _ _ (by omega) (by omega), e1, shl64_pow _ _ (by omega) (by simp; omega)]
    congr 2
    simp
    omega
  · rw [if_neg h, if_neg h]

theorem testBit_rankBits (c : Nat) (v : Int) (hv : 2 ≤ v ∧ v ≤ 14) (hc : c ≤ 4) (k : Nat) :
    (rankBits c v).testBit k = true ↔
      k = (v - 2).toNat ∨ (1 < c ∧ k = (v - 2).toNat + 13 * (c - 1)) := by
  rw [rankBits_eq c v hv hc, Nat.testBit_or, Bool.or_eq_true, Nat.testBit_two_pow]
  by_cases h : c > 1
  · rw [if_pos h, Nat.testBit_two_pow]
    simp only [decide_eq_true_eq]
    constructor
    · rintro (h1 | h1)
      · left; exact h1.symm
      · right; exact ⟨h, h1.symm⟩
    · rintro (h1 | ⟨_, h1⟩)
      · left; exact h1.symm
      · right; exact h1.symm
  · rw [if_neg h]
    simp only [decide_eq_true_eq, Nat.zero_testBit, Bool.false_eq_true, or_false]
    constructor
    · intro h1; left; exact h1.symm
    · rintro (h1 | ⟨h1, _⟩)
      · exact h1.symm
      · exact absurd h1 h

/-- Bit `k` of the ordinality is set exactly when `k` is the presence bit
`value - 2` of a value in the hand, or the count bit
`value - 2 + 13 * (count - 1)` of a value that occurs more than once. -/
theorem testBit_ordinalityV (vals : List Int) (h : ValsOk vals) (k : Nat) :
    (ordinalityV vals).testBit k = true ↔
      ∃ v ∈ vals, k = (v - 2).toNat ∨
        (1 < vals.count v ∧ k = (v - 2).toNat + 13 * (vals.count v - 1)) := by
  rw [ordinalityV_eq, testBit_foldl_or]
  simp only [Nat.zero_testBit, Bool.false_or, List.any_eq_true]
  constructor
  · rintro ⟨v, hv, hb⟩
    exact ⟨v, hv, (testBit_rankBits _ v (h.1 v hv) (h.2 v hv) k).mp hb⟩
  · rintro ⟨v, hv, hb⟩
    exact ⟨v, hv, (testBit_rankBits _ v (h.1 v hv) (h.2 v hv) k).mpr hb⟩

theorem ordinalityV_lt (vals : List Int) (h : ValsOk vals) : ordinalityV vals < 2 ^ 52 := by
  apply Nat.lt_pow_two_of_testBit
  intro k hk
  by_contra hb
  rw [Bool.not_eq_false] at hb
  obtain ⟨v, hv, hb⟩ := (testBit_ordinalityV vals h k).mp hb
  have h1 := h.1 v hv
  have h2 := h.2 v hv
  rcases hb with hb | ⟨_, hb⟩ <;> omega

/-! ## Score of a valid hand -/

theorem toInt64_of_lt (p : Nat) (h : p < 2 ^ 63) : toInt64 p = (p : Int) := by
  unfold toInt64
  have h1 : p % 2 ^ 64 = p := Nat.mod_eq_of_lt (by omega)
  rw [h1, if_pos h]

theorem categoryBaseV_range (vals : List Int) (cat : Category) :
    0 ≤ categoryBaseV vals cat ∧ categoryBaseV vals cat ≤ 11 := by
  unfold categoryBaseV
  cases cat <;> simp [Category.toNat] <;> split_ifs <;> omega

/-- The score of a valid hand is `categoryBase * 2^52 + ordinality` when the
ordinality fits in 52 bits. -/
theorem detailV_score (fl : Bool) (vals : List Int) (h : ordinalityV vals < 2 ^ 52) :
    (detailV fl vals).score =
      categoryBaseV vals (classifyV fl vals) * 2 ^ 52 + (ordinalityV vals : Int) := by
  unfold detailV
  simp only
  obtain ⟨h0, h1⟩ := categoryBaseV_range vals (classifyV fl vals)
  generalize categoryBaseV vals (classifyV fl vals) = b at h0 h1
  obtain ⟨n, rfl⟩ := Int.eq_ofNat_of_zero_le h0
  have hn : n ≤ 11 := by omega
  have e1 : shl64 ((n : Int).toNat % 2 ^ 64) HBWIDTH = 2 ^ 52 * n := by
    unfold shl64 HBWIDTH
    simp only [Int.toNat_ofNat]
    have : n % 2 ^ 64 = n := Nat.mod_eq_of_lt (by omega)
    rw [this, if_pos (by omega), Nat.shiftLeft_eq]
    have : (52 : Int).toNat = 52 := rfl
    rw [this, Nat.mul_comm]
    exact Nat.mod_eq_of_lt (by omega)
  rw [e1, Nat.lor_comm, ← Nat.mul_add_lt_is_or h, toInt64_of_lt _ (by omega)]
  push_cast
  ring

theorem distinct5_validate (cs : List Card) (h : Distinct5 cs) : validate cs = true := by
  unfold validate
  rw [if_neg (by simp [h.1, VALID_COUNT])]
  exact List.all_eq_true.mpr h.2.1

theorem count_values_le_four (cs : List Card) (h : Distinct5 cs) (v : Int) :
    (cs.map Card.getValue).count v ≤ 4 := by
  obtain ⟨_, hval, hnd⟩ := h
  rw [List.count_eq_countP, List.countP_map, List.countP_eq_length_filter]
  set l := cs.filter ((fun x => x == v) ∘ Card.getValue) with hl
  have hsub : l.Sublist cs := List.filter_sublist _
  have hmem : ∀ x ∈ l, x ∈ cs ∧ x.getValue = v := by
    intro x hx
    have := List.mem_filter.mp hx
    exact ⟨this.1, by simpa using this.2⟩
  have hndl : (l.map Card.face).Nodup := hnd.sublist (hsub.map _)
  have hinj := List.inj_on_of_nodup_map hndl
  have hsuit : (l.map Card.suit).Nodup := by
    apply List.Nodup.map_on _ (List.Nodup.of_map _ hndl)
    intro x hx y hy hxy
    apply hinj hx hy
    have hr : x.rank = y.rank :=
      getValue_inj x y (hval x (hmem x hx).1) (hval y (hmem y hy).1)
        ((hmem x hx).2.trans (hmem y hy).2.symm)
    simp [Card.face, hr, hxy]
  have hss : l.map Card.suit ⊆ Card.suits := by
    intro s hs
    obtain ⟨x, hx, rfl⟩ := List.mem_map.mp hs
    have := hval x (hmem x hx).1
    simp only [Card.isValid, Bool.and_eq_true, decide_eq_true_eq] at this
    exact this.2
  have := (List.subperm_of_subset hsuit hss).length_le
  simpa [Card.suits] using this

theorem distinct5_valsOk (cs : List Card) (h : Distinct5 cs) : ValsOk (handValues cs) := by
  refine ⟨?_, ?_⟩
  · intro v hv
    rw [(handValues_perm cs).mem_iff] at hv
    obtain ⟨c, hc, rfl⟩ := List.mem_map.mp hv
    exact getValue_range c (h.2.1 c hc)
  · intro v _
    rw [(handValues_perm cs).count_eq]
    exact count_values_le_four cs h v

theorem isFlush_iff (l : List Card) :
    isFlush l = true ↔ ∀ x ∈ l, ∀ y ∈ l, x.suit = y.suit := by
  cases l with
  | nil => simp [isFlush]
  | cons c rest =>
    unfold isFlush
    rw [List.all_eq_true]
    constructor
    · intro h x hx y hy
      have h1 := h x hx
      have h2 := h y hy
      simp only [beq_iff_eq] at h1 h2
      rw [h1, h2]
    · intro h x hx
      simp only [beq_iff_eq]
      exact h x hx c (List.mem_cons_self _ _)

/-- In a flush of five distinct cards no value repeats. -/
theorem flush_values_nodup (cs : List Card) (h : Distinct5 cs)
    (hf : isFlush (sortCards cs) = true) : (handValues cs).Nodup := by
  obtain ⟨_, hval, hnd⟩ := h
  have hp := sortCards_perm cs
  have hnd' : ((sortCards cs).map Card.face).Nodup := (hp.map _).nodup_iff.mpr hnd
  have hinj := List.inj_on_of_nodup_map hnd'
  rw [isFlush_iff] at hf
  unfold handValues
  apply List.Nodup.map_on _ (List.Nodup.of_map _ hnd')
  intro x hx y hy hxy
  apply hinj hx hy
  have hr : x.rank = y.rank :=
    getValue_inj x y (hval x (hp.mem_iff.mp hx)) (hval y (hp.mem_iff.mp hy)) hxy
  simp [Card.face, hr, hf x hx y hy]

/-- Score of a hand of five distinct valid cards. -/
theorem ofCards_score (cs : List Card) (h : Distinct5 cs) :
    (ofCards cs).getScore =
      categoryBaseV (handValues cs) (ofCards cs).getCategory * 2 ^ 52 +
        (ordinalityV (handValues cs) : Int) := by
  unfold PokerHand.getScore PokerHand.getCategory
  rw [ofCards_detail cs (distinct5_validate cs h)]
  exact detailV_score _ _ (ordinalityV_lt _ (distinct5_valsOk cs h))

theorem ofCards_valid (cs : List Card) (h : Distinct5 cs) : (ofCards cs).isValid = true := by
  unfold PokerHand.isValid ofCards
  rw [process_valid]
  exact distinct5_validate cs h

theorem ofCards_category (cs : List Card) (h : Distinct5 cs) :
    (ofCards cs).getCategory = classifyV (isFlush (sortCards cs)) (handValues cs) := by
  unfold PokerHand.getCategory
  rw [ofCards_detail cs (distinct5_validate cs h)]
  rfl

theorem categoryBaseV_lt (vals vals' : List Int) (c c' : Category)
    (h : c.toNat < c'.toNat) : categoryBaseV vals c < categoryBaseV vals' c' := by
  unfold categoryBaseV
  cases c <;> cases c' <;> simp [Category.toNat] at h ⊢ <;> split_ifs <;> omega

/-! ## The category dominates the score -/

/-- C2: for two hands of five pairwise-distinct valid cards, a higher category
gives a higher score, whatever the ranks (wheels included), and `compare`
returns `WINNER_SELF` for the hand of the higher category. -/
theorem higher_category_higher_score (a b : List Card)
    (ha : Distinct5 a) (hb : Distinct5 b)
    (hcat : (ofCards b).getCategory.toNat < (ofCards a).getCategory.toNat) :
    (ofCards a).getScore > (ofCards b).getScore ∧
    (ofCards a).compare (ofCards b) = Comparison.WINNER_SELF := by
  have hlt : (ofCards b).getScore < (ofCards a).getScore := by
    rw [ofCards_score a ha, ofCards_score b hb]
    have h1 := categoryBaseV_lt (handValues b) (handValues a) _ _ hcat
    have h2 := ordinalityV_lt _ (distinct5_valsOk b hb)
    have h3 : (ordinalityV (handValues b) : Int) < 2 ^ 52 := by exact_mod_cast h2
    have h4 : (0 : Int) ≤ (ordinalityV (handValues a) : Int) := Int.ofNat_nonneg _
    generalize categoryBaseV (handValues b) (ofCards b).getCategory = x at h1 ⊢
    generalize categoryBaseV (handValues a) (ofCards a).getCategory = y at h1 ⊢
    omega
  refine ⟨hlt, ?_⟩
  unfold PokerHand.compare
  rw [ofCards_valid a ha, ofCards_valid b hb]
  simp [hlt]

/-- Witness of `higher_category_higher_score`: the lowest four of a kind beats
the highest full house. -/
theorem higher_category_higher_score_witness :
    (ofCards lowQuadsCards).getScore > (ofCards highFullHouseCards).getScore ∧
    (ofCards lowQuadsCards).compare (ofCards highFullHouseCards) = Comparison.WINNER_SELF :=
  higher_category_higher_score lowQuadsCards highFullHouseCards
    (by decide) (by decide) (by decide)

/-! ## Suits outside flushes -/

theorem handValues_eq_of_rank_perm (a b : List Card)
    (hr : (a.map Card.rank).Perm (b.map Card.rank)) : handValues a = handValues b := by
  have h1 : (a.map Card.getValue).Perm (b.map Card.getValue) := by
    have := hr.map Card.rankValue
    simpa [List.map_map, Function.comp_def, Card.getValue] using this
  have h2 : (handValues a).Perm (handValues b) :=
    ((handValues_perm a).trans h1).trans (handValues_perm b).symm
  exact List.eq_of_perm_of_sorted h2 (handValues_sorted a) (handValues_sorted b)

theorem classifyV_flag_irrelevant (vals : List Int)
    (h1 : classifyV true vals ≠ Category.FLUSH)
    (h2 : classifyV true vals ≠ Category.STRAIGHT_FLUSH) :
    classifyV false vals = classifyV true vals := by
  unfold classifyV at *
  simp only [Bool.true_and, Bool.false_and, Bool.false_eq_true, if_false, if_true] at *
  split_ifs at * <;> simp_all

theorem detailV_flag_irrelevant (fl fl' : Bool) (vals : List Int)
    (h1 : classifyV fl vals ≠ Category.FLUSH)
    (h2 : classifyV fl vals ≠ Category.STRAIGHT_FLUSH)
    (h3 : classifyV fl' vals ≠ Category.FLUSH)
    (h4 : classifyV fl' vals ≠ Category.STRAIGHT_FLUSH) :
    detailV fl vals = detailV fl' vals := by
  have e : classifyV fl vals = classifyV fl' vals := by
    cases fl <;> cases fl'
    · rfl
    · exact classifyV_flag_irrelevant vals h3 h4
    · exact (classifyV_flag_irrelevant vals h1 h2).symm
    · rfl
  unfold detailV
  rw [e]

/-- C9: two valid hands with the same five ranks, neither of them a flush or a
straight flush, have the same score, and `compare` returns `EQUAL_HAND`. -/
theorem same_ranks_equal_score (a b : List Card)
    (ha : (ofCards a).isValid = true) (hb : (ofCards b).isValid = true)
    (hr : (a.map Card.rank).Perm (b.map Card.rank))
    (hfa : (ofCards a).getCategory ≠ Category.FLUSH ∧
      (ofCards a).getCategory ≠ Category.STRAIGHT_FLUSH)
    (hfb : (ofCards b).getCategory ≠ Category.FLUSH ∧
      (ofCards b).getCategory ≠ Category.STRAIGHT_FLUSH) :
    (ofCards a).getScore = (ofCards b).getScore ∧
    (ofCards a).compare (ofCards b) = Comparison.EQUAL_HAND := by
  have hva : validate a = true := by
    simpa [PokerHand.isValid, ofCards, process_valid] using ha
  have hvb : validate b = true := by
    simpa [PokerHand.isValid, ofCards, process_valid] using hb
  have hda := ofCards_detail a hva
  have hdb := ofCards_detail b hvb
  rw [← handValues_eq_of_rank_perm a b hr] at hdb
  unfold PokerHand.getCategory at hfa hfb
  rw [hda] at hfa
  rw [hdb] at hfb
  have e : (ofCards a).detail = (ofCards b).detail := by
    rw [hda, hdb]
    exact detailV_flag_irrelevant _ _ _ hfa.1 hfa.2 hfb.1 hfb.2
  have hs : (ofCards a).getScore = (ofCards b).getScore := by
    unfold PokerHand.getScore
    rw [e]
  refine ⟨hs, ?_⟩
  unfold PokerHand.compare
  rw [ha, hb, hs]
  simp

/-- Witness of `same_ranks_equal_score` on `2D 4C 7D 9S JS` and
`2D 4H 7S 9C JH`. -/
theorem same_ranks_equal_score_witness :
    (ofCards highCardCardsA).getScore = (ofCards highCardCardsB).getScore ∧
    (ofCards highCardCardsA).compare (ofCards highCardCardsB) = Comparison.EQUAL_HAND :=
  same_ranks_equal_score highCardCardsA highCardCardsB (by decide) (by decide)
    (by decide) (by decide) (by decide)

/-! ## The wheel straight -/

theorem wheel_handValues (w : List Card)
    (hr : (w.map Card.rank).Perm ['A', '2', '3', '4', '5']) :
    handValues w = [2, 3, 4, 5, 14] := by
  have h1 : (w.map Card.getValue).Perm [14, 2, 3, 4, 5] := by
    have := hr.map Card.rankValue
    simpa [List.map_map, Function.comp_def, Card.getValue] using this
  have h2 : (handValues w).Perm [2, 3, 4, 5, 14] :=
    ((handValues_perm w).trans h1).trans (by decide)
  exact List.eq_of_perm_of_sorted h2 (handValues_sorted w) (by decide)

theorem isFlush_sortCards (cs : List Card) :
    isFlush (sortCards cs) = true ↔ ∀ x ∈ cs, ∀ y ∈ cs, x.suit = y.suit := by
  rw [isFlush_iff]
  have hp := sortCards_perm cs
  constructor
  · intro h x hx y hy
    exact h x (hp.mem_iff.mpr hx) y (hp.mem_iff.mpr hy)
  · intro h x hx y hy
    exact h x (hp.mem_iff.mp hx) y (hp.mem_iff.mp hy)

/-- C8 as stated fails: the full house `2D 2H 2S 3C 3H` is a valid hand that is
neither a straight nor a flush, and it scores higher than the wheel straight
`AS 2D 3H 4C 5H`. -/
theorem full_house_beats_wheel :
    Distinct5 lowFullHouseCards ∧
    isStraight (sortCards lowFullHouseCards) = false ∧
    isFlush (sortCards lowFullHouseCards) = false ∧
    (ofCards lowFullHouseCards).getCategory = Category.FULL_HOUSE ∧
    (ofCards wheelCards).getScore < (ofCards lowFullHouseCards).getScore := by
  decide

/-- C8, amended: a wheel straight (ranks A, 2, 3, 4, 5, not all of one suit)
scores lower than the six-high straight `2D 3H 4S 5C 6H` and higher than every
hand of five pairwise-distinct valid cards whose category is below `STRAIGHT`
(high card, one pair, two pair, three of a kind). -/
theorem wheel_straight_bounds (w : List Card) (hw : Distinct5 w)
    (hr : (w.map Card.rank).Perm ['A', '2', '3', '4', '5'])
    (hs : ¬ ∀ x ∈ w, ∀ y ∈ w, x.suit = y.suit) :
    (ofCards w).getCategory = Category.STRAIGHT ∧
    (ofCards w).getScore < (ofCards sixHighCards).getScore ∧
    ∀ h : List Card, Distinct5 h →
      (ofCards h).getCategory.toNat < Category.STRAIGHT.toNat →
      (ofCards h).getScore < (ofCards w).getScore := by
  have hfl : isFlush (sortCards w) = false := by
    cases hf : isFlush (sortCards w)
    · rfl
    · exact absurd ((isFlush_sortCards w).mp hf) hs
  have hd : (ofCards w).detail = detailV false [2, 3, 4, 5, 14] := by
    rw [ofCards_detail w (distinct5_validate w hw), hfl, wheel_handValues w hr]
  have hcat : (ofCards w).getCategory = Category.STRAIGHT := by
    unfold PokerHand.getCategory; rw [hd]; decide
  have hsc : (ofCards w).getScore = 18014398509486095 := by
    unfold PokerHand.getScore; rw [hd]; decide
  refine ⟨hcat, ?_, ?_⟩
  · rw [hsc]; decide
  · intro h hh hc
    rw [hsc, ofCards_score h hh]
    have h2 := ordinalityV_lt _ (distinct5_valsOk h hh)
    have h3 : (ordinalityV (handValues h) : Int) < 2 ^ 52 := by exact_mod_cast h2
    have h4 : categoryBaseV (handValues h) (ofCards h).getCategory ≤ 3 := by
      revert hc
      unfold categoryBaseV
      cases (ofCards h).getCategory <;> simp [Category.toNat]
    generalize categoryBaseV (handValues h) (ofCards h).getCategory = x at h4 ⊢
    omega

/-- Witness of `wheel_straight_bounds` on `AS 2D 3H 4C 5H`. -/
theorem wheel_straight_bounds_witness :
    (ofCards wheelCards).getCategory = Category.STRAIGHT ∧
    (ofCards wheelCards).getScore < (ofCards sixHighCards).getScore ∧
    ∀ h : List Card, Distinct5 h →
      (ofCards h).getCategory.toNat < Category.STRAIGHT.toNat →
      (ofCards h).getScore < (ofCards wheelCards).getScore :=
  wheel_straight_bounds wheelCards (by decide) (by decide) (by decide)

/-! ## The score formula -/

theorem length_five {α : Type} (l : List α) (h : l.length = 5) :
    ∃ a b c d e, l = [a, b, c, d, e] := by
  match l, h with
  | [a, b, c, d, e], _ => exact ⟨a, b, c, d, e, rfl⟩

theorem isStraightFrom_five (a b c d e : Int) :
    isStraightFrom 1 [a, b, c, d, e] = true ↔
      b = a + 1 ∧ c = b + 1 ∧ d = c + 1 ∧ (e = d + 1 ∨ (e = 14 ∧ d = 5)) := by
  simp only [isStraightFrom]
  by_cases h1 : b = a + 1 <;> by_cases h2 : c = b + 1 <;> by_cases h3 : d = c + 1 <;>
    by_cases h4 : e = d + 1 <;> by_cases h5 : e = 14 <;> by_cases h6 : d = 5 <;>
    simp [h1, h2, h3, h4, h5, h6]

theorem classifyV_straight (fl : Bool) (vals : List Int)
    (h : classifyV fl vals = Category.STRAIGHT ∨ classifyV fl vals = Category.STRAIGHT_FLUSH) :
    isStraightFrom 1 vals = true := by
  unfold classifyV at h
  cases hs : isStraightFrom 1 vals
  · exfalso
    rw [hs] at h
    simp only [Bool.and_false, Bool.false_eq_true, if_false] at h
    split_ifs at h <;> simp at h
  · rfl

theorem classifyV_ne_invalid (fl : Bool) (vals : List Int) :
    classifyV fl vals ≠ Category.INVALID_HAND := by
  unfold classifyV
  split_ifs <;> simp

theorem isWheel_iff (cs : List Card) :
    isWheel (cs.map Card.getValue) ↔ handValues cs = [2, 3, 4, 5, 14] := by
  unfold isWheel
  constructor
  · intro h
    have h2 : (handValues cs).Perm [2, 3, 4, 5, 14] :=
      ((handValues_perm cs).trans h).trans (by decide)
    exact List.eq_of_perm_of_sorted h2 (handValues_sorted cs) (by decide)
  · intro h
    have := handValues_perm cs
    rw [h] at this
    exact this.symm.trans (by decide)

theorem categoryBaseV_eq_spec (cs : List Card) (fl : Bool) (hlen : cs.length = 5) :
    categoryBaseV (handValues cs) (classifyV fl (handValues cs)) =
      (specCategoryBase (classifyV fl (handValues cs))
        (decide (isWheel (cs.map Card.getValue))) : Int) := by
  have hst := classifyV_straight fl (handValues cs)
  have hw := isWheel_iff cs
  obtain ⟨a, b, c, d, e, hv⟩ := length_five (handValues cs)
    ((handValues_length cs).trans hlen)
  have hni := classifyV_ne_invalid fl (handValues cs)
  rw [hv] at hst hw hni ⊢
  generalize classifyV fl [a, b, c, d, e] = cat at hst hni ⊢
  unfold categoryBaseV specCategoryBase
  cases cat <;> simp [Category.toNat] at hni ⊢
  · have hs := (isStraightFrom_five a b c d e).mp (hst (Or.inl rfl))
    by_cases h1 : a = 2 ∧ e = 14
    · have : isWheel (cs.map Card.getValue) := by
        rw [hw]; obtain ⟨h2, h3⟩ := h1; subst h2 h3
        obtain ⟨rfl, rfl, rfl, _⟩ := hs; rfl
      simp [h1, this]
    · have : ¬ isWheel (cs.map Card.getValue) := by
        rw [hw]; intro h; simp at h; exact h1 ⟨h.1, h.2.2.2.2⟩
      simp [h1, this]
  · have hs := (isStraightFrom_five a b c d e).mp (hst (Or.inr rfl))
    by_cases h1 : a = 2 ∧ e = 14
    · have : isWheel (cs.map Card.getValue) := by
        rw [hw]; obtain ⟨h2, h3⟩ := h1; subst h2 h3
        obtain ⟨rfl, rfl, rfl, _⟩ := hs; rfl
      simp [h1, this]
    · have : ¬ isWheel (cs.map Card.getValue) := by
        rw [hw]; intro h; simp at h; exact h1 ⟨h.1, h.2.2.2.2⟩
      simp [h1, this]

/-- C6: the score of a hand of five pairwise-distinct valid cards is the
ordinality or-ed with the category base shifted left by 52, where bit `k` of the
ordinality is set exactly when `k = rank - 2` for a rank present or
`k = 13 + 13 * (c - 2) + (rank - 2)` for a rank occurring `c ≥ 2` times, and the
category base is the tabulated one (`specCategoryBase`). -/
theorem score_formula (cs : List Card) (h : Distinct5 cs) :
    (ofCards cs).getScore =
      ((getOrdinality (sortCards cs) 0 |||
        specCategoryBase (ofCards cs).getCategory
          (decide (isWheel (cs.map Card.getValue))) <<< 52 : Nat) : Int) ∧
    ∀ k : Nat, (getOrdinality (sortCards cs) 0).testBit k = true ↔
      ((∃ r ∈ cs.map Card.getValue, k = (r - 2).toNat) ∨
       (∃ r ∈ cs.map Card.getValue, 2 ≤ (cs.map Card.getValue).count r ∧
          k = 13 + 13 * ((cs.map Card.getValue).count r - 2) + (r - 2).toNat)) := by
  have hord : getOrdinality (sortCards cs) 0 = ordinalityV (handValues cs) := rfl
  have hok := distinct5_valsOk cs h
  have hlt := ordinalityV_lt _ hok
  constructor
  · rw [ofCards_score cs h, ofCards_category cs h, categoryBaseV_eq_spec cs _ h.1, hord]
    generalize specCategoryBase _ _ = b
    rw [Nat.shiftLeft_eq, Nat.lor_comm, Nat.mul_comm, ← Nat.mul_add_lt_is_or hlt]
    push_cast
    ring
  · intro k
    rw [hord, testBit_ordinalityV _ hok]
    have hp := handValues_perm cs
    constructor
    · rintro ⟨v, hv, hk⟩
      rw [hp.count_eq] at hk
      rcases hk with hk | ⟨h1, hk⟩
      · exact Or.inl ⟨v, hp.mem_iff.mp hv, hk⟩
      · exact Or.inr ⟨v, hp.mem_iff.mp hv, by omega, by omega⟩
    · rintro (⟨v, hv, hk⟩ | ⟨v, hv, h1, hk⟩)
      · exact ⟨v, hp.mem_iff.mpr hv, Or.inl hk⟩
      · refine ⟨v, hp.mem_iff.mpr hv, Or.inr ?_⟩
        rw [hp.count_eq]
        exact ⟨by omega, by omega⟩

/-- Witness of `score_formula` on the full house `2D 2H 2S 3C 3H`. -/
theorem score_formula_witness :
    (ofCards lowFullHouseCards).getScore =
      ((getOrdinality (sortCards lowFullHouseCards) 0 |||
        specCategoryBase (ofCards lowFullHouseCards).getCategory
          (decide (isWheel (lowFullHouseCards.map Card.getValue))) <<< 52 : Nat) : Int) ∧
    ∀ k : Nat, (getOrdinality (sortCards lowFullHouseCards) 0).testBit k = true ↔
      ((∃ r ∈ lowFullHouseCards.map Card.getValue, k = (r - 2).toNat) ∨
       (∃ r ∈ lowFullHouseCards.map Card.getValue,
          2 ≤ (lowFullHouseCards.map Card.getValue).count r ∧
          k = 13 + 13 * ((lowFullHouseCards.map Card.getValue).count r - 2) +
            (r - 2).toNat)) :=
  score_formula lowFullHouseCards (by decide)

/-! ## Classification -/

theorem foldl_count_positive (m : List (Int × Nat)) (acc : Nat) (h : ∀ p ∈ m, 0 < p.2) :
    m.foldl (fun cardinality it =>
      if false = true then max cardinality it.2
      else if it.2 > 0 then cardinality + 1 else cardinality) acc = acc + m.length := by
  induction m generalizing acc with
  | nil => rfl
  | cons p m ih =>
    rw [List.foldl_cons, ih _ (fun q hq => h q (List.mem_cons_of_mem _ hq))]
    have := h p (List.mem_cons_self _ _)
    simp [this]
    omega

theorem cardinalityV_false (vals : List Int) :
    cardinalityV vals false = (rankCounts vals).length := by
  unfold cardinalityV rankCounts
  rw [foldl_count_positive _ _ (countRanks_ok vals).2]
  simp

theorem foldl_max_map (m : List (Int × Nat)) (acc : Nat) :
    m.foldl (fun cardinality it =>
      if true = true then max cardinality it.2
      else if it.2 > 0 then cardinality + 1 else cardinality) acc =
      (m.map Prod.snd).foldl max acc := by
  induction m generalizing acc with
  | nil => rfl
  | cons p m ih =>
    rw [List.foldl_cons, ih, List.map_cons, List.foldl_cons]
    simp

theorem cardinalityV_true (vals : List Int) :
    cardinalityV vals true = (rankCounts vals).foldl max 0 := by
  unfold cardinalityV rankCounts
  exact foldl_max_map _ _

theorem sum_bump (v : Int) (m : List (Int × Nat)) :
    ((bump v m).map Prod.snd).sum = (m.map Prod.snd).sum + 1 := by
  induction m with
  | nil => simp [bump]
  | cons p m ih =>
    obtain ⟨k, n⟩ := p
    unfold bump
    split_ifs
    · simp; omega
    · simp; omega
    · simp [ih]; omega

theorem sum_foldl_bump (vals : List Int) (m : List (Int × Nat)) :
    ((vals.foldl (fun m v => bump v m) m).map Prod.snd).sum =
      (m.map Prod.snd).sum + vals.length := by
  induction vals generalizing m with
  | nil => simp
  | cons v vals ih =>
    rw [List.foldl_cons, ih, sum_bump, List.length_cons]
    omega

theorem rankCounts_sum (vals : List Int) : (rankCounts vals).sum = vals.length := by
  unfold rankCounts countRanks
  rw [sum_foldl_bump]
  simp

theorem rankCounts_pos (vals : List Int) : ∀ n ∈ rankCounts vals, 1 ≤ n := by
  intro n hn
  obtain ⟨p, hp, rfl⟩ := List.mem_map.mp hn
  exact (countRanks_ok vals).2 p hp

theorem mem_compositions5 (ns : List Nat) (hs : ns.sum = 5) (hp : ∀ n ∈ ns, 1 ≤ n) :
    ns ∈ compositions5 := by
  unfold compositions5
  rcases ns with _ | ⟨a, _ | ⟨b, _ | ⟨c, _ | ⟨d, _ | ⟨e, _ | ⟨f, r⟩⟩⟩⟩⟩⟩
  · simp at hs
  · simp at hs hp ⊢; omega
  · simp at hs hp ⊢; omega
  · simp at hs hp ⊢; omega
  · simp at hs hp ⊢; omega
  · simp at hs hp ⊢; omega
  · exfalso
    simp at hs hp
    omega

/-- Relation between the two cardinalities of a five-card hand and the
multiplicities of its values. -/
theorem cardinality_facts (ns : List Nat) (h : ns ∈ compositions5) :
    ((ns.length = 2 ∧ ns.foldl max 0 = 4) ↔ 4 ∈ ns) ∧
    ((ns.length = 2 ∧ ns.foldl max 0 = 3) ↔ (3 ∈ ns ∧ 2 ∈ ns)) ∧
    (¬ (3 ∈ ns ∧ 2 ∈ ns) → ((ns.length = 3 ∧ ns.foldl max 0 = 3) ↔ 3 ∈ ns)) ∧
    ((ns.length = 3 ∧ ns.foldl max 0 = 2) ↔ 2 ≤ ns.count 2) ∧
    (¬ (3 ∈ ns ∧ 2 ∈ ns) → ¬ 2 ≤ ns.count 2 →
      ((ns.length = 4 ∧ ns.foldl max 0 = 2) ↔ 2 ∈ ns)) := by
  unfold compositions5 at h
  simp only [List.mem_cons, List.mem_singleton, List.not_mem_nil, or_false] at h
  rcases h with h | h | h | h | h | h | h | h | h | h | h | h | h | h | h | h <;>
    (subst h; decide)

theorem occursTimes_perm (l l' : List Int) (h : l.Perm l') (n : Nat) :
    occursTimes l n ↔ occursTimes l' n := by
  unfold occursTimes
  constructor
  · rintro ⟨r, hr, hc⟩
    exact ⟨r, h.mem_iff.mp hr, by rw [← h.count_eq]; exact hc⟩
  · rintro ⟨r, hr, hc⟩
    exact ⟨r, h.mem_iff.mpr hr, by rw [h.count_eq]; exact hc⟩

theorem twoRanksTwice_perm (l l' : List Int) (h : l.Perm l') :
    twoRanksTwice l ↔ twoRanksTwice l' := by
  unfold twoRanksTwice
  constructor
  · rintro ⟨r, hr, s, hs, hne, h1, h2⟩
    exact ⟨r, h.mem_iff.mp hr, s, h.mem_iff.mp hs, hne,
      by rw [← h.count_eq]; exact h1, by rw [← h.count_eq]; exact h2⟩
  · rintro ⟨r, hr, s, hs, hne, h1, h2⟩
    exact ⟨r, h.mem_iff.mpr hr, s, h.mem_iff.mpr hs, hne,
      by rw [h.count_eq]; exact h1, by rw [h.count_eq]; exact h2⟩

theorem occursTimes_iff (vals : List Int) (n : Nat) (hn : 1 ≤ n) :
    occursTimes vals n ↔ n ∈ rankCounts vals := by
  unfold occursTimes rankCounts
  constructor
  · rintro ⟨r, _, hc⟩
    exact List.mem_map.mpr ⟨(r, n), (mem_countRanks vals r n).mpr ⟨hc.symm, hn⟩, rfl⟩
  · intro h
    obtain ⟨⟨k, n'⟩, hp, rfl⟩ := List.mem_map.mp h
    obtain ⟨h1, h2⟩ := (mem_countRanks vals k n').mp hp
    refine ⟨k, ?_, h1.symm⟩
    rw [← List.count_pos_iff, ← h1]
    exact h2

theorem twoRanksTwice_iff (vals : List Int) :
    twoRanksTwice vals ↔ 2 ≤ (rankCounts vals).count 2 := by
  unfold twoRanksTwice rankCounts
  have hok := countRanks_ok vals
  constructor
  · rintro ⟨r, _, s, _, hne, h1, h2⟩
    have hr : (r, 2) ∈ countRanks vals := (mem_countRanks vals r 2).mpr ⟨h1.symm, by norm_num⟩
    have hs : (s, 2) ∈ countRanks vals := (mem_countRanks vals s 2).mpr ⟨h2.symm, by norm_num⟩
    have hnd : [(r, 2), (s, 2)].Nodup := by simp [hne]
    have hsub : [(r, (2 : Nat)), (s, 2)] ⊆ countRanks vals := by
      intro x hx
      simp only [List.mem_cons, List.mem_singleton, List.not_mem_nil, or_false] at hx
      rcases hx with rfl | rfl
      · exact hr
      · exact hs
    obtain ⟨l, hperm, hsubl⟩ := List.subperm_of_subset hnd hsub
    have h3 := (hsubl.map Prod.snd).count_le 2
    have h4 := (hperm.map Prod.snd).count_eq 2
    rw [h4] at h3
    simpa using h3
  · intro h
    rw [List.le_count_iff_replicate_sublist, List.sublist_map_iff] at h
    obtain ⟨l', hsub, hl'⟩ := h
    rcases l' with _ | ⟨p, _ | ⟨q, _ | ⟨x, rest⟩⟩⟩
    · simp [List.replicate] at hl'
    · simp [List.replicate] at hl'
    · simp only [List.map_cons, List.map_nil, List.replicate, List.cons.injEq, and_true] at hl'
      have hp : p ∈ countRanks vals := hsub.subset (by simp)
      have hq : q ∈ countRanks vals := hsub.subset (by simp)
      have hlt : p.1 < q.1 := by
        have := List.Pairwise.sublist (hsub.map Prod.fst) hok.1
        simpa using this
      obtain ⟨pk, pn⟩ := p
      obtain ⟨qk, qn⟩ := q
      simp only at hl' hlt
      obtain ⟨e1, e2⟩ := hl'
      subst e1 e2
      obtain ⟨c1, _⟩ := (mem_countRanks vals pk 2).mp hp
      obtain ⟨c2, _⟩ := (mem_countRanks vals qk 2).mp hq
      refine ⟨pk, ?_, qk, ?_, ne_of_lt hlt, c1.symm, c2.symm⟩
      · rw [← List.count_pos_iff, ← c1]; norm_num
      · rw [← List.count_pos_iff, ← c2]; norm_num
    · simp [List.replicate] at hl'

theorem sorted_run (lo : Int) : [lo, lo + 1, lo + 2, lo + 3, lo + 4].Sorted (· ≤ ·) := by
  simp [List.Sorted]

/-- On the sorted values of a five-card hand the loop of `isStraight` accepts
exactly the runs of five consecutive values and the wheel. -/
theorem isStraight_iff (cs : List Card) (hlen : cs.length = 5) :
    isStraightFrom 1 (handValues cs) = true ↔
      (consecutive (cs.map Card.getValue) ∨ isWheel (cs.map Card.getValue)) := by
  have hp := handValues_perm cs
  obtain ⟨a, b, c, d, e, hv⟩ := length_five (handValues cs)
    ((handValues_length cs).trans hlen)
  constructor
  · intro h
    rw [hv, isStraightFrom_five] at h
    obtain ⟨h1, h2, h3, h4⟩ := h
    rcases h4 with h4 | ⟨h4, h5⟩
    · left
      refine ⟨a, hp.mem_iff.mp (by rw [hv]; simp), ?_⟩
      have : handValues cs = [a, a + 1, a + 2, a + 3, a + 4] := by
        rw [hv]; subst h1 h2 h3 h4; simp; omega
      rw [← this]; exact hp.symm
    · right
      rw [isWheel_iff, hv]
      have ha : a = 2 := by omega
      subst h1 h2 h3 h4 ha
      rfl
  · rintro (⟨lo, _, h⟩ | h)
    · have h2 : (handValues cs).Perm [lo, lo + 1, lo + 2, lo + 3, lo + 4] := hp.trans h
      rw [List.eq_of_perm_of_sorted h2 (handValues_sorted cs) (sorted_run lo),
        isStraightFrom_five]
      omega
    · rw [(isWheel_iff cs).mp h]
      decide

/-- C1: a hand of five pairwise-distinct valid cards, given in any order, gets
the category of the standard precedence: straight flush iff all five share a
suit and the ranks form a straight; otherwise four of a kind iff some rank
occurs four times; otherwise full house iff the ranks split 3+2; otherwise
flush iff all share a suit; otherwise straight iff the values are consecutive
or are A, 2, 3, 4, 5; otherwise three of a kind iff some rank occurs three
times; otherwise two pair iff two different ranks occur twice; otherwise one
pair iff one rank occurs twice; otherwise high card. -/
theorem category_is_standard (cs : List Card) (h : Distinct5 cs) :
    (ofCards cs).getCategory = standardCategory cs := by
  rw [ofCards_category cs h]
  have hp := handValues_perm cs
  have hlen : (handValues cs).length = 5 := (handValues_length cs).trans h.1
  have hns : rankCounts (handValues cs) ∈ compositions5 :=
    mem_compositions5 _ ((rankCounts_sum _).trans hlen) (rankCounts_pos _)
  obtain ⟨f1, f2, f3, f4, f5⟩ := cardinality_facts _ hns
  have o4 := (occursTimes_perm _ _ hp 4).symm.trans (occursTimes_iff (handValues cs) 4 (by norm_num))
  have o3 := (occursTimes_perm _ _ hp 3).symm.trans (occursTimes_iff (handValues cs) 3 (by norm_num))
  have o2 := (occursTimes_perm _ _ hp 2).symm.trans (occursTimes_iff (handValues cs) 2 (by norm_num))
  have t2 := (twoRanksTwice_perm _ _ hp).symm.trans (twoRanksTwice_iff (handValues cs))
  rw [← o4] at f1
  rw [← o3, ← o2] at f2 f3 f5
  rw [← t2] at f4 f5
  have hfl : isFlush (sortCards cs) = true ↔ sameSuit cs := isFlush_sortCards cs
  have hst := isStraight_iff cs h.1
  have hD := cardinalityV_false (handValues cs)
  have hM := cardinalityV_true (handValues cs)
  unfold classifyV standardCategory
  simp only [Bool.and_eq_true, beq_iff_eq, hD, hM, hfl, hst, f1, f2, f4]
  by_cases c1 : sameSuit cs ∧
      (consecutive (cs.map Card.getValue) ∨ isWheel (cs.map Card.getValue))
  · rw [if_pos c1, if_pos c1]
  rw [if_neg c1, if_neg c1]
  by_cases c2 : occursTimes (cs.map Card.getValue) 4
  · rw [if_pos c2, if_pos c2]
  rw [if_neg c2, if_neg c2]
  by_cases c3 : occursTimes (cs.map Card.getValue) 3 ∧ occursTimes (cs.map Card.getValue) 2
  · rw [if_pos c3, if_pos c3]
  rw [if_neg c3, if_neg c3]
  by_cases c4 : sameSuit cs
  · rw [if_pos c4, if_pos c4]
  rw [if_neg c4, if_neg c4]
  by_cases c5 : consecutive (cs.map Card.getValue) ∨ isWheel (cs.map Card.getValue)
  · rw [if_pos c5, if_pos c5]
  rw [if_neg c5, if_neg c5]
  by_cases c6 : occursTimes (cs.map Card.getValue) 3
  · rw [if_pos ((f3 c3).mpr c6), if_pos c6]
  rw [if_neg (mt (f3 c3).mp c6), if_neg c6]
  by_cases c7 : twoRanksTwice (cs.map Card.getValue)
  · rw [if_pos c7, if_pos c7]
  rw [if_neg c7, if_neg c7]
  by_cases c8 : occursTimes (cs.map Card.getValue) 2
  · rw [if_pos ((f5 c3 c7).mpr c8), if_pos c8]
  rw [if_neg (mt (f5 c3 c7).mp c8), if_neg c8]

/-- Witness of `category_is_standard` on a two-pair hand given out of order. -/
theorem category_is_standard_witness :
    (ofCards twoPairCards).getCategory = standardCategory twoPairCards :=
  category_is_standard twoPairCards (by decide)

/-! ## Tie-break within a category -/

theorem count_expandGroups (m : List (Int × Nat)) (hm : MapOk m) (x : Int) :
    (expandGroups m).count x = rcount m x := by
  induction m with
  | nil => rfl
  | cons p m ih =>
    obtain ⟨k, n⟩ := p
    obtain ⟨hs, hpos⟩ := hm
    simp only [List.map_cons, List.sorted_cons] at hs
    have hm' : MapOk m := ⟨hs.2, fun p hp => hpos p (List.mem_cons_of_mem _ hp)⟩
    rw [expandGroups, List.count_append, List.count_replicate, rcount_cons, ih hm']
    by_cases h : k = x
    · have h0 : rcount m x = 0 := by
        apply rcount_eq_zero
        intro q hq
        have := hs.1 q.1 (List.mem_map_of_mem _ hq)
        omega
      simp [h, h0]
    · simp [h]

theorem expandGroups_countRanks (vals : List Int) :
    (expandGroups (countRanks vals)).Perm vals := by
  rw [List.perm_iff_count]
  intro x
  rw [count_expandGroups _ (countRanks_ok vals), rcount_countRanks]

theorem expandGroups_perm (l l' : List (Int × Nat)) (h : l.Perm l') :
    (expandGroups l).Perm (expandGroups l') := by
  induction h with
  | nil => exact List.Perm.refl _
  | cons x _ ih => exact List.Perm.append_left _ ih
  | swap x y l =>
    simp only [expandGroups]
    rw [← List.append_assoc, ← List.append_assoc]
    exact List.Perm.append_right _ List.perm_append_comm
  | trans _ _ ih1 ih2 => exact ih1.trans ih2

theorem expandGroups_sortedGroups (vals : List Int) :
    (expandGroups (sortedGroups vals)).Perm vals :=
  (expandGroups_perm _ _ (List.perm_insertionSort _ _)).trans (expandGroups_countRanks vals)

theorem mem_expandGroups (l : List (Int × Nat)) (x : Int) (h : x ∈ expandGroups l) :
    ∃ q ∈ l, x = q.1 := by
  induction l with
  | nil => cases h
  | cons p l ih =>
    rw [expandGroups, List.mem_append] at h
    rcases h with h | h
    · exact ⟨p, List.mem_cons_self _ _, (List.mem_replicate.mp h).2⟩
    · obtain ⟨q, hq, hx⟩ := ih h
      exact ⟨q, List.mem_cons_of_mem _ hq, hx⟩

theorem groupOf_of_mem (vals : List Int) (h : ValsOk vals) (g : Int × Nat)
    (hg : g ∈ countRanks vals) : GroupOf vals g := by
  obtain ⟨k, n⟩ := g
  obtain ⟨h1, h2⟩ := (mem_countRanks vals k n).mp hg
  have hk : k ∈ vals := by rw [← List.count_pos_iff, ← h1]; exact h2
  have := h.1 k hk
  have h4 := h.2 k hk
  exact ⟨h1, h2, by simp only; omega, this.1, this.2⟩

theorem groupOf_sortedGroups (vals : List Int) (h : ValsOk vals) (g : Int × Nat)
    (hg : g ∈ sortedGroups vals) : GroupOf vals g :=
  groupOf_of_mem vals h g ((List.perm_insertionSort _ _).mem_iff.mp hg)

theorem sorted_expandGroups (vals : List Int) (l : List (Int × Nat))
    (hl : ∀ g ∈ l, GroupOf vals g) (hs : l.Sorted (fun p q => pos q ≤ pos p)) :
    (expandGroups l).Sorted (tieOrder vals) := by
  induction l with
  | nil => exact List.sorted_nil
  | cons g l ih =>
    rw [List.sorted_cons] at hs
    have ihs := ih (fun q hq => hl q (List.mem_cons_of_mem _ hq)) hs.2
    rw [expandGroups]
    unfold List.Sorted
    rw [List.pairwise_append]
    refine ⟨?_, ihs, ?_⟩
    · rw [List.pairwise_replicate]
      right
      exact Or.inr ⟨rfl, le_refl _⟩
    · intro a ha b hb
      rw [(List.mem_replicate.mp ha).2]
      obtain ⟨q, hq, rfl⟩ := mem_expandGroups l b hb
      have hle := hs.1 q hq
      obtain ⟨g1, g2, g3, g4, g5⟩ := hl g (List.mem_cons_self _ _)
      obtain ⟨q1, q2, q3, q4, q5⟩ := hl q (List.mem_cons_of_mem _ hq)
      unfold pos at hle
      unfold tieOrder
      rw [← g1, ← q1]
      omega

theorem tieOrder_total (vals : List Int) : IsTotal Int (tieOrder vals) :=
  ⟨fun x y => by unfold tieOrder; omega⟩

theorem tieOrder_trans (vals : List Int) : IsTrans Int (tieOrder vals) :=
  ⟨fun x y z => by unfold tieOrder; omega⟩

theorem tieOrder_antisymm (vals : List Int) : IsAntisymm Int (tieOrder vals) :=
  ⟨fun x y => by unfold tieOrder; omega⟩

theorem tieOrder_congr (l l' : List Int) (h : l.Perm l') : tieOrder l = tieOrder l' := by
  funext x y
  unfold tieOrder
  rw [h.count_eq, h.count_eq]

theorem posOrder_sorted (vals : List Int) :
    (sortedGroups vals).Sorted (fun p q => pos q ≤ pos p) := by
  haveI : IsTotal (Int × Nat) (fun p q => pos q ≤ pos p) := ⟨fun p q => le_total _ _⟩
  haveI : IsTrans (Int × Nat) (fun p q => pos q ≤ pos p) :=
    ⟨fun p q r h1 h2 => le_trans h2 h1⟩
  exact List.sorted_insertionSort _ _

/-- Outside the wheel, the tie-break list of a hand is the expansion of its
groups taken in decreasing order of significance. -/
theorem tieBreakList_eq (cs : List Card) (h : Distinct5 cs)
    (hw : ¬ isWheel (cs.map Card.getValue)) :
    tieBreakList (cs.map Card.getValue) = expandGroups (sortedGroups (handValues cs)) := by
  unfold tieBreakList
  rw [if_neg hw]
  have hp := handValues_perm cs
  haveI := tieOrder_total (cs.map Card.getValue)
  haveI := tieOrder_trans (cs.map Card.getValue)
  haveI := tieOrder_antisymm (cs.map Card.getValue)
  apply List.eq_of_perm_of_sorted (r := tieOrder (cs.map Card.getValue))
  · exact (List.perm_insertionSort _ _).trans
      ((expandGroups_sortedGroups (handValues cs)).trans hp).symm
  · exact List.sorted_insertionSort _ _
  · rw [← tieOrder_congr _ _ hp]
    exact sorted_expandGroups _ _
      (groupOf_sortedGroups _ (distinct5_valsOk cs h)) (posOrder_sorted _)

theorem mem_sortedGroups (vals : List Int) (g : Int × Nat) :
    g ∈ sortedGroups vals ↔ g ∈ countRanks vals :=
  (List.perm_insertionSort _ _).mem_iff

/-- The bits of the ordinality in terms of the group positions: the position of
each group and, for a group of two or more cards, its rank index as well. -/
theorem testBit_ord_groups (vals : List Int) (h : ValsOk vals) (k : Nat) :
    (ordinalityV vals).testBit k = true ↔
      ∃ p ∈ groupPositions vals, k = p ∨ (13 ≤ p ∧ k = p % 13) := by
  rw [testBit_ordinalityV vals h]
  unfold groupPositions
  constructor
  · rintro ⟨v, hv, hk⟩
    have hc : 0 < vals.count v := List.count_pos_iff.mpr hv
    have hg : (v, vals.count v) ∈ sortedGroups vals :=
      (mem_sortedGroups _ _).mpr ((mem_countRanks vals v _).mpr ⟨rfl, hc⟩)
    refine ⟨pos (v, vals.count v), List.mem_map_of_mem _ hg, ?_⟩
    have := h.1 v hv
    have := h.2 v hv
    unfold pos
    simp only
    omega
  · rintro ⟨p, hp, hk⟩
    obtain ⟨g, hg, rfl⟩ := List.mem_map.mp hp
    obtain ⟨g1, g2, g3, g4, g5⟩ := groupOf_sortedGroups vals h g hg
    have hv : g.1 ∈ vals := by rw [← List.count_pos_iff, ← g1]; exact g2
    refine ⟨g.1, hv, ?_⟩
    rw [← g1]
    unfold pos at hk
    omega

theorem groupPositions_mod_nodup (vals : List Int) (h : ValsOk vals) :
    ((groupPositions vals).map (· % 13)).Nodup := by
  unfold groupPositions
  rw [List.map_map]
  have hnd : (sortedGroups vals).Nodup := by
    have h1 : (countRanks vals).Nodup :=
      List.Nodup.of_map Prod.fst ((countRanks_ok vals).1.nodup)
    exact (List.perm_insertionSort _ _).nodup_iff.mpr h1
  apply List.Nodup.map_on _ hnd
  intro x hx y hy hxy
  obtain ⟨x1, x2, x3, x4, x5⟩ := groupOf_sortedGroups vals h x hx
  obtain ⟨y1, y2, y3, y4, y5⟩ := groupOf_sortedGroups vals h y hy
  simp only [Function.comp, pos] at hxy
  have hk : x.1 = y.1 := by omega
  have hn : x.2 = y.2 := by rw [x1, y1, hk]
  exact Prod.ext hk hn

theorem groupPositions_sorted (vals : List Int) (h : ValsOk vals) :
    (groupPositions vals).Sorted (· > ·) := by
  apply List.Sorted.gt_of_ge
  · unfold groupPositions
    exact List.pairwise_map.mpr (posOrder_sorted vals)
  · exact List.Nodup.of_map _ (groupPositions_mod_nodup vals h)

theorem lex_split {α : Type} (r : α → α → Prop) (l1 l2 : List α) (h : List.Lex r l1 l2)
    (hlen : l1.length = l2.length) :
    ∃ pre a b t1 t2, l1 = pre ++ a :: t1 ∧ l2 = pre ++ b :: t2 ∧ r a b := by
  induction h with
  | nil => simp at hlen
  | @cons a t1 t2 _ ih =>
    obtain ⟨pre, x, y, u1, u2, e1, e2, hr⟩ := ih (by simpa using hlen)
    exact ⟨a :: pre, x, y, u1, u2, by rw [e1]; rfl, by rw [e2]; rfl, hr⟩
  | @rel a t1 b t2 hr => exact ⟨[], a, b, t1, t2, rfl, rfl, hr⟩

/-- Two numbers whose bits are given by strictly decreasing position lists
compare like the lists do lexicographically. -/
theorem lex_dominance (A B : List Nat) (na nb : Nat)
    (hA : A.Sorted (· > ·)) (hB : B.Sorted (· > ·)) (hBm : (B.map (· % 13)).Nodup)
    (hna : ∀ k, na.testBit k = true ↔ ∃ p ∈ A, k = p ∨ (13 ≤ p ∧ k = p % 13))
    (hnb : ∀ k, nb.testBit k = true ↔ ∃ p ∈ B, k = p ∨ (13 ≤ p ∧ k = p % 13))
    (hlex : List.Lex (· < ·) A B) (hlen : A.length = B.length) : na < nb := by
  obtain ⟨pre, p, q, ra, rb, eA, eB, hpq⟩ := lex_split _ A B hlex hlen
  subst eA eB
  unfold List.Sorted at hA hB
  rw [List.pairwise_append, List.pairwise_cons] at hA hB
  obtain ⟨_, ⟨hA2, _⟩, _⟩ := hA
  obtain ⟨_, ⟨hB2, _⟩, hB3⟩ := hB
  have hpre : ∀ x ∈ pre, q < x := fun x hx => hB3 x hx q (List.mem_cons_self _ _)
  have hinj := List.inj_on_of_nodup_map hBm
  have hq : q ∈ pre ++ q :: rb := by simp
  apply Nat.lt_of_testBit q
  · -- bit q is not set in na
    by_contra hc
    rw [Bool.not_eq_false] at hc
    obtain ⟨x, hx, hk⟩ := (hna q).mp hc
    rcases List.mem_append.mp hx with hx | hx
    · have h1 := hpre x hx
      rcases hk with hk | ⟨h13, hk⟩
      · omega
      · have hxB : x ∈ pre ++ q :: rb := List.mem_append_left _ hx
        have : x = q := hinj hxB hq (by
          show x % 13 = q % 13
          rw [← hk]
          have : q < 13 := by rw [hk]; exact Nat.mod_lt _ (by norm_num)
          exact (Nat.mod_eq_of_lt this).symm ▸ rfl)
        omega
    · have h1 : x ≤ p := by
        rcases List.mem_cons.mp hx with hx | hx
        · omega
        · exact le_of_lt (hA2 x hx)
      have := Nat.mod_le x 13
      omega
  · exact (hnb q).mpr ⟨q, hq, Or.inl rfl⟩
  · intro j hj
    rw [Bool.eq_iff_iff, hna j, hnb j]
    constructor
    · rintro ⟨x, hx, hk⟩
      rcases List.mem_append.mp hx with hx | hx
      · exact ⟨x, List.mem_append_left _ hx, hk⟩
      · exfalso
        have h1 : x ≤ p := by
          rcases List.mem_cons.mp hx with hx | hx
          · omega
          · exact le_of_lt (hA2 x hx)
        have := Nat.mod_le x 13
        omega
    · rintro ⟨x, hx, hk⟩
      rcases List.mem_append.mp hx with hx | hx
      · exact ⟨x, List.mem_append_left _ hx, hk⟩
      · exfalso
        have h1 : x ≤ q := by
          rcases List.mem_cons.mp hx with hx | hx
          · omega
          · exact le_of_lt (hB2 x hx)
        have := Nat.mod_le x 13
        omega

theorem groupShape_of_groupOf (vals : List Int) (g : Int × Nat) (h : GroupOf vals g) :
    GroupShape g := ⟨h.2.1, h.2.2.1, h.2.2.2.1, h.2.2.2.2⟩

theorem lex_expand (la lb : List (Int × Nat))
    (hpat : la.map Prod.snd = lb.map Prod.snd)
    (hva : ∀ g ∈ la, GroupShape g) (hvb : ∀ g ∈ lb, GroupShape g)
    (hlex : List.Lex (· < ·) (la.map pos) (lb.map pos)) :
    List.Lex (· < ·) (expandGroups la) (expandGroups lb) := by
  induction la generalizing lb with
  | nil =>
    cases lb with
    | nil => simp at hlex
    | cons g' lb' => simp at hpat
  | cons g la' ih =>
    cases lb with
    | nil => simp at hpat
    | cons g' lb' =>
      obtain ⟨k, c⟩ := g
      obtain ⟨k', c'⟩ := g'
      simp only [List.map_cons, List.cons.injEq] at hpat hlex
      obtain ⟨hn, htail⟩ := hpat
      subst hn
      obtain ⟨a1, a2, a3, a4⟩ := hva (k, c) (List.mem_cons_self _ _)
      obtain ⟨b1, b2, b3, b4⟩ := hvb (k', c) (List.mem_cons_self _ _)
      simp only at a1 a2 a3 a4 b1 b2 b3 b4
      have hva' : ∀ x ∈ la', GroupShape x := fun x hx => hva x (List.mem_cons_of_mem _ hx)
      have hvb' : ∀ x ∈ lb', GroupShape x := fun x hx => hvb x (List.mem_cons_of_mem _ hx)
      obtain ⟨n, rfl⟩ : ∃ n, c = n + 1 := ⟨c - 1, by omega⟩
      simp only [expandGroups, List.replicate_succ, List.cons_append]
      generalize hpg : pos (k, n + 1) = pg at hlex
      generalize hpg' : pos (k', n + 1) = pg' at hlex
      cases hlex with
      | cons hl =>
        have hk : k = k' := by
          unfold pos at hpg hpg'
          simp only at hpg hpg'
          omega
        rw [← hk]
        exact List.Lex.cons (List.Lex.append_left _ (ih lb' htail hva' hvb' hl) _)
      | rel hr =>
        apply List.Lex.rel
        unfold pos at hpg hpg'
        simp only at hpg hpg'
        omega

theorem groups_eq_of_pos (la lb : List (Int × Nat))
    (hpat : la.map Prod.snd = lb.map Prod.snd)
    (hva : ∀ g ∈ la, GroupShape g) (hvb : ∀ g ∈ lb, GroupShape g)
    (hpos : la.map pos = lb.map pos) : la = lb := by
  induction la generalizing lb with
  | nil =>
    cases lb with
    | nil => rfl
    | cons g' lb' => simp at hpat
  | cons g la' ih =>
    cases lb with
    | nil => simp at hpat
    | cons g' lb' =>
      simp only [List.map_cons, List.cons.injEq] at hpat hpos
      obtain ⟨a1, a2, a3, a4⟩ := hva g (List.mem_cons_self _ _)
      obtain ⟨b1, b2, b3, b4⟩ := hvb g' (List.mem_cons_self _ _)
      have hk : g.1 = g'.1 := by
        have := hpos.1
        have := hpat.1
        unfold pos at *
        omega
      rw [ih lb' hpat.2 (fun x hx => hva x (List.mem_cons_of_mem _ hx))
        (fun x hx => hvb x (List.mem_cons_of_mem _ hx)) hpos.2]
      congr 1
      exact Prod.ext hk hpat.1

/-- The sorted multiplicities that go with each outcome of the cardinality
tests, over the ways of splitting five cards. -/
theorem pattern_facts (ns : List Nat) (h : ns ∈ compositions5) :
    (ns.length = 2 ∧ ns.foldl max 0 = 4 → ns.insertionSort (· ≥ ·) = [4, 1]) ∧
    (ns.length = 2 ∧ ns.foldl max 0 = 3 → ns.insertionSort (· ≥ ·) = [3, 2]) ∧
    (ns.length = 3 ∧ ns.foldl max 0 = 3 → ns.insertionSort (· ≥ ·) = [3, 1, 1]) ∧
    (ns.length = 3 ∧ ns.foldl max 0 = 2 → ns.insertionSort (· ≥ ·) = [2, 2, 1]) ∧
    (ns.length = 4 ∧ ns.foldl max 0 = 2 → ns.insertionSort (· ≥ ·) = [2, 1, 1, 1]) := by
  unfold compositions5 at h
  simp only [List.mem_cons, List.mem_singleton, List.not_mem_nil, or_false] at h
  rcases h with h | h | h | h | h | h | h | h | h | h | h | h | h | h | h | h <;>
    (subst h; decide)

theorem pattern_rest (ns : List Nat) (h : ns ∈ compositions5) (h5 : ¬ 5 ∈ ns)
    (h1 : ¬ (ns.length = 2 ∧ ns.foldl max 0 = 4)) (h2 : ¬ (ns.length = 2 ∧ ns.foldl max 0 = 3))
    (h3 : ¬ (ns.length = 3 ∧ ns.foldl max 0 = 3)) (h4 : ¬ (ns.length = 3 ∧ ns.foldl max 0 = 2))
    (h6 : ¬ (ns.length = 4 ∧ ns.foldl max 0 = 2)) :
    ns.insertionSort (· ≥ ·) = [1, 1, 1, 1, 1] := by
  unfold compositions5 at h
  simp only [List.mem_cons, List.mem_singleton, List.not_mem_nil, or_false] at h
  rcases h with h | h | h | h | h | h | h | h | h | h | h | h | h | h | h | h <;>
    subst h <;> first | rfl | (exfalso; revert h5 h1 h2 h3 h4 h6; decide)

theorem pattern_ones (ns : List Nat) (h : ns ∈ compositions5) (h1 : ∀ n ∈ ns, n = 1) :
    ns.insertionSort (· ≥ ·) = [1, 1, 1, 1, 1] ∧
    ¬ (ns.length = 2 ∧ ns.foldl max 0 = 4) ∧ ¬ (ns.length = 2 ∧ ns.foldl max 0 = 3) := by
  unfold compositions5 at h
  simp only [List.mem_cons, List.mem_singleton, List.not_mem_nil, or_false] at h
  rcases h with h | h | h | h | h | h | h | h | h | h | h | h | h | h | h | h <;>
    subst h <;> first | decide | (exfalso; revert h1; decide)

theorem rankCounts_ones (vals : List Int) (h : vals.Nodup) : ∀ n ∈ rankCounts vals, n = 1 := by
  intro n hn
  obtain ⟨⟨k, n'⟩, hp, rfl⟩ := List.mem_map.mp hn
  obtain ⟨h1, h2⟩ := (mem_countRanks vals k n').mp hp
  have := List.nodup_iff_count_le_one.mp h k
  simp only
  omega

theorem straight_values_nodup (cs : List Card) (hlen : cs.length = 5)
    (h : isStraightFrom 1 (handValues cs) = true) : (handValues cs).Nodup := by
  obtain ⟨a, b, c, d, e, hv⟩ := length_five (handValues cs)
    ((handValues_length cs).trans hlen)
  rw [hv] at h ⊢
  rw [isStraightFrom_five] at h
  obtain ⟨h1, h2, h3, h4⟩ := h
  simp only [List.nodup_cons, List.mem_cons, List.mem_singleton, List.not_mem_nil,
    List.nodup_nil, or_false, and_true, not_or, not_false_eq_true]
  omega

theorem sortedGroups_counts (vals : List Int) (h : ValsOk vals) :
    (sortedGroups vals).map Prod.snd = (rankCounts vals).insertionSort (· ≥ ·) := by
  haveI : IsTotal Nat (· ≥ ·) := ⟨fun a b => le_total b a⟩
  haveI : IsTrans Nat (· ≥ ·) := ⟨fun a b c h1 h2 => le_trans h2 h1⟩
  haveI : IsAntisymm Nat (· ≥ ·) := ⟨fun a b h1 h2 => le_antisymm h2 h1⟩
  apply List.eq_of_perm_of_sorted (r := (· ≥ ·))
  · unfold sortedGroups rankCounts
    exact ((List.perm_insertionSort _ _).map _).trans (List.perm_insertionSort _ _).symm
  · have hs := posOrder_sorted vals
    unfold List.Sorted at hs ⊢
    rw [List.pairwise_map]
    have hs' := List.Pairwise.and_mem.mp hs
    refine hs'.imp ?_
    rintro p q ⟨hp, hq, hle⟩
    obtain ⟨p1, p2, p3, p4, p5⟩ := groupOf_sortedGroups vals h p hp
    obtain ⟨q1, q2, q3, q4, q5⟩ := groupOf_sortedGroups vals h q hq
    unfold pos at hle
    show q.2 ≤ p.2
    omega
  · exact List.sorted_insertionSort _ _

theorem five_not_mem_rankCounts (vals : List Int) (h : ValsOk vals) :
    ¬ 5 ∈ rankCounts vals := by
  intro h5
  obtain ⟨⟨k, n⟩, hp, hn⟩ := List.mem_map.mp h5
  simp only at hn
  subst hn
  obtain ⟨h1, _⟩ := (mem_countRanks vals k 5).mp hp
  have hk : k ∈ vals := by rw [← List.count_pos_iff, ← h1]; norm_num
  have := h.2 k hk
  omega

/-- The multiplicities of the groups of a hand, most significant first, are
fixed by its category. -/
theorem pattern_of_category (cs : List Card) (h : Distinct5 cs) :
    (sortedGroups (handValues cs)).map Prod.snd = patternOf (ofCards cs).getCategory := by
  have hok := distinct5_valsOk cs h
  rw [sortedGroups_counts _ hok, ofCards_category cs h]
  have hlen : (handValues cs).length = 5 := (handValues_length cs).trans h.1
  have hns : rankCounts (handValues cs) ∈ compositions5 :=
    mem_compositions5 _ ((rankCounts_sum _).trans hlen) (rankCounts_pos _)
  have h5 := five_not_mem_rankCounts _ hok
  obtain ⟨p1, p2, p3, p4, p5⟩ := pattern_facts _ hns
  have hD := cardinalityV_false (handValues cs)
  have hM := cardinalityV_true (handValues cs)
  have hF : isFlush (sortCards cs) = true →
      (rankCounts (handValues cs)).insertionSort (· ≥ ·) = [1, 1, 1, 1, 1] :=
    fun hf => (pattern_ones _ hns (rankCounts_ones _ (flush_values_nodup cs h hf))).1
  have hS : isStraightFrom 1 (handValues cs) = true →
      (rankCounts (handValues cs)).insertionSort (· ≥ ·) = [1, 1, 1, 1, 1] :=
    fun hs => (pattern_ones _ hns (rankCounts_ones _ (straight_values_nodup cs h.1 hs))).1
  unfold classifyV
  simp only [Bool.and_eq_true, beq_iff_eq, hD, hM]
  by_cases c1 : isFlush (sortCards cs) = true ∧ isStraightFrom 1 (handValues cs) = true
  · rw [if_pos c1]; exact hF c1.1
  rw [if_neg c1]
  by_cases c2 : (rankCounts (handValues cs)).length = 2 ∧
      (rankCounts (handValues cs)).foldl max 0 = 4
  · rw [if_pos c2]; exact p1 c2
  rw [if_neg c2]
  by_cases c3 : (rankCounts (handValues cs)).length = 2 ∧
      (rankCounts (handValues cs)).foldl max 0 = 3
  · rw [if_pos c3]; exact p2 c3
  rw [if_neg c3]
  by_cases c4 : isFlush (sortCards cs) = true
  · rw [if_pos c4]; exact hF c4
  rw [if_neg c4]
  by_cases c5 : isStraightFrom 1 (handValues cs) = true
  · rw [if_pos c5]; exact hS c5
  rw [if_neg c5]
  by_cases c6 : (rankCounts (handValues cs)).length = 3 ∧
      (rankCounts (handValues cs)).foldl max 0 = 3
  · rw [if_pos c6]; exact p3 c6
  rw [if_neg c6]
  by_cases c7 : (rankCounts (handValues cs)).length = 3 ∧
      (rankCounts (handValues cs)).foldl max 0 = 2
  · rw [if_pos c7]; exact p4 c7
  rw [if_neg c7]
  by_cases c8 : (rankCounts (handValues cs)).length = 4 ∧
      (rankCounts (handValues cs)).foldl max 0 = 2
  · rw [if_pos c8]; exact p5 c8
  rw [if_neg c8]
  exact pattern_rest _ hns h5 c2 c3 c6 c7 c8

theorem wheel_category (cs : List Card) (h : Distinct5 cs)
    (hw : isWheel (cs.map Card.getValue)) :
    (ofCards cs).getCategory = Category.STRAIGHT ∨
      (ofCards cs).getCategory = Category.STRAIGHT_FLUSH := by
  rw [ofCards_category cs h, (isWheel_iff cs).mp hw]
  cases isFlush (sortCards cs)
  · left; decide
  · right; decide

/-- Score of a hand of five distinct valid cards with the tabulated base. -/
theorem ofCards_score_spec (cs : List Card) (h : Distinct5 cs) :
    (ofCards cs).getScore =
      (specCategoryBase (ofCards cs).getCategory
        (decide (isWheel (cs.map Card.getValue))) : Int) * 2 ^ 52 +
        (ordinalityV (handValues cs) : Int) := by
  rw [ofCards_score cs h, ofCards_category cs h, categoryBaseV_eq_spec cs _ h.1]

/-- The tie-break list of a straight other than the wheel starts with a value
of at least six. -/
theorem straight_tieBreak_head (cs : List Card) (h : Distinct5 cs)
    (hc : (ofCards cs).getCategory = Category.STRAIGHT ∨
      (ofCards cs).getCategory = Category.STRAIGHT_FLUSH)
    (hw : ¬ isWheel (cs.map Card.getValue)) :
    ∃ x t, tieBreakList (cs.map Card.getValue) = x :: t ∧ 6 ≤ x := by
  rw [ofCards_category cs h] at hc
  have hs := classifyV_straight _ _ hc
  have hnd : (cs.map Card.getValue).Nodup :=
    (handValues_perm cs).nodup_iff.mp (straight_values_nodup cs h.1 hs)
  rcases (isStraight_iff cs h.1).mp hs with ⟨lo, hlo, hperm⟩ | hwh
  · have hrange := getValue_range
    have hlo2 : 2 ≤ lo := by
      obtain ⟨c, hc', rfl⟩ := List.mem_map.mp hlo
      exact (getValue_range c (h.2.1 c hc')).1
    have htop : lo + 4 ∈ cs.map Card.getValue := hperm.mem_iff.mpr (by simp)
    unfold tieBreakList
    rw [if_neg hw]
    haveI := tieOrder_total (cs.map Card.getValue)
    haveI := tieOrder_trans (cs.map Card.getValue)
    have hsorted := List.sorted_insertionSort (tieOrder (cs.map Card.getValue))
      (cs.map Card.getValue)
    have hp := List.perm_insertionSort (tieOrder (cs.map Card.getValue))
      (cs.map Card.getValue)
    generalize (cs.map Card.getValue).insertionSort (tieOrder (cs.map Card.getValue)) = tl
      at hsorted hp
    have hmem : lo + 4 ∈ tl := hp.mem_iff.mpr htop
    cases tl with
    | nil => cases hmem
    | cons x t =>
      refine ⟨x, t, rfl, ?_⟩
      rcases List.mem_cons.mp hmem with hx | hx
      · omega
      · have hto := (List.sorted_cons.mp hsorted).1 _ hx
        have hxm : x ∈ cs.map Card.getValue := hp.mem_iff.mp (List.mem_cons_self _ _)
        have c1 : (cs.map Card.getValue).count x = 1 := List.count_eq_one_of_mem hnd hxm
        have c2 : (cs.map Card.getValue).count (lo + 4) = 1 :=
          List.count_eq_one_of_mem hnd htop
        unfold tieOrder at hto
        omega
  · exact absurd hwh hw

theorem compare_of_valid (x y : PokerHand) (hx : x.isValid = true) (hy : y.isValid = true) :
    (x.compare y = Comparison.WINNER_SELF ↔ y.getScore < x.getScore) ∧
    (x.compare y = Comparison.EQUAL_HAND ↔ x.getScore = y.getScore) := by
  unfold PokerHand.compare
  simp only [hx, hy, Bool.and_self, if_true]
  constructor
  · split_ifs <;> simp_all
  · split_ifs with h1 h2 <;> simp_all <;> omega

theorem handValues_eq_of_perm (a b : List Card)
    (h : (a.map Card.getValue).Perm (b.map Card.getValue)) : handValues a = handValues b :=
  List.eq_of_perm_of_sorted
    (((handValues_perm a).trans h).trans (handValues_perm b).symm)
    (handValues_sorted a) (handValues_sorted b)

theorem lex_irrefl (l : List Int) : ¬ List.Lex (· < ·) l l := fun h => asymm h h

/-- Tie-break between two hands of one category, neither being a wheel, in
terms of the ordinalities. -/
theorem nonwheel_tie_break (a b : List Card) (ha : Distinct5 a) (hb : Distinct5 b)
    (hcat : (ofCards a).getCategory = (ofCards b).getCategory)
    (hwa : ¬ isWheel (a.map Card.getValue)) (hwb : ¬ isWheel (b.map Card.getValue)) :
    (ordinalityV (handValues b) < ordinalityV (handValues a) ↔
      List.Lex (· < ·) (tieBreakList (b.map Card.getValue))
        (tieBreakList (a.map Card.getValue))) ∧
    (ordinalityV (handValues a) = ordinalityV (handValues b) ↔
      (a.map Card.getValue).Perm (b.map Card.getValue)) := by
  have hoka := distinct5_valsOk a ha
  have hokb := distinct5_valsOk b hb
  have hpat : (sortedGroups (handValues a)).map Prod.snd =
      (sortedGroups (handValues b)).map Prod.snd := by
    rw [pattern_of_category a ha, pattern_of_category b hb, hcat]
  have hlen : (groupPositions (handValues a)).length =
      (groupPositions (handValues b)).length := by
    have := congrArg List.length hpat
    simpa [groupPositions] using this
  have hsa : ∀ g ∈ sortedGroups (handValues a), GroupShape g :=
    fun g hg => groupShape_of_groupOf _ g (groupOf_sortedGroups _ hoka g hg)
  have hsb : ∀ g ∈ sortedGroups (handValues b), GroupShape g :=
    fun g hg => groupShape_of_groupOf _ g (groupOf_sortedGroups _ hokb g hg)
  have tla := tieBreakList_eq a ha hwa
  have tlb := tieBreakList_eq b hb hwb
  have k1 : List.Lex (· < ·) (groupPositions (handValues a)) (groupPositions (handValues b)) →
      ordinalityV (handValues a) < ordinalityV (handValues b) ∧
      List.Lex (· < ·) (tieBreakList (a.map Card.getValue))
        (tieBreakList (b.map Card.getValue)) := by
    intro hl
    refine ⟨lex_dominance _ _ _ _ (groupPositions_sorted _ hoka) (groupPositions_sorted _ hokb)
      (groupPositions_mod_nodup _ hokb) (testBit_ord_groups _ hoka)
      (testBit_ord_groups _ hokb) hl hlen, ?_⟩
    rw [tla, tlb]
    exact lex_expand _ _ hpat hsa hsb hl
  have k2 : List.Lex (· < ·) (groupPositions (handValues b)) (groupPositions (handValues a)) →
      ordinalityV (handValues b) < ordinalityV (handValues a) ∧
      List.Lex (· < ·) (tieBreakList (b.map Card.getValue))
        (tieBreakList (a.map Card.getValue)) := by
    intro hl
    refine ⟨lex_dominance _ _ _ _ (groupPositions_sorted _ hokb) (groupPositions_sorted _ hoka)
      (groupPositions_mod_nodup _ hoka) (testBit_ord_groups _ hokb)
      (testBit_ord_groups _ hoka) hl hlen.symm, ?_⟩
    rw [tla, tlb]
    exact lex_expand _ _ hpat.symm hsb hsa hl
  have k3 : groupPositions (handValues a) = groupPositions (handValues b) →
      (a.map Card.getValue).Perm (b.map Card.getValue) := by
    intro he
    have hg := groups_eq_of_pos _ _ hpat hsa hsb he
    have h1 := expandGroups_sortedGroups (handValues a)
    have h2 := expandGroups_sortedGroups (handValues b)
    rw [hg] at h1
    exact ((handValues_perm a).symm.trans (h1.symm.trans h2)).trans (handValues_perm b)
  have k4 : (a.map Card.getValue).Perm (b.map Card.getValue) →
      ordinalityV (handValues a) = ordinalityV (handValues b) ∧
      tieBreakList (a.map Card.getValue) = tieBreakList (b.map Card.getValue) := by
    intro hp
    have hv := handValues_eq_of_perm a b hp
    rw [tla, tlb, hv]
    exact ⟨rfl, rfl⟩
  have tri := trichotomous_of (List.Lex (· < · : Nat → Nat → Prop))
    (groupPositions (handValues a)) (groupPositions (handValues b))
  constructor
  · constructor
    · intro hlt
      rcases tri with t | t | t
      · have := (k1 t).1; omega
      · have := (k4 (k3 t)).1; omega
      · exact (k2 t).2
    · intro hlex
      rcases tri with t | t | t
      · exact absurd hlex (asymm (k1 t).2)
      · rw [(k4 (k3 t)).2] at hlex
        exact absurd hlex (lex_irrefl _)
      · exact (k2 t).1
  · constructor
    · intro he
      rcases tri with t | t | t
      · have := (k1 t).1; omega
      · exact k3 t
      · have := (k2 t).1; omega
    · intro hp
      exact (k4 hp).1

theorem tieBreakList_wheel (vals : List Int) (h : isWheel vals) :
    tieBreakList vals = [5, 4, 3, 2, 1] := by
  unfold tieBreakList
  rw [if_pos h]

theorem specCategoryBase_wheel (cat : Category)
    (h : cat = Category.STRAIGHT ∨ cat = Category.STRAIGHT_FLUSH) :
    specCategoryBase cat true + 1 = specCategoryBase cat false := by
  rcases h with h | h <;> subst h <;> rfl

/-- C3: between two hands of five pairwise-distinct valid cards of the same
category, `compare` returns `WINNER_SELF` exactly when the first hand beats the
second under the standard tie-break (ranks listed by multiplicity descending,
then rank descending, the wheel counting as five-high; lists compared
lexicographically), and `EQUAL_HAND` exactly when the two hands have the same
multiset of ranks. -/
theorem tie_break_order (a b : List Card) (ha : Distinct5 a) (hb : Distinct5 b)
    (hcat : (ofCards a).getCategory = (ofCards b).getCategory) :
    ((ofCards a).compare (ofCards b) = Comparison.WINNER_SELF ↔
      List.Lex (· < ·) (tieBreakList (b.map Card.getValue))
        (tieBreakList (a.map Card.getValue))) ∧
    ((ofCards a).compare (ofCards b) = Comparison.EQUAL_HAND ↔
      (a.map Card.getValue).Perm (b.map Card.getValue)) := by
  obtain ⟨cS, cE⟩ := compare_of_valid _ _ (ofCards_valid a ha) (ofCards_valid b hb)
  rw [cS, cE, ofCards_score_spec a ha, ofCards_score_spec b hb, hcat]
  have hla := ordinalityV_lt _ (distinct5_valsOk a ha)
  have hlb := ordinalityV_lt _ (distinct5_valsOk b hb)
  by_cases hwa : isWheel (a.map Card.getValue)
  · have hca := wheel_category a ha hwa
    rw [hcat] at hca
    have hbase := specCategoryBase_wheel _ hca
    by_cases hwb : isWheel (b.map Card.getValue)
    · have hv : handValues a = handValues b := by
        rw [(isWheel_iff a).mp hwa, (isWheel_iff b).mp hwb]
      have hp : (a.map Card.getValue).Perm (b.map Card.getValue) := by
        unfold isWheel at hwa hwb
        exact hwa.trans hwb.symm
      rw [tieBreakList_wheel _ hwa, tieBreakList_wheel _ hwb, hv]
      simp only [hwa, hwb, decide_True, lt_self_iff_false, false_iff, true_iff]
      exact ⟨lex_irrefl _, hp⟩
    · obtain ⟨x, t, htl, hx⟩ := straight_tieBreak_head b hb hca hwb
      rw [tieBreakList_wheel _ hwa, htl]
      simp only [hwa, hwb, decide_True, decide_False]
      generalize specCategoryBase (ofCards b).getCategory true = bt at hbase ⊢
      generalize specCategoryBase (ofCards b).getCategory false = bf at hbase ⊢
      refine ⟨⟨fun h => by omega, fun h => ?_⟩, ⟨fun h => by omega, fun h => ?_⟩⟩
      · cases h with
        | rel hr => omega
        | cons _ => omega
      · exact absurd (show isWheel (b.map Card.getValue) from h.symm.trans hwa) hwb
  · by_cases hwb : isWheel (b.map Card.getValue)
    · have hcb := wheel_category b hb hwb
      have hbase := specCategoryBase_wheel _ hcb
      rw [← hcat] at hcb
      obtain ⟨x, t, htl, hx⟩ := straight_tieBreak_head a ha hcb hwa
      rw [tieBreakList_wheel _ hwb, htl]
      simp only [hwa, hwb, decide_True, decide_False]
      generalize specCategoryBase (ofCards b).getCategory true = bt at hbase ⊢
      generalize specCategoryBase (ofCards b).getCategory false = bf at hbase ⊢
      refine ⟨⟨fun _ => List.Lex.rel (by omega), fun _ => by omega⟩,
        ⟨fun h => by omega, fun h => ?_⟩⟩
      exact absurd (show isWheel (a.map Card.getValue) from h.trans hwb) hwa
    · obtain ⟨n1, n2⟩ := nonwheel_tie_break a b ha hb hcat hwa hwb
      simp only [hwa, hwb, decide_False]
      rw [← n1, ← n2]
      generalize specCategoryBase (ofCards b).getCategory false = bf
      constructor
      · constructor <;> intro h <;> omega
      · constructor <;> intro h <;> omega

/-- Witness of `tie_break_order`: a pair of fives with a king kicker against a
pair of fives with a queen kicker. -/
theorem tie_break_order_witness :
    ((ofCards pairFivesKingCards).compare (ofCards pairFivesQueenCards) =
        Comparison.WINNER_SELF ↔
      List.Lex (· < ·) (tieBreakList (pairFivesQueenCards.map Card.getValue))
        (tieBreakList (pairFivesKingCards.map Card.getValue))) ∧
    ((ofCards pairFivesKingCards).compare (ofCards pairFivesQueenCards) =
        Comparison.EQUAL_HAND ↔
      (pairFivesKingCards.map Card.getValue).Perm
        (pairFivesQueenCards.map Card.getValue)) :=
  tie_break_order pairFivesKingCards pairFivesQueenCards (by decide) (by decide) (by decide)

/-! ## Malformed tokens -/

theorem validate_invalid_card (cs : List Card) (c : Card) (hc : c ∈ cs)
    (hi : c.isValid = false) : validate cs = false := by
  unfold validate
  split_ifs
  · rfl
  · rw [List.all_eq_false]
    exact ⟨c, hc, by simp [hi]⟩

/-- C11 (the code departs from the claim): the construction of a hand from the
text `A KS QS JS TS` does not complete, because the token `A` has no second
character and the `Card` constructor throws; the same happens for the empty
text and for a text that starts with white space, whose first token is
empty. -/
theorem short_token_construction_raises :
    ofNotation "A KS QS JS TS".toList = none ∧
    ofNotation "".toList = none ∧
    ofNotation " AS KS QS JS TS".toList = none := by
  decide

theorem validate_perm (a b : List Card) (h : a.Perm b) : validate a = validate b := by
  unfold validate
  rw [h.length_eq]
  split_ifs
  · rfl
  · rw [Bool.eq_iff_iff, List.all_eq_true, List.all_eq_true]
    exact ⟨fun H c hc => H c (h.mem_iff.mpr hc), fun H c hc => H c (h.mem_iff.mp hc)⟩

theorem sortCards_sorted (cs : List Card) :
    (sortCards cs).Sorted (fun a b => a.getValue ≤ b.getValue) := by
  haveI : IsTotal Card (fun a b => a.getValue ≤ b.getValue) :=
    ⟨fun a b => le_total a.getValue b.getValue⟩
  haveI : IsTrans Card (fun a b => a.getValue ≤ b.getValue) :=
    ⟨fun a b c hab hbc => le_trans hab hbc⟩
  exact List.sorted_insertionSort (fun a b : Card => a.getValue ≤ b.getValue) cs

theorem sortCards_idem (cs : List Card) : sortCards (sortCards cs) = sortCards cs :=
  (sortCards_sorted cs).insertionSort_eq

/-- A hand that has just been processed is the hand built from its cards. -/
theorem ofCards_process (h : PokerHand) : ofCards (process h).cards = process h := by
  unfold ofCards process
  simp only [sortCards_idem, validate_perm _ _ (sortCards_perm h.cards)]

theorem ofCards_applyOps (start : PokerHand) (hs : ofCards start.cards = start)
    (ops : List HandOp) : ofCards (start.applyOps ops).cards = start.applyOps ops := by
  unfold PokerHand.applyOps
  induction ops generalizing start with
  | nil => exact hs
  | cons op ops ih =>
    rw [List.foldl_cons]
    apply ih
    cases op with
    | add c => exact ofCards_process _
    | remove c => exact ofCards_process _

/-- C13: after any sequence of `add` and `remove` calls, on the empty default
hand, on a hand constructed from cards or on a hand constructed from a text,
the validity, the category and the score of the hand are those of a fresh hand
constructed from the cards that the hand now holds. -/
theorem add_remove_keeps_detail (start : PokerHand)
    (hs : start = PokerHand.empty ∨ (∃ cs, start = ofCards cs) ∨
      ∃ text, ofNotation text = some start)
    (ops : List HandOp) :
    (start.applyOps ops).isValid = (ofCards (start.applyOps ops).cards).isValid ∧
    (start.applyOps ops).getCategory = (ofCards (start.applyOps ops).cards).getCategory ∧
    (start.applyOps ops).getScore = (ofCards (start.applyOps ops).cards).getScore := by
  have h0 : ofCards start.cards = start := by
    rcases hs with rfl | ⟨cs, rfl⟩ | ⟨text, ht⟩
    · rfl
    · exact ofCards_process _
    · unfold ofNotation at ht
      cases hp : parse text with
      | none => simp [hp] at ht
      | some cards =>
        simp only [hp, Option.map_some', Option.some.injEq] at ht
        rw [← ht]
        exact ofCards_process _
  rw [ofCards_applyOps start h0 ops]
  exact ⟨rfl, rfl, rfl⟩

/-- Witness of `add_remove_keeps_detail`: from the empty hand, the calls of
`sampleOps` leave the wheel `2D 3H 4C 5H AS`, a valid straight. -/
theorem add_remove_keeps_detail_witness :
    (PokerHand.empty.applyOps sampleOps).cards.map Card.face =
      [('2', 'D'), ('3', 'H'), ('4', 'C'), ('5', 'H'), ('A', 'S')] ∧
    (PokerHand.empty.applyOps sampleOps).isValid = true ∧
    (PokerHand.empty.applyOps sampleOps).isValid =
      (ofCards (PokerHand.empty.applyOps sampleOps).cards).isValid ∧
    (PokerHand.empty.applyOps sampleOps).getCategory =
      (ofCards (PokerHand.empty.applyOps sampleOps).cards).getCategory ∧
    (PokerHand.empty.applyOps sampleOps).getScore =
      (ofCards (PokerHand.empty.applyOps sampleOps).cards).getScore :=
  ⟨by decide, by decide, add_remove_keeps_detail PokerHand.empty (Or.inl rfl) sampleOps⟩

/-! ## Positions of the cards of a grouping -/

theorem mem_positionsOf (v : Int) (s : Nat) (cards : List Card) (i : Nat) :
    i ∈ positionsOf v s cards ↔ s ≤ i ∧ ∃ c, cards[i - s]? = some c ∧ c.getValue = v := by
  induction cards generalizing s with
  | nil => simp [positionsOf]
  | cons c cs ih =>
    unfold positionsOf
    have key : (i = s ∧ c.getValue = v) ∨ i ∈ positionsOf v (s + 1) cs ↔
        s ≤ i ∧ ∃ d, (c :: cs)[i - s]? = some d ∧ d.getValue = v := by
      rw [ih]
      constructor
      · rintro (⟨rfl, hv⟩ | ⟨hs, d, hd, hv⟩)
        · exact ⟨le_refl _, c, by simp, hv⟩
        · refine ⟨by omega, d, ?_, hv⟩
          have : i - s = (i - (s + 1)) + 1 := by omega
          rw [this, List.getElem?_cons_succ]
          exact hd
      · rintro ⟨hs, d, hd, hv⟩
        by_cases his : i = s
        · subst his
          simp at hd
          subst hd
          exact Or.inl ⟨rfl, hv⟩
        · right
          refine ⟨by omega, d, ?_, hv⟩
          have : i - s = (i - (s + 1)) + 1 := by omega
          rw [this, List.getElem?_cons_succ] at hd
          exact hd
    split_ifs with hc
    · rw [List.mem_cons, ← key]
      simp [hc]
    · rw [← key]
      simp [hc]

theorem sorted_positionsOf (v : Int) (s : Nat) (cards : List Card) :
    (positionsOf v s cards).Sorted (· < ·) := by
  induction cards generalizing s with
  | nil => simp [positionsOf]
  | cons c cs ih =>
    unfold positionsOf
    split_ifs
    · refine List.sorted_cons.mpr ⟨fun j hj => ?_, ih _⟩
      have := ((mem_positionsOf v (s + 1) cs j).mp hj).1
      omega
    · exact ih _

theorem length_positionsOf (v : Int) (s : Nat) (cards : List Card) :
    (positionsOf v s cards).length = (cards.map Card.getValue).count v := by
  induction cards generalizing s with
  | nil => simp [positionsOf]
  | cons c cs ih =>
    unfold positionsOf
    rw [List.map_cons, List.count_cons]
    by_cases hc : c.getValue = v
    · simp [ih, hc]
    · simp [ih, hc]

theorem foldl_append_if {α β : Type} (p : α → Prop) [DecidablePred p] (f : α → List β)
    (m : List α) (init : List β) :
    m.foldl (fun acc it => if p it then acc ++ f it else acc) init =
      init ++ (m.filter (fun it => decide (p it))).flatMap f := by
  induction m generalizing init with
  | nil => simp
  | cons a m ih =>
    rw [List.foldl_cons, ih]
    by_cases ha : p a
    · simp [ha, List.filter_cons]
    · simp [ha, List.filter_cons]

theorem indexByCardinality_eq (h : PokerHand) (k : Int) :
    h.indexByCardinality k =
      ((countRanks (h.cards.map Card.getValue)).filter
        (fun it => decide ((it.2 : Int) = k))).flatMap (fun it => positionsOf it.1 0 h.cards) := by
  unfold indexByCardinality
  rw [foldl_append_if (fun it : Int × Nat => (it.2 : Int) = k)]
  simp

theorem mem_indexByCardinality (h : PokerHand) (k : Int) (i : Nat) :
    i ∈ h.indexByCardinality k ↔ i ∈ positionsWithCount h.cards k := by
  rw [indexByCardinality_eq, List.mem_flatMap]
  unfold positionsWithCount
  rw [List.mem_filter, List.mem_range]
  constructor
  · rintro ⟨⟨v, n⟩, hit, hi⟩
    rw [List.mem_filter, mem_countRanks] at hit
    obtain ⟨-, c, hc, hv⟩ := (mem_positionsOf _ _ _ _).mp hi
    rw [Nat.sub_zero] at hc
    obtain ⟨hlt, -⟩ := List.getElem?_eq_some.mp hc
    refine ⟨hlt, ?_⟩
    rw [hc]
    simp only [decide_eq_true_eq] at hit ⊢
    rw [hv, ← hit.1.1]
    exact hit.2
  · rintro ⟨hlt, hi⟩
    have hc : h.cards[i]? = some h.cards[i] := List.getElem?_eq_getElem hlt
    rw [hc] at hi
    simp only [decide_eq_true_eq] at hi
    refine ⟨(h.cards[i].getValue, (h.cards.map Card.getValue).count h.cards[i].getValue), ?_, ?_⟩
    · rw [List.mem_filter, mem_countRanks]
      refine ⟨⟨rfl, ?_⟩, by simp [hi]⟩
      exact List.count_pos_iff.mpr (List.mem_map_of_mem _ (List.getElem_mem hlt))
    · exact (mem_positionsOf _ _ _ _).mpr ⟨Nat.zero_le _, _, by simp, rfl⟩

theorem sorted_positionsWithCount (cards : List Card) (k : Int) :
    (positionsWithCount cards k).Sorted (· < ·) :=
  List.Pairwise.filter _ (List.pairwise_lt_range _)

theorem sorted_indexByCardinality (h : PokerHand)
    (hs : h.cards.Sorted (fun a b => a.getValue ≤ b.getValue)) (k : Int) :
    (h.indexByCardinality k).Sorted (· < ·) := by
  rw [indexByCardinality_eq]
  refine List.pairwise_flatMap.mpr ⟨fun a _ => sorted_positionsOf _ _ _, ?_⟩
  have hm : (countRanks (h.cards.map Card.getValue)).Pairwise (fun a b => a.1 < b.1) :=
    List.pairwise_map.mp (countRanks_ok _).1
  refine (List.Pairwise.filter _ hm).imp ?_
  intro a b hab x hx y hy
  obtain ⟨-, c, hc, hcv⟩ := (mem_positionsOf _ _ _ _).mp hx
  obtain ⟨-, d, hd, hdv⟩ := (mem_positionsOf _ _ _ _).mp hy
  rw [Nat.sub_zero] at hc hd
  obtain ⟨hx', hcx⟩ := List.getElem?_eq_some.mp hc
  obtain ⟨hy', hdy⟩ := List.getElem?_eq_some.mp hd
  by_contra hxy
  have hle : y ≤ x := Nat.le_of_not_lt hxy
  rcases Nat.lt_or_eq_of_le hle with hlt | heq
  · have := hs.rel_get_of_lt (show (⟨y, hy'⟩ : Fin h.cards.length) < ⟨x, hx'⟩ from hlt)
    simp only [List.get_eq_getElem] at this
    rw [hcx, hdy, hcv, hdv] at this
    omega
  · subst heq
    rw [hcx] at hdy
    subst hdy
    omega

/-- On a hand whose cards are in value order, `indexByCardinality` lists in
increasing order the positions of the cards whose value is held `k` times. -/
theorem indexByCardinality_spec (h : PokerHand)
    (hs : h.cards.Sorted (fun a b => a.getValue ≤ b.getValue)) (k : Int) :
    h.indexByCardinality k = positionsWithCount h.cards k := by
  have s1 := sorted_indexByCardinality h hs k
  have s2 := sorted_positionsWithCount h.cards k
  refine List.eq_of_perm_of_sorted ?_ s1 s2
  exact (List.perm_ext_iff_of_nodup s1.nodup s2.nodup).mpr (mem_indexByCardinality h k)

theorem length_indexByCardinality (h : PokerHand) (k : Nat) :
    (h.indexByCardinality k).length =
      k * (rankCounts (h.cards.map Card.getValue)).count k := by
  rw [indexByCardinality_eq, List.length_flatMap]
  have hconst : ∀ x ∈ ((countRanks (h.cards.map Card.getValue)).filter
      (fun it => decide ((it.2 : Int) = (k : Int)))).map
        (List.length ∘ fun it => positionsOf it.1 0 h.cards), x = k := by
    intro x hx
    obtain ⟨⟨v, n⟩, hit, rfl⟩ := List.mem_map.mp hx
    rw [List.mem_filter, mem_countRanks] at hit
    simp only [Function.comp, length_positionsOf]
    have := hit.2
    simp only [decide_eq_true_eq, Nat.cast_inj] at this
    rw [← hit.1.1]
    exact this
  rw [List.sum_eq_card_nsmul _ k hconst, List.length_map, smul_eq_mul, Nat.mul_comm]
  congr 1
  unfold rankCounts
  rw [List.count_eq_countP, List.countP_map, List.countP_eq_length_filter]
  congr 1
  apply List.filter_congr
  intro x _
  simp only [Function.comp, Nat.cast_inj]
  by_cases hx : x.2 = k
  · simp [hx]
  · simp [hx]

theorem count_facts (ns : List Nat) (h : ns ∈ compositions5) :
    (ns.length = 4 ∧ ns.foldl max 0 = 2 → ns.count 2 = 1) ∧
    (ns.length = 3 ∧ ns.foldl max 0 = 2 → ns.count 2 = 2) ∧
    (ns.length = 3 ∧ ns.foldl max 0 = 3 → ns.count 3 = 1) ∧
    (ns.length = 2 ∧ ns.foldl max 0 = 4 → ns.count 4 = 1) := by
  unfold compositions5 at h
  simp only [List.mem_cons, List.mem_singleton, List.not_mem_nil, or_false] at h
  rcases h with h | h | h | h | h | h | h | h | h | h | h | h | h | h | h | h <;>
    (subst h; decide)

theorem classifyV_cardinalities (fl : Bool) (vals : List Int) :
    (classifyV fl vals = Category.ONE_PAIR →
      cardinalityV vals false = 4 ∧ cardinalityV vals true = 2) ∧
    (classifyV fl vals = Category.TWO_PAIR →
      cardinalityV vals false = 3 ∧ cardinalityV vals true = 2) ∧
    (classifyV fl vals = Category.THREE_OF_A_KIND →
      cardinalityV vals false = 3 ∧ cardinalityV vals true = 3) ∧
    (classifyV fl vals = Category.FOUR_OF_A_KIND →
      cardinalityV vals false = 2 ∧ cardinalityV vals true = 4) := by
  unfold classifyV
  split_ifs <;> simp_all

theorem indexByCategory_sorted (h : PokerHand)
    (hs : h.cards.Sorted (fun a b => a.getValue ≤ b.getValue)) (c : Category) :
    (h.indexByCategory c).Sorted (· < ·) ∧ ∀ i ∈ h.indexByCategory c, i < h.cards.length := by
  have hk : ∀ k : Int, (h.indexByCardinality k).Sorted (· < ·) ∧
      ∀ i ∈ h.indexByCardinality k, i < h.cards.length := by
    intro k
    refine ⟨sorted_indexByCardinality h hs k, fun i hi => ?_⟩
    rw [mem_indexByCardinality] at hi
    unfold positionsWithCount at hi
    exact List.mem_range.mp (List.mem_filter.mp hi).1
  have hr : (List.range h.cards.length).Sorted (· < ·) ∧
      ∀ i ∈ List.range h.cards.length, i < h.cards.length :=
    ⟨List.pairwise_lt_range _, fun i hi => List.mem_range.mp hi⟩
  have hn : ([] : List Nat).Sorted (· < ·) ∧ ∀ i ∈ ([] : List Nat), i < h.cards.length :=
    ⟨List.sorted_nil, fun i hi => absurd hi (List.not_mem_nil _)⟩
  cases c <;> unfold indexByCategory <;> simp only
  case HIGH_CARD => exact hn
  case INVALID_HAND => exact hn
  case ONE_PAIR => exact hk 2
  case THREE_OF_A_KIND => exact hk 3
  case FOUR_OF_A_KIND => exact hk 4
  case TWO_PAIR => split_ifs; exacts [hn, hk 2]
  all_goals (split_ifs; exacts [hr, hn])

/-- C14: on a hand `h` as the constructors, `add` and `remove` leave it,
`indexByCardinality k` is the increasing list of the positions of the cards
whose value is held exactly `k` times, and `indexByCategory` lists increasing
positions inside the hand. When `h` is valid, `indexByCategory` of the category
of `h` gives the 2 positions of the pair for `ONE_PAIR`, the 4 positions of the
two pairs for `TWO_PAIR`, the 3 positions of the three equal cards for
`THREE_OF_A_KIND`, the 4 positions of the four equal cards for
`FOUR_OF_A_KIND`, the positions 0 to 4 for `STRAIGHT`, `FLUSH`, `FULL_HOUSE`
and `STRAIGHT_FLUSH` and nothing for `HIGH_CARD`. When `h` is not valid its
category is `INVALID_HAND` and `indexByCategory` gives nothing for it. -/
theorem index_positions (cs : List Card) (h : PokerHand) (hh : h = ofCards cs) :
    (∀ k : Int, h.indexByCardinality k = positionsWithCount h.cards k) ∧
    (∀ c, (h.indexByCategory c).Sorted (· < ·) ∧
      ∀ i ∈ h.indexByCategory c, i < h.cards.length) ∧
    (h.isValid = true →
      (h.getCategory = Category.ONE_PAIR →
        h.indexByCategory Category.ONE_PAIR = positionsWithCount h.cards 2 ∧
        (h.indexByCategory Category.ONE_PAIR).length = 2) ∧
      (h.getCategory = Category.TWO_PAIR →
        h.indexByCategory Category.TWO_PAIR = positionsWithCount h.cards 2 ∧
        (h.indexByCategory Category.TWO_PAIR).length = 4) ∧
      (h.getCategory = Category.THREE_OF_A_KIND →
        h.indexByCategory Category.THREE_OF_A_KIND = positionsWithCount h.cards 3 ∧
        (h.indexByCategory Category.THREE_OF_A_KIND).length = 3) ∧
      (h.getCategory = Category.FOUR_OF_A_KIND →
        h.indexByCategory Category.FOUR_OF_A_KIND = positionsWithCount h.cards 4 ∧
        (h.indexByCategory Category.FOUR_OF_A_KIND).length = 4) ∧
      (h.getCategory = Category.STRAIGHT ∨ h.getCategory = Category.FLUSH ∨
          h.getCategory = Category.FULL_HOUSE ∨ h.getCategory = Category.STRAIGHT_FLUSH →
        h.indexByCategory h.getCategory = [0, 1, 2, 3, 4]) ∧
      (h.getCategory = Category.HIGH_CARD →
        h.indexByCategory Category.HIGH_CARD = [])) ∧
    (h.isValid = false →
      h.getCategory = Category.INVALID_HAND ∧
      h.indexByCategory Category.INVALID_HAND = []) := by
  have hs : h.cards.Sorted (fun a b => a.getValue ≤ b.getValue) := by
    rw [hh]; exact sortCards_sorted cs
  refine ⟨fun k => indexByCardinality_spec h hs k, fun c => indexByCategory_sorted h hs c,
    fun hv => ?_, fun hv => ?_⟩
  · have hval : validate cs = true := by
      rw [hh] at hv
      exact hv
    have hlen : h.cards.length = 5 := by
      rw [hh]
      exact ((sortCards_perm cs).length_eq).trans (validate_length cs hval)
    have hvals : h.cards.map Card.getValue = handValues cs := by rw [hh]; rfl
    have hcat : h.getCategory = classifyV (isFlush (sortCards cs)) (handValues cs) := by
      rw [hh]
      unfold PokerHand.getCategory
      rw [ofCards_detail cs hval]
      rfl
    have hns : rankCounts (handValues cs) ∈ compositions5 :=
      mem_compositions5 _ ((rankCounts_sum _).trans ((handValues_length cs).trans
        (validate_length cs hval))) (rankCounts_pos _)
    obtain ⟨f1, f2, f3, f4⟩ := count_facts _ hns
    obtain ⟨c1, c2, c3, c4⟩ := classifyV_cardinalities (isFlush (sortCards cs)) (handValues cs)
    rw [cardinalityV_false, cardinalityV_true] at c1 c2 c3 c4
    have l2 := length_indexByCardinality h 2
    have l3 := length_indexByCardinality h 3
    have l4 := length_indexByCardinality h 4
    rw [hvals] at l2 l3 l4
    simp only [Nat.cast_ofNat] at l2 l3 l4
    refine ⟨fun hc => ?_, fun hc => ?_, fun hc => ?_, fun hc => ?_, fun hc => ?_, fun _ => rfl⟩
    · rw [f1 (c1 (hcat ▸ hc))] at l2
      exact ⟨indexByCardinality_spec h hs 2, l2⟩
    · rw [f2 (c2 (hcat ▸ hc))] at l2
      have e : h.indexByCategory Category.TWO_PAIR = h.indexByCardinality 2 := by
        unfold indexByCategory
        simp [l2]
      rw [e]
      exact ⟨indexByCardinality_spec h hs 2, l2⟩
    · rw [f3 (c3 (hcat ▸ hc))] at l3
      exact ⟨indexByCardinality_spec h hs 3, l3⟩
    · rw [f4 (c4 (hcat ▸ hc))] at l4
      exact ⟨indexByCardinality_spec h hs 4, l4⟩
    · have hd : ∀ c, h.getCategory = c → h.detail.category = c := fun c hc => hc
      rcases hc with hc | hc | hc | hc <;>
        (rw [hc]; unfold indexByCategory; simp only [hd _ hc, if_true, hlen]; rfl)
  · have hval : validate cs = false := by
      rw [hh] at hv
      exact hv
    refine ⟨?_, rfl⟩
    rw [hh]
    unfold PokerHand.getCategory ofCards
    rw [process_invalid_detail _ hval]

/-- Witness of `index_positions`: the hand built from the two pair
`3S 2D 4H 3C 2H`, whose cards in value order are `2D 2H 3S 3C 4H`. -/
theorem index_positions_witness :
    (ofCards twoPairCards).isValid = true ∧
    (ofCards twoPairCards).getCategory = Category.TWO_PAIR ∧
    (ofCards twoPairCards).indexByCategory Category.TWO_PAIR = [0, 1, 2, 3] ∧
    (ofCards twoPairCards).indexByCardinality 1 = [4] ∧
    ((ofCards twoPairCards).indexByCategory Category.TWO_PAIR =
        positionsWithCount (ofCards twoPairCards).cards 2 ∧
      ((ofCards twoPairCards).indexByCategory Category.TWO_PAIR).length = 4) :=
  ⟨by decide, by decide, by decide, by decide,
    (index_positions twoPairCards (ofCards twoPairCards) rfl).2.2.1 (by decide) |>.2.1
      (by decide)⟩

/-! ## The deck -/

/-- C15: whatever the deck held before, after `Deck::reset` it holds exactly 52
cards, each of them valid, no two with the same rank and suit, and each of the
13 ranks appears with each of the 4 suits; a second reset gives the same deck. -/
theorem reset_full_deck (cards : List Card) :
    (Deck.reset cards).length = 52 ∧
    (∀ c ∈ Deck.reset cards, c.isValid = true) ∧
    ((Deck.reset cards).map Card.face).Nodup ∧
    (∀ r ∈ Card.ranks, ∀ s ∈ Card.suits, (r, s) ∈ (Deck.reset cards).map Card.face) ∧
    Deck.reset (Deck.reset cards) = Deck.reset cards := by
  refine ⟨?_, ?_, ?_, ?_, rfl⟩
  · rfl
  · unfold Deck.reset; decide
  · unfold Deck.reset; decide
  · unfold Deck.reset; decide

theorem swapAt_perm (cards : List Card) (i j : Nat) : (Deck.swapAt cards i j).Perm cards := by
  unfold Deck.swapAt
  cases hi : cards[i]? with
  | none => exact List.Perm.refl _
  | some a =>
    cases hj : cards[j]? with
    | none => exact List.Perm.refl _
    | some b =>
      simp only
      obtain ⟨hil, hia⟩ := List.getElem?_eq_some.mp hi
      obtain ⟨hjl, hjb⟩ := List.getElem?_eq_some.mp hj
      rw [List.perm_iff_count]
      intro x
      have hjl' : j < (cards.set i b).length := by rw [List.length_set]; exact hjl
      have hb : (cards.set i b)[j] = b := by
        rw [List.getElem_set]
        split_ifs
        · rfl
        · exact hjb
      rw [List.count_set _ _ _ _ hjl', hb, List.count_set _ _ _ _ hil, hia]
      have hpos : (a == x) = true → 0 < cards.count x := by
        intro h
        have hax : a = x := by simpa using h
        rw [← hax, ← hia]
        exact List.count_pos_iff.mpr (List.getElem_mem hil)
      by_cases h1 : (a == x) = true <;> by_cases h2 : (b == x) = true
      · have := hpos h1
        simp only [h1, h2, if_true]
        omega
      · have := hpos h1
        simp only [h1, h2, if_true]
        simp only [Bool.false_eq_true, if_false]
        omega
      · simp only [h1, h2, if_true]
        simp only [Bool.false_eq_true, if_false]
        omega
      · simp only [h1, h2]
        simp only [Bool.false_eq_true, if_false]
        omega

theorem shuffleLoop_perm (i : Nat) (draws : List Nat) (cards : List Card) :
    (Deck.shuffleLoop i draws cards).Perm cards := by
  induction i generalizing draws cards with
  | zero => unfold Deck.shuffleLoop; exact List.Perm.refl _
  | succ i ih =>
    cases draws with
    | nil => unfold Deck.shuffleLoop; exact List.Perm.refl _
    | cons r draws =>
      unfold Deck.shuffleLoop
      exact (ih draws _).trans (swapAt_perm cards i r)

/-- C16: for every deck and all values returned by the random distribution,
`Deck::shuffle` leaves a permutation of the former deck, with the same cards as
often and the same size; an empty deck stays empty. -/
theorem shuffle_is_permutation (cards : List Card) (draws : List Nat) :
    (Deck.shuffle cards draws).Perm cards ∧
    (∀ c, (Deck.shuffle cards draws).count c = cards.count c) ∧
    (Deck.shuffle cards draws).length = cards.length ∧
    Deck.shuffle [] draws = [] := by
  have hp : (Deck.shuffle cards draws).Perm cards := by
    unfold Deck.shuffle
    simp only
    split_ifs
    · exact List.Perm.refl _
    · exact shuffleLoop_perm _ _ _
  exact ⟨hp, fun c => hp.count_eq c, hp.length_eq, rfl⟩

/-- C17 (the code departs from the claim): for the deck `2C 3C 4C` there are 27
sequences of three draws in `[0, 2]`; `Deck::shuffle` leaves the deck in its
former order for 4 of them and produces the order `3C 2C 4C` for 5 of them, so
the six orders are not produced equally often. -/
theorem shuffle_not_uniform :
    (allDraws 3 3).length = 27 ∧
    shuffleCount threeCards threeCards = 4 ∧
    shuffleCount threeCards [card '3' 'C', card '2' 'C', card '4' 'C'] = 5 := by
  decide

theorem remove_last (init : List Card) (last : Card) (h : last ∉ init) :
    CardCollection.remove (init ++ [last]) last = init := by
  unfold CardCollection.remove
  rw [List.filter_append]
  have h1 : init.filter (fun c => c != last) = init := by
    rw [List.filter_eq_self]
    intro c hc
    simp only [bne_iff_ne, ne_eq]
    rintro rfl
    exact h hc
  rw [h1]
  simp

/-- For cards whose orientation has been set to one of the two enumerators: on
a non-empty deck of cards with pairwise different faces, `Deck::deal` returns
the last card, with the requested orientation, and leaves the other cards in
their order, one card less; on an empty deck it returns no card and the deck
stays empty. -/
theorem deal_last_card (cards : List Card) (orientation : Orientation) :
    (cards ≠ [] → (cards.map Card.face).Nodup →
      ∃ last, cards.getLast? = some last ∧
        Deck.deal cards orientation =
          (some { last with orientation := orientation }, cards.dropLast) ∧
        (Deck.deal cards orientation).2.length + 1 = cards.length) ∧
    Deck.deal [] orientation = (none, []) := by
  refine ⟨fun hne hnd => ?_, rfl⟩
  obtain ⟨init, last, rfl⟩ : ∃ init last, cards = init ++ [last] :=
    ⟨cards.dropLast, cards.getLast hne, (List.dropLast_append_getLast hne).symm⟩
  have hlast : (init ++ [last]).getLast? = some last := by simp
  have hnot : last ∉ init := by
    intro hmem
    rw [List.map_append, List.nodup_append] at hnd
    exact hnd.2.2 (List.mem_map_of_mem Card.face hmem) (by simp)
  refine ⟨last, hlast, ?_, ?_⟩
  · unfold Deck.deal
    rw [hlast]
    simp only [remove_last init last hnot, List.dropLast_concat]
    congr 2
    obtain ⟨r, s, o⟩ := last
    cases o <;> cases orientation <;> simp [Card.flip]
  · unfold Deck.deal
    rw [hlast]
    simp [remove_last init last hnot]

/-! ## The ante in exact arithmetic -/

theorem anteStep_foldl (ante : ℚ) (players acc : List PokerPlayer) (pot : ℚ)
    (hw : ∀ p ∈ players, p.state = Status.WAITING) :
    players.foldl (PokerEngine.anteStep ante) (acc, pot) =
      (acc ++ players.map (fun p =>
          if p.balance < ante then { p with state := Status.FOLDED }
          else { p with balance := p.balance - ante, state := Status.WAITING }),
        pot + ante * players.length) := by
  induction players generalizing acc pot with
  | nil => simp
  | cons p ps ih =>
    rw [List.foldl_cons]
    have hp : p.state = Status.WAITING := hw p (List.mem_cons_self _ _)
    have hstep : PokerEngine.anteStep ante (acc, pot) p =
        (acc ++ [if p.balance < ante then { p with state := Status.FOLDED }
          else { p with balance := p.balance - ante, state := Status.WAITING }],
          pot + ante) := by
      unfold PokerEngine.anteStep PokerPlayer.bet PokerPlayer.setState
      by_cases h : p.balance < ante
      · simp [h]
      · have h' : ¬ ante > p.balance := h
        simp [h, h', ← hp]
    rw [hstep, ih _ _ (fun q hq => hw q (List.mem_cons_of_mem _ hq))]
    simp only [List.map_cons, List.append_assoc, List.singleton_append, List.length_cons,
      Prod.mk.injEq, true_and]
    push_cast
    ring

/-! ## Recycling and showdown -/

/-- C23 (the code departs from the claim): with the two cards `5D 6D` in the
discard pile, `recycleDiscards` moves `5D` to the deck and leaves `6D` in the
discard pile: after the first card is removed the index has moved past the
second one. -/
theorem recycle_leaves_cards :
    (recycleSample.recycleDiscards []).discards = [card '6' 'D'] ∧
    (recycleSample.recycleDiscards []).deck = threeCards ++ [card '5' 'D'] := by
  decide

/-- C29 (the code departs from the claim): with two players, the first holding
two pair and the second a straight, `determineWinners` returns the first player
alone, whose score is below the score of the second: the loop advances by two
seats at a time and never looks at the second player. -/
theorem winner_is_not_maximal :
    (showdownSample.determineWinners).map
        (fun w => w.map fun x => (x.1, x.2.playerName, x.2.playerHand.getScore)) =
      some [(0, (UserType.HUMAN, 1), 9007199254765575)] ∧
    showdownSample.players.map (fun p => p.hand.getScore) =
      [9007199254765575, 18014398509486095] := by
  decide

/-- C30 (the code departs from the claim): a player that has folded is returned
as the winner by `determineWinners` and is listed among the outcomes of
`showDown` and `endGame`. -/
theorem folded_player_at_showdown :
    foldedSample.players.map (fun p => p.state) = [Status.FOLDED, Status.CALLING] ∧
    (foldedSample.determineWinners).map (fun w => w.map fun x => (x.1, x.2.playerName)) =
      some [(0, (UserType.HUMAN, 1))] ∧
    (foldedSample.showDown).map (fun x => x.2.playerName) =
      [(UserType.AI, 2), (UserType.HUMAN, 1)] ∧
    (foldedSample.endGame).map (fun x => x.2.playerName) =
      [(UserType.AI, 2), (UserType.HUMAN, 1)] := by
  decide

/-! ## The bet of an AI player in exact arithmetic -/

theorem ai_betAmount_bounds (p : PokerPlayer) (strategy : Strategy) (blind : ℚ) (draw : Int)
    (hb : 0 ≤ p.balance) (hblind : 0 ≤ blind) (hd : 0 ≤ draw) :
    0 ≤ AIPokerPlayer.betAmount p strategy blind draw ∧
    AIPokerPlayer.betAmount p strategy blind draw ≤ p.balance := by
  have hdq : (0 : ℚ) ≤ (draw : ℚ) := by exact_mod_cast hd
  have hmin0 : 0 ≤ max blind (p.balance * (strategy.value / 100)) + (draw : ℚ) :=
    add_nonneg (le_trans hblind (le_max_left _ _)) hdq
  have hmin : 0 ≤ (if max blind (p.balance * (strategy.value / 100)) + (draw : ℚ) < blind ∧
      p.balance ≥ blind then blind
      else max blind (p.balance * (strategy.value / 100)) + (draw : ℚ)) := by
    split_ifs
    · exact hblind
    · exact hmin0
  unfold AIPokerPlayer.betAmount
  simp only
  generalize (if max blind (p.balance * (strategy.value / 100)) + (draw : ℚ) < blind ∧
      p.balance ≥ blind then blind
      else max blind (p.balance * (strategy.value / 100)) + (draw : ℚ)) = minBet at hmin ⊢
  generalize p.hand.getCategory = cat
  have hc : (0 : ℚ) ≤ (cat.toNat : ℚ) := Nat.cast_nonneg _
  have hmc : 0 ≤ minBet * (cat.toNat : ℚ) := mul_nonneg hmin hc
  generalize (cat.toNat : ℚ) = cn at hmc ⊢
  cases cat <;> simp only [] <;> split_ifs <;> constructor <;> linarith

theorem bet_state_cases (bet blind : ℚ) :
    ((if bet = 0 then Status.FOLDED
        else if bet < blind then Status.ALLIN
        else if bet = blind then Status.CALLING
        else Status.RAISING) = Status.FOLDED ↔ bet = 0) ∧
    (bet ≠ 0 →
      ((if bet = 0 then Status.FOLDED
          else if bet < blind then Status.ALLIN
          else if bet = blind then Status.CALLING
          else Status.RAISING) = Status.ALLIN ↔ bet < blind) ∧
      ((if bet = 0 then Status.FOLDED
          else if bet < blind then Status.ALLIN
          else if bet = blind then Status.CALLING
          else Status.RAISING) = Status.CALLING ↔ bet = blind) ∧
      ((if bet = 0 then Status.FOLDED
          else if bet < blind then Status.ALLIN
          else if bet = blind then Status.CALLING
          else Status.RAISING) = Status.RAISING ↔ bet > blind)) := by
  by_cases h0 : bet = 0
  · refine ⟨by simp [h0], fun hne => absurd h0 hne⟩
  · rw [if_neg h0]
    rcases lt_trichotomy bet blind with h | h | h
    · rw [if_pos h]
      refine ⟨by simp [h0], fun _ => ⟨by simp [h], ?_, ?_⟩⟩
      · simp [ne_of_lt h]
      · simp [not_lt_of_gt h]
    · rw [if_neg (by rw [h]; exact lt_irrefl _), if_pos h]
      refine ⟨by simp [h0], fun _ => ⟨?_, by simp [h], ?_⟩⟩
      · simp [h]
      · simp [h]
    · rw [if_neg (not_lt_of_gt h), if_neg (ne_of_gt h)]
      refine ⟨by simp [h0], fun _ => ⟨?_, ?_, by simp [h]⟩⟩
      · simp [not_lt_of_gt h]
      · simp [ne_of_gt h]

/-! ## The betting round -/

theorem bettingSpec_inactive (bet : Nat → PokerPlayer → ℚ → ℚ × PokerPlayer) (i : Nat)
    (ps : List PokerPlayer) (pot blind : ℚ) (j : Nat) (p : PokerPlayer)
    (hp : ps[j]? = some p) (hs : p.state ≠ Status.ACTIVE) :
    (bettingSpec bet i ps pot blind).1[j]? = some p := by
  induction ps generalizing i pot blind j with
  | nil => simp at hp
  | cons q qs ih =>
    unfold bettingSpec
    cases j with
    | zero =>
      simp only [List.getElem?_cons_zero, Option.some.injEq] at hp
      subst hp
      simp [hs]
    | succ j =>
      simp only [List.getElem?_cons_succ] at hp
      split_ifs
      · simp only [List.getElem?_cons_succ]
        exact ih _ _ _ j hp
      · simp only [List.getElem?_cons_succ]
        exact ih _ _ _ j hp

theorem bettingStep_fold (bet : Nat → PokerPlayer → ℚ → ℚ × PokerPlayer)
    (todo done : List PokerPlayer) (e : PokerEngine) (he : e.players = done ++ todo) :
    ∃ idx, (List.range' done.length todo.length).foldl (PokerEngine.bettingStep bet) e =
      { e with
        players := done ++ (bettingSpec bet done.length todo e.pot e.blind).1,
        pot := (bettingSpec bet done.length todo e.pot e.blind).2.1,
        blind := (bettingSpec bet done.length todo e.pot e.blind).2.2,
        currentPlayerIndex := idx } := by
  induction todo generalizing done e with
  | nil =>
    refine ⟨e.currentPlayerIndex, ?_⟩
    simp only [List.length_nil, List.range'_zero, List.foldl_nil, bettingSpec, List.append_nil]
    rw [List.append_nil] at he
    rw [← he]
  | cons p ps ih =>
    have hget : e.players[done.length]? = some p := by
      rw [he, List.getElem?_append_right (le_refl _), Nat.sub_self, List.getElem?_cons_zero]
    rw [List.length_cons, List.range'_succ, List.foldl_cons]
    by_cases hs : p.state = Status.ACTIVE
    · have hstep : PokerEngine.bettingStep bet e done.length =
          { e with
            players := (done ++ [(bet done.length p e.blind).2]) ++ ps,
            pot := e.pot + (bet done.length p e.blind).1,
            blind := max e.blind (bet done.length p e.blind).1,
            currentPlayerIndex := (done.length : Int) } := by
        unfold PokerEngine.bettingStep PokerEngine.handleBet
        simp only [hget, hs, if_true]
        have hset : e.players.set done.length (bet done.length p e.blind).2 =
            (done ++ [(bet done.length p e.blind).2]) ++ ps := by
          rw [he]; simp
        have hblind : (if (bet done.length p e.blind).1 > e.blind then
            max e.blind (bet done.length p e.blind).1 else e.blind) =
            max e.blind (bet done.length p e.blind).1 := by
          split_ifs with h
          · rfl
          · exact (max_eq_left (not_lt.mp h)).symm
        rw [hset, hblind]
      rw [hstep]
      obtain ⟨idx, hidx⟩ := ih (done ++ [(bet done.length p e.blind).2])
        { e with
          players := (done ++ [(bet done.length p e.blind).2]) ++ ps,
          pot := e.pot + (bet done.length p e.blind).1,
          blind := max e.blind (bet done.length p e.blind).1,
          currentPlayerIndex := (done.length : Int) } rfl
      refine ⟨idx, ?_⟩
      simp only [List.length_append, List.length_singleton] at hidx
      rw [hidx]
      simp only [bettingSpec, hs, if_true, List.append_assoc, List.singleton_append]
    · have hstep : PokerEngine.bettingStep bet e done.length = e := by
        unfold PokerEngine.bettingStep
        simp only [hget, hs, if_false]
      rw [hstep]
      obtain ⟨idx, hidx⟩ := ih (done ++ [p]) e (by rw [he]; simp)
      refine ⟨idx, ?_⟩
      simp only [List.length_append, List.length_singleton] at hidx
      rw [hidx]
      simp only [bettingSpec, hs, if_false, List.append_assoc, List.singleton_append]

theorem bettingRound_eq (e : PokerEngine) (bet : Nat → PokerPlayer → ℚ → ℚ × PokerPlayer) :
    e.bettingRound bet =
      { e with
        players := (bettingSpec bet 0 e.players e.pot e.blind).1,
        pot := (bettingSpec bet 0 e.players e.pot e.blind).2.1,
        blind := (bettingSpec bet 0 e.players e.pot e.blind).2.2,
        currentPlayerIndex := -1 } := by
  unfold PokerEngine.bettingRound
  obtain ⟨idx, hidx⟩ := bettingStep_fold bet e.players [] e rfl
  rw [List.range_eq_range']
  simp only [List.length_nil, List.nil_append] at hidx
  rw [hidx]

theorem foldl_option_none {α β : Type} (f : Option α → β → Option α)
    (hnone : ∀ b, f none b = none) (l : List β) : l.foldl f none = none := by
  induction l with
  | nil => rfl
  | cons b l ih => rw [List.foldl_cons, hnone, ih]

theorem foldl_option_inv {α β : Type} (P : α → Prop) (f : Option α → β → Option α)
    (hnone : ∀ b, f none b = none)
    (hf : ∀ a b a', P a → f (some a) b = some a' → P a')
    (l : List β) (a a' : α) (ha : P a) (h : l.foldl f (some a) = some a') : P a' := by
  induction l generalizing a with
  | nil =>
    simp only [List.foldl_nil, Option.some.injEq] at h
    exact h ▸ ha
  | cons b l ih =>
    rw [List.foldl_cons] at h
    cases hb : f (some a) b with
    | none => rw [hb, foldl_option_none f hnone] at h; cases h
    | some a1 => rw [hb] at h; exact ih a1 (hf a b a1 ha hb) h

theorem foldl_inv {α β : Type} (P : α → Prop) (f : α → β → α)
    (hf : ∀ a b, P a → P (f a b)) (l : List β) (a : α) (ha : P a) : P (l.foldl f a) := by
  induction l generalizing a with
  | nil => exact ha
  | cons b l ih => exact ih _ (hf a b ha)

theorem dealTo_none (seat : Nat) : PokerEngine.dealTo none seat = none := rfl

theorem dealTo_some (e e' : PokerEngine) (seat : Nat)
    (h : PokerEngine.dealTo (some e) seat = some e') :
    ∃ p card, e.players[seat]? = some p ∧
      Deck.deal e.deck (PokerEngine.orientationFor p) = (some card, e'.deck) ∧
      e' = { e with deck := e'.deck, players := e.players.set seat (p.receive [card]) } := by
  unfold PokerEngine.dealTo at h
  simp only at h
  cases hp : e.players[seat]? with
  | none => simp [hp] at h
  | some p =>
    simp only [hp] at h
    cases hd : Deck.deal e.deck (PokerEngine.orientationFor p) with
    | mk oc deck =>
      cases oc with
      | none => simp [hd] at h
      | some card =>
        simp only [hd, Option.some.injEq] at h
        subst h
        exact ⟨p, card, rfl, hd, rfl⟩

theorem setStateAt_frame (e : PokerEngine) (seat : Nat) (state : Status) :
    (e.setStateAt seat state).currentRound = e.currentRound ∧
    (e.setStateAt seat state).deck = e.deck ∧
    (e.setStateAt seat state).discards = e.discards ∧
    (e.setStateAt seat state).players.length = e.players.length := by
  unfold PokerEngine.setStateAt
  cases e.players[seat]? <;> simp

theorem dealCards_currentRound (e e' : PokerEngine) (draws : List Nat)
    (h : e.dealCards draws = some e') : e'.currentRound = e.currentRound := by
  unfold PokerEngine.dealCards at h
  simp only at h
  cases h2 : (List.range 5).foldl
      (fun st _ => (e.getSeatsByState Status.WAITING).foldl PokerEngine.dealTo st)
      (some { e with deck := Deck.shuffle e.deck draws }) with
  | none => simp [h2] at h
  | some e2 =>
    simp only [h2, Option.some.injEq] at h
    have hround : ∀ a a' : PokerEngine, ∀ ws : List Nat,
        a.currentRound = e.currentRound → ws.foldl PokerEngine.dealTo (some a) = some a' →
        a'.currentRound = e.currentRound := by
      intro a a' ws ha hws
      refine foldl_option_inv (fun x : PokerEngine => x.currentRound = e.currentRound)
        PokerEngine.dealTo dealTo_none ?_ ws a a' ha hws
      intro x b x' hx hxb
      obtain ⟨p, card, -, -, hx'⟩ := dealTo_some x x' b hxb
      rw [hx']
      exact hx
    have h3 : e2.currentRound = e.currentRound := by
      refine foldl_option_inv (fun x : PokerEngine => x.currentRound = e.currentRound)
        (fun st (_ : Nat) => (e.getSeatsByState Status.WAITING).foldl PokerEngine.dealTo st)
        (fun _ => foldl_option_none _ dealTo_none _) ?_ (List.range 5)
        { e with deck := Deck.shuffle e.deck draws } e2 rfl h2
      intro x _ x' hx hxb
      exact hround x x' _ hx hxb
    rw [← h]
    exact foldl_inv (fun x : PokerEngine => x.currentRound = e.currentRound) _
      (fun a b ha => ((setStateAt_frame a b Status.ACTIVE).1).trans ha) _ _ h3

theorem handleDraw_currentRound (e e' : PokerEngine) (seat : Nat)
    (discard : PokerPlayer → List Int) (draws : List Nat)
    (h : e.handleDraw seat discard draws = some e') : e'.currentRound = e.currentRound := by
  unfold PokerEngine.handleDraw at h
  cases hp : e.players[seat]? with
  | none => simp only [hp, Option.some.injEq] at h; rw [← h]
  | some p =>
    simp only [hp] at h
    split_ifs at h with h1 h2
    · cases hd : PokerEngine.dealReplacements e.deck (PokerEngine.orientationFor p)
          (discard p).length with
      | none => simp [hd] at h
      | some r =>
        obtain ⟨replacements, deck⟩ := r
        simp only [hd] at h
        cases hr : p.replace (discard p) replacements with
        | none => simp [hr] at h
        | some r2 =>
          obtain ⟨discarded, player1⟩ := r2
          simp only [hr, Option.some.injEq] at h
          rw [← h, (setStateAt_frame _ _ _).1]
          split_ifs <;> rfl
    · simp only [Option.some.injEq] at h
      rw [← h, (setStateAt_frame _ _ _).1]
    · simp only [Option.some.injEq] at h
      rw [← h]

theorem drawingRound_currentRound (e e' : PokerEngine) (discard : Nat → PokerPlayer → List Int)
    (draws : Nat → List Nat) (h : e.drawingRound discard draws = some e') :
    e'.currentRound = e.currentRound := by
  unfold PokerEngine.drawingRound at h
  cases h1 : (List.range e.players.length).foldl (PokerEngine.drawingStep discard draws)
      (some e) with
  | none => simp [h1] at h
  | some e1 =>
    simp only [h1, Option.some.injEq] at h
    rw [← h]
    refine foldl_option_inv (fun x : PokerEngine => x.currentRound = e.currentRound)
      (PokerEngine.drawingStep discard draws) (fun _ => rfl) ?_ _ e e1 rfl h1
    intro x i x' hx hxi
    unfold PokerEngine.drawingStep at hxi
    simp only at hxi
    cases hp : x.players[i]? with
    | none => simp only [hp, Option.some.injEq] at hxi; rw [← hxi]; exact hx
    | some p =>
      simp only [hp] at hxi
      split_ifs at hxi
      · cases hd : x.handleDraw i (discard i) (draws i) with
        | none => simp [hd] at hxi
        | some x1 =>
          simp only [hd, Option.some.injEq] at hxi
          rw [← hxi]
          exact (handleDraw_currentRound x x1 i _ _ hd).trans hx
      · simp only [Option.some.injEq] at hxi
        rw [← hxi]
        exact hx

theorem bettingRound_currentRound (e : PokerEngine)
    (bet : Nat → PokerPlayer → ℚ → ℚ × PokerPlayer) :
    (e.bettingRound bet).currentRound = e.currentRound := by
  rw [bettingRound_eq]

theorem startGameLoop_done (env : Env) (fuel : Nat) (e : PokerEngine) (log : List Phase)
    (h : ¬ e.currentRound < 2) :
    PokerEngine.startGameLoop env fuel e log = (log, Exit.done e) := by
  cases fuel <;> simp [PokerEngine.startGameLoop, h]

/-- The run of `startGame` on an engine whose round counter is 0, written out
phase by phase. -/
theorem startGame_unfold (e : PokerEngine) (env : Env) (fuel : Nat)
    (h0 : e.currentRound = 0) (hf : 2 ≤ fuel) :
    e.startGame env fuel =
      match (e.anteUp).dealCards env.dealDraws with
      | none => ([Phase.ANTE, Phase.DEAL], Exit.fault)
      | some e2 =>
        match ((e2.advanceRound).bettingRound (env.bet 1)).drawingRound env.discard
            env.recycleDraws with
        | none =>
          ([Phase.ANTE, Phase.DEAL, Phase.ADVANCE, Phase.BET, Phase.DRAW], Exit.fault)
        | some e5 =>
          ([Phase.ANTE, Phase.DEAL, Phase.ADVANCE, Phase.BET, Phase.DRAW, Phase.ADVANCE,
              Phase.BET],
            Exit.done ((e5.advanceRound).bettingRound (env.bet 2))) := by
  obtain ⟨f, rfl⟩ : ∃ f, fuel = f + 2 := ⟨fuel - 2, by omega⟩
  unfold PokerEngine.startGame
  cases h2 : (e.anteUp).dealCards env.dealDraws with
  | none => rfl
  | some e2 =>
    simp only
    have r2 : e2.currentRound = 0 := by
      rw [dealCards_currentRound _ _ _ h2]
      exact h0
    have r3 : (e2.advanceRound).currentRound = 1 := by
      simp [PokerEngine.advanceRound, r2]
    have r4 : ((e2.advanceRound).bettingRound (env.bet 1)).currentRound = 1 := by
      rw [bettingRound_currentRound, r3]
    rw [PokerEngine.startGameLoop]
    simp only [r2, r3, r4, show (0 : Int) < 2 by decide, if_true]
    cases h5 : ((e2.advanceRound).bettingRound (env.bet 1)).drawingRound env.discard
        env.recycleDraws with
    | none => rfl
    | some e5 =>
      simp only
      have r5 : e5.currentRound = 1 := by
        rw [drawingRound_currentRound _ _ _ _ h5, r4]
      have r6 : (e5.advanceRound).currentRound = 2 := by
        simp [PokerEngine.advanceRound, r5]
      have r7 : ((e5.advanceRound).bettingRound (env.bet 2)).currentRound = 2 := by
        rw [bettingRound_currentRound, r6]
      rw [PokerEngine.startGameLoop]
      simp only [r5, r6, r7, show (1 : Int) < 2 by decide, if_true,
        show ¬ ((2 : Int) = 1) by decide, if_false]
      rw [startGameLoop_done env f _ _ (by rw [r7]; decide)]
      rfl

/-- On an engine whose round counter is 0, as the constructors leave it, a run
of `startGame` with room for two turns of the loop does not stay in the loop.
It calls the phase methods in the order ante, deal, advance, bet, draw,
advance, bet and leaves the round counter at 2 when it ends normally; when it
ends by a fault, the fault is in the deal or in the draw and no later phase is
called. -/
theorem startGame_phases (e : PokerEngine) (env : Env) (fuel : Nat)
    (h0 : e.currentRound = 0) (hf : 2 ≤ fuel) :
    (e.startGame env fuel).2 ≠ Exit.unfinished ∧
    (∀ e', (e.startGame env fuel).2 = Exit.done e' →
      (e.startGame env fuel).1 =
        [Phase.ANTE, Phase.DEAL, Phase.ADVANCE, Phase.BET, Phase.DRAW, Phase.ADVANCE,
          Phase.BET] ∧
      e'.currentRound = 2) ∧
    ((e.startGame env fuel).2 = Exit.fault →
      (e.startGame env fuel).1 = [Phase.ANTE, Phase.DEAL] ∨
      (e.startGame env fuel).1 =
        [Phase.ANTE, Phase.DEAL, Phase.ADVANCE, Phase.BET, Phase.DRAW]) := by
  rw [startGame_unfold e env fuel h0 hf]
  cases h2 : (e.anteUp).dealCards env.dealDraws with
  | none =>
    dsimp only
    exact ⟨fun h => (by cases h), fun e' h => (by cases h), fun _ => Or.inl rfl⟩
  | some e2 =>
    dsimp only
    cases h5 : ((e2.advanceRound).bettingRound (env.bet 1)).drawingRound env.discard
        env.recycleDraws with
    | none =>
      dsimp only
      exact ⟨fun h => (by cases h), fun e' h => (by cases h), fun _ => Or.inr rfl⟩
    | some e5 =>
      dsimp only
      refine ⟨fun h => (by cases h), fun e' h => ⟨rfl, ?_⟩, fun h => (by cases h)⟩
      simp only [Exit.done.injEq] at h
      rw [← h, bettingRound_currentRound]
      have r2 : e2.currentRound = 0 := by
        rw [dealCards_currentRound _ _ _ h2]
        exact h0
      have r5 : e5.currentRound = 1 := by
        rw [drawingRound_currentRound _ _ _ _ h5, bettingRound_currentRound]
        simp [PokerEngine.advanceRound, r2]
      simp [PokerEngine.advanceRound, r5]

/-! ## Cards of hands and decks -/

theorem add_cards_perm (h : PokerHand) (c : Card) : (h.add c).cards.Perm (h.cards ++ [c]) :=
  sortCards_perm _

theorem remove_cards_perm (h : PokerHand) (c : Card) :
    (h.remove c).cards.Perm (h.cards.filter fun x => x != c) :=
  sortCards_perm _

theorem foldl_add_perm (cs : List Card) (h : PokerHand) :
    (cs.foldl PokerHand.add h).cards.Perm (h.cards ++ cs) := by
  induction cs generalizing h with
  | nil => simp
  | cons c cs ih =>
    rw [List.foldl_cons]
    refine (ih (h.add c)).trans ?_
    refine ((add_cards_perm h c).append_right cs).trans ?_
    simp

theorem receive_cards_perm (p : PokerPlayer) (cs : List Card) :
    (p.receive cs).hand.cards.Perm (p.hand.cards ++ cs) :=
  foldl_add_perm cs p.hand

theorem filter_bne_eq_erase (l : List Card) (c : Card) (hn : l.Nodup) :
    (l.filter fun x => x != c) = l.erase c := by
  rw [hn.erase_eq_filter]

theorem remove_cards_erase (h : PokerHand) (c : Card) (hn : h.cards.Nodup) :
    (h.remove c).cards.Perm (h.cards.erase c) := by
  have := remove_cards_perm h c
  rwa [filter_bne_eq_erase _ _ hn] at this

theorem shuffle_perm (cards : List Card) (draws : List Nat) :
    (Deck.shuffle cards draws).Perm cards := by
  unfold Deck.shuffle
  simp only
  split_ifs
  · exact List.Perm.refl _
  · exact shuffleLoop_perm _ _ _

theorem deal_nil (o : Orientation) : Deck.deal [] o = (none, []) := rfl

theorem oriented_eq (o : Orientation) (c : Card) :
    (if c.orientation ≠ o then c.flip else c) = Card.oriented o c := by
  obtain ⟨r, s, oc⟩ := c
  cases oc <;> cases o <;> simp [Card.flip, Card.oriented]

theorem deal_concat (init : List Card) (last : Card) (o : Orientation) (h : last ∉ init) :
    Deck.deal (init ++ [last]) o = (some (Card.oriented o last), init) := by
  unfold Deck.deal
  rw [List.getLast?_concat]
  simp only [remove_last init last h, oriented_eq]

theorem deal_some (cards rest : List Card) (o : Orientation) (c : Card) (hn : cards.Nodup)
    (h : Deck.deal cards o = (some c, rest)) :
    ∃ last, cards = rest ++ [last] ∧ c = Card.oriented o last := by
  rcases List.eq_nil_or_concat cards with rfl | ⟨init, last, rfl⟩
  · simp [deal_nil] at h
  · rw [List.concat_eq_append] at hn h ⊢
    have hnot : last ∉ init := by
      intro hm
      rw [List.nodup_append] at hn
      exact hn.2.2 hm (List.mem_singleton_self _)
    rw [deal_concat init last o hnot] at h
    simp only [Prod.mk.injEq, Option.some.injEq] at h
    exact ⟨last, by rw [h.2], h.1.symm⟩

theorem face_oriented (o : Orientation) (c : Card) : (Card.oriented o c).face = c.face := rfl

theorem isValid_oriented (o : Orientation) (c : Card) :
    (Card.oriented o c).isValid = c.isValid := rfl

theorem count_flatMap_set {α β : Type} [DecidableEq β] (l : List α) (i : Nat) (a b : α)
    (f : α → List β) (h : l[i]? = some a) (x : β) :
    ((l.set i b).flatMap f).count x + (f a).count x =
      (l.flatMap f).count x + (f b).count x := by
  induction l generalizing i with
  | nil => simp at h
  | cons c l ih =>
    cases i with
    | zero =>
      simp only [List.getElem?_cons_zero, Option.some.injEq] at h
      subst h
      simp only [List.set_cons_zero, List.flatMap_cons, List.count_append]
      omega
    | succ j =>
      simp only [List.getElem?_cons_succ] at h
      have := ih j h
      simp only [List.set_cons_succ, List.flatMap_cons, List.count_append]
      omega

theorem allCards_faces (e : PokerEngine) :
    e.allCards.map Card.face =
      e.deck.map Card.face ++ e.discards.map Card.face ++
        e.players.flatMap fun p => p.hand.cards.map Card.face := by
  unfold PokerEngine.allCards
  rw [List.map_append, List.map_append, List.map_flatMap]

theorem nodup_of_faces (cs : List Card) (h : (cs.map Card.face).Nodup) : cs.Nodup :=
  List.Nodup.of_map _ h

theorem allCards_nodup_parts (e : PokerEngine) (h : (e.allCards.map Card.face).Nodup) :
    e.deck.Nodup ∧ e.discards.Nodup ∧ ∀ p ∈ e.players, p.hand.cards.Nodup := by
  have hn := nodup_of_faces _ h
  unfold PokerEngine.allCards at hn
  rw [List.nodup_append, List.nodup_append] at hn
  refine ⟨hn.1.1, hn.1.2.1, fun p hp => ?_⟩
  have h2 := hn.2.1
  rw [List.nodup_flatMap] at h2
  exact h2.1 p hp

theorem dealTo_conserved (e e' : PokerEngine) (seat : Nat)
    (hn : (e.allCards.map Card.face).Nodup)
    (h : PokerEngine.dealTo (some e) seat = some e') :
    (e'.allCards.map Card.face).Perm (e.allCards.map Card.face) := by
  obtain ⟨p, card, hp, hd, he'⟩ := dealTo_some e e' seat h
  obtain ⟨last, hdeck, hcard⟩ := deal_some _ _ _ _ (allCards_nodup_parts e hn).1 hd
  rw [allCards_faces, allCards_faces, List.perm_iff_count]
  intro x
  have hset := count_flatMap_set e.players seat p (p.receive [card])
    (fun q => q.hand.cards.map Card.face) hp x
  have hrec := ((receive_cards_perm p [card]).map Card.face).count_eq x
  have hpl : e'.players = e.players.set seat (p.receive [card]) := by rw [he']
  have hdi : e'.discards = e.discards := by rw [he']
  rw [hpl, hdi, hdeck]
  simp only [List.map_append, List.count_append, List.map_cons, List.map_nil, hcard,
    face_oriented] at hset hrec ⊢
  omega

theorem reset_faces_nodup : ((Deck.reset []).map Card.face).Nodup := by
  unfold Deck.reset
  decide

theorem conserved_nodup (e : PokerEngine) (h : Conserved e) :
    (e.allCards.map Card.face).Nodup :=
  (List.Perm.nodup_iff h).mpr reset_faces_nodup

theorem flatMap_set_same {α β : Type} (l : List α) (i : Nat) (a b : α) (f : α → List β)
    (h : l[i]? = some a) (hf : f b = f a) : (l.set i b).flatMap f = l.flatMap f := by
  induction l generalizing i with
  | nil => rfl
  | cons c l ih =>
    cases i with
    | zero =>
      simp only [List.getElem?_cons_zero, Option.some.injEq] at h
      subst h
      simp only [List.set_cons_zero, List.flatMap_cons, hf]
    | succ j =>
      simp only [List.getElem?_cons_succ] at h
      simp only [List.set_cons_succ, List.flatMap_cons, ih j h]

theorem setStateAt_allCards (e : PokerEngine) (seat : Nat) (state : Status) :
    (e.setStateAt seat state).allCards = e.allCards := by
  unfold PokerEngine.setStateAt
  cases hp : e.players[seat]? with
  | none => rfl
  | some p =>
    simp only [PokerEngine.allCards]
    rw [flatMap_set_same e.players seat p (p.setState state) (fun q => q.hand.cards) hp rfl]

theorem setStateAt_conserved (e : PokerEngine) (seat : Nat) (state : Status)
    (h : Conserved e) : Conserved (e.setStateAt seat state) := by
  unfold Conserved
  rw [setStateAt_allCards]
  exact h

theorem dealTo_fold_conserved (ws : List Nat) (a a' : PokerEngine) (ha : Conserved a)
    (h : ws.foldl PokerEngine.dealTo (some a) = some a') : Conserved a' := by
  refine foldl_option_inv Conserved PokerEngine.dealTo dealTo_none ?_ ws a a' ha h
  intro x b x' hx hxb
  exact (dealTo_conserved x x' b (conserved_nodup x hx) hxb).trans hx

theorem dealCards_conserved (e e' : PokerEngine) (draws : List Nat) (hc : Conserved e)
    (h : e.dealCards draws = some e') : Conserved e' := by
  unfold PokerEngine.dealCards at h
  simp only at h
  cases h2 : (List.range 5).foldl
      (fun st _ => (e.getSeatsByState Status.WAITING).foldl PokerEngine.dealTo st)
      (some { e with deck := Deck.shuffle e.deck draws }) with
  | none => simp [h2] at h
  | some e2 =>
    simp only [h2, Option.some.injEq] at h
    have h1 : Conserved { e with deck := Deck.shuffle e.deck draws } := by
      unfold Conserved at hc ⊢
      refine List.Perm.trans ?_ hc
      simp only [PokerEngine.allCards]
      exact (((shuffle_perm e.deck draws).append_right _).append_right _).map _
    have h3 : Conserved e2 := by
      refine foldl_option_inv Conserved
        (fun st (_ : Nat) => (e.getSeatsByState Status.WAITING).foldl PokerEngine.dealTo st)
        (fun _ => foldl_option_none _ dealTo_none _) ?_ (List.range 5)
        { e with deck := Deck.shuffle e.deck draws } e2 h1 h2
      intro x _ x' hx hxb
      exact dealTo_fold_conserved _ x x' hx hxb
    rw [← h]
    exact foldl_inv Conserved _ (fun a b ha => setStateAt_conserved a b Status.ACTIVE ha) _ _ h3

theorem replaceStep_none (idx : Int) : PokerPlayer.replaceStep none idx = none := rfl

theorem replaceStep_some (ds ds' : List Card) (hand hand' : PokerHand) (idx : Int)
    (h : PokerPlayer.replaceStep (some (ds, hand)) idx = some (ds', hand')) :
    ∃ c, 0 ≤ idx ∧ hand.cards[idx.toNat]? = some c ∧ ds' = ds ++ [c] ∧
      hand' = hand.remove c := by
  unfold PokerPlayer.replaceStep at h
  simp only at h
  split_ifs at h with hneg
  cases hc : hand.cards[idx.toNat]? with
  | none => simp [hc] at h
  | some c =>
    simp only [hc, Option.some.injEq, Prod.mk.injEq] at h
    exact ⟨c, not_lt.mp hneg, rfl, h.1.symm, h.2.symm⟩

theorem replaceFold_conserved (idxs : List Int) (ds ds' : List Card) (hand hand' : PokerHand)
    (hn : hand.cards.Nodup)
    (h : idxs.foldl PokerPlayer.replaceStep (some (ds, hand)) = some (ds', hand')) :
    (hand'.cards ++ ds').Perm (hand.cards ++ ds) ∧ hand'.cards.Nodup ∧
      ds'.length = ds.length + idxs.length ∧
      hand'.cards.length + idxs.length = hand.cards.length := by
  induction idxs generalizing ds hand with
  | nil =>
    simp only [List.foldl_nil, Option.some.injEq, Prod.mk.injEq] at h
    obtain ⟨rfl, rfl⟩ := h
    exact ⟨List.Perm.refl _, hn, rfl, rfl⟩
  | cons idx idxs ih =>
    rw [List.foldl_cons] at h
    cases hs : PokerPlayer.replaceStep (some (ds, hand)) idx with
    | none => rw [hs, foldl_option_none _ replaceStep_none] at h; cases h
    | some st =>
      obtain ⟨ds1, hand1⟩ := st
      rw [hs] at h
      obtain ⟨c, -, hc, hds1, hh1⟩ := replaceStep_some _ _ _ _ _ hs
      have hmem : c ∈ hand.cards := by
        obtain ⟨hlt, heq⟩ := List.getElem?_eq_some.mp hc
        exact heq ▸ List.getElem_mem hlt
      have hperm1 : hand1.cards.Perm (hand.cards.erase c) := by
        rw [hh1]; exact remove_cards_erase hand c hn
      have hn1 : hand1.cards.Nodup :=
        (List.Perm.nodup_iff hperm1).mpr (hn.sublist (List.erase_sublist _ _))
      obtain ⟨i1, i2, i3, i4⟩ := ih ds1 hand1 hn1 h
      have hlen1 : hand1.cards.length + 1 = hand.cards.length := by
        rw [hperm1.length_eq, List.length_erase_of_mem hmem]
        have : 0 < hand.cards.length := List.length_pos_of_mem hmem
        omega
      refine ⟨?_, i2, ?_, ?_⟩
      · refine i1.trans ?_
        rw [hds1]
        have h5 := List.perm_cons_erase hmem
        rw [List.perm_iff_count] at hperm1 h5 ⊢
        intro x
        have a1 := hperm1 x
        have a2 := h5 x
        simp only [List.count_append, List.count_cons, List.count_nil] at a1 a2 ⊢
        omega
      · have hl : ds1.length = ds.length + 1 := by rw [hds1]; simp
        simp only [List.length_cons]
        omega
      · simp only [List.length_cons]
        omega

theorem replace_conserved (p p' : PokerPlayer) (idxs : List Int) (cards discarded : List Card)
    (hn : p.hand.cards.Nodup) (h : p.replace idxs cards = some (discarded, p')) :
    (p'.hand.cards ++ discarded).Perm (p.hand.cards ++ cards) ∧
      discarded.length = idxs.length ∧
      p'.hand.cards.length + idxs.length = p.hand.cards.length + cards.length ∧
      p'.state = p.state ∧ p'.type = p.type ∧ p'.id = p.id ∧ p'.balance = p.balance := by
  unfold PokerPlayer.replace at h
  cases hf : (idxs.insertionSort (fun a b => a ≥ b)).foldl PokerPlayer.replaceStep
      (some ([], p.hand)) with
  | none => simp [hf] at h
  | some st =>
    obtain ⟨ds, hand⟩ := st
    simp only [hf, Option.some.injEq, Prod.mk.injEq] at h
    obtain ⟨rfl, rfl⟩ := h
    obtain ⟨i1, -, i3, i4⟩ := replaceFold_conserved _ _ _ _ _ hn hf
    rw [List.length_insertionSort] at i3 i4
    have hr := receive_cards_perm { p with hand := hand } cards
    simp only at hr
    refine ⟨?_, by simpa using i3, ?_, rfl, rfl, rfl, rfl⟩
    · rw [List.perm_iff_count] at i1 hr ⊢
      intro x
      have a1 := i1 x
      have a2 := hr x
      simp only [List.count_append, List.count_nil] at a1 a2 ⊢
      omega
    · rw [hr.length_eq]
      simp only [List.length_append]
      omega

theorem dealReplacements_some (n : Nat) (deck left r : List Card) (o : Orientation)
    (hn : deck.Nodup) (h : PokerEngine.dealReplacements deck o n = some (r, left)) :
    ∃ taken, deck = left ++ taken ∧ r = taken.reverse.map (Card.oriented o) ∧
      taken.length = n := by
  induction n generalizing deck r with
  | zero =>
    simp only [PokerEngine.dealReplacements, Option.some.injEq, Prod.mk.injEq] at h
    exact ⟨[], by simp [h.2], by simp [← h.1], rfl⟩
  | succ n ih =>
    unfold PokerEngine.dealReplacements at h
    cases hd : Deck.deal deck o with
    | mk oc rest =>
      cases oc with
      | none => simp [hd] at h
      | some card =>
        simp only [hd] at h
        obtain ⟨last, hdeck, hcard⟩ := deal_some _ _ _ _ hn hd
        have hrest : rest.Nodup := by
          rw [hdeck] at hn
          exact (List.nodup_append.mp hn).1
        cases hr : PokerEngine.dealReplacements rest o n with
        | none => simp [hr] at h
        | some st =>
          obtain ⟨r1, left1⟩ := st
          simp only [hr, Option.some.injEq, Prod.mk.injEq] at h
          obtain ⟨taken, ht1, ht2, ht3⟩ := ih rest r1 hrest (by rw [hr, h.2])
          refine ⟨taken ++ [last], ?_, ?_, ?_⟩
          · rw [hdeck, ht1, List.append_assoc]
          · rw [← h.1, ht2, hcard]
            simp
          · simp [ht3]

theorem recycleLoop_out (fuel i : Nat) (deck ds : List Card) (h : ds.length ≤ i) :
    PokerEngine.recycleLoop fuel i deck ds = (deck, ds) := by
  cases fuel with
  | zero => rfl
  | succ f =>
    unfold PokerEngine.recycleLoop
    rw [List.getElem?_eq_none h]

theorem remove_middle (a b : List Card) (c : Card) (hn : (a ++ c :: b).Nodup) :
    CardCollection.remove (a ++ c :: b) c = a ++ b := by
  unfold CardCollection.remove
  rw [List.nodup_append] at hn
  obtain ⟨-, hcb, hdis⟩ := hn
  have hca : c ∉ a := fun h => hdis h (List.mem_cons_self _ _)
  have hcb2 : c ∉ b := (List.nodup_cons.mp hcb).1
  rw [List.filter_append, List.filter_cons]
  have h1 : a.filter (fun x => x != c) = a := by
    rw [List.filter_eq_self]
    intro x hx
    simp only [bne_iff_ne, ne_eq]
    rintro rfl
    exact hca hx
  have h2 : b.filter (fun x => x != c) = b := by
    rw [List.filter_eq_self]
    intro x hx
    simp only [bne_iff_ne, ne_eq]
    rintro rfl
    exact hcb2 hx
  rw [h1, h2]
  simp

/-- The loop of `recycleDiscards` on a pile of distinct cards moves the cards
at the even positions to the deck and leaves the cards at the odd positions;
the bound on the number of turns does not cut the loop short. -/
theorem recycleLoop_eq (fuel : Nat) (a b deck : List Card) (hn : (a ++ b).Nodup)
    (hf : b.length ≤ fuel) :
    PokerEngine.recycleLoop fuel a.length deck (a ++ b) = (deck ++ evens b, a ++ odds b) := by
  induction fuel generalizing a b deck with
  | zero =>
    have hb : b = [] := List.length_eq_zero.mp (Nat.le_zero.mp hf)
    subst hb
    simp [PokerEngine.recycleLoop, evens, odds]
  | succ f ih =>
    match b, hn, hf with
    | [], _, _ =>
      rw [recycleLoop_out _ _ _ _ (by simp)]
      simp [evens, odds]
    | [c], hn, _ =>
      unfold PokerEngine.recycleLoop
      rw [List.getElem?_append_right (le_refl _), Nat.sub_self, List.getElem?_cons_zero]
      simp only
      rw [remove_middle a [] c hn, List.append_nil, recycleLoop_out _ _ _ _ (by omega)]
      simp [evens, odds]
    | c :: d :: t, hn, hf =>
      unfold PokerEngine.recycleLoop
      rw [List.getElem?_append_right (le_refl _), Nat.sub_self, List.getElem?_cons_zero]
      simp only
      rw [remove_middle a (d :: t) c hn]
      have hn2 : ((a ++ [d]) ++ t).Nodup := by
        rw [List.append_assoc, List.singleton_append]
        have := hn
        rw [List.nodup_append] at this ⊢
        obtain ⟨h1, h2, h3⟩ := this
        refine ⟨h1, (List.nodup_cons.mp h2).2, fun x hx hx2 => h3 hx (List.mem_cons_of_mem _ hx2)⟩
      have hlen : (a ++ [d]).length = a.length + 1 := by simp
      have := ih (a ++ [d]) t (deck ++ [c]) hn2 (by simp at hf; omega)
      rw [hlen, List.append_assoc, List.singleton_append] at this
      rw [this]
      simp [evens, odds]

theorem evens_odds_perm {α : Type} (l : List α) : (evens l ++ odds l).Perm l := by
  match l with
  | [] => simp [evens, odds]
  | [a] => simp [evens, odds]
  | a :: b :: t =>
    have ih := evens_odds_perm t
    simp only [evens, odds, List.cons_append]
    refine List.Perm.cons a ?_
    refine (List.perm_middle).trans ?_
    exact List.Perm.cons b ih

theorem length_evens {α : Type} (l : List α) : (evens l).length = (l.length + 1) / 2 := by
  match l with
  | [] => simp [evens]
  | [a] => simp [evens]
  | a :: b :: t =>
    have ih := length_evens t
    simp only [evens, List.length_cons, ih]
    omega

theorem length_odds {α : Type} (l : List α) : (odds l).length = l.length / 2 := by
  match l with
  | [] => simp [odds]
  | [a] => simp [odds]
  | a :: b :: t =>
    have ih := length_odds t
    simp only [odds, List.length_cons, ih]
    omega

theorem recycleDiscards_eq (e : PokerEngine) (draws : List Nat) (hn : e.discards.Nodup) :
    e.recycleDiscards draws =
      { e with deck := Deck.shuffle (e.deck ++ evens e.discards) draws,
               discards := odds e.discards } := by
  unfold PokerEngine.recycleDiscards
  have := recycleLoop_eq e.discards.length [] e.discards e.deck (by simpa using hn) (le_refl _)
  simp only [List.length_nil, List.nil_append] at this
  rw [this]

theorem recycleDiscards_conserved (e : PokerEngine) (draws : List Nat) (hc : Conserved e) :
    Conserved (e.recycleDiscards draws) := by
  have hn := (allCards_nodup_parts e (conserved_nodup e hc)).2.1
  rw [recycleDiscards_eq e draws hn]
  unfold Conserved at hc ⊢
  refine List.Perm.trans ?_ hc
  rw [allCards_faces, allCards_faces]
  simp only
  have h1 := ((shuffle_perm (e.deck ++ evens e.discards) draws).map Card.face)
  have h2 := ((evens_odds_perm e.discards).map Card.face)
  rw [List.perm_iff_count] at h1 h2 ⊢
  intro x
  have a1 := h1 x
  have a2 := h2 x
  simp only [List.map_append, List.count_append] at a1 a2 ⊢
  omega

theorem handleDraw_conserved (e e' : PokerEngine) (seat : Nat)
    (discard : PokerPlayer → List Int) (draws : List Nat) (hc : Conserved e)
    (h : e.handleDraw seat discard draws = some e') : Conserved e' := by
  unfold PokerEngine.handleDraw at h
  cases hp : e.players[seat]? with
  | none => simp only [hp, Option.some.injEq] at h; rw [← h]; exact hc
  | some p =>
    simp only [hp] at h
    split_ifs at h with h1 h2
    · cases hd : PokerEngine.dealReplacements e.deck (PokerEngine.orientationFor p)
          (discard p).length with
      | none => simp [hd] at h
      | some r =>
        obtain ⟨replacements, deck⟩ := r
        simp only [hd] at h
        cases hr : p.replace (discard p) replacements with
        | none => simp [hr] at h
        | some r2 =>
          obtain ⟨discarded, player1⟩ := r2
          simp only [hr, Option.some.injEq] at h
          have hparts := allCards_nodup_parts e (conserved_nodup e hc)
          obtain ⟨taken, ht1, ht2, -⟩ := dealReplacements_some _ _ _ _ _ hparts.1 hd
          have hpn : p.hand.cards.Nodup := by
            obtain ⟨hlt, heq⟩ := List.getElem?_eq_some.mp hp
            exact hparts.2.2 p (heq ▸ List.getElem_mem hlt)
          obtain ⟨hperm, -⟩ := replace_conserved p player1 _ _ _ hpn hr
          have hc1 : Conserved
              { e with
                deck := deck, discards := e.discards ++ discarded,
                players := e.players.set seat player1 } := by
            unfold Conserved at hc ⊢
            refine List.Perm.trans ?_ hc
            rw [allCards_faces, allCards_faces]
            simp only
            have hset := count_flatMap_set e.players seat p player1
              (fun q => q.hand.cards.map Card.face) hp
            have hperm2 := hperm.map Card.face
            have hperm3 : (replacements.map Card.face).Perm (taken.map Card.face) := by
              rw [ht2, List.map_map]
              have : (Card.face ∘ Card.oriented (PokerEngine.orientationFor p)) = Card.face := by
                funext c; rfl
              rw [this, List.map_reverse]
              exact List.reverse_perm _
            rw [List.perm_iff_count] at hperm2 hperm3 ⊢
            intro x
            have a1 := hset x
            have a2 := hperm2 x
            have a3 := hperm3 x
            rw [ht1]
            simp only [List.map_append, List.count_append] at a1 a2 ⊢
            omega
          rw [← h]
          apply setStateAt_conserved
          split_ifs
          · exact recycleDiscards_conserved _ draws hc1
          · exact hc1
    · simp only [Option.some.injEq] at h
      rw [← h]
      exact setStateAt_conserved _ _ _ hc
    · simp only [Option.some.injEq] at h
      rw [← h]
      exact hc

theorem reset_length : (Deck.reset []).length = 52 := rfl

theorem fresh_conserved (e : PokerEngine) (hd : e.deck = Deck.reset []) (hp : e.discards = [])
    (hh : ∀ p ∈ e.players, p.hand.cards = []) : Conserved e := by
  unfold Conserved PokerEngine.allCards
  have : (e.players.flatMap fun p => p.hand.cards) = [] := by
    rw [List.flatMap_eq_nil_iff]
    exact hh
  rw [hd, hp, this, List.append_nil, List.append_nil]

/-- C22: start from an engine with a freshly reset deck of 52 cards, an empty
discard pile and empty hands, and let it take any number of completed steps
that move cards (`dealCards`, `handleDraw` with its recycling,
`recycleDiscards`). Then the deck, the discard pile and the hands hold together
the same 52 faces as the full deck, no face is in two places, and there are 52
cards in all. -/
theorem cards_conserved (e0 e : PokerEngine) (hd : e0.deck = Deck.reset [])
    (hp : e0.discards = []) (hh : ∀ p ∈ e0.players, p.hand.cards = [])
    (hsteps : Relation.ReflTransGen CardStep e0 e) :
    Conserved e ∧ (e.allCards.map Card.face).Nodup ∧ e.allCards.length = 52 := by
  have hc : Conserved e := by
    induction hsteps with
    | refl => exact fresh_conserved e0 hd hp hh
    | tail _ hstep ih =>
      cases hstep with
      | deal _ draws h => exact dealCards_conserved _ _ draws ih h
      | draw _ seat discard draws h => exact handleDraw_conserved _ _ seat discard draws ih h
      | recycle draws => exact recycleDiscards_conserved _ draws ih
  refine ⟨hc, conserved_nodup e hc, ?_⟩
  have := hc.length_eq
  rw [List.length_map, List.length_map, reset_length] at this
  exact this

/-- Witness of `cards_conserved`: the sample engine deals to its two players and
the first player then draws two cards. -/
theorem cards_conserved_witness :
    ∃ e1 e2, sampleEngine.dealCards [] = some e1 ∧
      e1.handleDraw 0 (fun _ => [0, 2]) [] = some e2 ∧
      e2.deck.length = 40 ∧ e2.discards.length = 2 ∧
      Conserved e2 ∧ (e2.allCards.map Card.face).Nodup ∧ e2.allCards.length = 52 := by
  have h1 : (sampleEngine.dealCards []).isSome = true := by decide
  obtain ⟨e1, he1⟩ := Option.isSome_iff_exists.mp h1
  have h2 : ((sampleEngine.dealCards []).bind fun e =>
      e.handleDraw 0 (fun _ => [0, 2]) []).isSome = true := by decide
  rw [he1, Option.some_bind] at h2
  obtain ⟨e2, he2⟩ := Option.isSome_iff_exists.mp h2
  have h3 : ((sampleEngine.dealCards []).bind fun e =>
      e.handleDraw 0 (fun _ => [0, 2]) []).map (fun e => (e.deck.length, e.discards.length)) =
      some (40, 2) := by decide
  rw [he1, Option.some_bind, he2, Option.map_some', Option.some.injEq, Prod.mk.injEq] at h3
  exact ⟨e1, e2, he1, he2, h3.1, h3.2,
    cards_conserved sampleEngine e2 rfl rfl (by decide)
      ((Relation.ReflTransGen.single (CardStep.deal _ _ _ he1)).tail
        (CardStep.draw _ _ _ _ _ he2))⟩

/-! ## Dealing -/

theorem receive_receive (p : PokerPlayer) (a b : List Card) :
    (p.receive a).receive b = p.receive (a ++ b) := by
  simp [PokerPlayer.receive, List.foldl_append]

theorem receive_nil (p : PokerPlayer) : p.receive [] = p := rfl

theorem giveCards_length (ps : List PokerPlayer) (asg : List (Nat × Card)) :
    (giveCards ps asg).length = ps.length := by
  induction asg generalizing ps with
  | nil => rfl
  | cons x rest ih =>
    obtain ⟨s, c⟩ := x
    unfold giveCards
    cases hp : ps[s]? with
    | none => exact ih ps
    | some p => simp only; rw [ih, List.length_set]

theorem giveCards_get (ps : List PokerPlayer) (asg : List (Nat × Card)) (s : Nat) :
    (giveCards ps asg)[s]? = (ps[s]?).map fun p =>
      p.receive ((asg.filter fun x => decide (x.1 = s)).map fun x =>
        Card.oriented (PokerEngine.orientationFor p) x.2) := by
  induction asg generalizing ps with
  | nil =>
    simp only [giveCards, List.filter_nil, List.map_nil, receive_nil]
    cases ps[s]? <;> rfl
  | cons x rest ih =>
    obtain ⟨t, c⟩ := x
    unfold giveCards
    cases hp : ps[t]? with
    | none =>
      simp only
      rw [ih ps]
      by_cases hts : t = s
      · subst hts
        rw [hp]
        rfl
      · rw [List.filter_cons]
        simp [hts]
    | some q =>
      simp only
      rw [ih]
      by_cases hts : t = s
      · subst hts
        have hlt : t < ps.length := (List.getElem?_eq_some.mp hp).1
        rw [List.getElem?_set_self hlt, hp]
        simp only [Option.map_some', List.filter_cons, decide_True, if_true, List.map_cons]
        rw [receive_receive]
        rfl
      · rw [List.getElem?_set_ne hts, List.filter_cons]
        simp [hts]

theorem dealTo_fold_eq (ss : List Nat) (taken left : List Card) (e : PokerEngine)
    (hdeck : e.deck = left ++ taken) (hlen : taken.length = ss.length) (hn : e.deck.Nodup)
    (hs : ∀ s ∈ ss, s < e.players.length) :
    ss.foldl PokerEngine.dealTo (some e) =
      some { e with deck := left, players := giveCards e.players (ss.zip taken.reverse) } := by
  induction ss generalizing taken e with
  | nil =>
    have ht : taken = [] := List.length_eq_zero.mp hlen
    subst ht
    rw [List.append_nil] at hdeck
    simp only [List.foldl_nil, List.zip_nil_left, giveCards]
    rw [← hdeck]
  | cons s ss ih =>
    rcases List.eq_nil_or_concat taken with rfl | ⟨taken', c, rfl⟩
    · simp at hlen
    · rw [List.concat_eq_append] at hdeck hlen ⊢
      have hslt : s < e.players.length := hs s (List.mem_cons_self _ _)
      have hp : e.players[s]? = some e.players[s] := List.getElem?_eq_getElem hslt
      have hc : c ∉ left ++ taken' := by
        intro hm
        rw [hdeck, ← List.append_assoc, List.nodup_append] at hn
        exact hn.2.2 hm (List.mem_singleton_self _)
      have hstep : PokerEngine.dealTo (some e) s =
          some { e with
            deck := left ++ taken',
            players := e.players.set s (e.players[s].receive
              [Card.oriented (PokerEngine.orientationFor e.players[s]) c]) } := by
        unfold PokerEngine.dealTo
        simp only [hp]
        rw [hdeck, ← List.append_assoc, deal_concat _ _ _ hc]
      rw [List.foldl_cons, hstep]
      rw [ih taken' _ rfl (by simpa using hlen)
        (by
          simp only
          rw [hdeck, ← List.append_assoc] at hn
          exact (List.nodup_append.mp hn).1)
        (by
          intro x hx
          simp only [List.length_set]
          exact hs x (List.mem_cons_of_mem _ hx))]
      simp only [List.reverse_append, List.reverse_singleton, List.singleton_append,
        List.zip_cons_cons, giveCards, hp]

theorem setStateAt_fold_get (ws : List Nat) (e : PokerEngine) (state : Status) (s : Nat) :
    (ws.foldl (fun e3 seat => e3.setStateAt seat state) e).players[s]? =
      (e.players[s]?).map (fun p => if s ∈ ws then p.setState state else p) := by
  induction ws generalizing e with
  | nil => simp
  | cons w ws ih =>
    rw [List.foldl_cons, ih]
    unfold PokerEngine.setStateAt
    cases hp : e.players[w]? with
    | none =>
      simp only
      by_cases hws : w = s
      · subst hws
        rw [hp]
        rfl
      · cases e.players[s]? with
        | none => rfl
        | some q => simp [hws, Ne.symm hws]
    | some p =>
      simp only
      by_cases hws : w = s
      · subst hws
        have hlt : w < e.players.length := (List.getElem?_eq_some.mp hp).1
        rw [List.getElem?_set_self hlt, hp]
        simp only [Option.map_some', List.mem_cons, true_or, if_true, Option.some.injEq]
        split_ifs <;> rfl
      · rw [List.getElem?_set_ne hws]
        cases e.players[s]? with
        | none => rfl
        | some q => simp [hws, Ne.symm hws]

theorem setStateAt_fold_frame (ws : List Nat) (e : PokerEngine) (state : Status) :
    (ws.foldl (fun e3 seat => e3.setStateAt seat state) e).deck = e.deck ∧
    (ws.foldl (fun e3 seat => e3.setStateAt seat state) e).discards = e.discards ∧
    (ws.foldl (fun e3 seat => e3.setStateAt seat state) e).players.length =
      e.players.length := by
  refine foldl_inv (fun x : PokerEngine => x.deck = e.deck ∧ x.discards = e.discards ∧
    x.players.length = e.players.length) _ ?_ ws e ⟨rfl, rfl, rfl⟩
  intro a b ⟨h1, h2, h3⟩
  obtain ⟨-, f2, f3, f4⟩ := setStateAt_frame a b state
  exact ⟨f2.trans h1, f3.trans h2, f4.trans h3⟩

theorem seats_nodup (e : PokerEngine) (state : Status) : (e.getSeatsByState state).Nodup :=
  List.Nodup.filter _ (List.nodup_range _)

theorem mem_seats (e : PokerEngine) (state : Status) (s : Nat) :
    s ∈ e.getSeatsByState state ↔ ∃ p, e.players[s]? = some p ∧ p.state = state := by
  unfold PokerEngine.getSeatsByState
  rw [List.mem_filter, List.mem_range]
  constructor
  · rintro ⟨hlt, h⟩
    rw [List.getElem?_eq_getElem hlt] at h
    exact ⟨_, List.getElem?_eq_getElem hlt, by simpa using h⟩
  · rintro ⟨p, hp, hs⟩
    refine ⟨(List.getElem?_eq_some.mp hp).1, ?_⟩
    rw [hp]
    simpa using hs

theorem rounds_fold {α β : Type} (f : Option α → Nat → Option α) (ws : List Nat)
    (l : List β) (init : Option α) :
    l.foldl (fun st _ => ws.foldl f st) init = (repeatSeats l.length ws).foldl f init := by
  induction l generalizing init with
  | nil => rfl
  | cons b l ih =>
    rw [List.foldl_cons, ih]
    simp only [List.length_cons, repeatSeats, List.foldl_append]

theorem length_repeatSeats (k : Nat) (ws : List Nat) :
    (repeatSeats k ws).length = k * ws.length := by
  induction k with
  | zero => simp [repeatSeats]
  | succ k ih => simp [repeatSeats, ih]; ring

theorem mem_repeatSeats (k : Nat) (ws : List Nat) (s : Nat) (h : s ∈ repeatSeats k ws) :
    s ∈ ws := by
  induction k with
  | zero => simp [repeatSeats] at h
  | succ k ih =>
    simp only [repeatSeats, List.mem_append] at h
    rcases h with h | h
    · exact h
    · exact ih h

theorem filter_zip_seat (ws : List Nat) (cs : List Card) (hW : ws.Nodup)
    (hlen : cs.length = ws.length) (j s : Nat) (hj : ws[j]? = some s) :
    ((ws.zip cs).filter fun x => decide (x.1 = s)).map Prod.snd = (cs[j]?).toList := by
  induction ws generalizing cs j with
  | nil => simp at hj
  | cons w ws ih =>
    match cs, hlen with
    | c :: cs, hlen =>
      rw [List.nodup_cons] at hW
      cases j with
      | zero =>
        simp only [List.getElem?_cons_zero, Option.some.injEq] at hj
        subst hj
        have hrest : ((ws.zip cs).filter fun x => decide (x.1 = w)) = [] := by
          rw [List.filter_eq_nil_iff]
          intro x hx
          simp only [decide_eq_true_eq]
          intro hxw
          have := (List.of_mem_zip hx).1
          rw [hxw] at this
          exact hW.1 this
        simp [List.filter_cons, hrest]
      | succ j =>
        simp only [List.getElem?_cons_succ] at hj
        have hne : w ≠ s := by
          rintro rfl
          obtain ⟨hlt, heq⟩ := List.getElem?_eq_some.mp hj
          exact hW.1 (heq ▸ List.getElem_mem hlt)
        simp only [List.zip_cons_cons, List.filter_cons, hne, decide_False,
          List.getElem?_cons_succ]
        exact ih cs hW.2 (by simpa using hlen) j hj

theorem filter_zip_rounds (k : Nat) (ws : List Nat) (cs : List Card) (hW : ws.Nodup)
    (hlen : cs.length = k * ws.length) (j s : Nat) (hj : ws[j]? = some s) :
    (((repeatSeats k ws).zip cs).filter fun x => decide (x.1 = s)).map Prod.snd =
      (List.range k).filterMap fun i => cs[i * ws.length + j]? := by
  induction k generalizing cs with
  | zero => simp [repeatSeats]
  | succ k ih =>
    have hjlt : j < ws.length := (List.getElem?_eq_some.mp hj).1
    have hsplit : cs = cs.take ws.length ++ cs.drop ws.length := (List.take_append_drop _ _).symm
    have hl1 : (cs.take ws.length).length = ws.length := by
      rw [List.length_take]
      have : ws.length ≤ cs.length := by rw [hlen]; nlinarith
      omega
    have hl2 : (cs.drop ws.length).length = k * ws.length := by
      rw [List.length_drop, hlen]
      have : (k + 1) * ws.length = k * ws.length + ws.length := by ring
      omega
    have hz : (repeatSeats (k + 1) ws).zip cs =
        ws.zip (cs.take ws.length) ++ (repeatSeats k ws).zip (cs.drop ws.length) := by
      conv_lhs => rw [hsplit]
      simp only [repeatSeats]
      exact List.zip_append hl1.symm
    rw [hz, List.filter_append, List.map_append, filter_zip_seat ws _ hW hl1 j s hj,
      ih _ hl2, List.range_succ_eq_map, List.filterMap_cons, List.filterMap_map]
    have h0 : cs[0 * ws.length + j]? = (cs.take ws.length)[j]? := by
      rw [List.getElem?_take_of_lt hjlt]
      simp
    rw [h0]
    have hsome : ∃ c, (cs.take ws.length)[j]? = some c :=
      ⟨_, List.getElem?_eq_getElem (by rw [hl1]; exact hjlt)⟩
    obtain ⟨c, hc⟩ := hsome
    rw [hc]
    simp only [Option.toList, List.singleton_append, List.cons.injEq, true_and]
    apply List.filterMap_congr
    intro i _
    simp only [Function.comp, List.getElem?_drop]
    congr 1
    simp only [Nat.succ_eq_add_one]
    ring

theorem partition_perm {β : Type} (ws : List Nat) (hW : ws.Nodup) (asg : List (Nat × Card))
    (hin : ∀ x ∈ asg, x.1 ∈ ws) (g : Card → β) :
    (ws.flatMap fun s => (asg.filter fun x => decide (x.1 = s)).map fun x => g x.2).Perm
      (asg.map fun x => g x.2) := by
  induction ws generalizing asg with
  | nil =>
    have : asg = [] := by
      apply List.eq_nil_iff_forall_not_mem.mpr
      intro x hx
      exact absurd (hin x hx) (List.not_mem_nil _)
    subst this
    simp
  | cons w ws ih =>
    rw [List.nodup_cons] at hW
    rw [List.flatMap_cons]
    have hrest : (ws.flatMap fun s =>
        (asg.filter fun x => decide (x.1 = s)).map fun x => g x.2) =
        (ws.flatMap fun s => ((asg.filter fun x => !decide (x.1 = w)).filter
          fun x => decide (x.1 = s)).map fun x => g x.2) := by
      apply List.flatMap_congr
      intro s hs
      rw [List.filter_filter]
      congr 1
      apply List.filter_congr
      intro x _
      by_cases hxs : x.1 = s
      · have : x.1 ≠ w := by
          rintro rfl
          exact hW.1 (hxs ▸ hs)
        have hsw : ¬ s = w := fun h => this (hxs.trans h)
        simp [hxs, hsw]
      · simp [hxs]
    rw [hrest]
    have ih2 := ih hW.2 (asg.filter fun x => !decide (x.1 = w)) (by
      intro x hx
      rw [List.mem_filter] at hx
      have h1 := hin x hx.1
      rcases List.mem_cons.mp h1 with h | h
      · simp [h] at hx
      · exact h)
    refine (List.Perm.append_left _ ih2).trans ?_
    rw [← List.map_append]
    exact (List.filter_append_perm (fun x => decide (x.1 = w)) asg).map _

theorem foldl_add_valid (cs : List Card) (h : PokerHand) (hne : cs ≠ []) :
    (cs.foldl PokerHand.add h).valid = validate (h.cards ++ cs) := by
  rcases List.eq_nil_or_concat cs with rfl | ⟨init, last, rfl⟩
  · exact absurd rfl hne
  · rw [List.concat_eq_append, List.foldl_append]
    simp only [List.foldl_cons, List.foldl_nil]
    show validate ((init.foldl PokerHand.add h).cards ++ [last]) = _
    apply validate_perm
    rw [← List.append_assoc]
    exact (foldl_add_perm init h).append_right _

theorem foldl_add_processed (cs : List Card) (h : PokerHand)
    (hh : ofCards h.cards = h) : ofCards (cs.foldl PokerHand.add h).cards =
      cs.foldl PokerHand.add h := by
  induction cs generalizing h with
  | nil => exact hh
  | cons c cs ih => exact ih _ (ofCards_process _)

theorem length_filterMap_some {α β : Type} (f : α → Option β) (l : List α)
    (h : ∀ x ∈ l, ∃ y, f x = some y) : (l.filterMap f).length = l.length := by
  induction l with
  | nil => rfl
  | cons a l ih =>
    obtain ⟨y, hy⟩ := h a (List.mem_cons_self _ _)
    rw [List.filterMap_cons, hy]
    simp only [List.length_cons]
    rw [ih (fun x hx => h x (List.mem_cons_of_mem _ hx))]

theorem dealtCards_length (shuffled : List Card) (n j : Nat) (o : Orientation)
    (hj : j < n) (hsize : 5 * n ≤ shuffled.length) :
    (dealtCards shuffled n j o).length = 5 := by
  unfold dealtCards
  rw [length_filterMap_some, List.length_range]
  intro k hk
  rw [List.mem_range] at hk
  have hlt : k * n + j < shuffled.reverse.length := by
    rw [List.length_reverse]
    have : k * n + n ≤ 5 * n := by nlinarith
    omega
  exact ⟨_, by rw [List.getElem?_eq_getElem hlt]; rfl⟩

theorem dealtCards_mem (shuffled : List Card) (n j : Nat) (o : Orientation) (c : Card)
    (h : c ∈ dealtCards shuffled n j o) : ∃ d ∈ shuffled, c = Card.oriented o d := by
  unfold dealtCards at h
  rw [List.mem_filterMap] at h
  obtain ⟨k, -, hk⟩ := h
  cases hd : shuffled.reverse[k * n + j]? with
  | none => simp [hd] at hk
  | some d =>
    simp only [hd, Option.map_some', Option.some.injEq] at hk
    obtain ⟨hlt, heq⟩ := List.getElem?_eq_some.mp hd
    exact ⟨d, List.mem_reverse.mp (heq ▸ List.getElem_mem hlt), hk.symm⟩

theorem dealCards_eq (e : PokerEngine) (draws : List Nat) (hn : e.deck.Nodup)
    (hsize : 5 * (e.getSeatsByState Status.WAITING).length ≤ e.deck.length) :
    e.dealCards draws = some
      ((e.getSeatsByState Status.WAITING).foldl (fun e3 seat => e3.setStateAt seat Status.ACTIVE)
        { e with
          deck := (Deck.shuffle e.deck draws).take
            (e.deck.length - 5 * (e.getSeatsByState Status.WAITING).length),
          players := giveCards e.players
            ((repeatSeats 5 (e.getSeatsByState Status.WAITING)).zip
              ((Deck.shuffle e.deck draws).drop
                (e.deck.length - 5 * (e.getSeatsByState Status.WAITING).length)).reverse) }) := by
  have hperm := shuffle_perm e.deck draws
  have hlenD : (Deck.shuffle e.deck draws).length = e.deck.length := hperm.length_eq
  unfold PokerEngine.dealCards
  simp only
  rw [rounds_fold PokerEngine.dealTo (e.getSeatsByState Status.WAITING) (List.range 5),
    List.length_range]
  have hfold := dealTo_fold_eq (repeatSeats 5 (e.getSeatsByState Status.WAITING))
    ((Deck.shuffle e.deck draws).drop
      (e.deck.length - 5 * (e.getSeatsByState Status.WAITING).length))
    ((Deck.shuffle e.deck draws).take
      (e.deck.length - 5 * (e.getSeatsByState Status.WAITING).length))
    { e with deck := Deck.shuffle e.deck draws }
    (List.take_append_drop _ _).symm
    (by rw [List.length_drop, length_repeatSeats, hlenD]; omega)
    ((List.Perm.nodup_iff hperm).mpr hn)
    (by
      intro s hs
      obtain ⟨p, hp, -⟩ := (mem_seats e Status.WAITING s).mp (mem_repeatSeats _ _ _ hs)
      exact (List.getElem?_eq_some.mp hp).1)
  rw [hfold]

theorem dealCards_players (e e' : PokerEngine) (draws : List Nat) (hn : e.deck.Nodup)
    (hsize : 5 * (e.getSeatsByState Status.WAITING).length ≤ e.deck.length)
    (h : e.dealCards draws = some e') (s : Nat) :
    e'.players[s]? = (e.players[s]?).map fun p =>
      if s ∈ e.getSeatsByState Status.WAITING then
        (p.receive ((((repeatSeats 5 (e.getSeatsByState Status.WAITING)).zip
          ((Deck.shuffle e.deck draws).drop
            (e.deck.length - 5 * (e.getSeatsByState Status.WAITING).length)).reverse).filter
              fun x => decide (x.1 = s)).map fun x =>
                Card.oriented (PokerEngine.orientationFor p) x.2)).setState Status.ACTIVE
      else p := by
  rw [dealCards_eq e draws hn hsize, Option.some.injEq] at h
  rw [← h, setStateAt_fold_get]
  simp only
  rw [giveCards_get]
  cases hp : e.players[s]? with
  | none => rfl
  | some p =>
    simp only [Option.map_some', Option.some.injEq]
    split_ifs with hs
    · rfl
    · have : ((repeatSeats 5 (e.getSeatsByState Status.WAITING)).zip
          ((Deck.shuffle e.deck draws).drop
            (e.deck.length - 5 * (e.getSeatsByState Status.WAITING).length)).reverse).filter
              (fun x => decide (x.1 = s)) = [] := by
        rw [List.filter_eq_nil_iff]
        intro x hx
        simp only [decide_eq_true_eq]
        intro hxs
        exact hs (hxs ▸ mem_repeatSeats _ _ _ (List.of_mem_zip hx).1)
      rw [this]
      rfl

theorem dealt_eq (e : PokerEngine) (draws : List Nat) (o : Orientation) (j s : Nat)
    (hsize : 5 * (e.getSeatsByState Status.WAITING).length ≤ e.deck.length)
    (hj : (e.getSeatsByState Status.WAITING)[j]? = some s) :
    ((((repeatSeats 5 (e.getSeatsByState Status.WAITING)).zip
      ((Deck.shuffle e.deck draws).drop
        (e.deck.length - 5 * (e.getSeatsByState Status.WAITING).length)).reverse).filter
          fun x => decide (x.1 = s)).map fun x => Card.oriented o x.2) =
      dealtCards (Deck.shuffle e.deck draws) (e.getSeatsByState Status.WAITING).length j o := by
  have hlenD : (Deck.shuffle e.deck draws).length = e.deck.length :=
    (shuffle_perm e.deck draws).length_eq
  have hjlt : j < (e.getSeatsByState Status.WAITING).length := (List.getElem?_eq_some.mp hj).1
  have hmap : ∀ l : List (Nat × Card), (l.map fun x => Card.oriented o x.2) =
      (l.map Prod.snd).map (Card.oriented o) := by
    intro l; rw [List.map_map]; rfl
  rw [hmap, filter_zip_rounds 5 _ _ (seats_nodup e Status.WAITING)
    (by rw [List.length_reverse, List.length_drop, hlenD]; omega) j s hj,
    List.map_filterMap]
  unfold dealtCards
  apply List.filterMap_congr
  intro k hk
  rw [List.mem_range] at hk
  congr 1
  rw [List.reverse_drop, hlenD, List.getElem?_take_of_lt]
  have : k * (e.getSeatsByState Status.WAITING).length +
      (e.getSeatsByState Status.WAITING).length ≤
      5 * (e.getSeatsByState Status.WAITING).length := by nlinarith
  omega

/-- C21: let `dealCards` run on an engine whose waiting players hold no card
and whose deck holds valid cards with different faces, at least five for each
waiting player. Then it completes; the deck keeps the shuffled cards below the
5N cards on top; each waiting player, the `j`-th one say, is `ACTIVE` and holds
a valid hand of exactly 5 cards, which are the cards number `k * N + j` from
the top of the shuffled deck for `k = 0, ..., 4`; a player that was not
waiting, a folded one in particular, is left as it was; and the hands of the
waiting players hold together exactly the 5N cards taken from the deck, no
card twice. -/
theorem dealCards_spec (e : PokerEngine) (draws : List Nat)
    (hempty : ∀ (s : Nat) (p : PokerPlayer), e.players[s]? = some p →
      p.state = Status.WAITING → p.hand.cards = [])
    (hvalid : ∀ c ∈ e.deck, c.isValid = true)
    (hnd : (e.deck.map Card.face).Nodup)
    (hsize : 5 * (e.getSeatsByState Status.WAITING).length ≤ e.deck.length) :
    ∃ e', e.dealCards draws = some e' ∧
      e'.deck = (Deck.shuffle e.deck draws).take
        (e.deck.length - 5 * (e.getSeatsByState Status.WAITING).length) ∧
      e'.discards = e.discards ∧
      e'.players.length = e.players.length ∧
      (∀ (j s : Nat) (p : PokerPlayer), (e.getSeatsByState Status.WAITING)[j]? = some s →
        e.players[s]? = some p →
        ∃ p', e'.players[s]? = some p' ∧ p'.state = Status.ACTIVE ∧
          p'.hand.cards.length = 5 ∧ p'.hand.isValid = true ∧
          p'.hand.cards.Perm (dealtCards (Deck.shuffle e.deck draws)
            (e.getSeatsByState Status.WAITING).length j (PokerEngine.orientationFor p)) ∧
          p'.id = p.id ∧ p'.type = p.type ∧ p'.balance = p.balance) ∧
      (∀ (s : Nat) (p : PokerPlayer), e.players[s]? = some p → p.state ≠ Status.WAITING →
        e'.players[s]? = some p) ∧
      (((e.getSeatsByState Status.WAITING).flatMap e'.handAt).map Card.face).Perm
        (((Deck.shuffle e.deck draws).drop
          (e.deck.length - 5 * (e.getSeatsByState Status.WAITING).length)).map Card.face) ∧
      (((e.getSeatsByState Status.WAITING).flatMap e'.handAt).map Card.face).Nodup := by
  have hn : e.deck.Nodup := nodup_of_faces _ hnd
  have hperm := shuffle_perm e.deck draws
  have hlenD : (Deck.shuffle e.deck draws).length = e.deck.length := hperm.length_eq
  cases heq : e.dealCards draws with
  | none =>
    rw [dealCards_eq e draws hn hsize] at heq
    cases heq
  | some e' =>
  have hE := heq
  rw [dealCards_eq e draws hn hsize, Option.some.injEq] at hE
  refine ⟨e', rfl, ?_, ?_, ?_, ?_, ?_, ?_⟩
  · rw [← hE, (setStateAt_fold_frame _ _ _).1]
  · rw [← hE, (setStateAt_fold_frame _ _ _).2.1]
  · rw [← hE, (setStateAt_fold_frame _ _ _).2.2]
    exact giveCards_length _ _
  · intro j s p hj hp
    have hs : s ∈ e.getSeatsByState Status.WAITING := by
      obtain ⟨hlt, hget⟩ := List.getElem?_eq_some.mp hj
      exact hget ▸ List.getElem_mem hlt
    have hpl := dealCards_players e e' draws hn hsize heq s
    rw [hp, Option.map_some', if_pos hs, dealt_eq e draws _ j s hsize hj] at hpl
    obtain ⟨q, hq, hqs⟩ := (mem_seats e Status.WAITING s).mp hs
    rw [hp, Option.some.injEq] at hq
    subst hq
    have hjlt : j < (e.getSeatsByState Status.WAITING).length :=
      (List.getElem?_eq_some.mp hj).1
    have hlen5 := dealtCards_length (Deck.shuffle e.deck draws)
      (e.getSeatsByState Status.WAITING).length j (PokerEngine.orientationFor p) hjlt
      (by rw [hlenD]; exact hsize)
    have hcards := receive_cards_perm p (dealtCards (Deck.shuffle e.deck draws)
      (e.getSeatsByState Status.WAITING).length j (PokerEngine.orientationFor p))
    rw [hempty s p hp hqs, List.nil_append] at hcards
    refine ⟨_, hpl, rfl, ?_, ?_, hcards, rfl, rfl, rfl⟩
    · exact hcards.length_eq.trans hlen5
    · show (List.foldl PokerHand.add p.hand _).valid = true
      rw [foldl_add_valid _ _ (by
        intro h0
        rw [h0] at hlen5
        simp at hlen5), hempty s p hp hqs, List.nil_append]
      unfold validate
      rw [if_neg (by simp [hlen5, VALID_COUNT])]
      rw [List.all_eq_true]
      intro c hc
      obtain ⟨d, hd, rfl⟩ := dealtCards_mem _ _ _ _ _ hc
      rw [isValid_oriented]
      exact hvalid d (hperm.mem_iff.mp hd)
  · intro s p hp hs
    have hnot : s ∉ e.getSeatsByState Status.WAITING := by
      intro hmem
      obtain ⟨q, hq, hqs⟩ := (mem_seats e Status.WAITING s).mp hmem
      rw [hp, Option.some.injEq] at hq
      exact hs (hq ▸ hqs)
    have hpl := dealCards_players e e' draws hn hsize heq s
    rw [hp, Option.map_some', if_neg hnot] at hpl
    exact hpl
  · have hfaces : (((e.getSeatsByState Status.WAITING).flatMap
        e'.handAt).map Card.face).Perm
        (((repeatSeats 5 (e.getSeatsByState Status.WAITING)).zip
          ((Deck.shuffle e.deck draws).drop
            (e.deck.length - 5 * (e.getSeatsByState Status.WAITING).length)).reverse).map
              fun x => x.2.face) := by
      rw [List.map_flatMap]
      refine List.Perm.trans ?_ (partition_perm _ (seats_nodup e Status.WAITING) _ (by
        intro x hx
        exact mem_repeatSeats _ _ _ (List.of_mem_zip hx).1) Card.face)
      apply List.Perm.flatMap_left
      intro s hs
      obtain ⟨p, hp, hps⟩ := (mem_seats e Status.WAITING s).mp hs
      have hpl := dealCards_players e e' draws hn hsize heq s
      rw [hp, Option.map_some', if_pos hs] at hpl
      unfold PokerEngine.handAt
      rw [hpl]
      simp only
      have hcards := (receive_cards_perm p ((((repeatSeats 5
        (e.getSeatsByState Status.WAITING)).zip
          ((Deck.shuffle e.deck draws).drop
            (e.deck.length - 5 * (e.getSeatsByState Status.WAITING).length)).reverse).filter
              fun x => decide (x.1 = s)).map fun x =>
                Card.oriented (PokerEngine.orientationFor p) x.2)).map Card.face
      rw [hempty s p hp hps, List.nil_append, List.map_map] at hcards
      exact hcards
    have hsnd : (((repeatSeats 5 (e.getSeatsByState Status.WAITING)).zip
          ((Deck.shuffle e.deck draws).drop
            (e.deck.length - 5 * (e.getSeatsByState Status.WAITING).length)).reverse).map
              fun x => x.2.face) =
        (((Deck.shuffle e.deck draws).drop
            (e.deck.length - 5 * (e.getSeatsByState Status.WAITING).length)).reverse).map
              Card.face := by
      have : (fun x : Nat × Card => x.2.face) = Card.face ∘ Prod.snd := rfl
      rw [this, ← List.map_map, List.map_snd_zip]
      rw [List.length_reverse, List.length_drop, length_repeatSeats, hlenD]
      omega
    have hunion := hfaces
    rw [hsnd, List.map_reverse] at hunion
    have hunion2 := hunion.trans (List.reverse_perm _)
    refine ⟨hunion2, (List.Perm.nodup_iff hunion2).mpr ?_⟩
    have hD : ((Deck.shuffle e.deck draws).map Card.face).Nodup :=
      (List.Perm.nodup_iff (hperm.map _)).mpr hnd
    exact hD.sublist ((List.drop_sublist _ _).map _)

theorem dealCards_spec_witness :
    ∃ e', sampleEngine.dealCards [] = some e' ∧
      e'.deck = (Deck.shuffle sampleEngine.deck []).take
        (sampleEngine.deck.length - 5 * (sampleEngine.getSeatsByState Status.WAITING).length) ∧
      e'.discards = [] ∧ e'.players.length = 2 ∧
      (((sampleEngine.getSeatsByState Status.WAITING).flatMap e'.handAt).map Card.face).Nodup := by
  obtain ⟨e', h1, h2, h3, h4, -, -, -, h8⟩ := dealCards_spec sampleEngine []
    (by
      intro s p hp _
      match s, hp with
      | 0, hp => cases hp; rfl
      | 1, hp => cases hp; rfl
      | _ + 2, hp => cases hp)
    (by decide) (by decide) (by decide)
  exact ⟨e', h1, h2, h3, h4, h8⟩

theorem dealReplacements_eq (o : Orientation) (taken left : List Card)
    (hn : (left ++ taken).Nodup) :
    PokerEngine.dealReplacements (left ++ taken) o taken.length =
      some (taken.reverse.map (Card.oriented o), left) := by
  induction taken using List.reverseRecOn with
  | nil => simp [PokerEngine.dealReplacements]
  | append_singleton t c ih =>
    have hc : c ∉ left ++ t := by
      rw [← List.append_assoc] at hn
      exact fun hmem => (List.nodup_append.mp hn).2.2 hmem (List.mem_singleton_self c)
    have hn2 : (left ++ t).Nodup := by
      rw [← List.append_assoc] at hn
      exact (List.nodup_append.mp hn).1
    rw [List.length_append, List.length_singleton]
    unfold PokerEngine.dealReplacements
    rw [← List.append_assoc, deal_concat _ _ _ hc]
    simp only
    rw [ih hn2]
    simp

theorem remove_sorted_cards (h : PokerHand) (i : Nat) (c : Card) (hn : h.cards.Nodup)
    (hs : sortCards h.cards = h.cards) (hc : h.cards[i]? = some c) :
    (h.remove c).cards = h.cards.eraseIdx i := by
  obtain ⟨hlt, heq⟩ := List.getElem?_eq_some.mp hc
  have hsorted : h.cards.Sorted (fun a b => a.getValue ≤ b.getValue) := hs ▸ sortCards_sorted _
  unfold PokerHand.remove process
  simp only
  rw [filter_bne_eq_erase _ _ hn, ← heq, hn.erase_getElem]
  exact List.Sorted.insertionSort_eq (List.Pairwise.sublist (List.eraseIdx_sublist _ _) hsorted)

theorem replaceFold_explicit (idxs : List Int) :
    ∀ (ds : List Card) (hand : PokerHand), idxs.Pairwise (fun a b => a > b) →
      (∀ i ∈ idxs, 0 ≤ i ∧ i.toNat < hand.cards.length) → hand.cards.Nodup →
      sortCards hand.cards = hand.cards →
      ∃ hand', idxs.foldl PokerPlayer.replaceStep (some (ds, hand)) =
        some (ds ++ idxs.filterMap (fun i => hand.cards[i.toNat]?), hand') := by
  induction idxs with
  | nil =>
    intro ds hand _ _ _ _
    exact ⟨hand, by simp⟩
  | cons i rest ih =>
    intro ds hand hpw hr hn hs
    obtain ⟨hi0, hilt⟩ := hr i (List.mem_cons_self _ _)
    rw [List.pairwise_cons] at hpw
    have hget : hand.cards[i.toNat]? = some (hand.cards[i.toNat]) :=
      List.getElem?_eq_getElem hilt
    have hstep : PokerPlayer.replaceStep (some (ds, hand)) i =
        some (ds ++ [hand.cards[i.toNat]], hand.remove (hand.cards[i.toNat])) := by
      unfold PokerPlayer.replaceStep
      simp only
      rw [if_neg (not_lt.mpr hi0), hget]
    have hcards := remove_sorted_cards hand i.toNat _ hn hs hget
    have hsorted : hand.cards.Sorted (fun a b => a.getValue ≤ b.getValue) :=
      hs ▸ sortCards_sorted _
    obtain ⟨hand', h'⟩ := ih (ds ++ [hand.cards[i.toNat]]) (hand.remove (hand.cards[i.toNat]))
      hpw.2 (by
        intro j hj
        have hji := hpw.1 j hj
        have hj0 := (hr j (List.mem_cons_of_mem _ hj)).1
        refine ⟨hj0, ?_⟩
        rw [hcards, List.length_eraseIdx, if_pos hilt]
        omega)
      (by rw [hcards]; exact hn.sublist (List.eraseIdx_sublist _ _))
      (by
        rw [hcards]
        exact List.Sorted.insertionSort_eq (List.Pairwise.sublist (List.eraseIdx_sublist _ _) hsorted))
    refine ⟨hand', ?_⟩
    have hcons : (i :: rest).filterMap (fun j => hand.cards[j.toNat]?) =
        hand.cards[i.toNat] :: rest.filterMap (fun j => hand.cards[j.toNat]?) :=
      List.filterMap_cons_some hget
    rw [List.foldl_cons, hstep, h', hcons, List.append_assoc, List.singleton_append]
    congr 4
    apply List.filterMap_congr
    intro j hj
    have hji := hpw.1 j hj
    have hj0 := (hr j (List.mem_cons_of_mem _ hj)).1
    rw [hcards, List.getElem?_eraseIdx, if_pos (by omega)]

theorem sorted_desc (idxs : List Int) (hn : idxs.Nodup) :
    (idxs.insertionSort (fun a b => a ≥ b)).Pairwise (fun a b => a > b) := by
  have hs : (idxs.insertionSort (fun a b => a ≥ b)).Pairwise (fun a b => a ≥ b) :=
    List.sorted_insertionSort (fun a b : Int => a ≥ b) idxs
  have hnd : (idxs.insertionSort (fun a b => a ≥ b)).Nodup :=
    (List.perm_insertionSort _ idxs).nodup_iff.mpr hn
  exact (hs.and hnd).imp (fun h => lt_of_le_of_ne h.1 (Ne.symm h.2))

theorem foldl_add_process (cs : List Card) (h : PokerHand) (hne : cs ≠ []) :
    ofCards (cs.foldl PokerHand.add h).cards = cs.foldl PokerHand.add h := by
  rcases List.eq_nil_or_concat cs with h0 | ⟨init, last, rfl⟩
  · exact absurd h0 hne
  · rw [List.concat_eq_append, List.foldl_append]
    simp only [List.foldl_cons, List.foldl_nil]
    unfold PokerHand.add
    exact ofCards_process _

theorem processed_valid (h : PokerHand) (hp : ofCards h.cards = h) :
    h.valid = validate h.cards := by
  have h1 : (ofCards h.cards).valid = validate h.cards := rfl
  rw [hp] at h1
  exact h1

theorem processed_sorted (h : PokerHand) (hp : ofCards h.cards = h) :
    sortCards h.cards = h.cards := by
  have h1 : (ofCards h.cards).cards = sortCards h.cards := rfl
  rw [hp] at h1
  exact h1.symm

theorem validate_all (cs : List Card) (h : validate cs = true) :
    ∀ c ∈ cs, c.isValid = true := by
  intro c hc
  by_contra hv
  rw [validate_invalid_card cs c hc (by simpa using hv)] at h
  cases h

theorem validate_of (cs : List Card) (hl : cs.length = 5) (hv : ∀ c ∈ cs, c.isValid = true) :
    validate cs = true := by
  unfold validate
  rw [if_neg (by simp [hl, VALID_COUNT]), List.all_eq_true]
  exact hv

theorem replace_some (p : PokerPlayer) (idxs : List Int) (cards : List Card)
    (hn : idxs.Nodup) (hr : ∀ i ∈ idxs, 0 ≤ i ∧ i.toNat < p.hand.cards.length)
    (hh : p.hand.cards.Nodup) (hs : sortCards p.hand.cards = p.hand.cards) :
    ∃ p1, p.replace idxs cards = some (p.cardsAt idxs, p1) ∧ (p.cardsAt idxs).Nodup ∧
      (∀ c ∈ p.cardsAt idxs, c ∈ p.hand.cards) ∧
      (cards ≠ [] → ofCards p1.hand.cards = p1.hand) := by
  obtain ⟨hand', h⟩ := replaceFold_explicit (idxs.insertionSort (fun a b => a ≥ b)) []
    p.hand (sorted_desc idxs hn)
    (fun i hi => hr i ((List.perm_insertionSort _ _).mem_iff.mp hi)) hh hs
  rw [List.nil_append] at h
  have hc := (replaceFold_conserved _ [] _ p.hand hand' hh h).1
  rw [List.append_nil] at hc
  refine ⟨PokerPlayer.receive { p with hand := hand' } cards, ?_, ?_, ?_, ?_⟩
  · unfold PokerPlayer.replace
    rw [h]
    rfl
  · exact (List.nodup_append.mp (hc.nodup_iff.mpr hh)).2.1
  · intro c hcm
    exact hc.mem_iff.mp (List.mem_append_right _ hcm)
  · intro hne
    exact foldl_add_process cards hand' hne

theorem handleDraw_eq (e : PokerEngine) (seat : Nat) (p p1 : PokerPlayer)
    (discard : PokerPlayer → List Int) (draws : List Nat) (removed : List Card)
    (hp : e.players[seat]? = some p) (hstate : p.state ≠ Status.FOLDED)
    (hne : discard p ≠ []) (hk : (discard p).length ≤ e.deck.length) (hn : e.deck.Nodup)
    (hrep : p.replace (discard p)
      (e.topCards (discard p).length (PokerEngine.orientationFor p)) = some (removed, p1)) :
    e.handleDraw seat discard draws =
      some ((if (e.deck.take (e.deck.length - (discard p).length)).length ≤ 5 then
          PokerEngine.recycleDiscards
            { e with deck := e.deck.take (e.deck.length - (discard p).length),
                     discards := e.discards ++ removed,
                     players := e.players.set seat p1 } draws
        else
          { e with deck := e.deck.take (e.deck.length - (discard p).length),
                   discards := e.discards ++ removed,
                   players := e.players.set seat p1 }).setStateAt seat Status.DRAWING) := by
  have hsplit : e.deck = e.deck.take (e.deck.length - (discard p).length) ++
      e.deck.drop (e.deck.length - (discard p).length) := (List.take_append_drop _ _).symm
  have hlen : (e.deck.drop (e.deck.length - (discard p).length)).length =
      (discard p).length := by
    rw [List.length_drop]
    omega
  have hd := dealReplacements_eq (PokerEngine.orientationFor p)
    (e.deck.drop (e.deck.length - (discard p).length))
    (e.deck.take (e.deck.length - (discard p).length)) (hsplit ▸ hn)
  rw [← hsplit, hlen] at hd
  unfold PokerEngine.topCards at hrep
  unfold PokerEngine.handleDraw
  rw [hp]
  simp only
  rw [if_pos hstate, if_pos hne, hd]
  simp only
  rw [hrep]

theorem hand_parts_nodup (e : PokerEngine) (p : PokerPlayer) (hp : p ∈ e.players)
    (h : (e.allCards.map Card.face).Nodup) :
    ((e.deck ++ e.discards ++ p.hand.cards).map Card.face).Nodup := by
  refine h.sublist (List.Sublist.map _ ?_)
  unfold PokerEngine.allCards
  refine List.Sublist.append (List.Sublist.refl _) ?_
  unfold List.flatMap
  exact List.sublist_flatten_of_mem (List.mem_map_of_mem _ hp)

theorem length_topCards (e : PokerEngine) (k : Nat) (o : Orientation)
    (hk : k ≤ e.deck.length) : (e.topCards k o).length = k := by
  unfold PokerEngine.topCards
  rw [List.length_map, List.length_reverse, List.length_drop]
  omega

theorem setStateAt_get (e : PokerEngine) (seat : Nat) (state : Status) (s : Nat) :
    (e.setStateAt seat state).players[s]? =
      (e.players[s]?).map (fun p => if s = seat then p.setState state else p) := by
  have h := setStateAt_fold_get [seat] e state s
  simp only [List.foldl_cons, List.foldl_nil, List.mem_singleton] at h
  exact h

theorem handleDraw_draw (e : PokerEngine) (seat : Nat) (p : PokerPlayer)
    (discard : PokerPlayer → List Int) (draws : List Nat)
    (hp : e.players[seat]? = some p) (hstate : p.state ≠ Status.FOLDED)
    (hne : discard p ≠ []) (hproc : ofCards p.hand.cards = p.hand)
    (hnd : (discard p).Nodup)
    (hrange : ∀ i ∈ discard p, 0 ≤ i ∧ i.toNat < p.hand.cards.length)
    (hk : (discard p).length ≤ e.deck.length)
    (hfaces : (e.allCards.map Card.face).Nodup) :
    ∃ e' p', e.handleDraw seat discard draws = some e' ∧ e'.players[seat]? = some p' ∧
      e'.players.length = e.players.length ∧
      (∀ s, s ≠ seat → e'.players[s]? = e.players[s]?) ∧
      p'.state = Status.DRAWING ∧
      ofCards p'.hand.cards = p'.hand ∧
      (p'.hand.cards ++ p.cardsAt (discard p)).Perm
        (p.hand.cards ++ e.topCards (discard p).length (PokerEngine.orientationFor p)) ∧
      (p.cardsAt (discard p)).length = (discard p).length ∧
      (5 < e.deck.length - (discard p).length →
        e'.deck = e.deck.take (e.deck.length - (discard p).length) ∧
        e'.discards = e.discards ++ p.cardsAt (discard p)) ∧
      (e'.deck ++ e'.discards).Perm
        (e.deck.take (e.deck.length - (discard p).length) ++
          (e.discards ++ p.cardsAt (discard p))) ∧
      (e.deck.length - (discard p).length ≤ 5 →
        e.deck.length + e.discards.length ≤ 2 * e'.deck.length) := by
  obtain ⟨hlt, hpe⟩ := List.getElem?_eq_some.mp hp
  have hmem : p ∈ e.players := hpe ▸ List.getElem_mem hlt
  have hparts := nodup_of_faces _ (hand_parts_nodup e p hmem hfaces)
  obtain ⟨hdd, hhand, hdisj⟩ := List.nodup_append.mp hparts
  obtain ⟨hdn, hdisc, -⟩ := List.nodup_append.mp hdd
  obtain ⟨p1, hrep, hrn, hrm, hpr⟩ := replace_some p (discard p)
    (e.topCards (discard p).length (PokerEngine.orientationFor p)) hnd hrange hhand
    (processed_sorted _ hproc)
  have hcons := replace_conserved p p1 _ _ _ hhand hrep
  have htl := length_topCards e (discard p).length (PokerEngine.orientationFor p) hk
  have hkpos : 0 < (discard p).length := List.length_pos.mpr hne
  have htop : e.topCards (discard p).length (PokerEngine.orientationFor p) ≠ [] := by
    intro h0
    rw [h0] at htl
    simp at htl
    omega
  have hDn : (e.discards ++ p.cardsAt (discard p)).Nodup := by
    refine List.nodup_append.mpr ⟨hdisc, hrn, ?_⟩
    intro a ha hb
    exact hdisj (List.mem_append_right _ ha) (hrm a hb)
  have heq := handleDraw_eq e seat p p1 discard draws _ hp hstate hne hk hdn hrep
  have hleft : (e.deck.take (e.deck.length - (discard p).length)).length =
      e.deck.length - (discard p).length := by
    rw [List.length_take]
    omega
  generalize hY : (if (e.deck.take (e.deck.length - (discard p).length)).length ≤ 5 then
          PokerEngine.recycleDiscards
            { e with deck := e.deck.take (e.deck.length - (discard p).length),
                     discards := e.discards ++ p.cardsAt (discard p),
                     players := e.players.set seat p1 } draws
        else
          { e with deck := e.deck.take (e.deck.length - (discard p).length),
                   discards := e.discards ++ p.cardsAt (discard p),
                   players := e.players.set seat p1 }) = Y at heq
  have hYp : Y.players = e.players.set seat p1 := by
    rw [← hY]
    split_ifs <;> rfl
  have hY1 : 5 < e.deck.length - (discard p).length →
      Y.deck = e.deck.take (e.deck.length - (discard p).length) ∧
      Y.discards = e.discards ++ p.cardsAt (discard p) := by
    intro h5
    rw [← hY, if_neg (by rw [hleft]; omega)]
    exact ⟨rfl, rfl⟩
  have hY2 : (Y.deck ++ Y.discards).Perm
      (e.deck.take (e.deck.length - (discard p).length) ++
        (e.discards ++ p.cardsAt (discard p))) ∧
      (e.deck.length - (discard p).length ≤ 5 →
        e.deck.length + e.discards.length ≤ 2 * Y.deck.length) := by
    rw [← hY]
    split_ifs with hbr
    · rw [recycleDiscards_eq _ draws hDn]
      simp only
      constructor
      · refine ((shuffle_perm _ draws).append_right _).trans ?_
        rw [List.append_assoc]
        exact (evens_odds_perm _).append_left _
      · intro _
        rw [(shuffle_perm _ draws).length_eq, List.length_append, length_evens,
          List.length_append, hcons.2.1, hleft]
        omega
    · constructor
      · exact List.Perm.refl _
      · intro h5
        rw [hleft] at hbr
        exact absurd h5 hbr
  have hf := setStateAt_frame Y seat Status.DRAWING
  have hgs := setStateAt_get Y seat Status.DRAWING
  have hseat : Y.players[seat]? = some p1 := by
    rw [hYp, List.getElem?_set_self hlt]
  refine ⟨Y.setStateAt seat Status.DRAWING, p1.setState Status.DRAWING, heq, ?_, ?_, ?_, rfl,
    hpr htop, hcons.1, hcons.2.1, ?_, ?_, ?_⟩
  · rw [hgs, hseat]
    simp
  · rw [hf.2.2.2, hYp, List.length_set]
  · intro s hs
    rw [hgs, hYp, List.getElem?_set_ne (Ne.symm hs)]
    simp only [if_neg hs, Option.map_id', id]
  · intro h5
    rw [hf.2.1, hf.2.2.1]
    exact hY1 h5
  · rw [hf.2.1, hf.2.2.1]
    exact hY2.1
  · rw [hf.2.1]
    exact hY2.2

/-- C27 (the claim as it stands fails): in `drawSample` the player is `ACTIVE`
and holds a valid hand of 5 cards, the deck holds 8 cards, and the decision is
to discard the three positions 0, 1 and 2. After `handleDraw` the discard pile
holds one card only, not the three cards removed from the hand: five cards were
left in the deck, so the discard pile has been recycled within the call. -/
theorem draw_recycles_discards :
    (drawSample.players.map fun p =>
      (decide (p.state ≠ Status.FOLDED), p.hand.valid, p.hand.cards.length)) =
        [(true, true, 5)] ∧
    drawSample.deck.length = 8 ∧
    (drawSample.handleDraw 0 (fun _ => [0, 1, 2]) []).map (fun e' => e'.discards) =
      some [card '2' 'H'] ∧
    (drawSample.handleDraw 0 (fun _ => [0, 1, 2]) []).map (fun e' => e'.deck) =
      some [card '5' 'C', card '6' 'C', card '7' 'C', card '8' 'C', card '9' 'C',
        card '3' 'S', card '2' 'D'] := by
  decide

/-- C27 (amended): let `handleDraw` run for a player that is not `FOLDED` and
holds a valid hand of 5 cards, with a decision of `k` distinct indices in
`[0, 5)` and at least `k` cards in the deck (the cards of the engine being
distinct and those of the deck valid). Then the call completes, the state of
the player is `DRAWING`, and its hand holds again exactly 5 cards and is valid:
it is the old hand without the cards at the chosen positions, plus the `k`
cards taken from the top of the deck. When the decision is empty, or when more
than 5 cards are left in the deck after the `k` cards are taken, the deck has
lost these `k` cards and the discard pile has gained exactly the `k` cards
removed from the hand; otherwise the discard pile is recycled within the call,
and the deck and the discard pile hold together the cards left in the deck,
the former discard pile and the cards removed. With an empty decision the
hand, the deck and the discard pile are unchanged. -/
theorem handleDraw_spec (e : PokerEngine) (seat : Nat) (p : PokerPlayer)
    (discard : PokerPlayer → List Int) (draws : List Nat)
    (hp : e.players[seat]? = some p) (hstate : p.state ≠ Status.FOLDED)
    (hproc : PokerHand.ofCards p.hand.cards = p.hand) (hval : p.hand.valid = true)
    (hnd : (discard p).Nodup) (hrange : ∀ i ∈ discard p, 0 ≤ i ∧ i < 5)
    (hk : (discard p).length ≤ e.deck.length)
    (hfaces : (e.allCards.map Card.face).Nodup)
    (hdeck : ∀ c ∈ e.deck, c.isValid = true) :
    ∃ e' p', e.handleDraw seat discard draws = some e' ∧ e'.players[seat]? = some p' ∧
      p'.state = Status.DRAWING ∧ p'.hand.cards.length = 5 ∧ p'.hand.valid = true ∧
      (p'.hand.cards ++ p.cardsAt (discard p)).Perm
        (p.hand.cards ++ e.topCards (discard p).length (PokerEngine.orientationFor p)) ∧
      (p.cardsAt (discard p)).length = (discard p).length ∧
      (discard p = [] ∨ 5 < e.deck.length - (discard p).length →
        e'.deck = e.deck.take (e.deck.length - (discard p).length) ∧
        e'.discards = e.discards ++ p.cardsAt (discard p)) ∧
      (e'.deck ++ e'.discards).Perm
        (e.deck.take (e.deck.length - (discard p).length) ++
          (e.discards ++ p.cardsAt (discard p))) ∧
      (discard p = [] → p'.hand = p.hand ∧ e'.deck = e.deck ∧ e'.discards = e.discards) := by
  have hv : validate p.hand.cards = true := (processed_valid _ hproc).symm.trans hval
  have hl5 := validate_length _ hv
  by_cases hne : discard p = []
  · have heq : e.handleDraw seat discard draws = some (e.setStateAt seat Status.DRAWING) := by
      unfold PokerEngine.handleDraw
      rw [hp]
      simp only
      rw [if_pos hstate, if_neg (not_not.mpr hne)]
    have hf := setStateAt_frame e seat Status.DRAWING
    have hgs := setStateAt_get e seat Status.DRAWING seat
    rw [hp, Option.map_some', if_pos rfl] at hgs
    have hc0 : p.cardsAt (discard p) = [] := by
      rw [hne]
      rfl
    have ht0 : e.topCards (discard p).length (PokerEngine.orientationFor p) = [] := by
      rw [hne]
      simp [PokerEngine.topCards]
    have htake : e.deck.take (e.deck.length - (discard p).length) = e.deck := by
      rw [hne]
      simp
    rw [hc0, ht0, htake]
    refine ⟨_, _, heq, hgs, rfl, hl5, hval, List.Perm.refl _, ?_, ?_, ?_, ?_⟩
    · rw [hne]
      rfl
    · intro _
      rw [List.append_nil]
      exact ⟨hf.2.1, hf.2.2.1⟩
    · rw [hf.2.1, hf.2.2.1, List.append_nil]
    · intro _
      exact ⟨rfl, hf.2.1, hf.2.2.1⟩
  · have hr : ∀ i ∈ discard p, 0 ≤ i ∧ i.toNat < p.hand.cards.length := by
      intro i hi
      have := hrange i hi
      rw [hl5]
      omega
    obtain ⟨e', p', h1, h2, -, -, h5, h6, h7, h8, h9, h10, -⟩ :=
      handleDraw_draw e seat p discard draws hp hstate hne hproc hnd hr hk hfaces
    have hlen : p'.hand.cards.length = 5 := by
      have := h7.length_eq
      rw [List.length_append, List.length_append, h8,
        length_topCards e _ _ hk, hl5] at this
      omega
    refine ⟨e', p', h1, h2, h5, hlen, ?_, h7, h8, ?_, h10, ?_⟩
    · rw [processed_valid _ h6]
      apply validate_of _ hlen
      intro c hc
      rcases List.mem_append.mp (h7.mem_iff.mp (List.mem_append_left _ hc)) with hm | hm
      · exact validate_all _ hv c hm
      · unfold PokerEngine.topCards at hm
        obtain ⟨d, hd, rfl⟩ := List.mem_map.mp hm
        rw [isValid_oriented]
        exact hdeck d (List.mem_of_mem_drop (List.mem_reverse.mp hd))
    · intro h
      rcases h with h | h
      · exact absurd h hne
      · exact h9 h
    · intro h
      exact absurd h hne

theorem handleDraw_spec_witness :
    ∃ e' p', drawSample.handleDraw 0 (fun _ => [0, 2]) [] = some e' ∧
      e'.players[0]? = some p' ∧ p'.state = Status.DRAWING ∧ p'.hand.cards.length = 5 ∧
      p'.hand.valid = true ∧
      e'.deck = [card '5' 'C', card '6' 'C', card '7' 'C', card '8' 'C', card '9' 'C',
        card 'T' 'C'] ∧
      e'.discards = [card '3' 'S', card '2' 'D'] := by
  obtain ⟨e', p', h1, h2, h3, h4, h5, -, -, h8, -, -⟩ :=
    handleDraw_spec drawSample 0
      { PokerPlayer.create 1 UserType.HUMAN 90 with
          hand := PokerHand.ofCards twoPairCards, state := Status.ACTIVE }
      (fun _ => [0, 2]) [] rfl (by decide) (by decide) (by decide) (by decide) (by decide)
      (by decide) (by decide) (by decide)
  exact ⟨e', p', h1, h2, h3, h4, h5, (h8 (Or.inr (by decide))).1, (h8 (Or.inr (by decide))).2⟩

theorem foldl_option_total {α β : Type} (P : α → Prop) (f : Option α → β → Option α)
    (hf : ∀ a b, P a → ∃ a', f (some a) b = some a' ∧ P a') (l : List β) :
    ∀ a, P a → ∃ a', l.foldl f (some a) = some a' ∧ P a' := by
  induction l with
  | nil => exact fun a ha => ⟨a, rfl, ha⟩
  | cons b l ih =>
    intro a ha
    obtain ⟨a1, h1, hP1⟩ := hf a b ha
    rw [List.foldl_cons, h1]
    exact ih a1 hP1

theorem decision_length (idxs : List Int) (hn : idxs.Nodup)
    (hr : ∀ i ∈ idxs, 0 ≤ i ∧ i < 5) : idxs.length ≤ 5 := by
  have hsub : idxs ⊆ [0, 1, 2, 3, 4] := by
    intro i hi
    have := hr i hi
    simp only [List.mem_cons, List.mem_singleton, List.not_mem_nil, or_false]
    omega
  exact (List.subperm_of_subset hn hsub).length_le

theorem allCards_congr (e e' : PokerEngine) (hd : e'.deck = e.deck)
    (hp : e'.discards = e.discards)
    (hh : e'.players.map (fun p => p.hand) = e.players.map (fun p => p.hand)) :
    e'.allCards = e.allCards := by
  have h : ∀ ps : List PokerPlayer, (ps.flatMap fun p => p.hand.cards) =
      (ps.map fun p => p.hand).flatMap fun h => h.cards := by
    intro ps
    rw [List.flatMap_map]
  unfold PokerEngine.allCards
  rw [hd, hp, h, h, hh]

theorem advanceRound_players (e : PokerEngine) :
    ∃ f : PokerPlayer → PokerPlayer, (e.advanceRound).players = e.players.map f ∧
      ∀ p, (f p).hand = p.hand ∧ ((f p).state = Status.FOLDED ↔ p.state = Status.FOLDED) := by
  unfold PokerEngine.advanceRound
  simp only
  split_ifs with h
  · refine ⟨fun player =>
      if player.state ≠ Status.FOLDED then player.setState Status.ACTIVE else player, rfl, ?_⟩
    intro p
    by_cases hs : p.state = Status.FOLDED
    · simp [hs]
    · simp [hs, PokerPlayer.setState]
  · exact ⟨id, (List.map_id _).symm, fun p => ⟨rfl, Iff.rfl⟩⟩

theorem map_ready (ps : List PokerPlayer) (f : PokerPlayer → PokerPlayer)
    (hf : ∀ p, (f p).hand = p.hand ∧ ((f p).state = Status.FOLDED ↔ p.state = Status.FOLDED))
    (h : ∀ p ∈ ps, HandReady p) : ∀ p ∈ ps.map f, HandReady p := by
  intro q hq
  obtain ⟨p, hp, rfl⟩ := List.mem_map.mp hq
  rcases h p hp with h1 | h1
  · exact Or.inl ((hf p).2.mpr h1)
  · right
    rw [(hf p).1]
    exact h1

theorem advanceRound_ready (e : PokerEngine) (h : DrawReady e) : DrawReady (e.advanceRound) := by
  obtain ⟨f, hf, hfp⟩ := advanceRound_players e
  obtain ⟨hc, hr, h12, h6⟩ := h
  have hall : (e.advanceRound).allCards = e.allCards := by
    refine allCards_congr e e.advanceRound rfl rfl ?_
    rw [hf, List.map_map]
    apply List.map_congr_left
    intro p _
    exact (hfp p).1
  refine ⟨?_, ?_, h12, h6⟩
  · unfold Conserved
    rw [hall]
    exact hc
  · rw [hf]
    exact map_ready _ f hfp hr

theorem bettingSpec_hands (bet : Nat → PokerPlayer → ℚ → ℚ × PokerPlayer)
    (hbet : ∀ i p b, ((bet i p b).2).hand = p.hand) (i : Nat) (ps : List PokerPlayer)
    (pot blind : ℚ) :
    (bettingSpec bet i ps pot blind).1.map (fun p => p.hand) = ps.map (fun p => p.hand) := by
  induction ps generalizing i pot blind with
  | nil => rfl
  | cons p ps ih =>
    unfold bettingSpec
    split_ifs
    · simp only [List.map_cons, ih, hbet]
    · simp only [List.map_cons, ih]

theorem bettingSpec_ready (bet : Nat → PokerPlayer → ℚ → ℚ × PokerPlayer)
    (hbet : ∀ i p b, ((bet i p b).2).hand = p.hand) (i : Nat) (ps : List PokerPlayer)
    (pot blind : ℚ) (h : ∀ p ∈ ps, HandReady p) :
    ∀ p ∈ (bettingSpec bet i ps pot blind).1, HandReady p := by
  induction ps generalizing i pot blind with
  | nil =>
    intro p hp
    cases hp
  | cons q qs ih =>
    have hq := h q (List.mem_cons_self _ _)
    have hqs : ∀ p ∈ qs, HandReady p := fun p hp => h p (List.mem_cons_of_mem _ hp)
    unfold bettingSpec
    split_ifs with hs
    · intro p hp
      rcases List.mem_cons.mp hp with rfl | hp
      · rcases hq with h1 | h1
        · rw [hs] at h1
          cases h1
        · right
          rw [hbet]
          exact h1
      · exact ih _ _ _ hqs p hp
    · intro p hp
      rcases List.mem_cons.mp hp with rfl | hp
      · exact hq
      · exact ih _ _ _ hqs p hp

theorem bettingRound_ready (e : PokerEngine) (bet : Nat → PokerPlayer → ℚ → ℚ × PokerPlayer)
    (hbet : ∀ i p b, ((bet i p b).2).hand = p.hand) (h : DrawReady e) :
    DrawReady (e.bettingRound bet) := by
  obtain ⟨hc, hr, h12, h6⟩ := h
  rw [bettingRound_eq]
  have hall : PokerEngine.allCards
      { e with
        players := (bettingSpec bet 0 e.players e.pot e.blind).1,
        pot := (bettingSpec bet 0 e.players e.pot e.blind).2.1,
        blind := (bettingSpec bet 0 e.players e.pot e.blind).2.2,
        currentPlayerIndex := -1 } = e.allCards :=
    allCards_congr _ _ rfl rfl (bettingSpec_hands bet hbet 0 e.players e.pot e.blind)
  refine ⟨?_, bettingSpec_ready bet hbet 0 e.players e.pot e.blind hr, h12, h6⟩
  unfold Conserved
  rw [hall]
  exact hc

theorem handleDraw_stand (e : PokerEngine) (seat : Nat) (p : PokerPlayer)
    (discard : PokerPlayer → List Int) (draws : List Nat)
    (hp : e.players[seat]? = some p) (hstate : p.state ≠ Status.FOLDED)
    (hne : discard p = []) :
    e.handleDraw seat discard draws = some (e.setStateAt seat Status.DRAWING) := by
  unfold PokerEngine.handleDraw
  rw [hp]
  simp only
  rw [if_pos hstate, if_neg (not_not.mpr hne)]

theorem handleDraw_ready (e : PokerEngine) (seat : Nat) (p : PokerPlayer)
    (discard : PokerPlayer → List Int) (draws : List Nat) (h : DrawReady e)
    (hp : e.players[seat]? = some p) (hstate : p.state ≠ Status.FOLDED)
    (hdec : p.hand.cards.length = 5 →
      (discard p).Nodup ∧ ∀ x ∈ discard p, 0 ≤ x ∧ x < 5) :
    ∃ e', e.handleDraw seat discard draws = some e' ∧ DrawReady e' := by
  obtain ⟨hc, hr, h12, h6⟩ := h
  obtain ⟨hlt, hpe⟩ := List.getElem?_eq_some.mp hp
  have hmem : p ∈ e.players := hpe ▸ List.getElem_mem hlt
  obtain ⟨hl5, hproc⟩ : p.hand.cards.length = 5 ∧ ofCards p.hand.cards = p.hand := by
    rcases hr p hmem with h1 | h1
    · exact absurd h1 hstate
    · exact h1
  obtain ⟨hnd, hrange⟩ := hdec hl5
  have hk5 := decision_length _ hnd hrange
  by_cases hne : discard p = []
  · refine ⟨_, handleDraw_stand e seat p discard draws hp hstate hne, ?_⟩
    have hf := setStateAt_frame e seat Status.DRAWING
    refine ⟨setStateAt_conserved e seat _ hc, ?_, ?_, ?_⟩
    · intro q hq
      obtain ⟨s, hs⟩ := List.mem_iff_getElem?.mp hq
      rw [setStateAt_get] at hs
      cases hes : e.players[s]? with
      | none =>
        rw [hes] at hs
        cases hs
      | some q0 =>
        rw [hes, Option.map_some', Option.some.injEq] at hs
        have hq0 : q0 ∈ e.players := by
          obtain ⟨hlt0, hpe0⟩ := List.getElem?_eq_some.mp hes
          exact hpe0 ▸ List.getElem_mem hlt0
        by_cases hseat : s = seat
        · rw [if_pos hseat] at hs
          subst hseat
          rw [hp, Option.some.injEq] at hes
          subst hes
          rw [← hs]
          exact Or.inr ⟨hl5, hproc⟩
        · rw [if_neg hseat] at hs
          exact hs ▸ hr q0 hq0
    · rw [hf.2.1, hf.2.2.1]
      exact h12
    · rw [hf.2.1]
      exact h6
  · have hr2 : ∀ i ∈ discard p, 0 ≤ i ∧ i.toNat < p.hand.cards.length := by
      intro i hi
      have := hrange i hi
      rw [hl5]
      omega
    have hk : (discard p).length ≤ e.deck.length := by omega
    obtain ⟨e', p', h1, h2, -, h4, -, h6p, h7, h8, h9, h10, h11⟩ :=
      handleDraw_draw e seat p discard draws hp hstate hne hproc hnd hr2 hk
        (conserved_nodup e hc)
    have hlen : p'.hand.cards.length = 5 := by
      have := h7.length_eq
      rw [List.length_append, List.length_append, h8,
        length_topCards e _ _ hk, hl5] at this
      omega
    have hsum : e'.deck.length + e'.discards.length = e.deck.length + e.discards.length := by
      have := h10.length_eq
      rw [List.length_append, List.length_append, List.length_append, h8,
        List.length_take] at this
      omega
    refine ⟨e', h1, handleDraw_conserved e e' seat discard draws hc h1, ?_, ?_, ?_⟩
    · intro q hq
      obtain ⟨s, hs⟩ := List.mem_iff_getElem?.mp hq
      by_cases hseat : s = seat
      · rw [hseat, h2, Option.some.injEq] at hs
        rw [← hs]
        exact Or.inr ⟨hlen, h6p⟩
      · rw [h4 s hseat] at hs
        obtain ⟨hlt0, hpe0⟩ := List.getElem?_eq_some.mp hs
        exact hr q (hpe0 ▸ List.getElem_mem hlt0)
    · omega
    · by_cases h5 : 5 < e.deck.length - (discard p).length
      · rw [(h9 h5).1, List.length_take]
        omega
      · have := h11 (by omega)
        omega

theorem drawingStep_ready (discard : Nat → PokerPlayer → List Int) (draws : Nat → List Nat)
    (hdec : ∀ i p, p.hand.cards.length = 5 →
      (discard i p).Nodup ∧ ∀ x ∈ discard i p, 0 ≤ x ∧ x < 5)
    (e : PokerEngine) (i : Nat) (h : DrawReady e) :
    ∃ e', PokerEngine.drawingStep discard draws (some e) i = some e' ∧ DrawReady e' := by
  unfold PokerEngine.drawingStep
  simp only
  cases hp : e.players[i]? with
  | none => exact ⟨e, rfl, h⟩
  | some p =>
    simp only
    by_cases hs : p.state = Status.FOLDED
    · rw [if_neg (not_not.mpr hs)]
      exact ⟨e, rfl, h⟩
    · rw [if_pos hs]
      obtain ⟨e1, h1, hr1⟩ := handleDraw_ready e i p (discard i) (draws i) h hp hs (hdec i p)
      rw [h1]
      exact ⟨_, rfl, hr1⟩

theorem drawingRound_total (e : PokerEngine) (discard : Nat → PokerPlayer → List Int)
    (draws : Nat → List Nat)
    (hdec : ∀ i p, p.hand.cards.length = 5 →
      (discard i p).Nodup ∧ ∀ x ∈ discard i p, 0 ≤ x ∧ x < 5)
    (h : DrawReady e) :
    ∃ e', e.drawingRound discard draws = some e' ∧ DrawReady e' := by
  obtain ⟨e1, h1, hr1⟩ := foldl_option_total DrawReady (PokerEngine.drawingStep discard draws)
    (fun a b ha => drawingStep_ready discard draws hdec a b ha) (List.range e.players.length)
    e h
  unfold PokerEngine.drawingRound
  rw [h1]
  exact ⟨_, rfl, hr1⟩

theorem anteUp_frame (e : PokerEngine)
    (hw : ∀ p ∈ e.players, p.state = Status.WAITING ∧ p.hand.cards = []) :
    e.anteUp.deck = e.deck ∧ e.anteUp.discards = e.discards ∧
      e.anteUp.currentRound = e.currentRound ∧
      e.anteUp.players.length = e.players.length ∧
      ∀ p ∈ e.anteUp.players,
        (p.state = Status.WAITING ∨ p.state = Status.FOLDED) ∧ p.hand.cards = [] := by
  unfold PokerEngine.anteUp
  rw [anteStep_foldl e.ante e.players [] e.pot (fun p hp => (hw p hp).1), List.nil_append]
  refine ⟨rfl, rfl, rfl, List.length_map _ _, ?_⟩
  intro q hq
  obtain ⟨p, hp, rfl⟩ := List.mem_map.mp hq
  split_ifs
  · exact ⟨Or.inr rfl, (hw p hp).2⟩
  · exact ⟨Or.inl rfl, (hw p hp).2⟩

theorem length_seats (e : PokerEngine) (state : Status) :
    (e.getSeatsByState state).length ≤ e.players.length := by
  unfold PokerEngine.getSeatsByState
  exact (List.length_filter_le _ _).trans (by rw [List.length_range])

theorem dealCards_ready (e : PokerEngine) (draws : List Nat) (hd : e.deck = Deck.reset [])
    (hdisc : e.discards = [])
    (hst : ∀ p ∈ e.players,
      (p.state = Status.WAITING ∨ p.state = Status.FOLDED) ∧ p.hand.cards = [])
    (hn : e.players.length ≤ 8) :
    ∃ e', e.dealCards draws = some e' ∧ DrawReady e' := by
  have hW := length_seats e Status.WAITING
  have hlen : e.deck.length = 52 := by rw [hd]; exact reset_length
  have hsize : 5 * (e.getSeatsByState Status.WAITING).length ≤ e.deck.length := by omega
  have hnd : e.deck.Nodup := by
    rw [hd]
    exact nodup_of_faces _ reset_faces_nodup
  have hcons : Conserved e := fresh_conserved e hd hdisc (fun p hp => (hst p hp).2)
  cases heq : e.dealCards draws with
  | none =>
    rw [dealCards_eq e draws hnd hsize] at heq
    cases heq
  | some e' =>
  have hE := heq
  rw [dealCards_eq e draws hnd hsize, Option.some.injEq] at hE
  have hdeck : e'.deck = (Deck.shuffle e.deck draws).take
      (e.deck.length - 5 * (e.getSeatsByState Status.WAITING).length) := by
    rw [← hE, (setStateAt_fold_frame _ _ _).1]
  have hdis : e'.discards = [] := by
    rw [← hE, (setStateAt_fold_frame _ _ _).2.1]
    exact hdisc
  have hdl : e'.deck.length = 52 - 5 * (e.getSeatsByState Status.WAITING).length := by
    rw [hdeck, List.length_take, (shuffle_perm e.deck draws).length_eq, hlen]
    omega
  refine ⟨e', rfl, dealCards_conserved e e' draws hcons heq, ?_, ?_, ?_⟩
  · intro q hq
    obtain ⟨s, hs⟩ := List.mem_iff_getElem?.mp hq
    rw [dealCards_players e e' draws hnd hsize heq s] at hs
    cases hes : e.players[s]? with
    | none =>
      rw [hes] at hs
      cases hs
    | some p =>
      rw [hes, Option.map_some', Option.some.injEq] at hs
      have hpm : p ∈ e.players := by
        obtain ⟨hlt0, hpe0⟩ := List.getElem?_eq_some.mp hes
        exact hpe0 ▸ List.getElem_mem hlt0
      by_cases hsW : s ∈ e.getSeatsByState Status.WAITING
      · rw [if_pos hsW] at hs
        obtain ⟨j, hj⟩ := List.mem_iff_getElem?.mp hsW
        rw [dealt_eq e draws _ j s hsize hj] at hs
        have hjlt : j < (e.getSeatsByState Status.WAITING).length :=
          (List.getElem?_eq_some.mp hj).1
        have hl5 := dealtCards_length (Deck.shuffle e.deck draws)
          (e.getSeatsByState Status.WAITING).length j (PokerEngine.orientationFor p) hjlt
          (by rw [(shuffle_perm e.deck draws).length_eq]; exact hsize)
        have hcs : dealtCards (Deck.shuffle e.deck draws)
            (e.getSeatsByState Status.WAITING).length j (PokerEngine.orientationFor p) ≠ [] := by
          intro h0
          rw [h0] at hl5
          cases hl5
        have hperm := receive_cards_perm p (dealtCards (Deck.shuffle e.deck draws)
          (e.getSeatsByState Status.WAITING).length j (PokerEngine.orientationFor p))
        rw [(hst p hpm).2, List.nil_append] at hperm
        rw [← hs]
        right
        exact ⟨hperm.length_eq.trans hl5, foldl_add_process _ p.hand hcs⟩
      · rw [if_neg hsW] at hs
        rw [← hs]
        left
        rcases (hst p hpm).1 with h1 | h1
        · exact absurd ((mem_seats e Status.WAITING s).mpr ⟨p, hes, h1⟩) hsW
        · exact h1
  · rw [hdl, hdis, List.length_nil]
    omega
  · rw [hdl]
    omega

/-- C24 (the claim as it stands fails): with 11 new players on a fresh deck the
55 cards that `dealCards` hands out are more than the deck holds, the deck
returns no card and `startGame` stops in `dealCards`; with 9 new players who
all discard their five cards, the deck returns no card in the draw round. -/
theorem too_many_players_empty_deck :
    (((tableOf 11).anteUp).dealCards []).isSome = false ∧
    ((tableOf 11).startGame sampleEnv 2).1 = [Phase.ANTE, Phase.DEAL] ∧
    ((tableOf 11).startGame sampleEnv 2).2.isDone = false ∧
    ((tableOf 9).startGame discardAllEnv 2).1 =
      [Phase.ANTE, Phase.DEAL, Phase.ADVANCE, Phase.BET, Phase.DRAW] ∧
    ((tableOf 9).startGame discardAllEnv 2).2.isDone = false := by
  decide

/-- C24 (amended): take an engine on a fresh deck of 52 cards with at most 8 new
players (waiting, with an empty hand), discard decisions that are lists of
distinct indices in `[0, 5)` for a hand of 5 cards, and betting decisions that
leave the hand of the player alone. Then `startGame` runs to its end: neither
`dealCards` nor the draw round gets no card from the deck. -/
theorem startGame_deals_safely (e : PokerEngine) (env : Env) (fuel : Nat)
    (h0 : e.currentRound = 0) (hd : e.deck = Deck.reset []) (hdisc : e.discards = [])
    (hnew : ∀ p ∈ e.players, p.state = Status.WAITING ∧ p.hand.cards = [])
    (hn : e.players.length ≤ 8)
    (hdec : ∀ i p, p.hand.cards.length = 5 →
      (env.discard i p).Nodup ∧ ∀ x ∈ env.discard i p, 0 ≤ x ∧ x < 5)
    (hbet : ∀ r i p b, ((env.bet r i p b).2).hand = p.hand)
    (hf : 2 ≤ fuel) :
    ∃ e', e.startGame env fuel =
      ([Phase.ANTE, Phase.DEAL, Phase.ADVANCE, Phase.BET, Phase.DRAW, Phase.ADVANCE,
        Phase.BET], Exit.done e') := by
  obtain ⟨a1, a2, a3, a4, a5⟩ := anteUp_frame e hnew
  obtain ⟨e2, h2, hr2⟩ := dealCards_ready e.anteUp env.dealDraws (a1.trans hd)
    (a2.trans hdisc) a5 (a4.trans_le hn)
  obtain ⟨e5, h5, -⟩ := drawingRound_total ((e2.advanceRound).bettingRound (env.bet 1))
    env.discard env.recycleDraws hdec
    (bettingRound_ready _ _ (hbet 1) (advanceRound_ready e2 hr2))
  rw [startGame_unfold e env fuel h0 hf, h2]
  simp only
  rw [h5]
  exact ⟨_, rfl⟩

theorem startGame_deals_safely_witness :
    ∃ e', (tableOf 8).startGame discardAllEnv 2 =
      ([Phase.ANTE, Phase.DEAL, Phase.ADVANCE, Phase.BET, Phase.DRAW, Phase.ADVANCE,
        Phase.BET], Exit.done e') :=
  startGame_deals_safely (tableOf 8) discardAllEnv 2 rfl rfl rfl (by decide) (by decide)
    (by
      intro i p _
      show ([0, 1, 2, 3, 4] : List Int).Nodup ∧ ∀ x ∈ ([0, 1, 2, 3, 4] : List Int), 0 ≤ x ∧ x < 5
      decide)
    (fun _ _ _ _ => rfl) (le_refl 2)

theorem ofCards_perm (a b : List Card) (h : a.Perm b) :
    (ofCards a).valid = (ofCards b).valid ∧ (ofCards a).detail = (ofCards b).detail := by
  have hv : validate a = validate b := validate_perm a b h
  refine ⟨hv, ?_⟩
  cases hva : validate a with
  | false =>
    have hvb : validate b = false := hv ▸ hva
    unfold ofCards
    rw [process_invalid_detail _ hva, process_invalid_detail _ hvb]
  | true =>
    have hvb : validate b = true := hv ▸ hva
    rw [ofCards_detail a hva, ofCards_detail b hvb, handValues_eq_of_perm a b (h.map _)]
    have hfl : isFlush (sortCards a) = isFlush (sortCards b) := by
      rw [Bool.eq_iff_iff, isFlush_sortCards, isFlush_sortCards]
      constructor
      · intro hs x hx y hy
        exact hs x (h.mem_iff.mpr hx) y (h.mem_iff.mpr hy)
      · intro hs x hx y hy
        exact hs x (h.mem_iff.mp hx) y (h.mem_iff.mp hy)
    rw [hfl]

theorem cardsOfTokens_cons (t : List Char) (ts : List (List Char)) :
    cardsOfTokens (t :: ts) =
      match Card.ofToken t, cardsOfTokens ts with
      | some c, some cs => some (c :: cs)
      | _, _ => none := rfl

theorem cardsOfTokens_perm (ts ts' : List (List Char)) (h : ts.Perm ts') :
    (cardsOfTokens ts = none ∧ cardsOfTokens ts' = none) ∨
    ∃ cs cs', cardsOfTokens ts = some cs ∧ cardsOfTokens ts' = some cs' ∧ cs.Perm cs' := by
  induction h with
  | nil => exact Or.inr ⟨[], [], rfl, rfl, List.Perm.refl _⟩
  | cons t _ ih =>
    rw [cardsOfTokens_cons, cardsOfTokens_cons]
    rcases ih with ⟨h1, h2⟩ | ⟨cs, cs', h1, h2, hp⟩
    · left
      rw [h1, h2]
      cases Card.ofToken t <;> exact ⟨rfl, rfl⟩
    · rw [h1, h2]
      cases Card.ofToken t with
      | none => exact Or.inl ⟨rfl, rfl⟩
      | some c => exact Or.inr ⟨_, _, rfl, rfl, hp.cons c⟩
  | swap t u l =>
    rw [cardsOfTokens_cons, cardsOfTokens_cons, cardsOfTokens_cons, cardsOfTokens_cons]
    cases Card.ofToken t with
    | none =>
      left
      cases Card.ofToken u <;> cases cardsOfTokens l <;> exact ⟨rfl, rfl⟩
    | some c =>
      cases Card.ofToken u with
      | none =>
        left
        cases cardsOfTokens l <;> exact ⟨rfl, rfl⟩
      | some d =>
        cases cardsOfTokens l with
        | none => exact Or.inl ⟨rfl, rfl⟩
        | some cs => exact Or.inr ⟨_, _, rfl, rfl, List.Perm.swap _ _ _⟩
  | trans _ _ ih1 ih2 =>
    rcases ih1 with ⟨h1, h2⟩ | ⟨cs, cs', h1, h2, hp⟩
    · rcases ih2 with ⟨h3, h4⟩ | ⟨ds, ds', h3, h4, hq⟩
      · exact Or.inl ⟨h1, h4⟩
      · rw [h2] at h3
        cases h3
    · rcases ih2 with ⟨h3, h4⟩ | ⟨ds, ds', h3, h4, hq⟩
      · rw [h2] at h3
        cases h3
      · rw [h2, Option.some.injEq] at h3
        subst h3
        exact Or.inr ⟨_, _, h1, h4, hp.trans hq⟩

/-- C33: the evaluation of a hand does not depend on the order of its cards.
For a list of cards `a` and a permutation `b` of it (of five cards or of any
other number), the two hands built have the same validity, the same category
and the same score. For two texts whose tokens are the same up to their order,
either both constructors throw, or the two hands built have the same validity,
the same category and the same score. -/
theorem scoring_ignores_order (a b : List Card) (s t : List Char) (h : a.Perm b)
    (ht : (tokenize s).Perm (tokenize t)) :
    ((ofCards a).isValid = (ofCards b).isValid ∧
      (ofCards a).getCategory = (ofCards b).getCategory ∧
      (ofCards a).getScore = (ofCards b).getScore) ∧
    ((ofNotation s = none ∧ ofNotation t = none) ∨
      ∃ x y, ofNotation s = some x ∧ ofNotation t = some y ∧
        x.isValid = y.isValid ∧ x.getCategory = y.getCategory ∧
        x.getScore = y.getScore) := by
  constructor
  · obtain ⟨h1, h2⟩ := ofCards_perm a b h
    unfold PokerHand.isValid PokerHand.getCategory PokerHand.getScore
    rw [h1, h2]
    exact ⟨rfl, rfl, rfl⟩
  · unfold ofNotation parse
    rcases cardsOfTokens_perm _ _ ht.dedup with ⟨h1, h2⟩ | ⟨cs, cs', h1, h2, hp⟩
    · left
      rw [h1, h2]
      exact ⟨rfl, rfl⟩
    · right
      rw [h1, h2]
      obtain ⟨h3, h4⟩ := ofCards_perm cs cs' hp
      refine ⟨_, _, rfl, rfl, h3, ?_, ?_⟩
      · exact congrArg Detail.category h4
      · exact congrArg Detail.score h4

theorem scoring_ignores_order_witness :
    ((ofCards twoPairCards).isValid = (ofCards twoPairCards.reverse).isValid ∧
      (ofCards twoPairCards).getCategory = (ofCards twoPairCards.reverse).getCategory ∧
      (ofCards twoPairCards).getScore = (ofCards twoPairCards.reverse).getScore) ∧
    ((ofNotation "3S 2D 4H 3C 2H".toList = none ∧ ofNotation "2H 3C 4H 2D 3S".toList = none) ∨
      ∃ x y, ofNotation "3S 2D 4H 3C 2H".toList = some x ∧
        ofNotation "2H 3C 4H 2D 3S".toList = some y ∧
        x.isValid = y.isValid ∧ x.getCategory = y.getCategory ∧
        x.getScore = y.getScore) :=
  scoring_ignores_order twoPairCards twoPairCards.reverse "3S 2D 4H 3C 2H".toList
    "2H 3C 4H 2D 3S".toList (List.reverse_perm _).symm (by decide)

/-- C34: a token with characters after its first two is read by its first two
characters: for all characters `r` and `s` and every suffix `x`, the token
`r s x` gives the card that the token `r s` gives. So the text
`TD 8D 7S 6C 4C,` gives a valid hand, and it ties (`EQUAL_HAND`) with the hand
of `TC 8S 7S 6H 4D`. -/
theorem long_token_reads_two_chars :
    (∀ (r s : Char) (x : List Char),
      Card.ofToken (r :: s :: x) = Card.ofToken [r, s] ∧
      Card.ofToken (r :: s :: x) = some ⟨r, s, Orientation.FACE_DOWN⟩) ∧
    (ofNotation "TD 8D 7S 6C 4C,".toList).map (fun h => h.isValid) = some true ∧
    (ofNotation "TD 8D 7S 6C 4C,".toList) = (ofNotation "TD 8D 7S 6C 4C".toList) ∧
    compareNotations "TD 8D 7S 6C 4C,".toList "TC 8S 7S 6H 4D".toList =
      some Comparison.EQUAL_HAND := by
  refine ⟨fun r s x => ⟨rfl, rfl⟩, ?_, ?_, ?_⟩ <;> decide

theorem ai_betAmount_below_blind (p : PokerPlayer) (strategy : Strategy) (blind : ℚ)
    (draw : Int) (hblind : 0 ≤ blind) (hd : 0 ≤ draw)
    (hlt : AIPokerPlayer.betAmount p strategy blind draw < blind) :
    AIPokerPlayer.betAmount p strategy blind draw = 0 ∨
    AIPokerPlayer.betAmount p strategy blind draw = p.balance := by
  have hdq : (0 : ℚ) ≤ (draw : ℚ) := by exact_mod_cast hd
  have hmin0 : blind ≤ max blind (p.balance * (strategy.value / 100)) + (draw : ℚ) :=
    le_trans (le_max_left _ _) (le_add_of_nonneg_right hdq)
  have hmin : blind ≤ (if max blind (p.balance * (strategy.value / 100)) + (draw : ℚ) < blind ∧
      p.balance ≥ blind then blind
      else max blind (p.balance * (strategy.value / 100)) + (draw : ℚ)) := by
    split_ifs
    · exact le_refl _
    · exact hmin0
  unfold AIPokerPlayer.betAmount at hlt ⊢
  simp only at hlt ⊢
  generalize (if max blind (p.balance * (strategy.value / 100)) + (draw : ℚ) < blind ∧
      p.balance ≥ blind then blind
      else max blind (p.balance * (strategy.value / 100)) + (draw : ℚ)) = minBet at hmin hlt ⊢
  generalize p.hand.getCategory = cat at hlt ⊢
  cases cat <;> simp only [Category.toNat, Nat.cast_ofNat, Nat.cast_one, mul_one] at hlt ⊢ <;>
    split_ifs at hlt ⊢ <;>
    first
      | exact Or.inl rfl
      | exact Or.inr rfl
      | (exfalso; linarith)

/-- C35: for an AI player, a blind that is not negative, any strategy and any
value of the random draw (the distribution returns a value between 0 and
`variance`), when `AIPokerPlayer::bet` leaves the player `ALLIN` the amount
returned is the whole balance the player had, the balance afterwards is 0, and
the amount is below the blind. This holds for every balance, so for the
balances that are not negative in particular. -/
theorem ai_allin_spec (p : PokerPlayer) (strategy : Strategy) (blind : ℚ) (draw : Int)
    (hblind : 0 ≤ blind)
    (hd : 0 ≤ draw ∧ draw ≤ AIPokerPlayer.variance p strategy blind)
    (hs : (AIPokerPlayer.bet p strategy blind draw).2.state = Status.ALLIN) :
    (AIPokerPlayer.bet p strategy blind draw).1 = p.balance ∧
    (AIPokerPlayer.bet p strategy blind draw).2.balance = 0 ∧
    (AIPokerPlayer.bet p strategy blind draw).1 < blind := by
  unfold AIPokerPlayer.bet at hs ⊢
  simp only at hs ⊢
  have hcases := bet_state_cases (AIPokerPlayer.betAmount p strategy blind draw) blind
  by_cases h0 : AIPokerPlayer.betAmount p strategy blind draw = 0
  · rw [hcases.1.mpr h0] at hs
    cases hs
  · have hlt := ((hcases.2 h0).1).mp hs
    rcases ai_betAmount_below_blind p strategy blind draw hblind hd.1 hlt with h1 | h1
    · exact absurd h1 h0
    · exact ⟨h1, by rw [h1, sub_self], hlt⟩

theorem ai_allin_spec_witness :
    (AIPokerPlayer.bet shortStackPlayer Strategy.BALANCED 10 1).2.state = Status.ALLIN ∧
    (AIPokerPlayer.bet shortStackPlayer Strategy.BALANCED 10 1).1 = shortStackPlayer.balance ∧
    (AIPokerPlayer.bet shortStackPlayer Strategy.BALANCED 10 1).2.balance = 0 ∧
    (AIPokerPlayer.bet shortStackPlayer Strategy.BALANCED 10 1).1 < 10 := by
  have hbal : shortStackPlayer.balance = 5 := rfl
  have hcat : shortStackPlayer.hand.getCategory = Category.ONE_PAIR := by decide
  have hamount : AIPokerPlayer.betAmount shortStackPlayer Strategy.BALANCED 10 1 = 5 := by
    unfold AIPokerPlayer.betAmount
    rw [hcat, hbal]
    norm_num [Strategy.value, Category.toNat]
  have hstate : (AIPokerPlayer.bet shortStackPlayer Strategy.BALANCED 10 1).2.state =
      Status.ALLIN := by
    unfold AIPokerPlayer.bet
    simp only [hamount]
    norm_num
  have hvar : (1 : Int) ≤ AIPokerPlayer.variance shortStackPlayer Strategy.BALANCED 10 := by
    unfold AIPokerPlayer.variance
    rw [hbal]
    norm_num [Strategy.value, truncToInt]
  exact ⟨hstate, ai_allin_spec shortStackPlayer Strategy.BALANCED 10 1
    (by norm_num) ⟨by norm_num, hvar⟩ hstate⟩

theorem ordinalityV_pos (vals : List Int) (h : ValsOk vals) (hne : vals ≠ []) :
    0 < ordinalityV vals := by
  obtain ⟨v, hv⟩ := List.exists_mem_of_ne_nil vals hne
  have hbit : (ordinalityV vals).testBit (v - 2).toNat = true :=
    (testBit_ordinalityV vals h _).mpr ⟨v, hv, Or.inl rfl⟩
  rcases Nat.eq_zero_or_pos (ordinalityV vals) with h0 | h0
  · rw [h0, Nat.zero_testBit] at hbit
    cases hbit
  · exact h0

/-- C40: for a hand of five valid cards with pairwise distinct faces, the
ordinality is positive and below `2^52`, and the score is positive and below
`2^56`, hence inside the range of a signed 64-bit integer; the score shifted
right by 52 is the category base that `compute` used. So such a hand never has
the score 0, which is the score of every hand that is not valid. -/
theorem score_range (cs : List Card) (h : Distinct5 cs) :
    0 < getOrdinality (sortCards cs) 0 ∧ getOrdinality (sortCards cs) 0 < 2 ^ 52 ∧
    0 < (ofCards cs).getScore ∧ (ofCards cs).getScore < 2 ^ 56 ∧
    (ofCards cs).getScore < 2 ^ 63 ∧
    (ofCards cs).getScore >>> (52 : Nat) = categoryBase (sortCards cs) (ofCards cs).getCategory ∧
    (ofCards cs).getScore ≠ 0 ∧
    ∀ ds : List Card, (ofCards ds).isValid = false → (ofCards ds).getScore = 0 := by
  have hok := distinct5_valsOk cs h
  have hord : getOrdinality (sortCards cs) 0 = ordinalityV (handValues cs) := rfl
  have hbase : categoryBase (sortCards cs) (ofCards cs).getCategory =
      categoryBaseV (handValues cs) (ofCards cs).getCategory := rfl
  have hne : handValues cs ≠ [] := by
    intro h0
    have hl := (handValues_perm cs).length_eq
    rw [h0, List.length_map, h.1] at hl
    cases hl
  have hpos := ordinalityV_pos _ hok hne
  have hlt := ordinalityV_lt _ hok
  have hscore := ofCards_score cs h
  obtain ⟨hb0, hb1⟩ := categoryBaseV_range (handValues cs) (ofCards cs).getCategory
  have hposZ : (0 : Int) < (ordinalityV (handValues cs) : Int) := by exact_mod_cast hpos
  have hltZ : (ordinalityV (handValues cs) : Int) < 4503599627370496 := by
    have : (ordinalityV (handValues cs) : Int) < ((2 ^ 52 : Nat) : Int) := by exact_mod_cast hlt
    simpa using this
  rw [hord, hbase, hscore, Int.shiftRight_eq_div_pow]
  norm_num only [Nat.cast_pow, Nat.cast_ofNat]
  refine ⟨hpos, by simpa using hlt, by omega, by omega, by omega, by omega, by omega, ?_⟩
  intro ds hv
  unfold PokerHand.isValid ofCards at hv
  rw [process_valid] at hv
  unfold PokerHand.getScore ofCards
  rw [process_invalid_detail _ hv]

theorem score_range_witness :
    0 < getOrdinality (sortCards wheelCards) 0 ∧ getOrdinality (sortCards wheelCards) 0 < 2 ^ 52 ∧
    0 < (ofCards wheelCards).getScore ∧ (ofCards wheelCards).getScore < 2 ^ 56 ∧
    (ofCards wheelCards).getScore < 2 ^ 63 ∧
    (ofCards wheelCards).getScore >>> (52 : Nat) =
      categoryBase (sortCards wheelCards) (ofCards wheelCards).getCategory ∧
    (ofCards wheelCards).getScore ≠ 0 ∧
    ∀ ds : List Card, (ofCards ds).isValid = false → (ofCards ds).getScore = 0 :=
  score_range wheelCards (by decide)

/-- C39 (the code departs from the claim): an AI player that holds three aces
(`JD QC AS AD AH` once sorted, the aces at the positions 2, 3 and 4) discards
all five positions, the aces included, where the claim has the two kickers at
the positions 0 and 1; with four twos (`2D 2H 2S 2C 3H`) it discards all five
positions as well. For these two categories `discard` asks for the positions of
the pairs, finds none and keeps nothing. -/
theorem ai_discards_three_of_a_kind :
    (aiHolding 3 threeAcesCards).hand.getCategory = Category.THREE_OF_A_KIND ∧
    (aiHolding 3 threeAcesCards).hand.isValid = true ∧
    (aiHolding 3 threeAcesCards).hand.cards.map Card.getValue = [11, 12, 14, 14, 14] ∧
    AIPokerPlayer.discard (aiHolding 3 threeAcesCards) = [0, 1, 2, 3, 4] ∧
    (aiHolding 4 lowQuadsCards).hand.getCategory = Category.FOUR_OF_A_KIND ∧
    AIPokerPlayer.discard (aiHolding 4 lowQuadsCards) = [0, 1, 2, 3, 4] := by
  decide

/-- C36 (the code departs from the claim): with three players of whom the third
holds the best hand, `determineWinners` reads `outcomes.at(2)` in a vector of
two elements and throws; with five players of whom the third holds the best
hand, it returns the seat 2 paired with the outcome of the player at seat 4. -/
theorem determineWinners_bad_index :
    (seatsSample 3).players.map (fun p => p.hand.getCategory) =
      [Category.HIGH_CARD, Category.ONE_PAIR, Category.THREE_OF_A_KIND] ∧
    ((seatsSample 3).determineWinners).isSome = false ∧
    ((seatsSample 5).determineWinners).map
        (fun w => w.map fun x => (x.1, x.2.playerName, x.2.playerHand.getCategory)) =
      some [(2, (UserType.AI, 5), Category.HIGH_CARD)] ∧
    ((seatsSample 5).players[2]?).map (fun p => (p.show.playerName, p.hand.getCategory)) =
      some ((UserType.AI, 3), Category.THREE_OF_A_KIND) := by
  decide

/-- C38 (the code departs from the claim): with an ante of 10 and two new AI
players whose balances are 5 and 100, the pot and the balances hold 105 before
`anteUp` and 115 after it: the first player cannot pay, folds and keeps its 5,
yet the pot has grown by 10 for it as well. With an ante of 150 and two players
with a balance of 100, both fold, nothing is paid and the pot is 300. -/
theorem ante_not_conserved :
    shortAnteTable.money = 105 ∧
    (shortAnteTable.anteUp).pot = 20 ∧
    (shortAnteTable.anteUp).players.map (fun p => (p.state, p.balance)) =
      [(Status.FOLDED, 5), (Status.WAITING, 90)] ∧
    (shortAnteTable.anteUp).money = 115 ∧
    highAnteTable.money = 200 ∧
    (highAnteTable.anteUp).pot = 300 ∧
    (highAnteTable.anteUp).money = 500 := by
  have h2 : highAnteTable.anteUp =
      { highAnteTable with
        players := [{ PokerPlayer.create 1 UserType.AI 100 with state := Status.FOLDED },
          { PokerPlayer.create 2 UserType.AI 100 with state := Status.FOLDED }],
        pot := 0 + 150 + 150 } := by
    simp [PokerEngine.anteUp, PokerEngine.anteStep, highAnteTable, PokerPlayer.bet,
      PokerPlayer.create, PokerPlayer.setState]
    norm_num
  have h : shortAnteTable.anteUp =
      { shortAnteTable with
        players := [{ PokerPlayer.create 1 UserType.AI 5 with state := Status.FOLDED },
          { PokerPlayer.create 2 UserType.AI 100 with balance := 100 - 10 }],
        pot := 0 + 10 + 10 } := by
    simp [PokerEngine.anteUp, PokerEngine.anteStep, shortAnteTable, PokerPlayer.bet,
      PokerPlayer.create, PokerPlayer.setState]
    norm_num
  rw [h, h2]
  norm_num [PokerEngine.money, shortAnteTable, highAnteTable, PokerPlayer.create]

theorem multimapInsert_perm {α : Type} (m : List (Int × α)) (key : Int) (value : α) :
    (multimapInsert m key value).Perm ((key, value) :: m) := by
  induction m with
  | nil => exact List.Perm.refl _
  | cons kv rest ih =>
    obtain ⟨k, v⟩ := kv
    unfold multimapInsert
    split_ifs
    · exact List.Perm.refl _
    · exact (ih.cons (k, v)).trans (List.Perm.swap _ _ _)

theorem showDown_fold_perm (ps : List PokerPlayer) (acc : List (Int × Outcome)) :
    (ps.foldl (fun outcomes player =>
      multimapInsert outcomes player.show.playerHand.getScore player.show) acc).Perm
        (acc ++ ps.map fun p => (p.show.playerHand.getScore, p.show)) := by
  induction ps generalizing acc with
  | nil => simp
  | cons p ps ih =>
    rw [List.foldl_cons]
    refine (ih _).trans ?_
    rw [List.map_cons]
    refine ((multimapInsert_perm acc _ _).append_right _).trans ?_
    rw [List.cons_append]
    exact List.perm_middle.symm

theorem showDown_perm (e : PokerEngine) :
    (e.showDown.map fun x => x.2).Perm (e.players.map PokerPlayer.show) := by
  have h := (showDown_fold_perm e.players []).map fun x => x.2
  rw [List.nil_append, List.map_map] at h
  exact h

theorem determineWinners_keys (e : PokerEngine) (ws : List (Int × Outcome))
    (h : e.determineWinners = some ws) : ∀ x ∈ ws, 0 ≤ x.1 := by
  unfold PokerEngine.determineWinners at h
  simp only at h
  generalize PokerEngine.winnersLoop e.players e.players.length 0
    { maxScore := -(2 ^ 63), winnerIdx := none, tieWinnerIdx := -1, outcomes := [] } = st at h
  cases hwi : st.winnerIdx with
  | none =>
    rw [hwi] at h
    cases h
  | some w =>
    rw [hwi] at h
    simp only at h
    by_cases hneg : w < 0
    · rw [if_pos hneg] at h
      cases h
    · rw [if_neg hneg] at h
      cases hwo : st.outcomes[w.toNat]? with
      | none =>
        rw [hwo] at h
        cases h
      | some winner =>
        rw [hwo] at h
        simp only at h
        by_cases htie : st.tieWinnerIdx ≥ 0
        · rw [if_pos htie] at h
          cases hto : st.outcomes[st.tieWinnerIdx.toNat]? with
          | none =>
            rw [hto] at h
            cases h
          | some tieWinner =>
            rw [hto, Option.some.injEq] at h
            intro x hx
            rw [← h] at hx
            have hx2 := (multimapInsert_perm _ _ _).mem_iff.mp hx
            rcases List.mem_cons.mp hx2 with rfl | hx3
            · exact htie
            · have hx4 := (multimapInsert_perm _ _ _).mem_iff.mp hx3
              rcases List.mem_cons.mp hx4 with rfl | hx5
              · exact not_lt.mp hneg
              · cases hx5
        · rw [if_neg htie, Option.some.injEq] at h
          intro x hx
          rw [← h] at hx
          have hx2 := (multimapInsert_perm _ _ _).mem_iff.mp hx
          rcases List.mem_cons.mp hx2 with rfl | hx3
          · exact not_lt.mp hneg
          · cases hx3

/-! ## A folded player stays as it is; the deck of a game of seven -/

theorem foldl_option_inv_mem {α β : Type} (P : α → Prop) (f : Option α → β → Option α)
    (l : List β) (hnone : ∀ b, f none b = none)
    (hf : ∀ a b a', b ∈ l → P a → f (some a) b = some a' → P a') :
    ∀ (a a' : α), P a → l.foldl f (some a) = some a' → P a' := by
  induction l with
  | nil =>
    intro a a' ha h
    rw [List.foldl_nil, Option.some.injEq] at h
    exact h ▸ ha
  | cons b l ih =>
    intro a a' ha h
    rw [List.foldl_cons] at h
    cases hb : f (some a) b with
    | none =>
      rw [hb, foldl_option_none f hnone l] at h
      cases h
    | some a1 =>
      rw [hb] at h
      exact ih (fun x y x' hy hx hxy => hf x y x' (List.mem_cons_of_mem _ hy) hx hxy) a1 a'
        (hf a b a1 (List.mem_cons_self _ _) ha hb) h

theorem dealCards_frame (e e' : PokerEngine) (draws : List Nat)
    (h : e.dealCards draws = some e') (s : Nat)
    (hs : s ∉ e.getSeatsByState Status.WAITING) : e'.players[s]? = e.players[s]? := by
  unfold PokerEngine.dealCards at h
  simp only at h
  cases h2 : (List.range 5).foldl
      (fun st _ => (e.getSeatsByState Status.WAITING).foldl PokerEngine.dealTo st)
      (some { e with deck := Deck.shuffle e.deck draws }) with
  | none => simp [h2] at h
  | some e2 =>
    simp only [h2, Option.some.injEq] at h
    have hround : ∀ a a' : PokerEngine, a.players[s]? = e.players[s]? →
        (e.getSeatsByState Status.WAITING).foldl PokerEngine.dealTo (some a) = some a' →
        a'.players[s]? = e.players[s]? := by
      refine foldl_option_inv_mem (fun x : PokerEngine => x.players[s]? = e.players[s]?)
        PokerEngine.dealTo _ dealTo_none ?_
      intro x b x' hb hx hxb
      obtain ⟨p, card, -, -, hx'⟩ := dealTo_some x x' b hxb
      have hne : b ≠ s := fun hbs => hs (hbs ▸ hb)
      rw [hx']
      simp only
      rw [List.getElem?_set_ne hne]
      exact hx
    have h3 : e2.players[s]? = e.players[s]? := by
      refine foldl_option_inv (fun x : PokerEngine => x.players[s]? = e.players[s]?)
        (fun st (_ : Nat) => (e.getSeatsByState Status.WAITING).foldl PokerEngine.dealTo st)
        (fun _ => foldl_option_none _ dealTo_none _) ?_ (List.range 5)
        { e with deck := Deck.shuffle e.deck draws } e2 rfl h2
      intro x _ x' hx hxb
      exact hround x x' hx hxb
    rw [← h, setStateAt_fold_get, h3]
    cases e.players[s]? with
    | none => rfl
    | some p => simp [hs]

theorem advanceRound_folded (e : PokerEngine) (seat : Nat) (p : PokerPlayer)
    (hp : e.players[seat]? = some p) (hf : p.state = Status.FOLDED) :
    (e.advanceRound).players[seat]? = some p := by
  unfold PokerEngine.advanceRound
  simp only
  split_ifs
  · rw [List.getElem?_map, hp, Option.map_some', if_neg (not_not.mpr hf)]
  · exact hp

theorem bettingRound_folded (e : PokerEngine) (bet : Nat → PokerPlayer → ℚ → ℚ × PokerPlayer)
    (seat : Nat) (p : PokerPlayer) (hp : e.players[seat]? = some p)
    (hf : p.state = Status.FOLDED) : (e.bettingRound bet).players[seat]? = some p := by
  rw [bettingRound_eq]
  exact bettingSpec_inactive bet 0 e.players e.pot e.blind seat p hp (by rw [hf]; decide)

theorem handleDraw_frame (e e' : PokerEngine) (seat : Nat)
    (discard : PokerPlayer → List Int) (draws : List Nat)
    (h : e.handleDraw seat discard draws = some e') (s : Nat) (hs : s ≠ seat) :
    e'.players[s]? = e.players[s]? := by
  have hset : ∀ (x : PokerEngine), (x.setStateAt seat Status.DRAWING).players[s]? =
      x.players[s]? := by
    intro x
    rw [setStateAt_get]
    simp only [if_neg hs, Option.map_id', id]
  unfold PokerEngine.handleDraw at h
  cases hp : e.players[seat]? with
  | none => simp only [hp, Option.some.injEq] at h; rw [← h]
  | some p =>
    simp only [hp] at h
    split_ifs at h with h1 h2
    · cases hd : PokerEngine.dealReplacements e.deck (PokerEngine.orientationFor p)
          (discard p).length with
      | none => simp [hd] at h
      | some r =>
        obtain ⟨replacements, deck⟩ := r
        simp only [hd] at h
        cases hr : p.replace (discard p) replacements with
        | none => simp [hr] at h
        | some r2 =>
          obtain ⟨discarded, player1⟩ := r2
          simp only [hr, Option.some.injEq] at h
          rw [← h, hset]
          have hpl : ∀ (y : PokerEngine), (y.recycleDiscards draws).players = y.players :=
            fun _ => rfl
          split_ifs
          · rw [hpl]
            exact List.getElem?_set_ne (Ne.symm hs)
          · exact List.getElem?_set_ne (Ne.symm hs)
    · simp only [Option.some.injEq] at h
      rw [← h, hset]
    · simp only [Option.some.injEq] at h
      rw [← h]

theorem drawingStep_folded (discard : Nat → PokerPlayer → List Int) (draws : Nat → List Nat)
    (seat : Nat) (p : PokerPlayer) (hf : p.state = Status.FOLDED) (x x' : PokerEngine)
    (i : Nat) (hx : x.players[seat]? = some p)
    (h : PokerEngine.drawingStep discard draws (some x) i = some x') :
    x'.players[seat]? = some p := by
  unfold PokerEngine.drawingStep at h
  simp only at h
  cases hq : x.players[i]? with
  | none =>
    simp only [hq, Option.some.injEq] at h
    rw [← h]
    exact hx
  | some q =>
    simp only [hq] at h
    split_ifs at h with h1
    · cases hd : x.handleDraw i (discard i) (draws i) with
      | none => simp [hd] at h
      | some e1 =>
        simp only [hd, Option.some.injEq] at h
        have hne : seat ≠ i := by
          intro hsi
          rw [hsi, hq, Option.some.injEq] at hx
          exact h1 (hx ▸ hf)
        rw [← h]
        exact (handleDraw_frame x e1 i (discard i) (draws i) hd seat hne).trans hx
    · simp only [Option.some.injEq] at h
      rw [← h]
      exact hx

theorem drawingRound_folded (e e' : PokerEngine) (discard : Nat → PokerPlayer → List Int)
    (draws : Nat → List Nat) (seat : Nat) (p : PokerPlayer)
    (hp : e.players[seat]? = some p) (hf : p.state = Status.FOLDED)
    (h : e.drawingRound discard draws = some e') : e'.players[seat]? = some p := by
  unfold PokerEngine.drawingRound at h
  cases h1 : (List.range e.players.length).foldl (PokerEngine.drawingStep discard draws)
      (some e) with
  | none => simp [h1] at h
  | some e1 =>
    simp only [h1, Option.some.injEq] at h
    rw [← h]
    exact foldl_option_inv (fun x : PokerEngine => x.players[seat]? = some p)
      (PokerEngine.drawingStep discard draws) (fun _ => rfl)
      (fun x i x' hx hxi => drawingStep_folded discard draws seat p hf x x' i hx hxi)
      _ e e1 hp h1

theorem bettingSpec_congr (bet bet' : Nat → PokerPlayer → ℚ → ℚ × PokerPlayer)
    (h : ∀ i q b, q.state = Status.ACTIVE → bet i q b = bet' i q b) (i : Nat)
    (ps : List PokerPlayer) (pot blind : ℚ) :
    bettingSpec bet i ps pot blind = bettingSpec bet' i ps pot blind := by
  induction ps generalizing i pot blind with
  | nil => rfl
  | cons p ps ih =>
    unfold bettingSpec
    split_ifs with hs
    · rw [h i p blind hs, ih]
    · rw [ih]

theorem handleDraw_congr (e : PokerEngine) (seat : Nat) (discard discard' : PokerPlayer → List Int)
    (draws : List Nat) (h : ∀ q, q.state ≠ Status.FOLDED → discard q = discard' q) :
    e.handleDraw seat discard draws = e.handleDraw seat discard' draws := by
  unfold PokerEngine.handleDraw
  cases hp : e.players[seat]? with
  | none => rfl
  | some p =>
    simp only
    by_cases hs : p.state = Status.FOLDED
    · rw [if_neg (not_not.mpr hs), if_neg (not_not.mpr hs)]
    · rw [if_pos hs, if_pos hs, h p hs]

theorem drawingStep_congr (discard discard' : Nat → PokerPlayer → List Int)
    (draws : Nat → List Nat) (h : ∀ i q, q.state ≠ Status.FOLDED → discard i q = discard' i q)
    (st : Option PokerEngine) (i : Nat) :
    PokerEngine.drawingStep discard draws st i = PokerEngine.drawingStep discard' draws st i := by
  unfold PokerEngine.drawingStep
  cases st with
  | none => rfl
  | some e =>
    simp only
    rw [handleDraw_congr e i (discard i) (discard' i) (draws i) (h i)]

/-- C32: a player that is `FOLDED` stays as it is. If the player `p` at `seat`
is `FOLDED` in the engine `e`, then `dealCards`, `advanceRound`, `bettingRound`
and `drawingRound` leave the same player at this seat, with the same state,
hand and balance. A folded player is not asked for a decision: a betting round
and a draw round give the same result for any two decision functions that
agree on the players that are not folded. Hence in a run of `startGame` that
ends normally, a player folded by `anteUp` is at the end what it was after
`anteUp`. -/
theorem folded_is_absorbing (e : PokerEngine) (seat : Nat) (p : PokerPlayer)
    (hp : e.players[seat]? = some p) (hf : p.state = Status.FOLDED) :
    (∀ draws e', e.dealCards draws = some e' → e'.players[seat]? = some p) ∧
    (e.advanceRound).players[seat]? = some p ∧
    (∀ bet, (e.bettingRound bet).players[seat]? = some p) ∧
    (∀ discard draws e', e.drawingRound discard draws = some e' →
      e'.players[seat]? = some p) ∧
    (∀ bet bet' : Nat → PokerPlayer → ℚ → ℚ × PokerPlayer,
      (∀ i q b, q.state ≠ Status.FOLDED → bet i q b = bet' i q b) →
      e.bettingRound bet = e.bettingRound bet') ∧
    (∀ (discard discard' : Nat → PokerPlayer → List Int) (draws : Nat → List Nat),
      (∀ i q, q.state ≠ Status.FOLDED → discard i q = discard' i q) →
      e.drawingRound discard draws = e.drawingRound discard' draws) ∧
    (∀ (e0 : PokerEngine) (env : Env) (fuel : Nat) (e' : PokerEngine),
      e0.currentRound = 0 → 2 ≤ fuel → e0.anteUp = e →
      (e0.startGame env fuel).2 = Exit.done e' → e'.players[seat]? = some p) := by
  have hnw : seat ∉ e.getSeatsByState Status.WAITING := by
    intro hmem
    obtain ⟨q, hq, hqs⟩ := (mem_seats e Status.WAITING seat).mp hmem
    rw [hp, Option.some.injEq] at hq
    rw [← hq, hf] at hqs
    cases hqs
  have hdeal : ∀ draws e', e.dealCards draws = some e' → e'.players[seat]? = some p :=
    fun draws e' h => (dealCards_frame e e' draws h seat hnw).trans hp
  refine ⟨hdeal, advanceRound_folded e seat p hp hf, fun bet => bettingRound_folded e bet seat p hp hf,
    fun discard draws e' h => drawingRound_folded e e' discard draws seat p hp hf h, ?_, ?_, ?_⟩
  · intro bet bet' h
    rw [bettingRound_eq, bettingRound_eq,
      bettingSpec_congr bet bet' (fun i q b hq => h i q b (by rw [hq]; decide))]
  · intro discard discard' draws h
    unfold PokerEngine.drawingRound
    have hfun : PokerEngine.drawingStep discard draws = PokerEngine.drawingStep discard' draws := by
      funext st i
      exact drawingStep_congr discard discard' draws h st i
    rw [hfun]
  · intro e0 env fuel e' h0 hfuel he hdone
    rw [startGame_unfold e0 env fuel h0 hfuel, he] at hdone
    cases hd : e.dealCards env.dealDraws with
    | none =>
      rw [hd] at hdone
      cases hdone
    | some e2 =>
      rw [hd] at hdone
      simp only at hdone
      have h2 := hdeal _ _ hd
      have h4 := bettingRound_folded _ (env.bet 1) seat p
        (advanceRound_folded e2 seat p h2 hf) hf
      cases hdr : ((e2.advanceRound).bettingRound (env.bet 1)).drawingRound env.discard
          env.recycleDraws with
      | none =>
        rw [hdr] at hdone
        cases hdone
      | some e5 =>
        rw [hdr] at hdone
        simp only [Exit.done.injEq] at hdone
        have h5 := drawingRound_folded _ e5 env.discard env.recycleDraws seat p h4 hf hdr
        rw [← hdone]
        exact bettingRound_folded _ (env.bet 2) seat p
          (advanceRound_folded e5 seat p h5 hf) hf

theorem folded_is_absorbing_witness :
    (sampleEngine.anteUp).players[0]? =
      some { PokerPlayer.create 1 UserType.HUMAN 5 with state := Status.FOLDED } ∧
    (∀ bet, ((sampleEngine.anteUp).bettingRound bet).players[0]? =
      some { PokerPlayer.create 1 UserType.HUMAN 5 with state := Status.FOLDED }) ∧
    (∀ e', (sampleEngine.startGame sampleEnv 2).2 = Exit.done e' →
      e'.players[0]? =
        some { PokerPlayer.create 1 UserType.HUMAN 5 with state := Status.FOLDED }) := by
  have hp : (sampleEngine.anteUp).players[0]? =
      some { PokerPlayer.create 1 UserType.HUMAN 5 with state := Status.FOLDED } := by
    rfl
  obtain ⟨-, -, h3, -, -, -, h7⟩ := folded_is_absorbing (sampleEngine.anteUp) 0
    { PokerPlayer.create 1 UserType.HUMAN 5 with state := Status.FOLDED } hp rfl
  exact ⟨hp, h3, fun e' h => h7 sampleEngine sampleEnv 2 e' rfl (le_refl 2) rfl h⟩

/-- C37: with at most 7 new players on a fresh deck of 52 cards, discard
decisions that are lists of distinct indices in `[0, 5)` and betting decisions
that leave the hand alone, the deck is sufficient during `startGame`:
`dealCards` completes, the engine before the draw of each player (the draw
round run for the first `k` seats, for every `k`) exists and its deck holds at
least 5 cards, and the run ends normally after all its phases, so no call to
`deal` returns no card. -/
theorem seven_players_deck_sufficient (e : PokerEngine) (env : Env) (fuel : Nat)
    (h0 : e.currentRound = 0) (hd : e.deck = Deck.reset []) (hdisc : e.discards = [])
    (hnew : ∀ p ∈ e.players, p.state = Status.WAITING ∧ p.hand.cards = [])
    (hn : e.players.length ≤ 7)
    (hdec : ∀ i p, p.hand.cards.length = 5 →
      (env.discard i p).Nodup ∧ ∀ x ∈ env.discard i p, 0 ≤ x ∧ x < 5)
    (hbet : ∀ r i p b, ((env.bet r i p b).2).hand = p.hand)
    (hf : 2 ≤ fuel) :
    ∃ e2 e', (e.anteUp).dealCards env.dealDraws = some e2 ∧
      (∀ k : Nat, ∃ ek,
        (List.range k).foldl (PokerEngine.drawingStep env.discard env.recycleDraws)
          (some ((e2.advanceRound).bettingRound (env.bet 1))) = some ek ∧
        5 ≤ ek.deck.length) ∧
      e.startGame env fuel =
        ([Phase.ANTE, Phase.DEAL, Phase.ADVANCE, Phase.BET, Phase.DRAW, Phase.ADVANCE,
          Phase.BET], Exit.done e') := by
  obtain ⟨a1, a2, a3, a4, a5⟩ := anteUp_frame e hnew
  obtain ⟨e2, h2, hr2⟩ := dealCards_ready e.anteUp env.dealDraws (a1.trans hd)
    (a2.trans hdisc) a5 (by omega)
  have hr4 : DrawReady ((e2.advanceRound).bettingRound (env.bet 1)) :=
    bettingRound_ready _ _ (hbet 1) (advanceRound_ready e2 hr2)
  obtain ⟨e5, h5, -⟩ := drawingRound_total ((e2.advanceRound).bettingRound (env.bet 1))
    env.discard env.recycleDraws hdec hr4
  refine ⟨e2, (e5.advanceRound).bettingRound (env.bet 2), h2, ?_, ?_⟩
  · intro k
    obtain ⟨ek, hk, hrk⟩ := foldl_option_total DrawReady
      (PokerEngine.drawingStep env.discard env.recycleDraws)
      (fun a b ha => drawingStep_ready env.discard env.recycleDraws hdec a b ha)
      (List.range k) _ hr4
    exact ⟨ek, hk, by have := hrk.2.2.2; omega⟩
  · rw [startGame_unfold e env fuel h0 hf, h2]
    simp only
    rw [h5]

theorem seven_players_deck_sufficient_witness :
    ∃ e2 e', ((tableOf 7).anteUp).dealCards discardAllEnv.dealDraws = some e2 ∧
      (∀ k : Nat, ∃ ek,
        (List.range k).foldl
          (PokerEngine.drawingStep discardAllEnv.discard discardAllEnv.recycleDraws)
          (some ((e2.advanceRound).bettingRound (discardAllEnv.bet 1))) = some ek ∧
        5 ≤ ek.deck.length) ∧
      (tableOf 7).startGame discardAllEnv 2 =
        ([Phase.ANTE, Phase.DEAL, Phase.ADVANCE, Phase.BET, Phase.DRAW, Phase.ADVANCE,
          Phase.BET], Exit.done e') :=
  seven_players_deck_sufficient (tableOf 7) discardAllEnv 2 rfl rfl rfl (by decide) (by decide)
    (by
      intro i p _
      show ([0, 1, 2, 3, 4] : List Int).Nodup ∧ ∀ x ∈ ([0, 1, 2, 3, 4] : List Int), 0 ≤ x ∧ x < 5
      decide)
    (fun _ _ _ _ => rfl) (le_refl 2)

/-! ## The phases of a run, on the tables the game sets up -/

/-- C25 (the claim as it stands fails): an engine newly built on a fresh deck to
which 11 new players were added. Whatever the number of turns allowed to the
loop, `startGame` calls `anteUp` and `dealCards` and stops there: the deck
returns no card for the 53rd card asked and no betting or draw round is run. -/
theorem startGame_stops_in_deal :
    (tableOf 11).currentRound = 0 ∧
    (tableOf 11).players.length = 11 ∧
    ((tableOf 11).startGame sampleEnv 2).1 = [Phase.ANTE, Phase.DEAL] ∧
    ((tableOf 11).startGame sampleEnv 2).2.isDone = false ∧
    ∀ fuel : Nat,
      ((tableOf 11).startGame sampleEnv fuel).1 = [Phase.ANTE, Phase.DEAL] ∧
      ((tableOf 11).startGame sampleEnv fuel).2.isDone = false := by
  have h : ((tableOf 11).anteUp).dealCards sampleEnv.dealDraws = none := by
    have hs : (((tableOf 11).anteUp).dealCards sampleEnv.dealDraws).isSome = false := by decide
    cases hd : ((tableOf 11).anteUp).dealCards sampleEnv.dealDraws with
    | none => rfl
    | some e2 =>
      rw [hd] at hs
      cases hs
  have hall : ∀ fuel : Nat,
      ((tableOf 11).startGame sampleEnv fuel).1 = [Phase.ANTE, Phase.DEAL] ∧
      ((tableOf 11).startGame sampleEnv fuel).2.isDone = false := by
    intro fuel
    unfold PokerEngine.startGame
    rw [h]
    exact ⟨rfl, rfl⟩
  exact ⟨rfl, by decide, (hall 2).1, (hall 2).2, hall⟩

/-- C25 (amended): take an engine as the game sets it up: round counter 0, a
fresh deck of 52 cards, an empty discard pile and at most 8 new players
(waiting, with an empty hand); discard decisions that are lists of distinct
indices in `[0, 5)` for a hand of 5 cards, and betting decisions that leave the
hand of the player alone. Then a run of `startGame` with room for two turns of
the loop ends normally, after exactly the calls ante, deal, advance, bet, draw,
advance, bet in this order, and leaves the round counter at 2. -/
theorem startGame_runs_all_phases (e : PokerEngine) (env : Env) (fuel : Nat)
    (h0 : e.currentRound = 0) (hd : e.deck = Deck.reset []) (hdisc : e.discards = [])
    (hnew : ∀ p ∈ e.players, p.state = Status.WAITING ∧ p.hand.cards = [])
    (hn : e.players.length ≤ 8)
    (hdec : ∀ i p, p.hand.cards.length = 5 →
      (env.discard i p).Nodup ∧ ∀ x ∈ env.discard i p, 0 ≤ x ∧ x < 5)
    (hbet : ∀ r i p b, ((env.bet r i p b).2).hand = p.hand)
    (hf : 2 ≤ fuel) :
    ∃ e', e.startGame env fuel =
        ([Phase.ANTE, Phase.DEAL, Phase.ADVANCE, Phase.BET, Phase.DRAW, Phase.ADVANCE,
          Phase.BET], Exit.done e') ∧
      e'.currentRound = 2 := by
  obtain ⟨a1, a2, a3, a4, a5⟩ := anteUp_frame e hnew
  obtain ⟨e2, h2, hr2⟩ := dealCards_ready e.anteUp env.dealDraws (a1.trans hd)
    (a2.trans hdisc) a5 (a4.trans_le hn)
  obtain ⟨e5, h5, -⟩ := drawingRound_total ((e2.advanceRound).bettingRound (env.bet 1))
    env.discard env.recycleDraws hdec
    (bettingRound_ready _ _ (hbet 1) (advanceRound_ready e2 hr2))
  rw [startGame_unfold e env fuel h0 hf, h2]
  simp only
  rw [h5]
  refine ⟨_, rfl, ?_⟩
  have r2 : e2.currentRound = 0 := by
    rw [dealCards_currentRound _ _ _ h2]
    exact h0
  have r5 : e5.currentRound = 1 := by
    rw [drawingRound_currentRound _ _ _ _ h5, bettingRound_currentRound]
    simp [PokerEngine.advanceRound, r2]
  rw [bettingRound_currentRound]
  simp [PokerEngine.advanceRound, r5]

/-- Witness of `startGame_runs_all_phases`: the table of a game of seven, where
every player swaps two cards in the draw round. -/
theorem startGame_runs_all_phases_witness :
    ∃ e', (tableOf 7).startGame sampleEnv 2 =
        ([Phase.ANTE, Phase.DEAL, Phase.ADVANCE, Phase.BET, Phase.DRAW, Phase.ADVANCE,
          Phase.BET], Exit.done e') ∧
      e'.currentRound = 2 :=
  startGame_runs_all_phases (tableOf 7) sampleEnv 2 rfl rfl rfl (by decide) (by decide)
    (by
      intro i p _
      show ([0, 2] : List Int).Nodup ∧ ∀ x ∈ ([0, 2] : List Int), 0 ≤ x ∧ x < 5
      decide)
    (fun _ _ _ _ => rfl) (le_refl 2)

/-! ## Rounding to double precision -/

theorem roundPos_nonneg (a : ℚ) (ha : 0 ≤ a) : 0 ≤ Double.roundPos a := by
  unfold Double.roundPos
  simp only
  have h2 : (0 : ℚ) < (2 : ℚ) ^ (max (Int.log 2 a - 52) (-1074)) := zpow_pos (by norm_num) _
  have hm : 0 ≤ a / (2 : ℚ) ^ (max (Int.log 2 a - 52) (-1074)) := div_nonneg ha h2.le
  have hf : 0 ≤ Int.floor (a / (2 : ℚ) ^ (max (Int.log 2 a - 52) (-1074))) := Int.floor_nonneg.mpr hm
  apply mul_nonneg _ h2.le
  split_ifs
  · exact_mod_cast hf
  · exact_mod_cast (by omega : (0 : Int) ≤ Int.floor (a / (2 : ℚ) ^ (max (Int.log 2 a - 52) (-1074))) + 1)
  · exact_mod_cast hf
  · exact_mod_cast (by omega : (0 : Int) ≤ Int.floor (a / (2 : ℚ) ^ (max (Int.log 2 a - 52) (-1074))) + 1)

theorem double_log_eq (a : ℚ) (k : Int) (hlo : (2 : ℚ) ^ k ≤ a) (hhi : a < (2 : ℚ) ^ (k + 1)) :
    Int.log 2 a = k := by
  have ha : 0 < a := lt_of_lt_of_le (zpow_pos (by norm_num) _) hlo
  have h1 : k ≤ Int.log 2 a := by
    rw [← Int.zpow_le_iff_le_log (by norm_num) ha]
    exact_mod_cast hlo
  have h2 : Int.log 2 a < k + 1 := by
    rw [← Int.lt_zpow_iff_log_lt (by norm_num) ha]
    exact_mod_cast hhi
  omega

theorem roundPos_eq (a : ℚ) (k e n : Int) (hlo : (2 : ℚ) ^ k ≤ a)
    (hhi : a < (2 : ℚ) ^ (k + 1)) (he : e = max (k - 52) (-1074))
    (hn : |a / (2 : ℚ) ^ e - (n : ℚ)| < 1 / 2 ∨
      (|a / (2 : ℚ) ^ e - (n : ℚ)| = 1 / 2 ∧ n % 2 = 0)) :
    Double.roundPos a = (n : ℚ) * (2 : ℚ) ^ e := by
  unfold Double.roundPos
  rw [double_log_eq a k hlo hhi, ← he]
  simp only
  generalize a / (2 : ℚ) ^ e = m at hn
  congr 1
  rcases hn with hn | ⟨hn, hev⟩
  · rw [abs_lt] at hn
    by_cases hmn : (n : ℚ) ≤ m
    · have hf : Int.floor m = n := by
        rw [Int.floor_eq_iff]
        constructor <;> linarith
      rw [hf, if_pos (by linarith)]
    · have hf : Int.floor m = n - 1 := by
        rw [Int.floor_eq_iff]
        push_cast
        constructor <;> linarith
      rw [hf]
      push_cast
      rw [if_neg (by linarith), if_pos (by linarith)]
      ring
  · rcases abs_eq (by norm_num : (0 : ℚ) ≤ 1 / 2) |>.mp hn with h | h
    · have hf : Int.floor m = n := by
        rw [Int.floor_eq_iff]
        constructor <;> linarith
      rw [hf, if_neg (by linarith), if_neg (by linarith), if_pos hev]
    · have hf : Int.floor m = n - 1 := by
        rw [Int.floor_eq_iff]
        push_cast
        constructor <;> linarith
      rw [hf]
      push_cast
      rw [if_neg (by linarith), if_neg (by linarith), if_neg (by omega)]
      ring

theorem ofRat_eq (q : ℚ) (k e n : Int) (r : ℚ) (hlo : (2 : ℚ) ^ k ≤ q)
    (hhi : q < (2 : ℚ) ^ (k + 1)) (he : e = max (k - 52) (-1074))
    (hn : |q / (2 : ℚ) ^ e - (n : ℚ)| < 1 / 2 ∨
      (|q / (2 : ℚ) ^ e - (n : ℚ)| = 1 / 2 ∧ n % 2 = 0))
    (hr : r = (n : ℚ) * (2 : ℚ) ^ e) (hfin : r < (2 : ℚ) ^ (1024 : Nat)) :
    Double.ofRat q = Double.fin r := by
  have hq : 0 < q := lt_of_lt_of_le (zpow_pos (by norm_num) _) hlo
  unfold Double.ofRat
  rw [if_neg hq.ne.symm, if_pos hq, roundPos_eq q k e n hlo hhi he hn, ← hr,
    if_neg (not_le.mpr hfin)]

theorem ofRat_zero : Double.ofRat 0 = Double.fin 0 := by
  simp [Double.ofRat]

theorem roundPos_nat (a : Nat) (h0 : 0 < a) (ha : a ≤ 2 ^ 53) :
    Double.roundPos (a : ℚ) = (a : ℚ) := by
  rcases Nat.lt_or_ge a (2 ^ 53) with hlt | hge
  · have hk : Nat.log 2 a < 53 := Nat.log_lt_of_lt_pow (by omega) hlt
    have hlo : 2 ^ Nat.log 2 a ≤ a := Nat.pow_log_le_self 2 (by omega)
    have hhi : a < 2 ^ (Nat.log 2 a + 1) := Nat.lt_pow_succ_log_self (by norm_num) a
    generalize Nat.log 2 a = k at hk hlo hhi
    obtain ⟨j, hj⟩ : ∃ j : Nat, j + k = 52 := ⟨52 - k, by omega⟩
    have hpos : (0 : ℚ) < (2 : ℚ) ^ j := pow_pos (by norm_num) j
    have he2 : (2 : ℚ) ^ (-(j : Int)) = ((2 : ℚ) ^ j)⁻¹ := by
      rw [zpow_neg, zpow_natCast]
    rw [roundPos_eq (a : ℚ) (k : Int) (-(j : Int)) ((a * 2 ^ j : Nat) : Int)]
    · rw [he2]
      push_cast
      field_simp
    · rw [zpow_natCast]
      exact_mod_cast hlo
    · have : ((k : Int) + 1) = ((k + 1 : Nat) : Int) := by push_cast; ring
      rw [this, zpow_natCast]
      exact_mod_cast hhi
    · omega
    · left
      rw [he2]
      have : (a : ℚ) / ((2 : ℚ) ^ j)⁻¹ - (((a * 2 ^ j : Nat) : Int) : ℚ) = 0 := by
        push_cast
        field_simp
      rw [this]
      norm_num
  · have h53 : a = 2 ^ 53 := le_antisymm ha hge
    subst h53
    rw [roundPos_eq _ 53 1 (2 ^ 52)] <;> norm_num

theorem ofRat_nat (a : Nat) (ha : a ≤ 2 ^ 53) : Double.ofRat (a : ℚ) = Double.fin (a : ℚ) := by
  rcases Nat.eq_zero_or_pos a with h0 | h0
  · subst h0
    simpa using ofRat_zero
  · have hq : (0 : ℚ) < (a : ℚ) := by exact_mod_cast h0
    have hlt : (a : ℚ) < (2 : ℚ) ^ (1024 : Nat) := by
      have h1 : (a : ℚ) ≤ (2 : ℚ) ^ (53 : Nat) := by exact_mod_cast ha
      have h2 : (2 : ℚ) ^ (53 : Nat) < (2 : ℚ) ^ (1024 : Nat) :=
        pow_lt_pow_right₀ (by norm_num) (by norm_num)
      linarith
    unfold Double.ofRat
    rw [if_neg hq.ne.symm, if_pos hq, roundPos_nat a h0 ha, if_neg (not_le.mpr hlt)]

theorem ofRat_int (n : Int) (h : |n| ≤ 2 ^ 53) : Double.ofRat (n : ℚ) = Double.fin (n : ℚ) := by
  rcases le_or_lt 0 n with hn | hn
  · obtain ⟨a, rfl⟩ := Int.eq_ofNat_of_zero_le hn
    rw [abs_of_nonneg hn] at h
    have ha : a ≤ 2 ^ 53 := by exact_mod_cast h
    simpa using ofRat_nat a ha
  · obtain ⟨a, ha⟩ := Int.eq_ofNat_of_zero_le (by omega : 0 ≤ -n)
    have hn2 : n = -(a : Int) := by omega
    subst hn2
    rw [abs_neg, abs_of_nonneg (by omega)] at h
    have ha2 : a ≤ 2 ^ 53 := by exact_mod_cast h
    have h0 : 0 < a := by omega
    have hq : (0 : ℚ) < (a : ℚ) := by exact_mod_cast h0
    have hlt : (a : ℚ) < (2 : ℚ) ^ (1024 : Nat) := by
      have h1 : (a : ℚ) ≤ (2 : ℚ) ^ (53 : Nat) := by exact_mod_cast ha2
      have h2 : (2 : ℚ) ^ (53 : Nat) < (2 : ℚ) ^ (1024 : Nat) :=
        pow_lt_pow_right₀ (by norm_num) (by norm_num)
      linarith
    unfold Double.ofRat
    push_cast
    rw [if_neg (by linarith), if_neg (by linarith), neg_neg, roundPos_nat a h0 ha2,
      if_neg (not_le.mpr hlt)]

theorem double_nonneg_iff (x : Double) :
    Double.le (Double.fin 0) x = true ↔ x = Double.posInf ∨ ∃ r, x = Double.fin r ∧ 0 ≤ r := by
  cases x with
  | nan => simp [Double.le, Double.lt, Double.eq]
  | posInf => simp [Double.le, Double.lt, Double.eq]
  | negInf => simp [Double.le, Double.lt, Double.eq]
  | fin q =>
    simp only [Double.le, Double.lt, Double.eq, Bool.or_eq_true, decide_eq_true_eq,
      Double.fin.injEq, false_or, reduceCtorEq]
    constructor
    · intro h
      exact ⟨q, rfl, by rcases h with h | h <;> linarith⟩
    · rintro ⟨r, rfl, hr⟩
      exact lt_or_eq_of_le hr

theorem ofRat_nonneg (q : ℚ) (hq : 0 ≤ q) :
    Double.le (Double.fin 0) (Double.ofRat q) = true := by
  rw [double_nonneg_iff]
  unfold Double.ofRat
  rcases hq.eq_or_lt with h0 | h0
  · rw [if_pos h0.symm]
    exact Or.inr ⟨0, rfl, le_refl _⟩
  · rw [if_neg h0.ne.symm, if_pos h0]
    split_ifs
    · exact Or.inl rfl
    · exact Or.inr ⟨_, rfl, roundPos_nonneg q h0.le⟩

theorem double_sub_fin (a b : ℚ) :
    Double.sub (Double.fin a) (Double.fin b) = Double.ofRat (a - b) := by
  simp [Double.sub, Double.neg, Double.add, sub_eq_add_neg]

theorem double_sub_int (b a : Int) (h : |b - a| ≤ 2 ^ 53) :
    Double.sub (Double.fin (b : ℚ)) (Double.fin (a : ℚ)) = Double.fin ((b : ℚ) - (a : ℚ)) := by
  rw [double_sub_fin]
  have := ofRat_int (b - a) h
  push_cast at this
  exact this

/-! ## Forced payments in double precision -/

/-- C19 (the claim as it stands fails): the amounts are `double` values. A
player with a balance of 100 who is asked for an amount that is not a number
is not refused (`amount > balance` is false), `bet` returns true and leaves a
balance that is not a number, so that `balance >= 0` no longer holds. A player
with a balance of `1e17` who is asked for 1 pays (true is returned), and the
balance is `1e17` as before: the difference is rounded, the balance has not
decreased by the amount. -/
theorem forced_bet_not_exact :
    ((Fp.PokerPlayer.create 1 UserType.AI (Double.fin 100)).bet Double.nan).1 = true ∧
    ((Fp.PokerPlayer.create 1 UserType.AI (Double.fin 100)).bet Double.nan).2.balance =
      Double.nan ∧
    Double.ge (Double.fin 100) (Double.fin 0) = true ∧
    Double.ge Double.nan (Double.fin 0) = false ∧
    Double.ofRat (10 ^ 17) = Double.fin (10 ^ 17) ∧
    ((Fp.PokerPlayer.create 1 UserType.AI (Double.fin (10 ^ 17))).bet (Double.fin 1)).1 = true ∧
    ((Fp.PokerPlayer.create 1 UserType.AI (Double.fin (10 ^ 17))).bet (Double.fin 1)).2.balance =
      Double.fin (10 ^ 17) := by
  have h17 : Double.ofRat (10 ^ 17) = Double.fin (10 ^ 17) := by
    apply ofRat_eq (10 ^ 17) 56 4 6250000000000000
    · norm_num
    · norm_num
    · norm_num
    · left
      norm_num [abs_lt]
    · norm_num
    · norm_num
  have h17' : Double.ofRat (10 ^ 17 - 1) = Double.fin (10 ^ 17) := by
    apply ofRat_eq (10 ^ 17 - 1) 56 4 6250000000000000
    · norm_num
    · norm_num
    · norm_num
    · left
      norm_num [abs_lt]
    · norm_num
    · norm_num
  refine ⟨rfl, rfl, ?_, rfl, h17, ?_, ?_⟩
  · norm_num [Double.ge, Double.le, Double.lt, Double.eq]
  · norm_num [Fp.PokerPlayer.bet, Fp.PokerPlayer.create, Double.gt, Double.lt]
  · have hgt : Double.gt (Double.fin 1) (Double.fin (10 ^ 17)) = false := by
      norm_num [Double.gt, Double.lt]
    unfold Fp.PokerPlayer.bet Fp.PokerPlayer.create
    simp only [hgt, Bool.false_eq_true, if_false]
    rw [double_sub_fin, h17']

/-- C19 (amended): `PokerPlayer::bet(amount)` on `double` values returns false
exactly when the comparison `amount > balance` holds, and then the player is
unchanged; otherwise it returns true and the balance becomes the `double`
nearest to `balance - amount`. The state and the hand of the player stay as
they were. A balance that was `>= 0` is `>= 0` afterwards when the amount is a
number (not NaN) and the balance and the amount are not both the positive
infinity. When the balance and the amount are whole numbers whose difference is
at most `2 ^ 53` in size and the amount does not exceed the balance, the
balance decreases by exactly the amount. -/
theorem forced_bet_double (p : Fp.PokerPlayer) (amount : Double) :
    ((p.bet amount).1 = false ↔ Double.gt amount p.balance = true) ∧
    (Double.gt amount p.balance = true → (p.bet amount).2 = p) ∧
    (Double.gt amount p.balance = false →
      (p.bet amount).1 = true ∧ (p.bet amount).2.balance = Double.sub p.balance amount) ∧
    (p.bet amount).2.state = p.state ∧
    (p.bet amount).2.hand = p.hand ∧
    (Double.ge p.balance (Double.fin 0) = true → amount ≠ Double.nan →
      ¬ (p.balance = Double.posInf ∧ amount = Double.posInf) →
      Double.ge (p.bet amount).2.balance (Double.fin 0) = true) ∧
    (∀ b a : Int, p.balance = Double.fin (b : ℚ) → amount = Double.fin (a : ℚ) → a ≤ b →
      |b - a| ≤ 2 ^ 53 → (p.bet amount).2.balance = Double.fin ((b : ℚ) - (a : ℚ))) := by
  unfold Fp.PokerPlayer.bet
  cases hgt : Double.gt amount p.balance with
  | true =>
    simp only [if_true, true_and, implies_true, false_implies, reduceCtorEq]
    refine ⟨fun h _ _ => h, ?_⟩
    intro b a hb ha hab _
    rw [hb, ha] at hgt
    have : ¬ ((b : ℚ) < (a : ℚ)) := by
      have : (a : ℚ) ≤ (b : ℚ) := by exact_mod_cast hab
      linarith
    simp [Double.gt, Double.lt, this] at hgt
  | false =>
    simp only [Bool.false_eq_true, if_false, false_iff, not_false_eq_true, true_and,
      false_implies, forall_true_left, and_self]
    refine ⟨by simp, ?_, ?_⟩
    · intro hb hna hinf
      unfold Double.ge at hb ⊢
      rw [double_nonneg_iff] at hb ⊢
      rcases hb with hb | ⟨b, hb, hb0⟩
      · rw [hb] at hgt hinf ⊢
        cases amount with
        | nan => exact absurd rfl hna
        | posInf => exact absurd ⟨rfl, rfl⟩ hinf
        | negInf => exact Or.inl rfl
        | fin a => exact Or.inl rfl
      · rw [hb] at hgt ⊢
        cases amount with
        | nan => exact absurd rfl hna
        | posInf => simp [Double.gt, Double.lt] at hgt
        | negInf => exact Or.inl rfl
        | fin a =>
          have hab : a ≤ b := by
            simpa [Double.gt, Double.lt] using hgt
          rw [double_sub_fin, ← double_nonneg_iff]
          exact ofRat_nonneg (b - a) (by linarith)
    · intro b a hb ha _ hba
      rw [hb, ha]
      exact double_sub_int b a hba

/-- Witness of `forced_bet_double`: a player with a balance of 5 is asked for 10
and is refused; a player with a balance of 100 pays 10 and keeps 90, which is
not negative. -/
theorem forced_bet_double_witness :
    ((Fp.PokerPlayer.create 1 UserType.HUMAN (Double.fin 5)).bet (Double.fin 10)).2 =
      Fp.PokerPlayer.create 1 UserType.HUMAN (Double.fin 5) ∧
    ((Fp.PokerPlayer.create 2 UserType.AI (Double.fin 100)).bet (Double.fin 10)).1 = true ∧
    Double.ge ((Fp.PokerPlayer.create 2 UserType.AI (Double.fin 100)).bet
      (Double.fin 10)).2.balance (Double.fin 0) = true ∧
    ((Fp.PokerPlayer.create 2 UserType.AI (Double.fin 100)).bet (Double.fin 10)).2.balance =
      Double.fin 90 := by
  have h5 := forced_bet_double (Fp.PokerPlayer.create 1 UserType.HUMAN (Double.fin 5))
    (Double.fin 10)
  have h100 := forced_bet_double (Fp.PokerPlayer.create 2 UserType.AI (Double.fin 100))
    (Double.fin 10)
  refine ⟨h5.2.1 (by norm_num [Fp.PokerPlayer.create, Double.gt, Double.lt]),
    (h100.2.2.1 (by norm_num [Fp.PokerPlayer.create, Double.gt, Double.lt])).1,
    h100.2.2.2.2.2.1 (by norm_num [Fp.PokerPlayer.create, Double.ge, Double.le, Double.lt])
      (by simp) (by simp [Fp.PokerPlayer.create]), ?_⟩
  have h := h100.2.2.2.2.2.2 100 10 (by norm_num [Fp.PokerPlayer.create]) (by norm_num)
    (by norm_num) (by norm_num)
  rw [h]
  norm_num

theorem fp_anteStep_foldl (ante : Double) (players acc : List Fp.PokerPlayer) (pot : Double)
    (hw : ∀ p ∈ players, p.state = Status.WAITING) :
    players.foldl (Fp.PokerEngine.anteStep ante) (acc, pot) =
      (acc ++ players.map (fun p =>
          if Double.gt ante p.balance = true then { p with state := Status.FOLDED }
          else { p with balance := Double.sub p.balance ante, state := Status.WAITING }),
        Double.addTimes pot ante players.length) := by
  induction players generalizing acc pot with
  | nil => simp [Double.addTimes]
  | cons p ps ih =>
    rw [List.foldl_cons]
    have hp : p.state = Status.WAITING := hw p (List.mem_cons_self _ _)
    have hstep : Fp.PokerEngine.anteStep ante (acc, pot) p =
        (acc ++ [if Double.gt ante p.balance = true then { p with state := Status.FOLDED }
          else { p with balance := Double.sub p.balance ante, state := Status.WAITING }],
          Double.add pot ante) := by
      unfold Fp.PokerEngine.anteStep Fp.PokerPlayer.bet Fp.PokerPlayer.setState
      cases h : Double.gt ante p.balance
      · simp [← hp]
      · simp
    rw [hstep, ih _ _ (fun q hq => hw q (List.mem_cons_of_mem _ hq))]
    simp only [List.map_cons, List.append_assoc, List.singleton_append, List.length_cons,
      Double.addTimes]

theorem addTimes_int (a : Int) (ha : 0 ≤ a) (n : Nat) :
    ∀ pot : Int, 0 ≤ pot → pot + a * (n : Int) ≤ 2 ^ 53 →
      Double.addTimes (Double.fin (pot : ℚ)) (Double.fin (a : ℚ)) n =
        Double.fin ((pot : ℚ) + (a : ℚ) * (n : ℚ)) := by
  induction n with
  | zero =>
    intro pot _ _
    simp [Double.addTimes]
  | succ n ih =>
    intro pot hpot hle
    have hn : (0 : Int) ≤ (n : Int) := Int.ofNat_nonneg n
    have han : 0 ≤ a * (n : Int) := mul_nonneg ha hn
    have hle2 : pot + a + a * (n : Int) ≤ 2 ^ 53 := by
      push_cast at hle
      linarith
    have hstep : Double.add (Double.fin (pot : ℚ)) (Double.fin (a : ℚ)) =
        Double.fin (((pot + a : Int) : ℚ)) := by
      have h := ofRat_int (pot + a) (by rw [abs_of_nonneg (by omega)]; omega)
      simpa [Double.add] using h
    rw [Double.addTimes, hstep, ih (pot + a) (by omega) hle2]
    push_cast
    ring_nf

/-- C20 (the claim as it stands fails): the amounts are `double` values. With
an ante of `1e-15` and one waiting player with a balance of 100, `anteUp`
leaves the player waiting with a balance of 100, not reduced by the ante, and
the pot has grown from 0 to the ante: the difference `100 - 1e-15` is rounded
back to 100. -/
theorem ante_not_exact :
    Fp.tinyAnteTable.ante = Double.fin (2535301200456459 / 2 ^ 101) ∧
    Fp.tinyAnteTable.players.map (fun p => (p.state, p.balance)) =
      [(Status.WAITING, Double.fin 100)] ∧
    Fp.tinyAnteTable.anteUp.players.map (fun p => (p.state, p.balance)) =
      [(Status.WAITING, Double.fin 100)] ∧
    Fp.tinyAnteTable.pot = Double.fin 0 ∧
    Fp.tinyAnteTable.anteUp.pot = Double.fin (2535301200456459 / 2 ^ 101) := by
  have ha : Double.ofRat (1 / 10 ^ 15) = Double.fin (2535301200456459 / 2 ^ 101) := by
    apply ofRat_eq (1 / 10 ^ 15) (-50) (-102) 5070602400912918
    · norm_num
    · norm_num
    · norm_num
    · left
      norm_num [abs_lt]
    · norm_num
    · norm_num
  have ha2 : Double.ofRat (2535301200456459 / 2 ^ 101) =
      Double.fin (2535301200456459 / 2 ^ 101) := by
    apply ofRat_eq (2535301200456459 / 2 ^ 101) (-50) (-102) 5070602400912918
    · norm_num
    · norm_num
    · norm_num
    · left
      norm_num [abs_lt]
    · norm_num
    · norm_num
  have hb : Double.ofRat (100 - 2535301200456459 / 2 ^ 101) = Double.fin 100 := by
    apply ofRat_eq (100 - 2535301200456459 / 2 ^ 101) 6 (-46) 7036874417766400
    · norm_num
    · norm_num
    · norm_num
    · left
      norm_num [abs_lt]
    · norm_num
    · norm_num
  have hgt : Double.gt (Double.fin (2535301200456459 / 2 ^ 101)) (Double.fin 100) = false := by
    norm_num [Double.gt, Double.lt]
  refine ⟨ha, rfl, ?_, rfl, ?_⟩
  · unfold Fp.PokerEngine.anteUp Fp.tinyAnteTable
    simp only [List.foldl_cons, List.foldl_nil, Fp.PokerEngine.anteStep, Fp.PokerPlayer.bet,
      Fp.PokerPlayer.create, ha, hgt, Bool.false_eq_true, if_false, Bool.not_true,
      List.nil_append, List.map_cons, List.map_nil, double_sub_fin, hb]
  · unfold Fp.PokerEngine.anteUp Fp.tinyAnteTable
    simp only [List.foldl_cons, List.foldl_nil, Fp.PokerEngine.anteStep, ha, Double.add,
      zero_add, ha2]

/-- C20 (amended): when all the players wait, after `PokerEngine::anteUp` on
`double` values each player for whom the comparison `ante > balance` holds is
`FOLDED` with the same balance, each other player still waits with the `double`
nearest to `balance - ante` as its balance, and the pot is the result of adding
the ante to it once per player, each sum being rounded, also for the players
who did not pay. When the ante, the pot and the balances are whole numbers that
are not negative, the balances being at most `2 ^ 53` and the pot plus the ante
times the number of players also, no rounding occurs: each player whose balance
is below the ante is `FOLDED` with the same balance, each other player waits
with its balance reduced by exactly the ante, and the pot has grown by exactly
the ante times the number of players. -/
theorem anteUp_double (e : Fp.PokerEngine) (hw : ∀ p ∈ e.players, p.state = Status.WAITING) :
    e.anteUp.players = e.players.map (fun p =>
      if Double.gt e.ante p.balance = true then { p with state := Status.FOLDED }
      else { p with balance := Double.sub p.balance e.ante, state := Status.WAITING }) ∧
    e.anteUp.pot = Double.addTimes e.pot e.ante e.players.length ∧
    (∀ a pot : Int, e.ante = Double.fin (a : ℚ) → e.pot = Double.fin (pot : ℚ) → 0 ≤ a →
      0 ≤ pot → pot + a * (e.players.length : Int) ≤ 2 ^ 53 →
      e.anteUp.pot = Double.fin ((pot : ℚ) + (a : ℚ) * (e.players.length : ℚ)) ∧
      ∀ (i : Nat) (p : Fp.PokerPlayer) (b : Int), e.players[i]? = some p →
        p.balance = Double.fin (b : ℚ) → 0 ≤ b → b ≤ 2 ^ 53 →
        e.anteUp.players[i]? = some
          (if b < a then { p with state := Status.FOLDED }
           else { p with balance := Double.fin ((b : ℚ) - (a : ℚ)), state := Status.WAITING })) := by
  have hfold := fp_anteStep_foldl e.ante e.players [] e.pot hw
  have h1 : e.anteUp.players = e.players.map (fun p =>
      if Double.gt e.ante p.balance = true then { p with state := Status.FOLDED }
      else { p with balance := Double.sub p.balance e.ante, state := Status.WAITING }) := by
    unfold Fp.PokerEngine.anteUp
    simp only [hfold, List.nil_append]
  have h2 : e.anteUp.pot = Double.addTimes e.pot e.ante e.players.length := by
    unfold Fp.PokerEngine.anteUp
    simp only [hfold]
  refine ⟨h1, h2, ?_⟩
  intro a pot hante hpot ha h0 hle
  refine ⟨?_, ?_⟩
  · rw [h2, hante, hpot]
    exact addTimes_int a ha e.players.length pot h0 hle
  · intro i p b hp hb hb0 hb53
    rw [h1, List.getElem?_map, hp, Option.map_some', hante, hb]
    congr 1
    by_cases hlt : b < a
    · have hq : (b : ℚ) < (a : ℚ) := by exact_mod_cast hlt
      simp [Double.gt, Double.lt, hq, hlt]
    · have hq : ¬ ((b : ℚ) < (a : ℚ)) := by exact_mod_cast hlt
      have hs := double_sub_int b a (by rw [abs_of_nonneg (by omega)]; omega)
      simp only [Double.gt, Double.lt, hq, decide_False, Bool.false_eq_true, if_false, hlt, hs]

/-- Witness of `anteUp_double`: with an ante of 10, the player with a balance of
5 folds and keeps 5, the player with a balance of 100 keeps 90, and the pot
grows from 0 to 20. -/
theorem anteUp_double_witness :
    Fp.sampleEngine.anteUp.pot = Double.fin 20 ∧
    Fp.sampleEngine.anteUp.players[0]? = some
      { Fp.PokerPlayer.create 1 UserType.HUMAN (Double.fin 5) with state := Status.FOLDED } ∧
    Fp.sampleEngine.anteUp.players[1]? = some
      { Fp.PokerPlayer.create 2 UserType.AI (Double.fin 100) with
        balance := Double.fin 90, state := Status.WAITING } := by
  have h := (anteUp_double Fp.sampleEngine
    (by simp [Fp.sampleEngine, Fp.PokerPlayer.create])).2.2 10 0
    (by norm_num [Fp.sampleEngine]) (by norm_num [Fp.sampleEngine]) (by norm_num)
    (by norm_num) (by norm_num [Fp.sampleEngine])
  refine ⟨?_, ?_, ?_⟩
  · rw [h.1]
    norm_num [Fp.sampleEngine]
  · rw [h.2 0 (Fp.PokerPlayer.create 1 UserType.HUMAN (Double.fin 5)) 5 rfl
      (by norm_num [Fp.PokerPlayer.create]) (by norm_num) (by norm_num)]
    norm_num
  · rw [h.2 1 (Fp.PokerPlayer.create 2 UserType.AI (Double.fin 100)) 100 rfl
      (by norm_num [Fp.PokerPlayer.create]) (by norm_num) (by norm_num)]
    norm_num

theorem ofInt_exact (n : Int) (h : |n| ≤ 2 ^ 53) : Double.ofInt n = Double.fin (n : ℚ) :=
  ofRat_int n h

theorem ofRat_fifth :
    Double.ofRat (1 / 5) = Double.fin (3602879701896397 / 2 ^ 54) := by
  apply ofRat_eq (1 / 5) (-3) (-55) 7205759403792794
  · norm_num
  · norm_num
  · norm_num
  · left
    norm_num [abs_lt]
  · norm_num
  · norm_num

theorem balanced_ratio :
    Double.div (Double.ofInt Strategy.BALANCED.toInt) (Double.ofInt 100) =
      Double.fin (3602879701896397 / 2 ^ 54) := by
  rw [ofInt_exact _ (by norm_num [Strategy.toInt]), ofInt_exact 100 (by norm_num)]
  have : ((Strategy.BALANCED.toInt : Int) : ℚ) / ((100 : Int) : ℚ) = 1 / 5 := by
    norm_num [Strategy.toInt]
  simp only [Double.div, this, ofRat_fifth]
  norm_num

/-- The run of `AIPokerPlayer::bet` in double precision for a balanced player
with a balance of 100 and a pair of kings, a blind of 10 and a draw of 3:
`100 * 0.2` is rounded to 20, the variance is 5, the player raises by 23 and
keeps 77. -/
theorem ai_bet_double_sample :
    Fp.AIPokerPlayer.variance (Fp.aiHolding pairKingsCards) Strategy.BALANCED
      (Double.fin 10) = some 5 ∧
    (Fp.AIPokerPlayer.bet (Fp.aiHolding pairKingsCards) Strategy.BALANCED (Double.fin 10) 3).map
        (fun r => (r.1, r.2.balance, r.2.state)) =
      some (Double.fin 23, Double.fin 77, Status.RAISING) := by
  have hprod : Double.ofRat (100 * (3602879701896397 / 2 ^ 54)) = Double.fin 20 := by
    apply ofRat_eq (100 * (3602879701896397 / 2 ^ 54)) 4 (-48) 5629499534213120
    · norm_num
    · norm_num
    · norm_num
    · left
      norm_num [abs_lt]
    · norm_num
    · norm_num
  have hb : (Fp.aiHolding pairKingsCards).balance = Double.fin 100 := rfl
  have hmax : Double.max (Double.fin 10) (Double.fin 20) = Double.fin 20 := by
    simp only [Double.max, Double.lt]
    norm_num
  have hmin : Fp.AIPokerPlayer.minBet (Fp.aiHolding pairKingsCards) Strategy.BALANCED
      (Double.fin 10) = Double.fin 20 := by
    unfold Fp.AIPokerPlayer.minBet
    rw [balanced_ratio, hb]
    simp only [Double.mul, hprod]
    exact hmax
  have h5 : Double.ofRat 5 = Double.fin 5 := by simpa using ofRat_nat 5 (by norm_num)
  have h23 : Double.ofRat 23 = Double.fin 23 := by simpa using ofRat_nat 23 (by norm_num)
  have h77 : Double.ofRat 77 = Double.fin 77 := by simpa using ofRat_nat 77 (by norm_num)
  have hvar : Fp.AIPokerPlayer.variance (Fp.aiHolding pairKingsCards) Strategy.BALANCED
      (Double.fin 10) = some 5 := by
    unfold Fp.AIPokerPlayer.variance
    rw [hmin, ofInt_exact 4 (by norm_num)]
    have : (20 : ℚ) / ((4 : Int) : ℚ) = 5 := by norm_num
    simp only [Double.div, this, h5, Double.toInt, truncToInt]
    norm_num
  have hcat : (Fp.aiHolding pairKingsCards).hand.getCategory = Category.ONE_PAIR := by decide
  have hamt : Fp.AIPokerPlayer.betAmount (Fp.aiHolding pairKingsCards) Strategy.BALANCED
      (Double.fin 10) 3 = Double.fin 23 := by
    unfold Fp.AIPokerPlayer.betAmount
    rw [hmin, hcat, ofInt_exact 3 (by norm_num)]
    have h1 : Double.ofInt ((Category.ONE_PAIR.toNat : Nat) : Int) = Double.fin 1 := by
      simpa [Category.toNat] using ofInt_exact 1 (by norm_num)
    have hadd : Double.add (Double.fin 20) (Double.fin ((3 : Int) : ℚ)) = Double.fin 23 := by
      have : (20 : ℚ) + ((3 : Int) : ℚ) = 23 := by norm_num
      simp only [Double.add, this, h23]
    have hmul : Double.mul (Double.fin 23) (Double.fin 1) = Double.fin 23 := by
      simp only [Double.mul, mul_one, h23]
    simp only [h1, hadd, hb]
    norm_num [Double.lt, Double.gt, Double.ge, Double.le, Double.eq, hmul]
  have hsub : Double.sub (Double.fin 100) (Double.fin 23) = Double.fin 77 := by
    rw [double_sub_fin]
    have : (100 : ℚ) - 23 = 77 := by norm_num
    rw [this, h77]
  have h0 : Double.ofInt 0 = Double.fin 0 := by simpa using ofInt_exact 0 (by norm_num)
  refine ⟨hvar, ?_⟩
  unfold Fp.AIPokerPlayer.bet
  rw [hvar]
  simp only [hamt, Fp.AIPokerPlayer.stateFor, h0]
  rw [hb, hsub]
  norm_num [Double.lt, Double.eq]

/-! ## The orientation of a card dealt -/

theorem toStored_injective : Function.Injective Card.toStored := by
  intro a b h
  obtain ⟨r1, s1, o1⟩ := a
  obtain ⟨r2, s2, o2⟩ := b
  simp only [Card.toStored, StoredCard.mk.injEq] at h
  obtain ⟨h1, h2, h3⟩ := h
  subst h1
  subst h2
  cases o1 <;> cases o2 <;> simp_all [Orientation.toInt]

/-- On cards whose orientation has been set, `Deck.dealStored` does what
`Deck.deal` does. -/
theorem dealStored_of_set (cards : List Card) (orientation : Orientation) :
    Deck.dealStored (cards.map Card.toStored) orientation =
      ((Deck.deal cards orientation).1.map Card.toStored,
        (Deck.deal cards orientation).2.map Card.toStored) := by
  unfold Deck.dealStored Deck.deal
  rw [List.getLast?_map]
  cases h : cards.getLast? with
  | none => rfl
  | some card =>
    simp only [Option.map_some', CardCollection.remove]
    congr 1
    · congr 1
      obtain ⟨r, s, o⟩ := card
      cases o <;> cases orientation <;>
        simp [Card.toStored, StoredCard.flip, StoredCard.getOrientation, Card.flip,
          Orientation.toInt]
    · rw [List.filter_map]
      congr 1
      apply List.filter_congr
      intro c _
      simp only [Function.comp, bne, Bool.not_eq_eq_eq_not, Bool.not_not]
      by_cases hc : c = card
      · subst hc
        simp
      · have : Card.toStored c ≠ Card.toStored card := fun hh => hc (toStored_injective hh)
        simp [hc, this]

/-- C18 (the code departs from the claim): the cards of the deck that
`Deck::reset` builds are made by `Card(string)`, which does not set the member
`orientation`. When the storage of the cards held the value 2, `deal(FACE_DOWN)`
on this deck of 52 cards returns the ace of spades, the last card, with the
orientation `FACE_UP` instead of the `FACE_DOWN` asked for, and leaves 51 cards.
In general, the card dealt from a deck whose last card holds the value `g`
carries `g` when `g` is the value asked for, and otherwise what `flip` makes of
`g`: `FACE_DOWN` for `g = FACE_UP`, and `FACE_UP` for every other value. -/
theorem deal_unset_orientation (init : List StoredCard) (r s : Char) (g : Int)
    (orientation : Orientation) :
    (Deck.resetStored fun _ _ => 2).length = 52 ∧
    (Deck.dealStored (Deck.resetStored fun _ _ => 2) Orientation.FACE_DOWN).1 =
      some ⟨'A', 'S', Orientation.FACE_UP.toInt⟩ ∧
    (Deck.dealStored (Deck.resetStored fun _ _ => 2) Orientation.FACE_DOWN).2.length = 51 ∧
    Orientation.FACE_UP.toInt ≠ Orientation.FACE_DOWN.toInt ∧
    ((Deck.dealStored (init ++ [⟨r, s, g⟩]) orientation).1).map StoredCard.getOrientation =
      some (if g = orientation.toInt then g
        else if g = Orientation.FACE_UP.toInt then Orientation.FACE_DOWN.toInt
        else Orientation.FACE_UP.toInt) := by
  refine ⟨by decide, by decide, by decide, by decide, ?_⟩
  unfold Deck.dealStored
  rw [List.getLast?_concat]
  simp only [StoredCard.getOrientation, StoredCard.flip, Option.map_some', ne_eq]
  by_cases h : g = orientation.toInt
  · simp [h]
  · simp [h]

/-! ## The pot at the showdown -/

theorem allRows_get (l : List (Option Int)) :
    ∀ rows : List Int, PokerEngine.allRows l = some rows →
      rows.length = l.length ∧ ∀ i : Nat, l[i]? = (rows[i]?).map some := by
  induction l with
  | nil =>
    intro rows h
    simp only [PokerEngine.allRows, Option.some.injEq] at h
    subst h
    exact ⟨rfl, fun i => by simp⟩
  | cons x xs ih =>
    intro rows h
    cases x with
    | none => simp [PokerEngine.allRows] at h
    | some row =>
      simp only [PokerEngine.allRows] at h
      cases hr : PokerEngine.allRows xs with
      | none =>
        rw [hr] at h
        cases h
      | some rest =>
        rw [hr] at h
        simp only [Option.some.injEq] at h
        subst h
        obtain ⟨h1, h2⟩ := ih rest hr
        refine ⟨by simp [h1], fun i => ?_⟩
        cases i with
        | zero => simp
        | succ i => simpa using h2 i

theorem printResults_row (e : PokerEngine) (ws : List (Int × Outcome)) (rows : List Int)
    (w : Int) (o : Outcome) (rest : List (Int × Outcome)) (hws : ws = (w, o) :: rest)
    (h : e.printResults ws = some rows) (i : Nat) (p : PokerPlayer)
    (hp : e.players[i]? = some p) :
    ∃ row, rows[i]? = some row ∧
      PokerEngine.printedBalance e.pot w (PokerEngine.tieIndexOf rest) i p = some row := by
  subst hws
  unfold PokerEngine.printResults at h
  simp only at h
  split_ifs at h
  have hlt : i < e.players.length := (List.getElem?_eq_some.mp hp).1
  obtain ⟨-, h2⟩ := allRows_get _ rows h
  have h3 := h2 i
  rw [List.getElem?_zipWith, hp, List.getElem?_range hlt] at h3
  simp only [Option.map_some', Option.some_bind, Option.bind_some] at h3
  cases hr : rows[i]? with
  | none =>
    rw [hr] at h3
    simp at h3
  | some row =>
    rw [hr] at h3
    simp only [Option.map_some'] at h3
    exact ⟨row, rfl, Option.some.inj h3⟩

theorem toInt32_int (n r : Int) (h : toInt32 (n : ℚ) = some r) : r = n := by
  unfold toInt32 at h
  have ht : truncToInt (n : ℚ) = n := by
    unfold truncToInt
    split_ifs
    · exact Int.floor_intCast n
    · exact Int.ceil_intCast n
  rw [ht] at h
  split_ifs at h
  simp only [Option.some.injEq] at h
  exact h.symm

theorem potSample_output :
    potSample.endGameOutput = some ([150, 100], potSample.showDown) := by
  have hd : potSample.determineWinners = some [(0, (aiHolding 1 threeAcesCards).show)] := by
    rfl
  have hrows : potSample.printResults [(0, (aiHolding 1 threeAcesCards).show)] =
      some [150, 100] := by
    norm_num [PokerEngine.printResults, PokerEngine.printedBalance, PokerEngine.tieIndexOf,
      PokerEngine.allRows, toInt32, potSample, aiHolding, PokerPlayer.create, PokerPlayer.show,
      truncToInt, List.range, List.range.loop]
  unfold PokerEngine.endGameOutput
  rw [hd]
  simp only [hrows]

/-- C31 (the claim as it stands fails): in `potSample` both players have a
balance of 100, the pot is 50 and the first player is the sole winner. The
outcome records that `endGame` returns carry the balance 100 for both players:
the pot has not been added to the balance of the winner. The pot shows in the
column of balances that `printResults` prints, 150 and 100, and nowhere else. -/
theorem pot_not_in_outcomes :
    potSample.pot = 50 ∧
    potSample.players.map (fun p => p.balance) = [100, 100] ∧
    (potSample.determineWinners).map (fun w => w.map fun x => (x.1, x.2.playerName)) =
      some [(0, (UserType.AI, 1))] ∧
    potSample.endGame.map (fun x => (x.2.playerName, x.2.playerBalance)) =
      [((UserType.AI, 2), 100), ((UserType.AI, 1), 100)] ∧
    (potSample.endGameOutput).map
        (fun r => r.2.map fun x => (x.2.playerName, x.2.playerBalance)) =
      some [((UserType.AI, 2), 100), ((UserType.AI, 1), 100)] ∧
    (potSample.endGameOutput).map (fun r => r.1) = some [150, 100] := by
  refine ⟨rfl, by decide, by decide, by decide, ?_, ?_⟩
  · rw [potSample_output]
    decide
  · rw [potSample_output]
    rfl

/-- C31 (amended): the pot is allocated at showdown in the report only. The
outcome records that `endGame(true)` returns when it completes are those of
`showDown`, one for each player, and the balance in the record of a player is
the balance of that player, also for a winner: the pot is not added to it. The
allocation shows in the column of balances that `printResults` prints: when the
pot and the balance of a player are whole numbers, the row of a sole winner
shows its balance plus the whole pot, the rows of two winners show their
balance plus half the pot each (the pot being even), and the row of every
other player shows its balance. -/
theorem endGame_payout_in_report (e : PokerEngine) (rows : List Int)
    (outs : List (Int × Outcome)) (h : e.endGameOutput = some (rows, outs)) :
    outs = e.endGame ∧
    (outs.map fun x => x.2).Perm (e.players.map PokerPlayer.show) ∧
    (∀ p ∈ e.players, p.show.playerBalance = p.balance) ∧
    ∃ ws, e.determineWinners = some ws ∧
      (∀ w o, ws = [(w, o)] → ∀ pot : Int, e.pot = (pot : ℚ) →
        ∀ (i : Nat) (p : PokerPlayer) (b : Int), e.players[i]? = some p →
        p.balance = (b : ℚ) →
        rows[i]? = some (if w = (i : Int) then b + pot else b)) ∧
      (∀ w o t o', ws = [(w, o), (t, o')] → ∀ half : Int, e.pot = 2 * (half : ℚ) →
        ∀ (i : Nat) (p : PokerPlayer) (b : Int), e.players[i]? = some p →
        p.balance = (b : ℚ) →
        rows[i]? = some (if t = (i : Int) ∨ w = (i : Int) then b + half else b)) := by
  unfold PokerEngine.endGameOutput at h
  cases hw : e.determineWinners with
  | none =>
    rw [hw] at h
    cases h
  | some ws =>
    rw [hw] at h
    simp only at h
    cases hpr : e.printResults ws with
    | none =>
      rw [hpr] at h
      cases h
    | some rows1 =>
      rw [hpr] at h
      simp only [Option.some.injEq, Prod.mk.injEq] at h
      obtain ⟨h1, h2⟩ := h
      subst h1
      subst h2
      refine ⟨rfl, showDown_perm e, fun p _ => rfl, ws, rfl, ?_, ?_⟩
      · intro w o hws pot hpot i p b hp hb
        obtain ⟨row, hrow, hpb⟩ := printResults_row e ws rows1 w o [] hws hpr i p hp
        rw [hrow]
        congr 1
        unfold PokerEngine.printedBalance PokerEngine.tieIndexOf at hpb
        simp only [PokerPlayer.show, hb] at hpb
        cases hc : toInt32 (b : ℚ) with
        | none =>
          rw [hc] at hpb
          cases hpb
        | some bal =>
          rw [hc] at hpb
          have hbal := toInt32_int b bal hc
          subst hbal
          simp only at hpb
          rw [if_neg (by decide)] at hpb
          by_cases hwi : w = (i : Int)
          · rw [if_pos hwi] at hpb ⊢
            rw [hpot] at hpb
            have := toInt32_int (bal + pot) row (by push_cast; exact hpb)
            exact this
          · rw [if_neg hwi] at hpb ⊢
            simp only [Option.some.injEq] at hpb
            exact hpb.symm
      · intro w o t o' hws half hpot i p b hp hb
        have ht : 0 ≤ t := by
          have := determineWinners_keys e ws hw (t, o') (by rw [hws]; simp)
          exact this
        obtain ⟨row, hrow, hpb⟩ := printResults_row e ws rows1 w o [(t, o')] hws hpr i p hp
        rw [hrow]
        congr 1
        unfold PokerEngine.printedBalance PokerEngine.tieIndexOf at hpb
        simp only [PokerPlayer.show, hb] at hpb
        cases hc : toInt32 (b : ℚ) with
        | none =>
          rw [hc] at hpb
          cases hpb
        | some bal =>
          rw [hc] at hpb
          have hbal := toInt32_int b bal hc
          subst hbal
          simp only at hpb
          rw [if_pos ht] at hpb
          by_cases hwi : t = (i : Int) ∨ w = (i : Int)
          · rw [if_pos hwi] at hpb ⊢
            rw [hpot] at hpb
            have h2 : ((bal : ℚ) + 2 * (half : ℚ) / 2) = (((bal + half : Int)) : ℚ) := by
              push_cast
              ring
            rw [h2] at hpb
            exact toInt32_int (bal + half) row hpb
          · rw [if_neg hwi] at hpb ⊢
            simp only [Option.some.injEq] at hpb
            exact hpb.symm

/-- Witness of `endGame_payout_in_report`: in `potSample` (balances 100 and 100,
pot 50, the first player wins alone) the records returned are those of
`showDown` and the column printed is 150 for the winner and 100 for the other
player. -/
theorem endGame_payout_in_report_witness :
    ∃ rows outs, potSample.endGameOutput = some (rows, outs) ∧
      outs = potSample.endGame ∧
      (outs.map fun x => x.2).Perm (potSample.players.map PokerPlayer.show) ∧
      rows[0]? = some 150 ∧ rows[1]? = some 100 := by
  obtain ⟨h1, h2, -, ws, hws, hsole, -⟩ :=
    endGame_payout_in_report potSample [150, 100] potSample.showDown potSample_output
  have hd : potSample.determineWinners = some [(0, (aiHolding 1 threeAcesCards).show)] := by
    rfl
  have hw : ws = [(0, (aiHolding 1 threeAcesCards).show)] := by
    rw [hd] at hws
    exact (Option.some.inj hws).symm
  have hpot : potSample.pot = ((50 : Int) : ℚ) := by
    norm_num [potSample]
  have r0 := hsole 0 _ hw 50 hpot 0 (aiHolding 1 threeAcesCards) 100 rfl
    (by norm_num [aiHolding, PokerPlayer.create])
  have r1 := hsole 0 _ hw 50 hpot 1 (aiHolding 2 pairKingsCards) 100 rfl
    (by norm_num [aiHolding, PokerPlayer.create])
  refine ⟨[150, 100], potSample.showDown, potSample_output, h1, h2, ?_, ?_⟩
  · rw [r0]
    norm_num
  · rw [r1]
    norm_num

end PokerGame
